import Mathlib

/-!
# MMAS for the uncapacitated Traveling Purchaser Problem

A shallow embedding of the solution object of `src/tpp_solution.cpp` and of the
cost functions of `src/tpp.cpp`, followed by the properties proved about them.

Conventions of the embedding:

* `int` is modelled by `Int`.  Signed overflow is undefined behaviour in C++,
  so the model describes the executions in which no signed overflow occurs;
  the constant `numeric_limits<int>::max()` is kept as `INT_MAX`.
* `uint32_t` / `uint16_t` / `size_t` identifiers and positions are `Nat`.
* `std::vector` is `List`.
* A call that does not return normally yields a `Fault`: a failed `CHECK_F`
  (abort), an exception of `vector::at`, or an access outside a vector through
  `operator[]` or an iterator (undefined behaviour).
* The `Solution` holds a reference to its `Instance`; the instance is passed
  as an explicit argument instead.
-/

namespace TPP

/-- Ways in which a call ends without returning a result. -/
inductive Fault where
  | check_failed
  | out_of_range
  | undefined
deriving DecidableEq, Repr

/-- Result of a call that may abort. -/
abbrev Res (α : Type) := Except Fault α

deriving instance DecidableEq for Except

/-- The value of `numeric_limits<int>::max()`. -/
def INT_MAX : Int := 2147483647

/-- Read through `vector::at`: throws when the index is outside the vector. -/
def vec_at {α : Type} (xs : List α) (i : Nat) : Res α :=
  match xs[i]? with
  | some x => Except.ok x
  | none => Except.error Fault.out_of_range

/-- Read through `operator[]`: undefined behaviour outside the vector. -/
def vec_idx {α : Type} (xs : List α) (i : Nat) : Res α :=
  match xs[i]? with
  | some x => Except.ok x
  | none => Except.error Fault.undefined

/-- The macro `CHECK_F(cond, ...)`: aborts when the condition is false. -/
def CHECK_F (cond : Bool) : Res Unit :=
  if cond then Except.ok () else Except.error Fault.check_failed

/-- The call `vec.insert(vec.begin() + i, x)` for `i ≤ vec.size()`. -/
def vec_insert {α : Type} (xs : List α) (i : Nat) (x : α) : List α :=
  xs.take i ++ x :: xs.drop i

/-- The call `std::lower_bound(begin, end, value, comp)` on a range that is
partitioned with respect to `comp(·, value)`: the first position whose element
`e` has `comp(e, value)` false. -/
def lower_bound {α : Type} (comp : α → α → Bool) (value : α) : List α → Nat
  | [] => 0
  | e :: es => if comp e value then lower_bound comp value es + 1 else 0

/-- The call `std::upper_bound(begin, end, value, comp)` on a range that is
partitioned with respect to `comp(value, ·)`: the first position whose element
`e` has `comp(value, e)` true. -/
def upper_bound {α : Type} (comp : α → α → Bool) (value : α) : List α → Nat
  | [] => 0
  | e :: es => if comp value e then 0 else upper_bound comp value es + 1

/-- The template `insert_sorted` of `utils.h`. -/
def insert_sorted {α : Type} (vec : List α) (item : α) (pred : α → α → Bool) : List α :=
  vec_insert vec (upper_bound pred item vec) item

/-- The struct `ProductOffer` of `tpp.h`. -/
structure ProductOffer where
  price_ : Int
  quantity_ : Int
  product_id_ : Nat
  market_id_ : Nat
deriving DecidableEq, Repr

/-- The comparison `is_better_offer` of `tpp.h`. -/
def is_better_offer (a b : ProductOffer) : Bool :=
  decide (a.price_ < b.price_)
    || (decide (a.price_ = b.price_) && decide (a.quantity_ > b.quantity_))

/-- The `operator==` on offers of `tpp.h`: same market and same product. -/
def offer_eq (a b : ProductOffer) : Bool :=
  decide (a.market_id_ = b.market_id_) && decide (a.product_id_ = b.product_id_)

/-- The `operator!=` on offers of `tpp.h`. -/
def offer_ne (a b : ProductOffer) : Bool :=
  decide (a.market_id_ ≠ b.market_id_) || decide (a.product_id_ ≠ b.product_id_)

/-- The struct `Instance` of `tpp.h` (without the name and the two-dimensional
copy of the weights, which no function of the search engine reads). -/
structure Instance where
  dimension_ : Nat
  edge_weights_1d_ : List Int
  nn_lists_ : List (List Nat)
  is_symmetric_ : Bool
  product_count_ : Nat
  demands_ : List Int
  needed_products_ : List Nat
  market_offers_ : List (List ProductOffer)
  market_product_offers_ : List (List ProductOffer)
  is_capacitated_ : Bool
  best_known_cost_ : Int
deriving DecidableEq, Repr

/-- The method `Instance::get_travel_cost`. -/
def Instance.get_travel_cost (inst : Instance) (market_a market_b : Nat) : Res Int :=
  vec_at inst.edge_weights_1d_ (market_a * inst.dimension_ + market_b)

/-- The loop of `Instance::calc_travel_cost`. -/
def calc_travel_cost_loop (inst : Instance) : Nat → List Nat → Int → Res Int
  | _, [], cost => Except.ok cost
  | prev, node :: rest, cost => do
      let d ← inst.get_travel_cost prev node
      calc_travel_cost_loop inst node rest (cost + d)

/-- The method `Instance::calc_travel_cost`; `route.back()` of an empty route
is undefined. -/
def Instance.calc_travel_cost (inst : Instance) (route : List Nat) : Res Int :=
  match route.getLast? with
  | none => Except.error Fault.undefined
  | some prev => calc_travel_cost_loop inst prev route 0

/-- The struct `Solution::MarketAddVerdict`. -/
structure MarketAddVerdict where
  cost_change_ : Int
  index_ : Nat
  demand_satisfied_ : Bool
deriving DecidableEq, Repr

/-- The struct `Solution` of `tpp_solution.h`. -/
structure Solution where
  route_ : List Nat
  cost_ : Int
  travel_cost_ : Int
  market_selected_ : List Bool
  product_offers_ : List (List ProductOffer)
  purchase_costs_ : List Int
  demand_remaining_ : List Int
  remaining_products_ : List Nat
  markets_per_product_ : List Nat
  unselected_markets_ : List Nat
  total_unsatisfied_demand_ : Int
deriving DecidableEq, Repr

namespace Solution

/-- The first loop of the constructor, over the products `p = 0, 1, ...`. -/
def ctor_loop (inst : Instance) : List Nat → Solution → Res Solution
  | [], s => Except.ok s
  | p :: ps, s => do
      let dem ← vec_at s.demand_remaining_ p
      let s1 := if dem > 0 then
        { s with remaining_products_ := s.remaining_products_ ++ [p] } else s
      let d ← vec_at inst.demands_ p
      ctor_loop inst ps
        { s1 with total_unsatisfied_demand_ := s1.total_unsatisfied_demand_ + d }

/-- The constructor `Solution::Solution(instance)`.  Writing
`market_selected_[0]` of an empty vector is undefined. -/
def init (inst : Instance) : Res Solution :=
  if inst.dimension_ = 0 then Except.error Fault.undefined
  else
    ctor_loop inst (List.range inst.product_count_)
      { route_ := [0]
        cost_ := 0
        travel_cost_ := 0
        market_selected_ := (List.replicate inst.dimension_ false).set 0 true
        product_offers_ := List.replicate inst.product_count_ []
        purchase_costs_ := List.replicate inst.product_count_ 0
        demand_remaining_ := inst.demands_
        remaining_products_ := []
        markets_per_product_ := List.replicate inst.product_count_ 0
        unselected_markets_ := List.range' 1 (inst.dimension_ - 1)
        total_unsatisfied_demand_ := 0 }

/-- The method `Solution::add_product_offer`: the new state and the returned
change of the purchase cost. -/
def add_product_offer (inst : Instance) (s : Solution) (new_offer : ProductOffer) :
    Res (Solution × Int) := do
  CHECK_F (inst.is_capacitated_ == false)
  let product_id := new_offer.product_id_
  let offers0 ← vec_at s.product_offers_ product_id
  let offers := insert_sorted offers0 new_offer is_better_offer
  let prev_cost ← vec_idx s.purchase_costs_ product_id
  let demand_before ← vec_idx s.demand_remaining_ product_id
  let demand_satisfied_before : Bool := decide (demand_before = 0)
  let cheapest ← vec_idx offers 0
  let cost := cheapest.price_
  let _ ← vec_at s.demand_remaining_ product_id
  let demand_satisfied_after : Bool := true
  let _ ← vec_idx s.markets_per_product_ product_id
  let total := s.total_unsatisfied_demand_ - demand_before
  CHECK_F (decide (total ≥ 0))
  let remaining :=
    if demand_satisfied_after != demand_satisfied_before then
      let it := lower_bound (fun a b => decide (a < b)) product_id s.remaining_products_
      if s.remaining_products_[it]? = some product_id then s.remaining_products_.eraseIdx it
      else s.remaining_products_
    else s.remaining_products_
  Except.ok
    ({ s with
        product_offers_ := s.product_offers_.set product_id offers
        purchase_costs_ := s.purchase_costs_.set product_id cost
        demand_remaining_ := s.demand_remaining_.set product_id 0
        markets_per_product_ := s.markets_per_product_.set product_id 1
        total_unsatisfied_demand_ := total
        remaining_products_ := remaining },
     cost - prev_cost)

/-- The loop `while (*it != offer) ++it;` of `remove_product_offer`, started
at position `i` with `rest` the elements from `i` on; dereferencing `end()` is
undefined. -/
def find_offer_loop (offer : ProductOffer) : List ProductOffer → Nat → Res Nat
  | [], _ => Except.error Fault.undefined
  | e :: rest, i => if offer_ne e offer then find_offer_loop offer rest (i + 1) else Except.ok i

/-- The method `Solution::remove_product_offer`: the new state and the
returned change of the purchase cost. -/
def remove_product_offer (inst : Instance) (s : Solution) (offer : ProductOffer) :
    Res (Solution × Int) := do
  CHECK_F (inst.is_capacitated_ == false)
  let product_id := offer.product_id_
  let offers0 ← vec_at s.product_offers_ product_id
  let lb := lower_bound is_better_offer offer offers0
  let it ← find_offer_loop offer (offers0.drop lb) lb
  CHECK_F (decide (it ≠ offers0.length))
  let offers := offers0.eraseIdx it
  let prev_cost ← vec_at s.purchase_costs_ product_id
  match offers with
  | cheapest :: _ => do
      let cost := cheapest.price_
      let _ ← vec_idx s.demand_remaining_ product_id
      let _ ← vec_idx s.markets_per_product_ product_id
      Except.ok
        ({ s with
            product_offers_ := s.product_offers_.set product_id offers
            purchase_costs_ := s.purchase_costs_.set product_id cost
            demand_remaining_ := s.demand_remaining_.set product_id 0
            markets_per_product_ := s.markets_per_product_.set product_id 1 },
         cost - prev_cost)
  | [] => do
      let cost : Int := 0
      let _ ← vec_idx s.demand_remaining_ product_id
      let _ ← vec_idx s.markets_per_product_ product_id
      let total := s.total_unsatisfied_demand_ + 1
      CHECK_F (decide (total ≥ 0))
      let it := lower_bound (fun a b => decide (a < b)) product_id s.remaining_products_
      let remaining :=
        if it = s.remaining_products_.length then s.remaining_products_ ++ [product_id]
        else if s.remaining_products_[it]? ≠ some product_id then
          vec_insert s.remaining_products_ it product_id
        else s.remaining_products_
      Except.ok
        ({ s with
            product_offers_ := s.product_offers_.set product_id offers
            purchase_costs_ := s.purchase_costs_.set product_id cost
            demand_remaining_ := s.demand_remaining_.set product_id 1
            markets_per_product_ := s.markets_per_product_.set product_id 0
            total_unsatisfied_demand_ := total
            remaining_products_ := remaining },
         cost - prev_cost)

/-- The loop `for (offer : market_offers_.at(market_id)) cost_ += add_product_offer(offer);`
of `insert_market_at_pos`. -/
def add_offers_loop (inst : Instance) : List ProductOffer → Solution → Res Solution
  | [], s => Except.ok s
  | offer :: rest, s => do
      let r ← add_product_offer inst s offer
      add_offers_loop inst rest { r.1 with cost_ := r.1.cost_ + r.2 }

/-- The loop `for (offer : market_offers_.at(removed)) cost_ += remove_product_offer(offer);`
of `remove_market_at_pos`. -/
def remove_offers_loop (inst : Instance) : List ProductOffer → Solution → Res Solution
  | [], s => Except.ok s
  | offer :: rest, s => do
      let r ← remove_product_offer inst s offer
      remove_offers_loop inst rest { r.1 with cost_ := r.1.cost_ + r.2 }

/-- The method `Solution::insert_market_at_pos`. -/
def insert_market_at_pos (inst : Instance) (s : Solution) (market_id index : Nat) :
    Res Solution := do
  let selected ← vec_at s.market_selected_ market_id
  CHECK_F (selected == false)
  CHECK_F (decide (index > 0))
  let prev ← vec_idx s.route_ (index - 1)
  let next ← vec_idx s.route_ (index % s.route_.length)
  let route :=
    if index = s.route_.length then s.route_ ++ [market_id]
    else vec_insert s.route_ index market_id
  let d1 ← inst.get_travel_cost prev market_id
  let d2 ← inst.get_travel_cost market_id next
  let d3 ← inst.get_travel_cost prev next
  let travel_cost_change := d1 + d2 - d3
  let s1 : Solution :=
    { s with
        route_ := route
        market_selected_ := s.market_selected_.set market_id true
        travel_cost_ := s.travel_cost_ + travel_cost_change
        cost_ := s.cost_ + travel_cost_change }
  let offers ← vec_at inst.market_offers_ market_id
  let s2 ← add_offers_loop inst offers s1
  CHECK_F (decide (market_id ∈ s2.unselected_markets_))
  Except.ok { s2 with unselected_markets_ := s2.unselected_markets_.erase market_id }

/-- The method `Solution::push_back_market`. -/
def push_back_market (inst : Instance) (s : Solution) (market_id : Nat) : Res Solution :=
  insert_market_at_pos inst s market_id s.route_.length

/-- The method `Solution::remove_market_at_pos`. -/
def remove_market_at_pos (inst : Instance) (s : Solution) (pos : Nat) : Res Solution := do
  CHECK_F (decide (pos < s.route_.length))
  CHECK_F (decide (pos > 0))
  let prev ← vec_idx s.route_ (pos - 1)
  let removed ← vec_idx s.route_ pos
  let next ← vec_idx s.route_ ((pos + 1) % s.route_.length)
  let route := s.route_.eraseIdx pos
  let _ ← vec_at s.market_selected_ removed
  let d1 ← inst.get_travel_cost prev next
  let d2 ← inst.get_travel_cost prev removed
  let d3 ← inst.get_travel_cost removed next
  let travel_cost_change := d1 - d2 - d3
  let s1 : Solution :=
    { s with
        route_ := route
        market_selected_ := s.market_selected_.set removed false
        travel_cost_ := s.travel_cost_ + travel_cost_change
        cost_ := s.cost_ + travel_cost_change }
  let offers ← vec_at inst.market_offers_ removed
  let s2 ← remove_offers_loop inst offers s1
  Except.ok { s2 with unselected_markets_ := s2.unselected_markets_ ++ [removed] }

/-- The method `Solution::is_market_used`. -/
def is_market_used (s : Solution) (market : Nat) : Res Bool :=
  vec_at s.market_selected_ market

/-- The method `Solution::is_valid`. -/
def is_valid (s : Solution) : Bool :=
  s.remaining_products_.isEmpty

/-- The method `Solution::get_market_pos_in_route`. -/
def get_market_pos_in_route (s : Solution) (market_id : Nat) : Nat :=
  s.route_.indexOf market_id

/-- The method `Solution::calc_product_offer_add_cost`: the change of the
purchase cost and the remaining demand of the product. -/
def calc_product_offer_add_cost (inst : Instance) (s : Solution) (new_offer : ProductOffer) :
    Res (Int × Int) := do
  CHECK_F (inst.is_capacitated_ == false)
  let product_id := new_offer.product_id_
  let offers ← vec_at s.product_offers_ product_id
  let prev_cost ← vec_idx s.purchase_costs_ product_id
  let demand_satisfied ← vec_idx s.demand_remaining_ product_id
  let cost :=
    match offers with
    | [] => new_offer.price_
    | front :: _ => if front.price_ > new_offer.price_ then new_offer.price_ else prev_cost
  Except.ok (cost - prev_cost, demand_satisfied)

/-- The method `Solution::calc_product_offer_removal_cost`. -/
def calc_product_offer_removal_cost (inst : Instance) (s : Solution)
    (rem_offer : ProductOffer) : Res (Int × Bool) := do
  CHECK_F (inst.is_capacitated_ == false)
  let product_id := rem_offer.product_id_
  let offers ← vec_at s.product_offers_ product_id
  let r : Int × Bool :=
    match offers with
    | _ :: second :: _ => (second.price_, true)
    | _ => (0, false)
  let prev_cost ← vec_idx s.purchase_costs_ product_id
  Except.ok (r.1 - prev_cost, r.2)

/-- The loop over the offers of the market in `calc_market_removal_cost`;
`none` stands for the early `return` taken under `validity_required`. -/
def removal_cost_loop (inst : Instance) (s : Solution) (validity_required : Bool) :
    List ProductOffer → Int → Bool → Res (Option (Int × Bool))
  | [], cost, all_demands_satisfied => Except.ok (some (cost, all_demands_satisfied))
  | offer :: rest, cost, all_demands_satisfied => do
      let verdict ← calc_product_offer_removal_cost inst s offer
      if validity_required && !verdict.2 then Except.ok none
      else
        removal_cost_loop inst s validity_required rest (cost + verdict.1)
          (all_demands_satisfied && verdict.2)

/-- The method `Solution::calc_market_removal_cost`. -/
def calc_market_removal_cost (inst : Instance) (s : Solution) (market_id : Nat)
    (validity_required : Bool) : Res MarketAddVerdict := do
  let it := s.route_.indexOf market_id
  CHECK_F (decide (it ≠ s.route_.length))
  CHECK_F (decide (it ≠ 0))
  let all_demands_satisfied : Bool := decide (s.total_unsatisfied_demand_ = 0)
  let offers ← vec_at inst.market_offers_ market_id
  let r ← removal_cost_loop inst s validity_required offers 0 all_demands_satisfied
  match r with
  | none => Except.ok { cost_change_ := 0, index_ := 0, demand_satisfied_ := false }
  | some (cost, all) => do
      let index := it
      let prev ← vec_at s.route_ (index - 1)
      let curr := market_id
      let next ← vec_at s.route_ ((index + 1) % s.route_.length)
      let d1 ← inst.get_travel_cost prev curr
      let d2 ← inst.get_travel_cost curr next
      let d3 ← inst.get_travel_cost prev next
      let dist_decrease := d1 + d2 - d3
      Except.ok { cost_change_ := cost - dist_decrease, index_ := 0, demand_satisfied_ := all }

/-- The first loop of `calc_market_add_cost`, over the offers of the market:
the purchase cost change and the count of unsatisfied demand. -/
def add_cost_offers_loop (inst : Instance) (s : Solution) :
    List ProductOffer → Int → Int → Res (Int × Int)
  | [], cost, unsatisfied_count => Except.ok (cost, unsatisfied_count)
  | offer :: rest, cost, unsatisfied_count => do
      let res ← calc_product_offer_add_cost inst s offer
      add_cost_offers_loop inst s rest (cost + res.1) (unsatisfied_count - res.2)

/-- The second loop of `calc_market_add_cost`, `for (i = 0; i < len; ++i)`:
`n` iterations are left, `i` is the loop variable. -/
def add_cost_position_loop (inst : Instance) (s : Solution) (market_id : Nat) :
    Nat → Nat → Int → Nat → Res (Int × Nat)
  | 0, _, min_dist_increase, min_dist_index => Except.ok (min_dist_increase, min_dist_index)
  | n + 1, i, min_dist_increase, min_dist_index => do
      let curr ← vec_idx s.route_ i
      let next ← vec_idx s.route_ ((i + 1) % s.route_.length)
      let d1 ← inst.get_travel_cost curr market_id
      let d2 ← inst.get_travel_cost market_id next
      let d3 ← inst.get_travel_cost curr next
      let dist_increase := d1 + d2 - d3
      if dist_increase < min_dist_increase then
        add_cost_position_loop inst s market_id n (i + 1) dist_increase (i + 1)
      else
        add_cost_position_loop inst s market_id n (i + 1) min_dist_increase min_dist_index

/-- The method `Solution::calc_market_add_cost`. -/
def calc_market_add_cost (inst : Instance) (s : Solution) (market_id : Nat) :
    Res MarketAddVerdict := do
  let used ← is_market_used s market_id
  CHECK_F (!used)
  let offers ← vec_at inst.market_offers_ market_id
  let r ← add_cost_offers_loop inst s offers 0 s.total_unsatisfied_demand_
  let all_demands_satisfied : Bool := decide (r.2 = 0)
  let len := s.route_.length
  let m ← add_cost_position_loop inst s market_id len 0 INT_MAX (len + 1)
  Except.ok
    { cost_change_ := r.1 + m.1, index_ := m.2, demand_satisfied_ := all_demands_satisfied }

end Solution

/-! ## Notions used to state the properties -/

/-- Consistency of an instance, as `load_from_file` establishes it: the sizes
of the vectors agree with `dimension_` and `product_count_`, the weight matrix
has a zero at the depot's diagonal entry (`read_edge_weights` and
`calc_edge_weight_matrix` never write the diagonal), every offer names a
product in range and the market that holds it, no demand is negative, and the
instance is flagged uncapacitated (the solution object aborts on a capacitated
one). -/
structure Instance.WF (inst : Instance) : Prop where
  dim_pos : 0 < inst.dimension_
  weights_len : inst.edge_weights_1d_.length = inst.dimension_ * inst.dimension_
  demands_len : inst.demands_.length = inst.product_count_
  demands_nonneg : ∀ d ∈ inst.demands_, 0 ≤ d
  depot_loop : inst.edge_weights_1d_.getD 0 0 = 0
  offers_len : inst.market_offers_.length = inst.dimension_
  product_lt : ∀ offers ∈ inst.market_offers_, ∀ o ∈ offers,
    o.product_id_ < inst.product_count_
  market_eq : ∀ m < inst.dimension_, ∀ o ∈ inst.market_offers_.getD m [], o.market_id_ = m
  uncapacitated : inst.is_capacitated_ = false

/-- No market lists two offers for the same product. -/
def Instance.OneOfferPerProduct (inst : Instance) : Prop :=
  ∀ offers ∈ inst.market_offers_, (offers.map (fun o => o.product_id_)).Nodup

/-- The states of a `Solution` reached from the constructor by calls of
`insert_market_at_pos` and `remove_market_at_pos` that respect their
preconditions and return. -/
inductive Reachable (inst : Instance) : Solution → Prop
  | init {s : Solution} : Solution.init inst = Except.ok s → Reachable inst s
  | insert {s t : Solution} (market_id index : Nat) :
      Reachable inst s → market_id ∉ s.route_ → 0 < index → index ≤ s.route_.length →
      s.insert_market_at_pos inst market_id index = Except.ok t → Reachable inst t
  | remove {s t : Solution} (pos : Nat) :
      Reachable inst s → 0 < pos → pos < s.route_.length →
      s.remove_market_at_pos inst pos = Except.ok t → Reachable inst t

/-- The entry of the weight matrix for the edge from `a` to `b`. -/
def Instance.dist (inst : Instance) (a b : Nat) : Int :=
  inst.edge_weights_1d_.getD (a * inst.dimension_ + b) 0

/-- The sum of the weights of the consecutive edges of a path. -/
def path_cost (inst : Instance) : List Nat → Int
  | [] => 0
  | [_] => 0
  | a :: b :: rest => inst.dist a b + path_cost inst (b :: rest)

/-- The sum of the weights along a route closed back to its first element. -/
def tour_cost (inst : Instance) : List Nat → Int
  | [] => 0
  | a :: rest => path_cost inst (a :: rest) + inst.dist ((a :: rest).getLast (by simp)) a

/-- The markets of a route: its nodes other than the depot `0`. -/
def markets_of (route : List Nat) : List Nat :=
  route.filter (fun m => decide (m ≠ 0))

/-- The offers of the markets of a route, in the order of the route. -/
def route_offers (inst : Instance) (route : List Nat) : List ProductOffer :=
  route.flatMap (fun m => inst.market_offers_.getD m [])

/-- The offers for product `p` among a list of offers. -/
def offers_for (p : Nat) (offers : List ProductOffer) : List ProductOffer :=
  offers.filter (fun o => decide (o.product_id_ = p))

/-- The offers of a list that do not belong to market `m`. -/
def offers_not_of (m : Nat) (offers : List ProductOffer) : List ProductOffer :=
  offers.filter (fun o => decide (o.market_id_ ≠ m))

/-- The price of the first offer of a list, `0` for the empty list. -/
def front_price : List ProductOffer → Int
  | [] => 0
  | o :: _ => o.price_

/-- A list of offers in which no offer is better than one before it. -/
def OffersSorted (offers : List ProductOffer) : Prop :=
  offers.Pairwise (fun a b => is_better_offer b a = false)

/-- Consistency of the per-product part of a solution and of its cached cost. -/
structure Solution.PInv (inst : Instance) (s : Solution) : Prop where
  len_offers : s.product_offers_.length = inst.product_count_
  len_costs : s.purchase_costs_.length = inst.product_count_
  len_demand : s.demand_remaining_.length = inst.product_count_
  len_mpp : s.markets_per_product_.length = inst.product_count_
  sorted : ∀ l ∈ s.product_offers_, OffersSorted l
  costs : s.purchase_costs_ = s.product_offers_.map front_price
  demand_nonneg : ∀ d ∈ s.demand_remaining_, 0 ≤ d
  demand_zero : ∀ p, s.product_offers_.getD p [] ≠ [] → s.demand_remaining_.getD p 0 = 0
  remaining_sorted : s.remaining_products_.Pairwise (fun a b => a < b)
  remaining_mem : ∀ p, p ∈ s.remaining_products_ ↔ 0 < s.demand_remaining_.getD p 0
  total : s.total_unsatisfied_demand_ = s.demand_remaining_.sum
  cost : s.cost_ = s.travel_cost_ + s.purchase_costs_.sum
  demand_open : ∀ p, s.product_offers_.getD p [] = [] → 0 < inst.demands_.getD p 0 →
    0 < s.demand_remaining_.getD p 0

/-- The state after `cost_ += add_product_offer(offer)` when the call returns. -/
def Solution.add_state (s : Solution) (offer : ProductOffer) : Solution :=
  let p := offer.product_id_
  let offers := insert_sorted (s.product_offers_.getD p []) offer is_better_offer
  let it := lower_bound (fun a b => decide (a < b)) p s.remaining_products_
  { s with
      product_offers_ := s.product_offers_.set p offers
      purchase_costs_ := s.purchase_costs_.set p (front_price offers)
      demand_remaining_ := s.demand_remaining_.set p 0
      markets_per_product_ := s.markets_per_product_.set p 1
      total_unsatisfied_demand_ := s.total_unsatisfied_demand_ - s.demand_remaining_.getD p 0
      remaining_products_ :=
        if s.demand_remaining_.getD p 0 = 0 then s.remaining_products_
        else if s.remaining_products_[it]? = some p then s.remaining_products_.eraseIdx it
        else s.remaining_products_
      cost_ := s.cost_ + (front_price offers - s.purchase_costs_.getD p 0) }

/-- The position at which `remove_product_offer` erases from a list of offers. -/
def Solution.locate_offer (offer : ProductOffer) (offers : List ProductOffer) : Nat :=
  match Solution.find_offer_loop offer
      (offers.drop (lower_bound is_better_offer offer offers))
      (lower_bound is_better_offer offer offers) with
  | Except.ok k => k
  | Except.error _ => 0

/-- The state after `cost_ += remove_product_offer(offer)` when the call returns. -/
def Solution.remove_state (s : Solution) (offer : ProductOffer) : Solution :=
  let p := offer.product_id_
  let offers0 := s.product_offers_.getD p []
  let offers := offers0.eraseIdx (Solution.locate_offer offer offers0)
  let it := lower_bound (fun a b => decide (a < b)) p s.remaining_products_
  match offers with
  | cheapest :: _ =>
    { s with
        product_offers_ := s.product_offers_.set p offers
        purchase_costs_ := s.purchase_costs_.set p cheapest.price_
        demand_remaining_ := s.demand_remaining_.set p 0
        markets_per_product_ := s.markets_per_product_.set p 1
        cost_ := s.cost_ + (cheapest.price_ - s.purchase_costs_.getD p 0) }
  | [] =>
    { s with
        product_offers_ := s.product_offers_.set p offers
        purchase_costs_ := s.purchase_costs_.set p 0
        demand_remaining_ := s.demand_remaining_.set p 1
        markets_per_product_ := s.markets_per_product_.set p 0
        total_unsatisfied_demand_ := s.total_unsatisfied_demand_ + 1
        remaining_products_ :=
          if it = s.remaining_products_.length then s.remaining_products_ ++ [p]
          else if s.remaining_products_[it]? ≠ some p then
            vec_insert s.remaining_products_ it p
          else s.remaining_products_
        cost_ := s.cost_ + (0 - s.purchase_costs_.getD p 0) }

/-- Consistency of a solution with its route: the invariant of the class. -/
structure Solution.Inv (inst : Instance) (s : Solution) : Prop where
  pinv : s.PInv inst
  route_head : s.route_.head? = some 0
  route_nodup : s.route_.Nodup
  route_lt : ∀ m ∈ s.route_, m < inst.dimension_
  selected_len : s.market_selected_.length = inst.dimension_
  selected : ∀ m < inst.dimension_, s.market_selected_.getD m false = decide (m ∈ s.route_)
  unselected_nodup : s.unselected_markets_.Nodup
  unselected_mem : ∀ m, m ∈ s.unselected_markets_
    ↔ (0 < m ∧ m < inst.dimension_ ∧ m ∉ s.route_)
  offers : ∀ p, (s.product_offers_.getD p []).Perm
    (offers_for p (route_offers inst (markets_of s.route_)))
  travel : s.travel_cost_ + inst.dist 0 0 = tour_cost inst s.route_

/-- The change of the travel cost when `market_id` is inserted at `index`. -/
def insert_delta (inst : Instance) (route : List Nat) (market_id index : Nat) : Int :=
  inst.dist (route.getD (index - 1) 0) market_id
    + inst.dist market_id (route.getD (index % route.length) 0)
    - inst.dist (route.getD (index - 1) 0) (route.getD (index % route.length) 0)

/-- The change of the travel cost when the market at `pos` is removed. -/
def remove_delta (inst : Instance) (route : List Nat) (pos : Nat) : Int :=
  inst.dist (route.getD (pos - 1) 0) (route.getD ((pos + 1) % route.length) 0)
    - inst.dist (route.getD (pos - 1) 0) (route.getD pos 0)
    - inst.dist (route.getD pos 0) (route.getD ((pos + 1) % route.length) 0)

/-- The state of `insert_market_at_pos(market_id, index)` before its loop over
the offers of the market. -/
def Solution.insert_pre (inst : Instance) (s : Solution) (market_id index : Nat) : Solution :=
  { s with
      route_ := vec_insert s.route_ index market_id
      market_selected_ := s.market_selected_.set market_id true
      travel_cost_ := s.travel_cost_ + insert_delta inst s.route_ market_id index
      cost_ := s.cost_ + insert_delta inst s.route_ market_id index }

/-- The state after `insert_market_at_pos(market_id, index)` when the call returns. -/
def Solution.insert_state (inst : Instance) (s : Solution) (market_id index : Nat) : Solution :=
  let s2 := (inst.market_offers_.getD market_id []).foldl Solution.add_state
    (s.insert_pre inst market_id index)
  { s2 with unselected_markets_ := s2.unselected_markets_.erase market_id }

/-- The state of `remove_market_at_pos(pos)` before its loop over the offers of
the removed market. -/
def Solution.remove_pre (inst : Instance) (s : Solution) (pos : Nat) : Solution :=
  { s with
      route_ := s.route_.eraseIdx pos
      market_selected_ := s.market_selected_.set (s.route_.getD pos 0) false
      travel_cost_ := s.travel_cost_ + remove_delta inst s.route_ pos
      cost_ := s.cost_ + remove_delta inst s.route_ pos }

/-- The state after `remove_market_at_pos(pos)` when the call returns. -/
def Solution.remove_market_state (inst : Instance) (s : Solution) (pos : Nat) : Solution :=
  let s2 := (inst.market_offers_.getD (s.route_.getD pos 0) []).foldl Solution.remove_state
    (s.remove_pre inst pos)
  { s2 with unselected_markets_ := s2.unselected_markets_ ++ [s.route_.getD pos 0] }

/-- The state built by the constructor when it returns. -/
def Solution.init_state (inst : Instance) : Solution :=
  { route_ := [0]
    cost_ := 0
    travel_cost_ := 0
    market_selected_ := (List.replicate inst.dimension_ false).set 0 true
    product_offers_ := List.replicate inst.product_count_ []
    purchase_costs_ := List.replicate inst.product_count_ 0
    demand_remaining_ := inst.demands_
    remaining_products_ :=
      (List.range inst.product_count_).filter (fun p => decide (0 < inst.demands_.getD p 0))
    markets_per_product_ := List.replicate inst.product_count_ 0
    unselected_markets_ := List.range' 1 (inst.dimension_ - 1)
    total_unsatisfied_demand_ :=
      ((List.range inst.product_count_).map (fun p => inst.demands_.getD p 0)).sum }

/-- The change of the purchase cost when `offer` is added to the solution. -/
def Solution.add_gain (s : Solution) (offer : ProductOffer) : Int :=
  front_price (insert_sorted (s.product_offers_.getD offer.product_id_ []) offer is_better_offer)
    - s.purchase_costs_.getD offer.product_id_ 0

/-- The state of the search for the cheapest insertion position after the
positions `1 .. i` have been probed. -/
def PositionInv (inst : Instance) (route : List Nat) (m i : Nat) (mn : Int) (mi : Nat) : Prop :=
  (∀ j, 0 < j → j ≤ i → mn ≤ insert_delta inst route m j)
    ∧ ((mn = INT_MAX ∧ mi = route.length + 1)
      ∨ (0 < mi ∧ mi ≤ i ∧ mn = insert_delta inst route m mi ∧ mn < INT_MAX))

/-- The instance of `test_calc_solution_cost` (four nodes, all edges of weight
one, three products of demand one), with the market ids and the per-product
table filled in and the offers of each market ordered by price, as
`load_from_file` does. -/
def example_instance : Instance :=
  { dimension_ := 4
    edge_weights_1d_ := [0, 1, 1, 1, 1, 0, 1, 1, 1, 1, 0, 1, 1, 1, 1, 0]
    nn_lists_ := [[1, 2, 3], [0, 2, 3], [0, 1, 3], [0, 1, 2]]
    is_symmetric_ := true
    product_count_ := 3
    demands_ := [1, 1, 1]
    needed_products_ := [0, 1, 2]
    market_offers_ :=
      [[],
       [⟨1, 2, 0, 1⟩, ⟨2, 2, 1, 1⟩],
       [⟨1, 2, 2, 2⟩, ⟨2, 2, 1, 2⟩],
       [⟨1, 2, 1, 3⟩, ⟨2, 2, 0, 3⟩]]
    market_product_offers_ :=
      [[⟨0, 0, 0, 0⟩, ⟨0, 0, 0, 0⟩, ⟨0, 0, 0, 0⟩],
       [⟨1, 2, 0, 1⟩, ⟨2, 2, 1, 1⟩, ⟨0, 0, 0, 0⟩],
       [⟨0, 0, 0, 0⟩, ⟨2, 2, 1, 2⟩, ⟨1, 2, 2, 2⟩],
       [⟨2, 2, 0, 3⟩, ⟨1, 2, 1, 3⟩, ⟨0, 0, 0, 0⟩]]
    is_capacitated_ := false
    best_known_cost_ := 0 }

/-- The solution of `example_instance` after `insert_market_at_pos(1, 1)`,
`insert_market_at_pos(3, 1)`: the route `0, 3, 1`. -/
def example_state : Solution :=
  { route_ := [0, 3, 1]
    cost_ := 5
    travel_cost_ := 3
    market_selected_ := [true, true, false, true]
    product_offers_ :=
      [[⟨1, 2, 0, 1⟩, ⟨2, 2, 0, 3⟩], [⟨1, 2, 1, 3⟩, ⟨2, 2, 1, 1⟩], []]
    purchase_costs_ := [1, 1, 0]
    demand_remaining_ := [0, 0, 1]
    remaining_products_ := [2]
    markets_per_product_ := [1, 1, 0]
    unselected_markets_ := [2]
    total_unsatisfied_demand_ := 1 }

/-- The solution of `example_instance` after a further
`insert_market_at_pos(2, 2)`: the route `0, 3, 2, 1`, which is valid. -/
def example_state_valid : Solution :=
  { route_ := [0, 3, 2, 1]
    cost_ := 7
    travel_cost_ := 4
    market_selected_ := [true, true, true, true]
    product_offers_ :=
      [[⟨1, 2, 0, 1⟩, ⟨2, 2, 0, 3⟩],
       [⟨1, 2, 1, 3⟩, ⟨2, 2, 1, 1⟩, ⟨2, 2, 1, 2⟩],
       [⟨1, 2, 2, 2⟩]]
    purchase_costs_ := [1, 1, 1]
    demand_remaining_ := [0, 0, 0]
    remaining_products_ := []
    markets_per_product_ := [1, 1, 1]
    unselected_markets_ := []
    total_unsatisfied_demand_ := 0 }

/-- An instance whose only market lists the only product twice, at the prices
`1` and `2`. -/
def duplicate_offer_instance : Instance :=
  { dimension_ := 2
    edge_weights_1d_ := [0, 1, 1, 0]
    nn_lists_ := [[1], [0]]
    is_symmetric_ := true
    product_count_ := 1
    demands_ := [1]
    needed_products_ := [0]
    market_offers_ := [[], [⟨1, 1, 0, 1⟩, ⟨2, 1, 0, 1⟩]]
    market_product_offers_ := [[⟨0, 0, 0, 0⟩], [⟨2, 1, 0, 1⟩]]
    is_capacitated_ := false
    best_known_cost_ := 0 }

/-- The solution of `duplicate_offer_instance` after `insert_market_at_pos(1, 1)`. -/
def duplicate_offer_state : Solution :=
  { route_ := [0, 1]
    cost_ := 3
    travel_cost_ := 2
    market_selected_ := [true, true]
    product_offers_ := [[⟨1, 1, 0, 1⟩, ⟨2, 1, 0, 1⟩]]
    purchase_costs_ := [1]
    demand_remaining_ := [0]
    remaining_products_ := []
    markets_per_product_ := [1]
    unselected_markets_ := []
    total_unsatisfied_demand_ := 0 }

/-- An uncapacitated instance with a product of demand zero: product `0` has
demand one and is offered by market `1`, product `1` has demand zero and is
offered by market `2`. -/
def zero_demand_instance : Instance :=
  { dimension_ := 3
    edge_weights_1d_ := [0, 1, 1, 1, 0, 1, 1, 1, 0]
    nn_lists_ := [[1, 2], [0, 2], [0, 1]]
    is_symmetric_ := true
    product_count_ := 2
    demands_ := [1, 0]
    needed_products_ := [0]
    market_offers_ := [[], [⟨1, 1, 0, 1⟩], [⟨1, 1, 1, 2⟩]]
    market_product_offers_ :=
      [[⟨0, 0, 0, 0⟩, ⟨0, 0, 0, 0⟩],
       [⟨1, 1, 0, 1⟩, ⟨0, 0, 0, 0⟩],
       [⟨0, 0, 0, 0⟩, ⟨1, 1, 1, 2⟩]]
    is_capacitated_ := false
    best_known_cost_ := 0 }

/-- The solution of `zero_demand_instance` after `insert_market_at_pos(1, 1)`,
`insert_market_at_pos(2, 2)` and `remove_market_at_pos(2)`. -/
def zero_demand_state : Solution :=
  { route_ := [0, 1]
    cost_ := 3
    travel_cost_ := 2
    market_selected_ := [true, true, false]
    product_offers_ := [[⟨1, 1, 0, 1⟩], []]
    purchase_costs_ := [1, 0]
    demand_remaining_ := [0, 1]
    remaining_products_ := [1]
    markets_per_product_ := [1, 0]
    unselected_markets_ := [2]
    total_unsatisfied_demand_ := 1 }

end TPP

namespace TPP

/-! ## Definitions: removal of the last offer and the list of remaining products: claims C11, C12 -/

/-- The solution of `zero_demand_instance` after `insert_market_at_pos(1, 1)`
and `insert_market_at_pos(2, 2)`: the route `0, 1, 2`. -/
def zero_demand_full_state : Solution :=
  { route_ := [0, 1, 2]
    cost_ := 5
    travel_cost_ := 3
    market_selected_ := [true, true, true]
    product_offers_ := [[⟨1, 1, 0, 1⟩], [⟨1, 1, 1, 2⟩]]
    purchase_costs_ := [1, 1]
    demand_remaining_ := [0, 0]
    remaining_products_ := []
    markets_per_product_ := [1, 1]
    unselected_markets_ := []
    total_unsatisfied_demand_ := 0 }

/-! ## Definitions: the pheromone memory: claim C20 -/

/-- The struct `BasicPheromone` of `basic_pheromone.h`; `double` is modelled by
the rationals (exact arithmetic). -/
structure BasicPheromone where
  trails_ : List (List ℚ)
  is_symmetric_ : Bool
  min_value_ : ℚ
  max_value_ : ℚ

namespace BasicPheromone

/-- The constructor `BasicPheromone(size, is_symmetric, min_value, max_value)`. -/
def ctor (size : Nat) (is_symmetric : Bool) (min_value max_value : ℚ) : BasicPheromone :=
  { trails_ := List.replicate size (List.replicate size max_value)
    is_symmetric_ := is_symmetric
    min_value_ := min_value
    max_value_ := max_value }

/-- The method `BasicPheromone::get_trail`. -/
def get_trail (ph : BasicPheromone) (a b : Nat) : Res ℚ := do
  let row ← vec_at ph.trails_ a
  vec_at row b

/-- The method `BasicPheromone::increase`. -/
def increase (ph : BasicPheromone) (from_ to_ : Nat) (delta : ℚ) : Res BasicPheromone := do
  let row ← vec_at ph.trails_ from_
  let old ← vec_at row to_
  let val := min ph.max_value_ (old + delta)
  let trails1 := ph.trails_.set from_ (row.set to_ val)
  if ph.is_symmetric_ then do
    let row2 ← vec_idx trails1 to_
    let _ ← vec_idx row2 from_
    Except.ok { ph with trails_ := trails1.set to_ (row2.set from_ val) }
  else
    Except.ok { ph with trails_ := trails1 }

/-- The method `BasicPheromone::evaporate`. -/
def evaporate (ph : BasicPheromone) (evaporation_ratio : ℚ) : BasicPheromone :=
  { ph with
      trails_ := ph.trails_.map (fun vec =>
        vec.map (fun trail => max ph.min_value_ (trail * evaporation_ratio))) }

/-- The method `BasicPheromone::set_all_trails`. -/
def set_all_trails (ph : BasicPheromone) (value : ℚ) : BasicPheromone :=
  { ph with trails_ := ph.trails_.map (fun vec => vec.map (fun _ => value)) }

/-- The method `BasicPheromone::set_trail_limits`. -/
def set_trail_limits (ph : BasicPheromone) (min_value max_value : ℚ) : BasicPheromone :=
  { ph with min_value_ := min_value, max_value_ := max_value }

/-- Every trail lies between the two given limits. -/
def Within (ph : BasicPheromone) (lo hi : ℚ) : Prop :=
  ∀ vec ∈ ph.trails_, ∀ trail ∈ vec, lo ≤ trail ∧ trail ≤ hi

/-- The trail matrix is square of the given size. -/
def Square (ph : BasicPheromone) (size : Nat) : Prop :=
  ph.trails_.length = size ∧ ∀ vec ∈ ph.trails_, vec.length = size

end BasicPheromone

/-- The pheromone memories obtained from a constructor call with
`0 ≤ min_value ≤ max_value` by calls of `evaporate` with a ratio in `[0, 1]`,
of `increase` with a deposit `delta ≥ 0` that return, of `set_all_trails` with
a value between the current limits and of `set_trail_limits` with limits
`0 ≤ lo ≤ hi` that enclose every current trail. -/
inductive PheromoneReachable (size : Nat) : BasicPheromone → Prop
  | ctor (is_symmetric : Bool) (min_value max_value : ℚ) :
      0 ≤ min_value → min_value ≤ max_value →
      PheromoneReachable size (BasicPheromone.ctor size is_symmetric min_value max_value)
  | evaporate {ph : BasicPheromone} (rho : ℚ) :
      PheromoneReachable size ph → 0 ≤ rho → rho ≤ 1 →
      PheromoneReachable size (ph.evaporate rho)
  | increase {ph ph1 : BasicPheromone} (a b : Nat) (delta : ℚ) :
      PheromoneReachable size ph → 0 ≤ delta →
      ph.increase a b delta = Except.ok ph1 → PheromoneReachable size ph1
  | set_all_trails {ph : BasicPheromone} (value : ℚ) :
      PheromoneReachable size ph → ph.min_value_ ≤ value → value ≤ ph.max_value_ →
      PheromoneReachable size (ph.set_all_trails value)
  | set_trail_limits {ph : BasicPheromone} (lo hi : ℚ) :
      PheromoneReachable size ph → 0 ≤ lo → lo ≤ hi → ph.Within lo hi →
      PheromoneReachable size (ph.set_trail_limits lo hi)

/-! ## Definitions: the 2-opt heuristic: claim C19 -/

/-- Subtraction of `size_t` values (64 bits): the difference wraps around when
it would be negative. -/
def size_sub (a b : Nat) : Nat :=
  if b ≤ a then a - b else a + 18446744073709551616 - b

/-- Subtraction of `uint32_t` values: the difference wraps around when it would
be negative. -/
def u32_sub (a b : Nat) : Nat :=
  if b ≤ a then a - b else a + 4294967296 - b

/-- The call `std::reverse(v.begin() + first, v.begin() + last)` on the
iterators of a vector, for `first ≤ last ≤ v.size()`. -/
def vec_reverse {α : Type} (xs : List α) (first last : Nat) : List α :=
  xs.take first ++ ((xs.drop first).take (last - first)).reverse ++ xs.drop last

/-- The inner loop `for (j = i + 1; j < len; ++j)` of `two_opt`: `n` passes are
left, `best` holds `best_change_value`, `best_change_beg`, `best_change_end`. -/
def two_opt_inner (inst : Instance) (route : List Nat) (i a a_prev : Nat) :
    Nat → Nat → Int × Nat × Nat → Res (Int × Nat × Nat)
  | 0, _, best => Except.ok best
  | n + 1, j, best => do
      let b ← vec_idx route j
      let b_next ← vec_idx route ((j + 1) % route.length)
      let d1 ← inst.get_travel_cost a_prev a
      let d2 ← inst.get_travel_cost b b_next
      let d3 ← inst.get_travel_cost a_prev b
      let d4 ← inst.get_travel_cost a b_next
      let diff := d1 + d2 - d3 - d4
      if diff > best.1 then two_opt_inner inst route i a a_prev n (j + 1) (diff, i, j)
      else two_opt_inner inst route i a a_prev n (j + 1) best

/-- The outer loop `for (i = 1; i < len - 1; i++)` of `two_opt`: `n` passes are
left. -/
def two_opt_outer (inst : Instance) (route : List Nat) :
    Nat → Nat → Int × Nat × Nat → Res (Int × Nat × Nat)
  | 0, _, best => Except.ok best
  | n + 1, i, best => do
      let a ← vec_idx route i
      let a_prev ← vec_idx route (i - 1)
      let best1 ← two_opt_inner inst route i a a_prev (route.length - (i + 1)) (i + 1) best
      two_opt_outer inst route n (i + 1) best1

/-- The `do ... while (improvement_found)` loop of `two_opt`.  `fuel` bounds
the number of passes; the result is `none` when it is used up before the loop
ends. -/
def two_opt_loop (inst : Instance) : Nat → List Nat → Int → Res (Option (List Nat × Int))
  | 0, _, _ => Except.ok none
  | fuel + 1, route, total_improvement => do
      let len := route.length
      let best ← two_opt_outer inst route (size_sub len 1 - 1) 1 (0, len, len)
      if best.1 > 0 then
        two_opt_loop inst fuel (vec_reverse route best.2.1 (best.2.2 + 1))
          (total_improvement + best.1)
      else Except.ok (some (route, total_improvement))

/-- The function `two_opt(instance, route)` of `two_opt.cpp`: the route after
the call and the returned improvement. -/
def two_opt (inst : Instance) (route : List Nat) (fuel : Nat) :
    Res (Option (List Nat × Int)) := do
  CHECK_F inst.is_symmetric_
  two_opt_loop inst fuel route 0

/-- The overload `two_opt(instance, sol)` of `two_opt.cpp`: the solution after
the call and the returned improvement. -/
def two_opt_solution (inst : Instance) (sol : Solution) (fuel : Nat) :
    Res (Option (Solution × Int)) := do
  let r ← two_opt inst sol.route_ fuel
  match r with
  | none => Except.ok none
  | some (route, improvement) =>
    Except.ok (some ({ sol with route_ := route, cost_ := sol.cost_ - improvement }, improvement))

/-- The inner loop of `is_solution_valid` over the offers of one node; `pq` is
the local vector `product_quantities`. -/
def valid_offers_loop : List ProductOffer → List Int → Res (List Int)
  | [], pq => Except.ok pq
  | offer :: rest, pq => do
      let id := offer.product_id_
      let cur ← vec_at pq id
      valid_offers_loop rest (pq.set id (cur + offer.quantity_))

/-- The loop of `is_solution_valid` over the nodes of the route. -/
def valid_route_loop (inst : Instance) : List Nat → List Int → Res (List Int)
  | [], pq => Except.ok pq
  | node :: rest, pq => do
      let offers ← vec_at inst.market_offers_ node
      let pq1 ← valid_offers_loop offers pq
      valid_route_loop inst rest pq1

/-- The last loop of `is_solution_valid`, over the products `i = 0, 1, ...`
with the demands left to compare. -/
def valid_demands_loop (pq : List Int) : Nat → List Int → Res Bool
  | _, [] => Except.ok true
  | i, demand :: rest => do
      let q ← vec_at pq i
      if q < demand then Except.ok false else valid_demands_loop pq (i + 1) rest

/-- The function `is_solution_valid` of `tpp.cpp`. -/
def is_solution_valid (inst : Instance) (route : List Nat) : Res Bool :=
  if route.length > inst.dimension_ then Except.ok false
  else do
    let first ← vec_at route 0
    if first ≠ 0 then Except.ok false
    else do
      let pq ← valid_route_loop inst route (List.replicate inst.product_count_ 0)
      valid_demands_loop pq 0 inst.demands_

namespace Solution

/-- The loop of `check_market_satisfies_demand` over `remaining_products_`. -/
def satisfies_demand_loop (s : Solution) (offers : List ProductOffer) : List Nat → Res Bool
  | [] => Except.ok true
  | prod_id :: rest => do
      let offer ← vec_idx offers prod_id
      let dem ← vec_idx s.demand_remaining_ prod_id
      if offer.quantity_ < dem then Except.ok false else satisfies_demand_loop s offers rest

/-- The method `Solution::check_market_satisfies_demand`. -/
def check_market_satisfies_demand (inst : Instance) (s : Solution) (market_id : Nat) :
    Res Bool := do
  let used ← is_market_used s market_id
  if used then Except.ok false
  else do
    let offers ← vec_at inst.market_product_offers_ market_id
    satisfies_demand_loop s offers s.remaining_products_

/-- The method `Solution::get_unselected_markets`. -/
def get_unselected_markets (s : Solution) : List Nat :=
  s.unselected_markets_

end Solution

/-- The loop `for (auto cand : unselected)` of the exchange heuristics, which
looks for a market to insert: `strict` tells whether the new cost has to be
below `cost_before_removal` (`<` in `double_exchange_heuristic` and
`k_exchange_heuristic`) or may equal it (`<=` in `exchange_heuristic`).  The
result is `none` when no market is inserted, and otherwise the solution after
the insertion, the market inserted and its `verdict.cost_change_`. -/
def exchange_cand_loop (inst : Instance) (strict : Bool) (cost_before_removal : Int) :
    List Nat → Solution → Res (Option (Solution × Nat × Int))
  | [], _ => Except.ok none
  | cand :: rest, sol => do
      let satisfies ← sol.check_market_satisfies_demand inst cand
      if !satisfies then exchange_cand_loop inst strict cost_before_removal rest sol
      else do
        let verdict ← sol.calc_market_add_cost inst cand
        let cheaper : Bool :=
          if strict then decide (sol.cost_ + verdict.cost_change_ < cost_before_removal)
          else decide (sol.cost_ + verdict.cost_change_ ≤ cost_before_removal)
        if cheaper && verdict.demand_satisfied_ then do
          let prev_cost := sol.cost_
          let sol1 ← sol.insert_market_at_pos inst cand verdict.index_
          CHECK_F (decide (prev_cost + verdict.cost_change_ = sol1.cost_))
          Except.ok (some (sol1, cand, verdict.cost_change_))
        else exchange_cand_loop inst strict cost_before_removal rest sol

/-- The state of the loops of the exchange heuristics: the solution, the local
copy `unselected`, `total_cost_change` and `solution_changed`. -/
structure ExchangeState where
  sol : Solution
  unselected : List Nat
  total_cost_change : Int
  solution_changed : Bool
deriving DecidableEq, Repr

/-- The loop of `exchange_heuristic` over `markets_to_check`. -/
def exchange_loop (inst : Instance) : List Nat → ExchangeState → Res ExchangeState
  | [], st => Except.ok st
  | market_id :: rest, st => do
      let cost_before_removal := st.sol.cost_
      let market_pos := st.sol.get_market_pos_in_route market_id
      let sol1 ← st.sol.remove_market_at_pos inst market_pos
      let found ← exchange_cand_loop inst false cost_before_removal st.unselected sol1
      match found with
      | some (sol2, cand, cost_change) =>
          exchange_loop inst rest
            { sol := sol2
              unselected := st.unselected.erase cand
              total_cost_change := st.total_cost_change + cost_change
              solution_changed := true }
      | none => do
          let sol2 ← sol1.insert_market_at_pos inst market_id market_pos
          exchange_loop inst rest { st with sol := sol2 }

/-- The function `exchange_heuristic` of `drop.cpp`: the solution after the
call and the returned value.  The range `route_.begin() + 1 .. route_.end()` of
an empty route is undefined. -/
def exchange_heuristic (inst : Instance) (sol : Solution) : Res (Solution × Int) := do
  let unselected := sol.get_unselected_markets
  if sol.route_ = [] then Except.error Fault.undefined
  let markets_to_check := sol.route_.tail
  let st ← exchange_loop inst markets_to_check
    { sol := sol, unselected := unselected, total_cost_change := 0, solution_changed := false }
  if st.solution_changed then do
    let valid ← is_solution_valid inst st.sol.route_
    CHECK_F valid
  Except.ok (st.sol, st.total_cost_change)

/-- The loop of `k_exchange_heuristic` that removes the collected markets, over
`rem_markets` from its last element to its first. -/
def k_exchange_remove (inst : Instance) : List (Nat × Nat) → Solution → Res Solution
  | [], sol => Except.ok sol
  | el :: rest, sol => do
      let sol1 ← sol.remove_market_at_pos inst el.2
      k_exchange_remove inst rest sol1

/-- The loop of `k_exchange_heuristic` that puts the collected markets back,
over `rem_markets` from its first element to its last. -/
def k_exchange_restore (inst : Instance) : List (Nat × Nat) → Solution → Res Solution
  | [], sol => Except.ok sol
  | el :: rest, sol => do
      let sol1 ← sol.insert_market_at_pos inst el.1 el.2
      k_exchange_restore inst rest sol1

/-- What `load_from_file` establishes beyond `Instance.WF`: `read_offer_section`
checks that every quantity is positive, the instance is flagged uncapacitated
only when no demand exceeds one, and the table `market_product_offers_` has a
row of `product_count_` entries for every node. -/
structure Instance.Checked (inst : Instance) : Prop where
  quantity_pos : ∀ offers ∈ inst.market_offers_, ∀ o ∈ offers, 0 < o.quantity_
  demand_le_one : ∀ d ∈ inst.demands_, d ≤ 1
  table_len : inst.market_product_offers_.length = inst.dimension_
  table_rows : ∀ row ∈ inst.market_product_offers_, row.length = inst.product_count_

/-- Every detour `a → b → c` in place of the edge `a → c` lengthens a tour by
less than `INT_MAX` (the sums of weights that the code forms fit an `int`). -/
def Instance.DeltaBelowMax (inst : Instance) : Prop :=
  ∀ a b c, a < inst.dimension_ → b < inst.dimension_ → c < inst.dimension_ →
    inst.dist a b + inst.dist b c - inst.dist a c < INT_MAX

/-- The vector `product_quantities` of `is_solution_valid` after the offers of
a list have been added. -/
def add_quantities (offers : List ProductOffer) (pq : List Int) : List Int :=
  offers.foldl (fun acc o => acc.set o.product_id_ (acc.getD o.product_id_ 0 + o.quantity_)) pq

/-- What the loop of `exchange_heuristic` keeps: while `solution_changed` is
false nothing has changed, and once it is true the route holds a market that
was not in the route on entry. -/
def ExchangeKept (route0 : List Nat) (cost0 : Int) (st : ExchangeState) : Prop :=
  (st.solution_changed = false →
    st.total_cost_change = 0 ∧ st.sol.route_ = route0 ∧ st.sol.cost_ = cost0)
  ∧ (st.solution_changed = true → ∃ m ∈ st.sol.route_, m ∉ route0)

/-- An instance with a cheaper market outside the route: three nodes at
distance `1` from each other and one product of demand `1` that market `1`
offers at the price `5` and market `2` at the price `1`. -/
def cheaper_market_instance : Instance :=
  { dimension_ := 3
    edge_weights_1d_ := [0, 1, 1, 1, 0, 1, 1, 1, 0]
    nn_lists_ := [[1, 2], [0, 2], [0, 1]]
    is_symmetric_ := true
    product_count_ := 1
    demands_ := [1]
    needed_products_ := [0]
    market_offers_ := [[], [⟨5, 1, 0, 1⟩], [⟨1, 1, 0, 2⟩]]
    market_product_offers_ := [[⟨0, 0, 0, 0⟩], [⟨5, 1, 0, 1⟩], [⟨1, 1, 0, 2⟩]]
    is_capacitated_ := false
    best_known_cost_ := 0 }

/-- The solution of `cheaper_market_instance` after `insert_market_at_pos(1, 1)`. -/
def cheaper_market_state : Solution :=
  { route_ := [0, 1]
    cost_ := 7
    travel_cost_ := 2
    market_selected_ := [true, true, false]
    product_offers_ := [[⟨5, 1, 0, 1⟩]]
    purchase_costs_ := [5]
    demand_remaining_ := [0]
    remaining_products_ := []
    markets_per_product_ := [1]
    unselected_markets_ := [2]
    total_unsatisfied_demand_ := 0 }

/-- The conversion of a `uint32_t` value to `int32_t`. -/
def to_int32 (n : Nat) : Int :=
  if n < 2147483648 then (n : Int) else (n : Int) - 4294967296

/-- A write `v[i] = x` through `operator[]`: undefined behaviour outside the
vector. -/
def vec_store {α : Type} (xs : List α) (i : Nat) (x : α) : Res (List α) :=
  if i < xs.length then Except.ok (xs.set i x) else Except.error Fault.undefined

/-- The call `std::rotate(v.begin() + first, v.begin() + middle, v.begin() + last)`
on the iterators of a vector; the offsets are `int` values and have to satisfy
`0 ≤ first ≤ middle ≤ last ≤ v.size()`. -/
def vec_rotate {α : Type} (xs : List α) (first middle last : Int) : Res (List α) :=
  if 0 ≤ first ∧ first ≤ middle ∧ middle ≤ last ∧ last ≤ (xs.length : Int) then
    Except.ok (xs.take first.toNat
      ++ (xs.drop middle.toNat).take (last.toNat - middle.toNat)
      ++ (xs.drop first.toNat).take (middle.toNat - first.toNat)
      ++ xs.drop last.toNat)
  else Except.error Fault.undefined

/-- The class `WrappedIterator` of `three_opt.cpp`.  The vector iterators
`anchor_` and `it_` are positions in the vector, `end()` being its size; the
vector itself is passed to the operations that need it. -/
structure WrappedIterator where
  anchor_ : Nat
  it_ : Nat
  wrapped_ : Bool
  at_the_end_ : Bool
deriving DecidableEq, Repr

namespace WrappedIterator

/-- The constructor `WrappedIterator(vec, start_index, shift_from_start)`; the
remainder of `int` values truncates towards zero, and an iterator before
`begin()` is undefined. -/
def ctor (vec_size : Nat) (start_index shift_from_start : Int) : Res WrappedIterator := do
  let len : Int := vec_size
  CHECK_F (decide (start_index < len))
  CHECK_F (decide (shift_from_start ≤ len))
  if start_index < 0 ∨ Int.tmod (start_index + shift_from_start) len < 0 then
    Except.error Fault.undefined
  else
    Except.ok
      { anchor_ := start_index.toNat
        it_ := (Int.tmod (start_index + shift_from_start) len).toNat
        wrapped_ := false
        at_the_end_ := decide (shift_from_start = len) }

/-- The pre-increment `operator++`. -/
def inc (vec_size : Nat) (w : WrappedIterator) : WrappedIterator :=
  if !w.wrapped_ then
    if w.it_ + 1 = vec_size then { w with it_ := 0, wrapped_ := true }
    else { w with it_ := w.it_ + 1 }
  else if w.it_ ≠ w.anchor_ then { w with it_ := w.it_ + 1 }
  else { w with at_the_end_ := true }

/-- The pre-decrement `operator--`. -/
def dec (vec_size : Nat) (w : WrappedIterator) : WrappedIterator :=
  { w with it_ := (if w.it_ = 0 then vec_size else w.it_) - 1, at_the_end_ := false }

/-- The comparison `operator==`. -/
def eq (a b : WrappedIterator) : Bool :=
  decide (a.it_ = b.it_) && decide (a.at_the_end_ = b.at_the_end_)

/-- The comparison `operator!=`. -/
def ne (a b : WrappedIterator) : Bool :=
  decide (a.it_ ≠ b.it_) || decide (a.at_the_end_ ≠ b.at_the_end_)

end WrappedIterator

/-- The call `std::iter_swap(a, b)` on two wrapped iterators of `vec`. -/
def iter_swap (vec : List Nat) (a b : WrappedIterator) : Res (List Nat) := do
  let x ← vec_idx vec a.it_
  let y ← vec_idx vec b.it_
  Except.ok ((vec.set a.it_ y).set b.it_ x)

/-- The loop of `std::reverse(first, last)` for bidirectional iterators, as in
libstdc++: `while (true) if (first == last || first == --last) return; else
{ iter_swap(first, last); ++first; }`.  A loop that has not ended after `fuel`
passes was called on iterators that do not delimit a range, which is undefined. -/
def wrapped_reverse_loop :
    Nat → List Nat → WrappedIterator → WrappedIterator → Res (List Nat)
  | 0, _, _, _ => Except.error Fault.undefined
  | fuel + 1, vec, first, last =>
      if first.eq last then Except.ok vec
      else
        let last1 := last.dec vec.length
        if first.eq last1 then Except.ok vec
        else do
          let vec1 ← iter_swap vec first last1
          wrapped_reverse_loop fuel vec1 (first.inc vec.length) last1

/-- The call `std::reverse(first, last)` on two wrapped iterators of `vec`. -/
def wrapped_reverse (vec : List Nat) (first last : WrappedIterator) : Res (List Nat) :=
  wrapped_reverse_loop (vec.length + 1) vec first last

/-- The loop `while (first != middle && middle != last) { iter_swap(first, --last);
++first; }` of `std::rotate` for bidirectional iterators, as in libstdc++: the
vector and the iterators `first` and `last` when the loop ends. -/
def wrapped_rotate_loop (middle : WrappedIterator) :
    Nat → List Nat → WrappedIterator → WrappedIterator →
      Res (List Nat × WrappedIterator × WrappedIterator)
  | 0, _, _, _ => Except.error Fault.undefined
  | fuel + 1, vec, first, last =>
      if first.ne middle && middle.ne last then do
        let last1 := last.dec vec.length
        let vec1 ← iter_swap vec first last1
        wrapped_rotate_loop middle fuel vec1 (first.inc vec.length) last1
      else Except.ok (vec, first, last)

/-- The call `std::rotate(first, middle, last)` on three wrapped iterators of
`vec`, for bidirectional iterators as in libstdc++. -/
def wrapped_rotate (vec : List Nat) (first middle last : WrappedIterator) : Res (List Nat) :=
  if first.eq middle then Except.ok vec
  else if last.eq middle then Except.ok vec
  else do
    let vec1 ← wrapped_reverse vec first middle
    let vec2 ← wrapped_reverse vec1 middle last
    let r ← wrapped_rotate_loop middle (vec.length + 1) vec2 first last
    if r.2.1.eq middle then wrapped_reverse r.1 middle r.2.2
    else wrapped_reverse r.1 r.2.1 middle

/-- The struct `Segment` of `three_opt.cpp`. -/
structure Segment where
  first_ : Nat
  last_ : Nat
  len_ : Nat
  id_ : Nat
  is_reversed_ : Bool
deriving DecidableEq, Repr

namespace Segment

/-- The method `Segment::get_reversed`. -/
def get_reversed (s : Segment) : Segment :=
  { first_ := s.last_, last_ := s.first_, len_ := s.len_, id_ := s.id_,
    is_reversed_ := !s.is_reversed_ }

/-- The length computed by `Segment::size` when `is_reversed_` is false, in
`uint32_t` arithmetic. -/
def plain_size (s : Segment) : Nat :=
  if s.first_ ≤ s.last_ then (s.last_ - s.first_ + 1) % 4294967296
  else (u32_sub s.len_ s.first_ + s.last_ + 1) % 4294967296

/-- The method `Segment::size`: a reversed segment reports the size of
`get_reversed()`, which is not reversed. -/
def size (s : Segment) : Nat :=
  if s.is_reversed_ then s.get_reversed.plain_size else s.plain_size

/-- The method `Segment::reverse`. -/
def reverse (s : Segment) : Segment :=
  { s with first_ := s.last_, last_ := s.first_, is_reversed_ := !s.is_reversed_ }

/-- The method `Segment::first`. -/
def first (s : Segment) : Int := to_int32 s.first_

/-- The method `Segment::last`. -/
def last (s : Segment) : Int := to_int32 s.last_

/-- The method `Segment::isize`. -/
def isize (s : Segment) : Int := to_int32 s.size

end Segment

/-- The function `perform_2_opt_move` of `three_opt.cpp`; the remainder by an
empty route's size is undefined. -/
def perform_2_opt_move (route : List Nat) (i0 j0 : Nat) : Res (List Nat) :=
  let len := route.length
  let i := if i0 > j0 then j0 else i0
  let j := if i0 > j0 then i0 else j0
  if len = 0 then Except.error Fault.undefined
  else
    let i_1 := (i + 1) % len
    let j_1 := (j + 1) % len
    let s1 : Segment := { first_ := i_1, last_ := j, len_ := 0, id_ := 0, is_reversed_ := false }
    let s2 : Segment := { first_ := j_1, last_ := i, len_ := 0, id_ := 0, is_reversed_ := false }
    if s1.size < s2.size then
      if s1.first_ + s1.size ≤ len then
        Except.ok (vec_reverse route s1.first_ (s1.first_ + s1.size))
      else Except.error Fault.undefined
    else do
      let first ← WrappedIterator.ctor len (to_int32 s2.first_) 0
      let last ← WrappedIterator.ctor len (to_int32 s2.first_) s2.isize
      wrapped_reverse route first last

/-- The function `perform_3_opt_move` of `three_opt.cpp`. -/
def perform_3_opt_move (route : List Nat) (seg0 seg1 seg2 : Segment) : Res (List Nat) := do
  -- the longest segment first
  let (s0, s1) := if seg0.size < seg1.size then (seg1, seg0) else (seg0, seg1)
  let (s0, s2) := if s0.size < seg2.size then (seg2, s0) else (s0, seg2)
  let (s1, s2) := if s1.size < s2.size then (s2, s1) else (s1, s2)
  CHECK_F (decide (s0.size ≥ s1.size) && decide (s1.size ≥ s2.size))
  let swap_needed := s0.is_reversed_
  let s1 := if s0.is_reversed_ then s1.reverse else s1
  let s2 := if s0.is_reversed_ then s2.reverse else s2
  let len := route.length
  let (s1, route) ←
    if s1.is_reversed_ then do
      let t := s1.reverse
      let first ← WrappedIterator.ctor len (to_int32 t.first_) 0
      let last ← WrappedIterator.ctor len (to_int32 t.first_) t.isize
      let r ← wrapped_reverse route first last
      Except.ok (t, r)
    else Except.ok (s1, route)
  let (s2, route) ←
    if s2.is_reversed_ then do
      let t := s2.reverse
      let first ← WrappedIterator.ctor len (to_int32 t.first_) 0
      let last ← WrappedIterator.ctor len (to_int32 t.first_) t.isize
      let r ← wrapped_reverse route first last
      Except.ok (t, r)
    else Except.ok (s2, route)
  if swap_needed then
    if s1.id_ = 2 ∧ s2.id_ = 1 then
      vec_rotate route s2.first s1.first (s1.last + 1)
    else if s1.id_ = 1 ∧ s2.id_ = 2 then
      vec_rotate route s1.first s2.first (s2.last + 1)
    else do
      let right := s1.isize + s2.isize
      let (left, middle) : Int × Int :=
        if (s1.id_ = 0 ∧ s2.id_ = 2) ∨ (s1.id_ = 1 ∧ s2.id_ = 0) then (s2.first, to_int32 s2.size)
        else if (s1.id_ = 2 ∧ s2.id_ = 0) ∨ (s1.id_ = 0 ∧ s2.id_ = 1) then
          (s1.first, to_int32 s1.size)
        else (0, 0)
      let first ← WrappedIterator.ctor len left 0
      let mid ← WrappedIterator.ctor len left middle
      let last ← WrappedIterator.ctor len left right
      wrapped_rotate route first mid last
  else Except.ok route

/-- The local state of the search loops of `three_opt` and `three_opt_nn`. -/
structure ThreeOptState where
  route : List Nat
  dont_look_bits : List Bool
  found_improvement : Bool
deriving DecidableEq, Repr

/-- The array `pairs` of `three_opt`: four sets of three new edges. -/
def reconnection_pairs (i i_1 j j_1 k k_1 : Nat) : List (Nat × Nat) :=
  [(j, i), (k_1, j_1), (k, i_1),
   (j, k_1), (i, j_1), (k, i_1),
   (j, k_1), (i, k), (j_1, i_1),
   (j, k), (j_1, i), (k_1, i_1)]

/-- The array `segment_reversals` of `three_opt`. -/
def segment_reversals : List Bool :=
  [false, true, true,
   true, true, true,
   true, true, false,
   true, false, true]

/-- The state of the loop over the candidate reconnections: the flag
`found_improvement`, the three segments, the don't-look bits and the local
`cost_change` (kept by `three_opt_nn` only). -/
structure ReconnectionState where
  found_improvement : Bool
  seg0 : Segment
  seg1 : Segment
  seg2 : Segment
  dont_look_bits : List Bool
  cost_change : Int
deriving DecidableEq, Repr

/-- The loop `for (l = 0; l < 4 * 3 && !found_improvement; l += 3)` of `three_opt`
and `three_opt_nn`: `n` passes are left. -/
def reconnection_loop (inst : Instance) (pairs : List (Nat × Nat)) (curr : Int) :
    Nat → Nat → ReconnectionState → Res ReconnectionState
  | 0, _, st => Except.ok st
  | n + 1, l, st =>
      if st.found_improvement then Except.ok st
      else do
        let p1 ← vec_idx pairs (l + 0)
        let p2 ← vec_idx pairs (l + 1)
        let p3 ← vec_idx pairs (l + 2)
        let c1 ← inst.get_travel_cost p1.1 p1.2
        let c2 ← inst.get_travel_cost p2.1 p2.2
        let c3 ← inst.get_travel_cost p3.1 p3.2
        let cost := c1 + c2 + c3
        if cost < curr then do
          let r0 ← vec_idx segment_reversals (l + 0)
          let r1 ← vec_idx segment_reversals (l + 1)
          let r2 ← vec_idx segment_reversals (l + 2)
          let b1 ← vec_store st.dont_look_bits p1.1 false
          let b2 ← vec_store b1 p1.2 false
          let b3 ← vec_store b2 p2.1 false
          let b4 ← vec_store b3 p2.2 false
          let b5 ← vec_store b4 p3.1 false
          let b6 ← vec_store b5 p3.2 false
          reconnection_loop inst pairs curr n (l + 3)
            { found_improvement := true
              seg0 := if r0 then st.seg0.reverse else st.seg0
              seg1 := if r1 then st.seg1.reverse else st.seg1
              seg2 := if r2 then st.seg2.reverse else st.seg2
              dont_look_bits := b6
              cost_change := cost - curr }
        else reconnection_loop inst pairs curr n (l + 3) st

/-- The body of the innermost loops of `three_opt` and `three_opt_nn`, for the
route positions `x < y < z` with successors `x_1`, `y_1`, `z_1` and the nodes
`at_x`, `at_y`, `at_z` read at them: the three edges leaving the positions are
compared with the four reconnections, and the first cheaper one is carried
out by `perform_3_opt_move`. -/
def three_opt_try (inst : Instance) (len x x_1 y y_1 z z_1 at_x at_y at_z : Nat)
    (st : ThreeOptState) : Res ThreeOptState := do
  let route := st.route
  let at_x_1 ← vec_idx route x_1
  let at_y_1 ← vec_idx route y_1
  let at_z_1 ← vec_idx route z_1
  let c1 ← inst.get_travel_cost at_x at_x_1
  let c2 ← inst.get_travel_cost at_y at_y_1
  let c3 ← inst.get_travel_cost at_z at_z_1
  let curr := c1 + c2 + c3
  let pairs := reconnection_pairs at_x at_x_1 at_y at_y_1 at_z at_z_1
  let r ← reconnection_loop inst pairs curr 4 0
    { found_improvement := st.found_improvement
      seg0 := { first_ := z_1, last_ := x, len_ := len, id_ := 0, is_reversed_ := false }
      seg1 := { first_ := x_1, last_ := y, len_ := len, id_ := 1, is_reversed_ := false }
      seg2 := { first_ := y_1, last_ := z, len_ := len, id_ := 2, is_reversed_ := false }
      dont_look_bits := st.dont_look_bits
      cost_change := 0 }
  if r.found_improvement then do
    let route1 ← perform_3_opt_move route r.seg0 r.seg1 r.seg2
    Except.ok { route := route1, dont_look_bits := r.dont_look_bits, found_improvement := true }
  else
    Except.ok { st with dont_look_bits := r.dont_look_bits }

/-- The loop `for (k = j + 1; k < len && !found_improvement; ++k)` of
`three_opt`: `n` passes are left. -/
def three_opt_k_loop (inst : Instance) (len i j : Nat) :
    Nat → Nat → ThreeOptState → Res ThreeOptState
  | 0, _, st => Except.ok st
  | n + 1, k, st =>
      if st.found_improvement then Except.ok st
      else do
        let k_1 := (k + 1) % len
        let at_i ← vec_idx st.route i
        let at_j ← vec_idx st.route j
        let at_k ← vec_idx st.route k
        let st1 ← three_opt_try inst len i (i + 1) j (j + 1) k k_1 at_i at_j at_k st
        three_opt_k_loop inst len i j n (k + 1) st1

/-- The loop `for (j = i + 1; j < len - 1 && !found_improvement; ++j)` of
`three_opt`: `n` passes are left. -/
def three_opt_j_loop (inst : Instance) (len i : Nat) :
    Nat → Nat → ThreeOptState → Res ThreeOptState
  | 0, _, st => Except.ok st
  | n + 1, j, st =>
      if st.found_improvement then Except.ok st
      else do
        let st1 ← three_opt_k_loop inst len i j (len - (j + 1)) (j + 1) st
        three_opt_j_loop inst len i n (j + 1) st1

/-- The loop `for (i = 0; i < len - 2 && !found_improvement; ++i)` of
`three_opt`: `n` passes are left. -/
def three_opt_i_loop (inst : Instance) (len : Nat) (use_dont_look_bits : Bool) :
    Nat → Nat → ThreeOptState → Res ThreeOptState
  | 0, _, st => Except.ok st
  | n + 1, i, st =>
      if st.found_improvement then Except.ok st
      else do
        let at_i ← vec_idx st.route i
        let bit ← vec_idx st.dont_look_bits at_i
        if bit then three_opt_i_loop inst len use_dont_look_bits n (i + 1) st
        else do
          let st1 ← three_opt_j_loop inst len i (u32_sub len 1 - (i + 1)) (i + 1) st
          if !st1.found_improvement && use_dont_look_bits then do
            let at_i1 ← vec_idx st1.route i
            let bits ← vec_store st1.dont_look_bits at_i1 true
            three_opt_i_loop inst len use_dont_look_bits n (i + 1)
              { st1 with dont_look_bits := bits }
          else three_opt_i_loop inst len use_dont_look_bits n (i + 1) st1

/-- The `do ... while (found_improvement)` loop of `three_opt`.  `fuel` bounds
the number of passes; the result is `none` when it is used up before the loop
ends. -/
def three_opt_loop (inst : Instance) (len : Nat) (use_dont_look_bits : Bool) :
    Nat → ThreeOptState → Res (Option ThreeOptState)
  | 0, _ => Except.ok none
  | fuel + 1, st => do
      let st1 ← three_opt_i_loop inst len use_dont_look_bits (u32_sub len 2) 0
        { st with found_improvement := false }
      if st1.found_improvement then three_opt_loop inst len use_dont_look_bits fuel st1
      else Except.ok (some st1)

/-- The end of `three_opt` and of `three_opt_nn`: the depot is rotated to the
front, the travel cost is recomputed and `cost_` is updated; the result is the
solution and the returned `delta`. -/
def three_opt_finish (inst : Instance) (sol : Solution) (old_travel_cost : Int)
    (route0 : List Nat) : Res (Solution × Int) := do
  let depot_pos := route0.indexOf 0
  let route :=
    if depot_pos ≠ 0 then route0.drop depot_pos ++ route0.take depot_pos else route0
  let new_travel_cost ← inst.calc_travel_cost route
  let delta := new_travel_cost - old_travel_cost
  CHECK_F (decide (delta ≤ 0))
  Except.ok ({ sol with route_ := route, cost_ := sol.cost_ + delta }, delta)

/-- The function `three_opt` of `three_opt.cpp`: the solution after the call
and the returned value. -/
def three_opt (inst : Instance) (sol : Solution) (use_dont_look_bits : Bool) (fuel : Nat) :
    Res (Option (Solution × Int)) := do
  CHECK_F inst.is_symmetric_
  let len := sol.route_.length
  let old_travel_cost ← inst.calc_travel_cost sol.route_
  let dont_look_bits := List.replicate inst.dimension_ false
  let r ← three_opt_loop inst len use_dont_look_bits fuel
    { route := sol.route_, dont_look_bits := dont_look_bits, found_improvement := false }
  match r with
  | none => Except.ok none
  | some st => do
      let res ← three_opt_finish inst sol old_travel_cost st.route
      Except.ok (some res)

/-- The loop `for (i = 0; i < route.size(); ++i) pos_in_route[route[i]] = i;`
of `three_opt_nn`, over the nodes left of the route. -/
def fill_pos_in_route : List Nat → Nat → List Nat → Res (List Nat)
  | [], _, pos_in_route => Except.ok pos_in_route
  | node :: rest, i, pos_in_route => do
      let p ← vec_store pos_in_route node i
      fill_pos_in_route rest (i + 1) p

/-- The loop over the neighbours `at_k` of `at_j` in `three_opt_nn`: `n` passes
are left. -/
def three_opt_nn_k_loop (inst : Instance) (len : Nat) (pos_in_route : List Nat)
    (i j at_i at_j : Nat) (j_nn_list : List Nat) :
    Nat → Nat → ThreeOptState → Res ThreeOptState
  | 0, _, st => Except.ok st
  | n + 1, j_nn_idx, st =>
      if st.found_improvement then Except.ok st
      else do
        let at_k ← vec_idx j_nn_list j_nn_idx
        let k ← vec_idx pos_in_route at_k
        if k = len ∨ k = i then
          three_opt_nn_k_loop inst len pos_in_route i j at_i at_j j_nn_list n (j_nn_idx + 1) st
        else do
          -- sort (x, y, z)
          let (x, y, at_x, at_y) := if i > j then (j, i, at_j, at_i) else (i, j, at_i, at_j)
          let (x, z, at_x, at_z) := if x > k then (k, x, at_k, at_x) else (x, k, at_x, at_k)
          let (y, z, at_y, at_z) := if y > z then (z, y, at_z, at_y) else (y, z, at_y, at_z)
          let x_1 := (x + 1) % len
          let y_1 := (y + 1) % len
          let z_1 := (z + 1) % len
          let st1 ← three_opt_try inst len x x_1 y y_1 z z_1 at_x at_y at_z st
          three_opt_nn_k_loop inst len pos_in_route i j at_i at_j j_nn_list n (j_nn_idx + 1) st1

/-- The loop over the neighbours `at_j` of `at_i` in `three_opt_nn`: `n` passes
are left. -/
def three_opt_nn_j_loop (inst : Instance) (len : Nat) (nn_count : Nat)
    (pos_in_route : List Nat) (i at_i : Nat) (i_nn_list : List Nat) :
    Nat → Nat → ThreeOptState → Res ThreeOptState
  | 0, _, st => Except.ok st
  | n + 1, i_nn_idx, st =>
      if st.found_improvement then Except.ok st
      else do
        let at_j ← vec_idx i_nn_list i_nn_idx
        let j ← vec_idx pos_in_route at_j
        if j = len then
          three_opt_nn_j_loop inst len nn_count pos_in_route i at_i i_nn_list n (i_nn_idx + 1) st
        else do
          let i_1 := (i + 1) % len
          let j_1 := (j + 1) % len
          let at_i_1 ← vec_idx st.route i_1
          let at_j_1 ← vec_idx st.route j_1
          let d1 ← inst.get_travel_cost at_i at_i_1
          let d2 ← inst.get_travel_cost at_j at_j_1
          let d3 ← inst.get_travel_cost at_i at_j
          let d4 ← inst.get_travel_cost at_i_1 at_j_1
          let change_2opt := d1 + d2 - d3 - d4
          if change_2opt > 0 then do
            let cost_before ← inst.calc_travel_cost st.route
            let route1 ← perform_2_opt_move st.route i j
            let cost_after ← inst.calc_travel_cost route1
            CHECK_F (decide (cost_after < cost_before))
            CHECK_F (decide (change_2opt + cost_after = cost_before))
            let b1 ← vec_store st.dont_look_bits at_i false
            let b2 ← vec_store b1 at_i_1 false
            let b3 ← vec_store b2 at_j false
            let b4 ← vec_store b3 at_j_1 false
            three_opt_nn_j_loop inst len nn_count pos_in_route i at_i i_nn_list n (i_nn_idx + 1)
              { route := route1, dont_look_bits := b4, found_improvement := true }
          else do
            let j_nn_list ← vec_at inst.nn_lists_ at_j
            let j_nn_count := min nn_count j_nn_list.length
            CHECK_F (decide (at_i ≠ at_j))
            let st1 ← three_opt_nn_k_loop inst len pos_in_route i j at_i at_j j_nn_list
              j_nn_count 0 st
            three_opt_nn_j_loop inst len nn_count pos_in_route i at_i i_nn_list n
              (i_nn_idx + 1) st1

/-- The loop `for (i = 0; i < len && !found_improvement; ++i)` of
`three_opt_nn`: `n` passes are left. -/
def three_opt_nn_i_loop (inst : Instance) (len : Nat) (use_dont_look_bits : Bool)
    (nn_count : Nat) (pos_in_route : List Nat) :
    Nat → Nat → ThreeOptState → Res ThreeOptState
  | 0, _, st => Except.ok st
  | n + 1, i, st =>
      if st.found_improvement then Except.ok st
      else do
        let r_i ← vec_idx st.route i
        let bit ← vec_idx st.dont_look_bits r_i
        if bit then
          three_opt_nn_i_loop inst len use_dont_look_bits nn_count pos_in_route n (i + 1) st
        else do
          let at_i ← vec_idx st.route i
          let i_nn_list ← vec_at inst.nn_lists_ at_i
          let i_nn_count := min nn_count i_nn_list.length
          let st1 ← three_opt_nn_j_loop inst len nn_count pos_in_route i at_i i_nn_list
            i_nn_count 0 st
          if !st1.found_improvement && use_dont_look_bits then do
            let at_i1 ← vec_idx st1.route i
            let bits ← vec_store st1.dont_look_bits at_i1 true
            three_opt_nn_i_loop inst len use_dont_look_bits nn_count pos_in_route n (i + 1)
              { st1 with dont_look_bits := bits }
          else
            three_opt_nn_i_loop inst len use_dont_look_bits nn_count pos_in_route n (i + 1) st1

/-- The `do ... while (found_improvement)` loop of `three_opt_nn`.  `fuel`
bounds the number of passes; the result is `none` when it is used up before
the loop ends. -/
def three_opt_nn_loop (inst : Instance) (len : Nat) (use_dont_look_bits : Bool)
    (nn_count : Nat) : Nat → ThreeOptState → Res (Option ThreeOptState)
  | 0, _ => Except.ok none
  | fuel + 1, st => do
      let pos_in_route ← fill_pos_in_route st.route 0 (List.replicate inst.dimension_ len)
      let st1 ← three_opt_nn_i_loop inst len use_dont_look_bits nn_count pos_in_route len 0
        { st with found_improvement := false }
      if st1.found_improvement then
        three_opt_nn_loop inst len use_dont_look_bits nn_count fuel st1
      else Except.ok (some st1)

/-- The function `three_opt_nn` of `three_opt.cpp`: the solution after the call
and the returned value. -/
def three_opt_nn (inst : Instance) (sol : Solution) (use_dont_look_bits : Bool)
    (nn_count : Nat) (fuel : Nat) : Res (Option (Solution × Int)) := do
  CHECK_F inst.is_symmetric_
  let len := sol.route_.length
  let old_travel_cost ← inst.calc_travel_cost sol.route_
  let dont_look_bits := List.replicate inst.dimension_ false
  let r ← three_opt_nn_loop inst len use_dont_look_bits nn_count fuel
    { route := sol.route_, dont_look_bits := dont_look_bits, found_improvement := false }
  match r with
  | none => Except.ok none
  | some st => do
      let res ← three_opt_finish inst sol old_travel_cost st.route
      Except.ok (some res)

/-- An instance for the 3-opt examples: the weights of the instance of
`test_two_opt`, the lists of nearest neighbours that belong to them, and no
products. -/
def three_opt_test_instance : Instance :=
  { dimension_ := 4
    edge_weights_1d_ := [0, 2, 1, 1, 2, 0, 1, 1, 1, 1, 0, 1, 1, 1, 1, 0]
    nn_lists_ := [[2, 3, 1], [2, 3, 0], [0, 1, 3], [0, 1, 2]]
    is_symmetric_ := true
    product_count_ := 0
    demands_ := []
    needed_products_ := []
    market_offers_ := [[], [], [], []]
    market_product_offers_ := [[], [], [], []]
    is_capacitated_ := false
    best_known_cost_ := 0 }

/-- The solution of `three_opt_test_instance` after `insert_market_at_pos(1, 1)`,
`insert_market_at_pos(2, 2)` and `insert_market_at_pos(3, 3)`. -/
def three_opt_test_state : Solution :=
  { route_ := [0, 1, 2, 3]
    cost_ := 5
    travel_cost_ := 5
    market_selected_ := [true, true, true, true]
    product_offers_ := []
    purchase_costs_ := []
    demand_remaining_ := []
    remaining_products_ := []
    markets_per_product_ := []
    unselected_markets_ := []
    total_unsatisfied_demand_ := 0 }

/-! ## Definitions: pheromone clamping and the branching factor: claims C21, C22 -/

/-- The pheromone memory of the clamp scenario: bounds `0.1` and `0.5`, every
trail set to `value` by `set_all_trails`. -/
def clamp_scenario (size : Nat) (is_symmetric : Bool) (value : ℚ) : BasicPheromone :=
  (BasicPheromone.ctor size is_symmetric (1 / 10) (1 / 2)).set_all_trails value

/-- The loop `for (i = 1u; i < nn_ants; i++)` of `node_branching` that
determines the lowest and the highest trail of the candidate list of node `m`:
`n` passes are left, `mm` holds `min` and `max`. -/
def node_branching_minmax (pheromone : BasicPheromone) (m : Nat) (nn_list : List Nat) :
    Nat → Nat → ℚ × ℚ → Res (ℚ × ℚ)
  | 0, _, mm => Except.ok mm
  | n + 1, i, mm => do
      let nn ← vec_at nn_list i
      let ph ← pheromone.get_trail m nn
      let max1 := if ph > mm.2 then ph else mm.2
      let min1 := if ph < mm.1 then ph else mm.1
      node_branching_minmax pheromone m nn_list n (i + 1) (min1, max1)

/-- The loop `for (i = 0u; i < nn_ants; i++)` of `node_branching` that counts
the trails above `cutoff`: `n` passes are left, `count` is `num_branches[m]`. -/
def node_branching_count (pheromone : BasicPheromone) (m : Nat) (nn_list : List Nat)
    (cutoff : ℚ) : Nat → Nat → Int → Res Int
  | 0, _, count => Except.ok count
  | n + 1, i, count => do
      let nn ← vec_at nn_list i
      let ph ← pheromone.get_trail m nn
      node_branching_count pheromone m nn_list cutoff n (i + 1)
        (if ph > cutoff then count + 1 else count)

/-- The loop `for (m = 0u; m < n; m++)` of `node_branching` over the nodes: `k`
passes are left, the result is the vector `num_branches`. -/
def node_branching_nodes (lambda : ℚ) (nn_ants : Nat) (pheromone : BasicPheromone)
    (problem : Instance) : Nat → Nat → List Int → Res (List Int)
  | 0, _, num_branches => Except.ok num_branches
  | k + 1, m, num_branches => do
      let nn_list ← vec_at problem.nn_lists_ m
      let first ← vec_at nn_list 0
      let min0 ← pheromone.get_trail m first
      let mm ← node_branching_minmax pheromone m nn_list (nn_ants - 1) 1 (min0, min0)
      let cutoff := mm.1 + lambda * (mm.2 - mm.1)
      let old ← vec_at num_branches m
      let count ← node_branching_count pheromone m nn_list cutoff nn_ants 0 old
      node_branching_nodes lambda nn_ants pheromone problem k (m + 1) (num_branches.set m count)

/-- The function `node_branching` of `aco.cpp`, for the pheromone memory
`BasicPheromone`; `double` is modelled by the rationals, and the `assert` on
`nn_ants` is kept as a check. -/
def node_branching (lambda : ℚ) (cand_list_size : Nat) (pheromone : BasicPheromone)
    (problem : Instance) : Res ℚ := do
  let n := problem.dimension_
  let nn_ants := cand_list_size
  CHECK_F (decide (nn_ants > 0))
  let num_branches ← node_branching_nodes lambda nn_ants pheromone problem n 0
    (List.replicate n 0)
  let avg : ℚ := num_branches.foldl (fun acc b => acc + (b : ℚ)) 0
  Except.ok (avg / ((n * 2 : Nat) : ℚ))

/-- The pheromone memory after the constructor with the bounds `0.1` and `0.5`
on four nodes, `evaporate(0.5)` and `increase(0, 1, 1)`: the trail of the edge
between the nodes `0` and `1` is `0.5`, every other trail `0.25`. -/
def one_edge_pheromone : BasicPheromone :=
  { trails_ := [[1 / 4, 1 / 2, 1 / 4, 1 / 4], [1 / 2, 1 / 4, 1 / 4, 1 / 4],
      [1 / 4, 1 / 4, 1 / 4, 1 / 4], [1 / 4, 1 / 4, 1 / 4, 1 / 4]]
    is_symmetric_ := true
    min_value_ := 1 / 10
    max_value_ := 1 / 2 }

/-! ## Definitions: the deposit schedule of the colony: claims C23, C24 -/

/-- The struct `Ant` of `ant.h`; the instance that its solution refers to is
passed to the operations that need it. -/
structure Ant where
  solution_ : Solution
  independence_ : ℚ
  affinity_ : ℚ
  laziness_ : ℚ
  avidity_ : ℚ
  oversize_ : ℚ
  length_when_valid_ : Nat
  id_ : Nat

/-- The method `Ant::cost`. -/
def Ant.cost (ant : Ant) : Int :=
  ant.solution_.cost_

/-- The method `Ant::get_route`. -/
def Ant.get_route (ant : Ant) : List Nat :=
  ant.solution_.route_

/-- The data members of the struct `ACO` of `aco.h`, apart from the reference
`instance_` (passed to the operations that need it) and the callback.  A
smart pointer is `none` when it is null; `double` is modelled by the
rationals. -/
structure ACO where
  pheromone_ : Option BasicPheromone
  ants_ : List Ant
  global_best_ : Option Ant
  ants_count_ : Nat
  evaporation_rate_ : ℚ
  cand_list_size_ : Nat
  use_local_search_ : Bool
  initial_pheromone_ : ℚ
  min_pheromone_ : ℚ
  max_pheromone_ : ℚ
  greedy_solution_value_ : Int
  global_best_cost_no_ls_ : Int
  global_best_values_no_ls_ : List Int
  current_iteration_ : Int
  restart_best_ : Option Ant
  restart_best_found_iteration_ : Int
  pheromone_reset_iteration_ : Int
  u_gb_ : Int
  iteration_best_ : Option Ant
  heuristic_ : List (List ℚ)
  ant_phmem_samples_ : List (List Nat)

namespace ACO

/-- The method `ACO::update_u_gb`. -/
def update_u_gb (aco : ACO) : ACO :=
  if aco.use_local_search_ then
    let delta := aco.current_iteration_ - aco.restart_best_found_iteration_
    if delta < 25 then { aco with u_gb_ := 25 }
    else if delta < 75 then { aco with u_gb_ := 5 }
    else if delta < 125 then { aco with u_gb_ := 3 }
    else if delta < 250 then { aco with u_gb_ := 2 }
    else { aco with u_gb_ := 1 }
  else { aco with u_gb_ := 25 }

/-- The choice of `update_ant` in `ACO::run`: the pointer taken from
`iteration_best_`, `global_best_` or `restart_best_`.  The operator `%` of
`int` values truncates towards zero and is undefined for the divisor `0`. -/
def select_update_ant (aco : ACO) : Res (Option Ant) :=
  if aco.u_gb_ = 0 then Except.error Fault.undefined
  else if Int.tmod aco.current_iteration_ aco.u_gb_ ≠ 0 then Except.ok aco.iteration_best_
  else if aco.u_gb_ = 1
      ∧ aco.current_iteration_ - aco.restart_best_found_iteration_ > 50 then
    Except.ok aco.global_best_
  else Except.ok aco.restart_best_

end ACO

/-- The schedule of `u_gb` in the words of the specification: with local
search `25` below `25` iterations since the restart-best was found, `5` from
`25` and below `75`, `3` from `75` and below `125`, `2` from `125` and below
`250`, and `1` otherwise; without local search always `25`. -/
def spec_u_gb (use_local_search : Bool) (delta : Int) : Int :=
  if use_local_search = false then 25
  else if delta < 25 then 25
  else if 25 ≤ delta ∧ delta < 75 then 5
  else if 75 ≤ delta ∧ delta < 125 then 3
  else if 125 ≤ delta ∧ delta < 250 then 2
  else 1

/-- A state of `ACO::run` at iteration 300 with the restart-best found at
iteration 10 and `u_gb_ = 1`; the three ants differ in their `id_`. -/
def schedule_test_aco : ACO :=
  { pheromone_ := none
    ants_ := []
    global_best_ := some ⟨Solution.init_state example_instance, 1, 3, 2, 2, 0, 0, 1⟩
    ants_count_ := 20
    evaporation_rate_ := 99 / 100
    cand_list_size_ := 25
    use_local_search_ := true
    initial_pheromone_ := 0
    min_pheromone_ := 0
    max_pheromone_ := 0
    greedy_solution_value_ := 0
    global_best_cost_no_ls_ := 0
    global_best_values_no_ls_ := []
    current_iteration_ := 300
    restart_best_ := some ⟨Solution.init_state example_instance, 1, 3, 2, 2, 0, 0, 2⟩
    restart_best_found_iteration_ := 10
    pheromone_reset_iteration_ := 0
    u_gb_ := 1
    iteration_best_ := some ⟨Solution.init_state example_instance, 1, 3, 2, 2, 0, 0, 3⟩
    heuristic_ := []
    ant_phmem_samples_ := [] }

/-! ## Definitions: validity of a route: claim C25 -/

/-- The result of an operation on `int` values: a 32-bit two's-complement
number.  An overflow of `int` is undefined in C++; the model takes the result
of the compiled code, where a value outside `[-2^31, 2^31)` wraps around. -/
def int32_wrap (x : Int) : Int :=
  (x + 2147483648) % 4294967296 - 2147483648

/-- The loop of `calc_diff_max_0_sum_naive`: `n` passes are left.  The
difference `a[i] - b[i]` and the sum `result += ...` are operations on `int`
values. -/
def calc_diff_max_0_sum_naive_loop (a b : List Int) : Nat → Nat → Int → Res Int
  | 0, _, result => Except.ok result
  | n + 1, i, result => do
      let x ← vec_idx a i
      let y ← vec_idx b i
      calc_diff_max_0_sum_naive_loop a b n (i + 1)
        (int32_wrap (result + max 0 (int32_wrap (x - y))))

/-- The function `calc_diff_max_0_sum_naive` of `vec.cpp`. -/
def calc_diff_max_0_sum_naive (a b : List Int) : Res Int :=
  calc_diff_max_0_sum_naive_loop a b a.length 0 0

/-- The function `Vec::calc_diff_max_0_sum` of `vec.cpp`. -/
def Vec.calc_diff_max_0_sum (a b : List Int) : Res Int :=
  calc_diff_max_0_sum_naive a b

/-- The sum of `max(0, a[i] - b[i])` over the positions of `a`, in the words of
the specification. -/
def spec_diff_max_0_sum (a b : List Int) : Int :=
  ((List.range a.length).map (fun i => max 0 (a.getD i 0 - b.getD i 0))).sum

/-- The first loop of `random_sample`, `sample[i] = i`: `n` passes are left. -/
def random_sample_init : Nat → Nat → List Nat → Res (List Nat)
  | 0, _, sample => Except.ok sample
  | n + 1, i, sample => do
      let sample1 ← vec_store sample i i
      random_sample_init n (i + 1) sample1

/-- The second loop of `random_sample`, `for (i = sample_size; i < n; ++i)`: `k`
passes are left; `draw i` is the number that the distribution on `[0, i]`
yields in the pass for `i`. -/
def random_sample_draw (sample_size : Nat) (draw : Nat → Nat) :
    Nat → Nat → List Nat → Res (List Nat)
  | 0, _, sample => Except.ok sample
  | k + 1, i, sample =>
      let r := draw i
      if r < sample_size then do
        let sample1 ← vec_store sample r i
        random_sample_draw sample_size draw k (i + 1) sample1
      else random_sample_draw sample_size draw k (i + 1) sample

/-- The function `random_sample` of `rand.cpp`, for the outcomes `draw` of the
random draws. -/
def random_sample (n sample_size : Nat) (draw : Nat → Nat) : Res (List Nat) := do
  let sample_size := if sample_size > n then n else sample_size
  let sample ← random_sample_init sample_size 0 (List.replicate sample_size 0)
  random_sample_draw sample_size draw (n - sample_size) sample_size sample

/-- The struct `FixedIterationsStopCondition` of `stopcondition.h`. -/
structure FixedIterationsStopCondition where
  iteration_ : Nat
  max_iterations_ : Nat
deriving DecidableEq, Repr

namespace FixedIterationsStopCondition

/-- The constructor `FixedIterationsStopCondition(max_iterations)`. -/
def ctor (max_iterations : Nat) : FixedIterationsStopCondition :=
  { iteration_ := 0, max_iterations_ := max_iterations }

/-- The method `start`. -/
def start (c : FixedIterationsStopCondition) : FixedIterationsStopCondition :=
  { c with iteration_ := 0 }

/-- The method `next_iteration`; `++iteration_` is an increment of a
`uint32_t`. -/
def next_iteration (c : FixedIterationsStopCondition) : FixedIterationsStopCondition :=
  if c.iteration_ < c.max_iterations_ then
    { c with iteration_ := (c.iteration_ + 1) % 4294967296 }
  else c

/-- The method `is_reached`. -/
def is_reached (c : FixedIterationsStopCondition) : Bool :=
  c.iteration_ == c.max_iterations_

/-- The method `get_iteration`. -/
def get_iteration (c : FixedIterationsStopCondition) : Nat :=
  c.iteration_

end FixedIterationsStopCondition

/-! ## Definitions: markets that satisfy the remaining demand: claim C30 -/

/-- A row of the table `market_product_offers_` as `load_from_file` builds it
from the offers of one market: `product_count_` default offers, then
`mpo_row.at(offer.product_id_) = offer` for every offer of the market. -/
def built_row (product_count : Nat) (offers : List ProductOffer) : List ProductOffer :=
  offers.foldl (fun row o => row.set o.product_id_ o)
    (List.replicate product_count ⟨0, 0, 0, 0⟩)

/-- The table `market_product_offers_` is the one that `load_from_file` builds
from `market_offers_`. -/
def Instance.TableBuilt (inst : Instance) : Prop :=
  inst.market_product_offers_ = inst.market_offers_.map (built_row inst.product_count_)

/-! ## Definitions: wrapped iterators: reversal and rotation -/

/-- An iterator that stands `off` places after its anchor and has not come
back to it. -/
def WrappedIterator.Good (len : Nat) (w : WrappedIterator) (off : Nat) : Prop :=
  w.anchor_ < len ∧ off < len ∧ w.it_ = (w.anchor_ + off) % len ∧ w.at_the_end_ = false
    ∧ (w.wrapped_ = true → len ≤ w.anchor_ + off)

/-! ## Definitions: rotated tours and the move of perform_2_opt_move -/

/-- The value `change_2opt` that `three_opt_nn` computes for the route
positions `i` and `j`, the positions `i + 1` and `j + 1` taken modulo the
length of the route. -/
def change_2opt (inst : Instance) (route : List Nat) (i j : Nat) : Int :=
  inst.dist (route.getD i 0) (route.getD ((i + 1) % route.length) 0)
    + inst.dist (route.getD j 0) (route.getD ((j + 1) % route.length) 0)
    - inst.dist (route.getD i 0) (route.getD j 0)
    - inst.dist (route.getD ((i + 1) % route.length) 0) (route.getD ((j + 1) % route.length) 0)

/-! ## Definitions: the blocks of perform_3_opt_move -/

/-- A list, reversed when the flag is set. -/
def rev_if (b : Bool) (l : List Nat) : List Nat := if b then l.reverse else l

/-- The lists of nearest neighbours as `calc_nearest_neighbors` builds them:
one list for every node, holding the other nodes of the instance (in the order
of their distance from the node). -/
def Instance.NNBuilt (inst : Instance) : Prop :=
  inst.nn_lists_.length = inst.dimension_
    ∧ ∀ m < inst.dimension_, (inst.nn_lists_.getD m []).Perm ((List.range inst.dimension_).erase m)

namespace Ant

/-- The loop `for (i = 0; i < nn_count; ++i)` of `Ant::get_candidate_markets`:
`n` passes are left. -/
def candidate_loop (ant : Ant) (all_nn : List Nat) : Nat → Nat → List Nat → Res (List Nat)
  | 0, _, cand => Except.ok cand
  | n + 1, i, cand => do
      let market ← vec_at all_nn i
      if market ≠ 0 then do
        let used ← ant.solution_.is_market_used market
        if !used then candidate_loop ant all_nn n (i + 1) (cand ++ [market])
        else candidate_loop ant all_nn n (i + 1) cand
      else candidate_loop ant all_nn n (i + 1) cand

/-- The method `Ant::get_candidate_markets`; `route_.back()` of an empty route
is undefined. -/
def get_candidate_markets (inst : Instance) (ant : Ant) (nn_count : Nat) : Res (List Nat) :=
  match ant.solution_.route_.getLast? with
  | none => Except.error Fault.undefined
  | some current_market => do
      let all_nn ← vec_at inst.nn_lists_ current_market
      let cand ← candidate_loop ant all_nn nn_count 0 []
      if cand.length > 1 then Except.ok cand
      else Except.ok ant.solution_.get_unselected_markets

end Ant

/-- The candidates in the words of the specification: the markets among the
first `nn_count` nearest neighbours of the current market that are not the
depot and not in the route. -/
def spec_nn_candidates (inst : Instance) (ant : Ant) (nn_count : Nat) : List Nat :=
  ((inst.nn_lists_.getD (ant.solution_.route_.getLastD 0) []).take nn_count).filter
    (fun m => decide (m ≠ 0) && decide (m ∉ ant.solution_.route_))

/-- An ant on `example_instance` whose solution is `example_state`, the route
`0, 3, 1`. -/
def example_ant : Ant :=
  ⟨example_state, 1, 3, 2, 2, 0, 0, 0⟩

/-! ## Definitions: the search loops of three_opt_nn -/

namespace ACO

/-- The statements of `ACO::run_init` that set up the trace of the best costs
found without local search. -/
def run_init_no_ls (aco : ACO) : ACO :=
  { aco with global_best_cost_no_ls_ := 0, global_best_values_no_ls_ := [] }

/-- The update of the trace in `ACO::run`, for the cost of the iteration-best
ant: `if (!global_best_cost_no_ls_ || global_best_cost_no_ls_ > cost)`. -/
def record_no_ls (aco : ACO) (cost : Int) : ACO :=
  if aco.global_best_cost_no_ls_ = 0 ∨ aco.global_best_cost_no_ls_ > cost then
    { aco with
        global_best_cost_no_ls_ := cost
        global_best_values_no_ls_ := aco.global_best_values_no_ls_ ++ [cost] }
  else aco

/-- The statements of the pheromone reset in `ACO::run` that concern the
trace. -/
def reset_no_ls (aco : ACO) : ACO :=
  { aco with global_best_cost_no_ls_ := INT_MAX, global_best_values_no_ls_ := [] }

/-- The loop `for (auto &ant : ants_)` of `ACO::apply_local_search`;
`local_search` stands for the function of this name of `aco.cpp` applied to
the instance, and a null `global_best_` cannot be dereferenced. -/
def local_search_ants (local_search : Solution → Int → Res Solution)
    (global_best : Option Ant) (track_threshold : Int) : List Ant → Res (List Ant)
  | [] => Except.ok []
  | ant :: rest => do
      let ant1 ←
        if ant.cost ≤ track_threshold then
          match global_best with
          | none => Except.error Fault.undefined
          | some gb => do
              let sol ← local_search ant.solution_ gb.cost
              Except.ok { ant with solution_ := sol }
        else Except.ok ant
      let rest1 ← local_search_ants local_search global_best track_threshold rest
      Except.ok (ant1 :: rest1)

/-- The method `ACO::apply_local_search`; `local_search` stands for the
function of this name of `aco.cpp` applied to the instance.  The ants are
held by value, so that the result shows the ants of `ants_` only. -/
def apply_local_search (local_search : Solution → Int → Res Solution) (aco : ACO) :
    Res ACO := do
  let aco1 ←
    if aco.current_iteration_ = 200 then
      match aco.pheromone_ with
      | none => Except.error Fault.undefined
      | some ph =>
        Except.ok { aco with pheromone_ := some (ph.set_all_trails aco.max_pheromone_) }
    else Except.ok aco
  if aco1.use_local_search_ && decide (aco1.current_iteration_ ≥ 200) then do
    let track_size := aco1.global_best_values_no_ls_.length
    let in_track_index := track_size - min track_size 5
    let track_threshold ← vec_idx aco1.global_best_values_no_ls_ in_track_index
    let ants ← local_search_ants local_search aco1.global_best_ track_threshold aco1.ants_
    Except.ok { aco1 with ants_ := ants }
  else Except.ok aco1

end ACO

/-- The states of the trace members of `ACO` during `ACO::run`: after
`run_init`, after the update for the cost of an iteration-best ant (an `int`),
after a pheromone reset, and after statements that leave the two members
alone. -/
inductive NoLsReachable : ACO → Prop
  | init (aco : ACO) : NoLsReachable aco.run_init_no_ls
  | record {aco : ACO} (cost : Int) : NoLsReachable aco → cost ≤ INT_MAX →
      NoLsReachable (aco.record_no_ls cost)
  | reset {aco : ACO} : NoLsReachable aco → NoLsReachable aco.reset_no_ls
  | other {aco : ACO} (aco1 : ACO) : NoLsReachable aco →
      aco1.global_best_cost_no_ls_ = aco.global_best_cost_no_ls_ →
      aco1.global_best_values_no_ls_ = aco.global_best_values_no_ls_ → NoLsReachable aco1

/-- The threshold in the words of the specification: the fifth most recent
entry of the trace when it has at least five entries, and its oldest entry
otherwise. -/
def spec_track_threshold (values : List Int) : Option Int :=
  if 5 ≤ values.length then values[values.length - 5]? else values[0]?

/-- A state of `ACO::run` at iteration 250 with local search enabled, a trace
of six costs, and three ants of the costs `4`, `7` and `5`. -/
def local_search_test_aco : ACO :=
  { pheromone_ := some (BasicPheromone.ctor 4 true (1 / 10) (1 / 2))
    ants_ :=
      [⟨{ Solution.init_state example_instance with cost_ := 4 }, 1, 3, 2, 2, 0, 0, 0⟩,
       ⟨{ Solution.init_state example_instance with cost_ := 7 }, 1, 3, 2, 2, 0, 0, 1⟩,
       ⟨{ Solution.init_state example_instance with cost_ := 5 }, 1, 3, 2, 2, 0, 0, 2⟩]
    global_best_ := some ⟨{ Solution.init_state example_instance with cost_ := 3 }, 1, 3, 2, 2, 0, 0, 0⟩
    ants_count_ := 3
    evaporation_rate_ := 99 / 100
    cand_list_size_ := 3
    use_local_search_ := true
    initial_pheromone_ := 0
    min_pheromone_ := 1 / 10
    max_pheromone_ := 1 / 2
    greedy_solution_value_ := 0
    global_best_cost_no_ls_ := 4
    global_best_values_no_ls_ := [9, 8, 6, 5, 5, 4]
    current_iteration_ := 250
    restart_best_ := none
    restart_best_found_iteration_ := 10
    pheromone_reset_iteration_ := 0
    u_gb_ := 1
    iteration_best_ := none
    heuristic_ := []
    ant_phmem_samples_ := [] }

/-! ## Definitions: removal cost and the drop heuristic: claims C38, C39 -/

/-- The states of a `Solution` reached from the constructor by calls of
`push_back_market` and `insert_market_at_pos` that return. -/
inductive Inserted (inst : Instance) : Solution → Prop
  | init {s : Solution} : Solution.init inst = Except.ok s → Inserted inst s
  | push_back {s t : Solution} (market_id : Nat) :
      Inserted inst s → s.push_back_market inst market_id = Except.ok t → Inserted inst t
  | insert {s t : Solution} (market_id index : Nat) :
      Inserted inst s → s.insert_market_at_pos inst market_id index = Except.ok t →
      Inserted inst t

/-- While markets are only inserted, the remaining demand of a product is `0`
once the solution holds an offer for it and the demand of the instance before. -/
def Solution.DemandByOffers (inst : Instance) (s : Solution) : Prop :=
  s.product_offers_.length = inst.product_count_
    ∧ s.demand_remaining_.length = inst.product_count_
    ∧ ∀ p, s.demand_remaining_.getD p 0
        = if s.product_offers_.getD p [] = [] then inst.demands_.getD p 0 else 0

end TPP

namespace TPP

/-! ## Elementary facts about the embedding -/

@[simp] theorem ok_bind {α β : Type} (a : α) (f : α → Res β) :
    ((Except.ok a : Res α) >>= f) = f a := rfl

@[simp] theorem error_bind {α β : Type} (e : Fault) (f : α → Res β) :
    ((Except.error e : Res α) >>= f) = Except.error e := rfl

@[simp] theorem CHECK_F_true : CHECK_F true = Except.ok () := rfl

theorem vec_at_eq_ok {α : Type} {xs : List α} {i : Nat} {x : α} (h : xs[i]? = some x) :
    vec_at xs i = Except.ok x := by
  simp [vec_at, h]

theorem vec_idx_eq_ok {α : Type} {xs : List α} {i : Nat} {x : α} (h : xs[i]? = some x) :
    vec_idx xs i = Except.ok x := by
  simp [vec_idx, h]

theorem vec_at_ok_iff {α : Type} {xs : List α} {i : Nat} {x : α} :
    vec_at xs i = Except.ok x ↔ xs[i]? = some x := by
  unfold vec_at
  cases h : xs[i]? <;> simp

theorem vec_idx_ok_iff {α : Type} {xs : List α} {i : Nat} {x : α} :
    vec_idx xs i = Except.ok x ↔ xs[i]? = some x := by
  unfold vec_idx
  cases h : xs[i]? <;> simp

theorem getD_eq_of_getElem? {α : Type} {xs : List α} {i : Nat} {x d : α}
    (h : xs[i]? = some x) : xs.getD i d = x := by
  simp [List.getD_eq_getElem?_getD, h]

theorem getElem?_getD_of_lt {α : Type} {xs : List α} {i : Nat} (d : α) (h : i < xs.length) :
    xs[i]? = some (xs.getD i d) := by
  simp [List.getD_eq_getElem?_getD, List.getElem?_eq_getElem h]

theorem Instance.WF.index_lt {inst : Instance} (hwf : inst.WF) {a b : Nat}
    (ha : a < inst.dimension_) (hb : b < inst.dimension_) :
    a * inst.dimension_ + b < inst.edge_weights_1d_.length := by
  rw [hwf.weights_len]
  have h1 : a * inst.dimension_ + inst.dimension_ ≤ inst.dimension_ * inst.dimension_ := by
    have : (a + 1) * inst.dimension_ ≤ inst.dimension_ * inst.dimension_ :=
      Nat.mul_le_mul_right _ ha
    simpa [Nat.add_mul] using this
  omega

theorem get_travel_cost_eq {inst : Instance} (hwf : inst.WF) {a b : Nat}
    (ha : a < inst.dimension_) (hb : b < inst.dimension_) :
    inst.get_travel_cost a b = Except.ok (inst.dist a b) := by
  unfold Instance.get_travel_cost Instance.dist
  exact vec_at_eq_ok (getElem?_getD_of_lt 0 (hwf.index_lt ha hb))

theorem market_offers_at {inst : Instance} (hwf : inst.WF) {m : Nat}
    (hm : m < inst.dimension_) :
    vec_at inst.market_offers_ m = Except.ok (inst.market_offers_.getD m []) := by
  apply vec_at_eq_ok
  apply getElem?_getD_of_lt
  rw [hwf.offers_len]; exact hm

theorem Instance.WF.offer_product_lt {inst : Instance} (hwf : inst.WF) {m : Nat}
    {o : ProductOffer} (ho : o ∈ inst.market_offers_.getD m []) :
    o.product_id_ < inst.product_count_ := by
  by_cases hm : m < inst.market_offers_.length
  · have h := getElem?_getD_of_lt ([] : List ProductOffer) hm
    exact hwf.product_lt _ (List.mem_iff_getElem?.mpr ⟨m, h⟩) o ho
  · have : inst.market_offers_.getD m [] = [] := by
      simp [List.getD_eq_getElem?_getD, List.getElem?_eq_none (Nat.le_of_not_lt hm)]
    rw [this] at ho
    exact absurd ho (List.not_mem_nil _)

theorem Instance.WF.offer_market_eq {inst : Instance} (hwf : inst.WF) {m : Nat}
    {o : ProductOffer} (ho : o ∈ inst.market_offers_.getD m []) : o.market_id_ = m := by
  by_cases hm : m < inst.dimension_
  · exact hwf.market_eq m hm o ho
  · have : inst.market_offers_.getD m [] = [] := by
      have h : inst.market_offers_.length ≤ m := by rw [hwf.offers_len]; omega
      simp [List.getD_eq_getElem?_getD, List.getElem?_eq_none h]
    rw [this] at ho
    exact absurd ho (List.not_mem_nil _)

/-! ## Travel cost of a route -/

theorem path_cost_append_cons (inst : Instance) (l1 : List Nat) (h1 : l1 ≠ []) (x : Nat)
    (l2 : List Nat) :
    path_cost inst (l1 ++ x :: l2)
      = path_cost inst l1 + inst.dist (l1.getLast h1) x + path_cost inst (x :: l2) := by
  induction l1 with
  | nil => exact absurd rfl h1
  | cons a t ih =>
    cases t with
    | nil => simp [path_cost]
    | cons b t2 =>
      have hne : (b :: t2) ≠ [] := by simp
      have h2 := ih hne
      have h3 : path_cost inst (a :: b :: t2 ++ x :: l2)
          = inst.dist a b + path_cost inst (b :: t2 ++ x :: l2) := rfl
      have h4 : path_cost inst (a :: b :: t2) = inst.dist a b + path_cost inst (b :: t2) := rfl
      rw [h3, h2, h4, List.getLast_cons hne]
      ring

end TPP

namespace TPP

theorem tour_cost_cons (inst : Instance) (a : Nat) (rest : List Nat) :
    tour_cost inst (a :: rest)
      = path_cost inst (a :: rest) + inst.dist ((a :: rest).getLast (by simp)) a := rfl

theorem tour_cost_split_insert (inst : Instance) (a : Nat) (t1 l2 : List Nat) (m : Nat) :
    tour_cost inst ((a :: t1) ++ m :: l2)
      = tour_cost inst ((a :: t1) ++ l2)
        + inst.dist ((a :: t1).getLast (by simp)) m + inst.dist m ((l2 ++ [a]).head (by simp))
        - inst.dist ((a :: t1).getLast (by simp)) ((l2 ++ [a]).head (by simp)) := by
  have hne : (a :: t1) ≠ [] := by simp
  cases l2 with
  | nil =>
    have e1 : tour_cost inst ((a :: t1) ++ [m])
        = path_cost inst ((a :: t1) ++ [m]) + inst.dist m a := by
      have : ((a :: t1) ++ [m]) = a :: (t1 ++ [m]) := rfl
      rw [this, tour_cost_cons]
      congr 2
      simp
    rw [e1, path_cost_append_cons inst (a :: t1) hne m []]
    simp only [List.append_nil, tour_cost_cons, List.nil_append, List.head_cons, path_cost]
    ring
  | cons x l3 =>
    have e1 : tour_cost inst ((a :: t1) ++ m :: x :: l3)
        = path_cost inst ((a :: t1) ++ m :: x :: l3)
          + inst.dist ((x :: l3).getLast (by simp)) a := by
      have : ((a :: t1) ++ m :: x :: l3) = a :: (t1 ++ m :: x :: l3) := rfl
      rw [this, tour_cost_cons]
      congr 2
      simp [List.getLast_cons, List.getLast_append]
    have e2 : tour_cost inst ((a :: t1) ++ x :: l3)
        = path_cost inst ((a :: t1) ++ x :: l3)
          + inst.dist ((x :: l3).getLast (by simp)) a := by
      have : ((a :: t1) ++ x :: l3) = a :: (t1 ++ x :: l3) := rfl
      rw [this, tour_cost_cons]
      congr 2
      simp [List.getLast_cons, List.getLast_append]
    rw [e1, e2, path_cost_append_cons inst (a :: t1) hne m (x :: l3),
      path_cost_append_cons inst (a :: t1) hne x l3]
    simp only [List.cons_append, List.head_cons, path_cost]
    ring

theorem tour_cost_insert (inst : Instance) (route : List Nat) (m idx : Nat)
    (h0 : 0 < idx) (hle : idx ≤ route.length) :
    tour_cost inst (vec_insert route idx m)
      = tour_cost inst route + inst.dist (route.getD (idx - 1) 0) m
        + inst.dist m (route.getD (idx % route.length) 0)
        - inst.dist (route.getD (idx - 1) 0) (route.getD (idx % route.length) 0) := by
  obtain ⟨a, t1, h1⟩ : ∃ a t1, route.take idx = a :: t1 := by
    cases hr : route with
    | nil => simp [hr] at hle; omega
    | cons a t =>
      obtain ⟨k, rfl⟩ : ∃ k, idx = k + 1 := ⟨idx - 1, by omega⟩
      exact ⟨a, t.take k, by simp⟩
  have hsplit : route = (a :: t1) ++ route.drop idx := by
    rw [← h1, List.take_append_drop]
  have hlen1 : (a :: t1).length = idx := by
    rw [← h1, List.length_take]; omega
  have hprev : route.getD (idx - 1) 0 = (a :: t1).getLast (by simp) := by
    rw [List.getLast_eq_getElem]
    have hlt : idx - 1 < (a :: t1).length := by omega
    have : route[idx - 1]? = some ((a :: t1)[idx - 1]) := by
      rw [hsplit, List.getElem?_append_left hlt, List.getElem?_eq_getElem hlt]
    rw [getD_eq_of_getElem? this]
    congr 1
    omega
  have hnext : route.getD (idx % route.length) 0 = ((route.drop idx) ++ [a]).head (by simp) := by
    have hpos : 0 < route.length := by omega
    have ha0 : route[0]? = some a := by
      rw [hsplit]; simp
    by_cases hidx : idx = route.length
    · have hd : route.drop idx = [] := by simp [hidx]
      simp only [hd, List.nil_append, List.head_cons]
      rw [hidx, Nat.mod_self]
      exact getD_eq_of_getElem? ha0
    · have hlt : idx < route.length := by omega
      rw [Nat.mod_eq_of_lt hlt]
      have hd : route.drop idx = route[idx] :: route.drop (idx + 1) :=
        List.drop_eq_getElem_cons hlt
      simp only [hd, List.cons_append, List.head_cons]
      exact getD_eq_of_getElem? (List.getElem?_eq_getElem hlt)
  have hins : vec_insert route idx m = (a :: t1) ++ m :: route.drop idx := by
    unfold vec_insert; rw [h1]
  rw [hins, tour_cost_split_insert, hprev, hnext, ← hsplit]

end TPP

namespace TPP

theorem vec_insert_eraseIdx {α : Type} (l : List α) (pos : Nat) (h : pos < l.length) :
    vec_insert (l.eraseIdx pos) pos l[pos] = l := by
  unfold vec_insert
  rw [List.eraseIdx_eq_take_drop_succ]
  have hlen : (List.take pos l).length = pos := by
    rw [List.length_take]; omega
  have h1 : List.take pos (List.take pos l ++ List.drop (pos + 1) l) = List.take pos l := by
    rw [List.take_append_eq_append_take, hlen]; simp
  have h2 : List.drop pos (List.take pos l ++ List.drop (pos + 1) l) = List.drop (pos + 1) l := by
    rw [List.drop_append_eq_append_drop, hlen]; simp
  rw [h1, h2]
  have h3 : l[pos] :: List.drop (pos + 1) l = List.drop pos l :=
    (List.drop_eq_getElem_cons h).symm
  rw [h3, List.take_append_drop]

theorem eraseIdx_vec_insert {α : Type} (l : List α) (idx : Nat) (x : α) (h : idx ≤ l.length) :
    (vec_insert l idx x).eraseIdx idx = l := by
  unfold vec_insert
  have hlen : (List.take idx l).length = idx := by
    rw [List.length_take]; omega
  rw [List.eraseIdx_append_of_length_le (by omega)]
  simp [hlen]

theorem length_vec_insert {α : Type} (l : List α) (idx : Nat) (x : α) :
    (vec_insert l idx x).length = l.length + 1 := by
  unfold vec_insert
  have := List.take_append_drop idx l
  have h2 : (List.take idx l).length + (List.drop idx l).length = l.length := by
    rw [← List.length_append, this]
  simp only [List.length_append, List.length_cons]
  omega

theorem vec_insert_perm {α : Type} (l : List α) (idx : Nat) (x : α) :
    (vec_insert l idx x).Perm (x :: l) := by
  unfold vec_insert
  have h : (List.take idx l ++ x :: List.drop idx l).Perm
      (x :: (List.take idx l ++ List.drop idx l)) := List.perm_middle
  rwa [List.take_append_drop] at h

theorem vec_insert_length_eq {α : Type} (l : List α) (x : α) :
    vec_insert l l.length x = l ++ [x] := by
  simp [vec_insert]

theorem mem_vec_insert {α : Type} (l : List α) (idx : Nat) (x y : α) :
    y ∈ vec_insert l idx x ↔ y = x ∨ y ∈ l := by
  rw [(vec_insert_perm l idx x).mem_iff, List.mem_cons]

theorem getElem?_vec_insert_self {α : Type} (l : List α) (idx : Nat) (x : α)
    (h : idx ≤ l.length) : (vec_insert l idx x)[idx]? = some x := by
  unfold vec_insert
  have hlen : (List.take idx l).length = idx := by
    rw [List.length_take]; omega
  rw [List.getElem?_append_right (by omega)]
  simp [hlen]

theorem getElem?_vec_insert_lt {α : Type} (l : List α) (idx : Nat) (x : α) (j : Nat)
    (hj : j < idx) (h : idx ≤ l.length) : (vec_insert l idx x)[j]? = l[j]? := by
  unfold vec_insert
  have hlen : (List.take idx l).length = idx := by
    rw [List.length_take]; omega
  rw [List.getElem?_append_left (by omega), List.getElem?_take_of_lt hj]

theorem getElem?_vec_insert_gt {α : Type} (l : List α) (idx : Nat) (x : α) (j : Nat)
    (hj : idx < j) (h : idx ≤ l.length) : (vec_insert l idx x)[j]? = l[j - 1]? := by
  unfold vec_insert
  have hlen : (List.take idx l).length = idx := by
    rw [List.length_take]; omega
  rw [List.getElem?_append_right (by omega), hlen]
  obtain ⟨k, rfl⟩ : ∃ k, j = idx + 1 + k := ⟨j - idx - 1, by omega⟩
  have e1 : idx + 1 + k - idx = k + 1 := by omega
  have e2 : idx + 1 + k - 1 = idx + k := by omega
  rw [e1, e2, List.getElem?_cons_succ, List.getElem?_drop]

theorem tour_cost_erase (inst : Instance) (route : List Nat) (pos : Nat)
    (h0 : 0 < pos) (hlt : pos < route.length) :
    tour_cost inst (route.eraseIdx pos)
      = tour_cost inst route
        + inst.dist (route.getD (pos - 1) 0) (route.getD ((pos + 1) % route.length) 0)
        - inst.dist (route.getD (pos - 1) 0) (route.getD pos 0)
        - inst.dist (route.getD pos 0) (route.getD ((pos + 1) % route.length) 0) := by
  have hlen : (route.eraseIdx pos).length = route.length - 1 := List.length_eraseIdx_of_lt hlt
  have hle : pos ≤ (route.eraseIdx pos).length := by omega
  have hins := tour_cost_insert inst (route.eraseIdx pos) route[pos] pos h0 hle
  rw [vec_insert_eraseIdx route pos hlt] at hins
  have hprev : (route.eraseIdx pos).getD (pos - 1) 0 = route.getD (pos - 1) 0 := by
    simp only [List.getD_eq_getElem?_getD]
    rw [List.getElem?_eraseIdx, if_pos (by omega)]
  have hnext : (route.eraseIdx pos).getD (pos % (route.eraseIdx pos).length) 0
      = route.getD ((pos + 1) % route.length) 0 := by
    simp only [List.getD_eq_getElem?_getD]
    rw [hlen]
    by_cases hp : pos + 1 = route.length
    · have e1 : pos % (route.length - 1) = 0 := by
        have : route.length - 1 = pos := by omega
        rw [this, Nat.mod_self]
      have e2 : (pos + 1) % route.length = 0 := by rw [hp, Nat.mod_self]
      rw [e1, e2, List.getElem?_eraseIdx, if_pos h0]
    · have e1 : pos % (route.length - 1) = pos := Nat.mod_eq_of_lt (by omega)
      have e2 : (pos + 1) % route.length = pos + 1 := Nat.mod_eq_of_lt (by omega)
      rw [e1, e2, List.getElem?_eraseIdx, if_neg (by omega)]
  have hrem : route.getD pos 0 = route[pos] :=
    getD_eq_of_getElem? (List.getElem?_eq_getElem hlt)
  rw [hprev, hnext] at hins
  rw [hrem]
  linarith

theorem sum_set_int (l : List Int) (i : Nat) (v : Int) (h : i < l.length) :
    (l.set i v).sum = l.sum - l.getD i 0 + v := by
  induction l generalizing i with
  | nil => simp at h
  | cons a t ih =>
    cases i with
    | zero => simp; ring
    | succ k =>
      have hk : k < t.length := by simpa using h
      simp only [List.set_cons_succ, List.sum_cons, ih k hk, List.getD_cons_succ]
      ring

end TPP

namespace TPP

open Solution

/-! ## Sorted lists of offers -/

theorem is_better_offer_iff (a b : ProductOffer) :
    is_better_offer a b = true
      ↔ a.price_ < b.price_ ∨ (a.price_ = b.price_ ∧ b.quantity_ < a.quantity_) := by
  simp [is_better_offer]

theorem is_better_offer_false_iff (a b : ProductOffer) :
    is_better_offer a b = false
      ↔ b.price_ < a.price_ ∨ (a.price_ = b.price_ ∧ a.quantity_ ≤ b.quantity_) := by
  rw [← Bool.not_eq_true, is_better_offer_iff]
  constructor
  · intro h
    by_cases h1 : b.price_ < a.price_
    · exact Or.inl h1
    · right
      constructor
      · by_contra h2
        exact h (Or.inl (by omega))
      · by_contra h3
        have hp : a.price_ = b.price_ := by
          by_contra h2
          exact h (Or.inl (by omega))
        exact h (Or.inr ⟨hp, by omega⟩)
  · intro h h'
    omega

theorem is_better_offer_irrefl (a : ProductOffer) : is_better_offer a a = false := by
  rw [is_better_offer_false_iff]; right; exact ⟨rfl, le_refl _⟩

theorem not_better_trans {a b c : ProductOffer} (h1 : is_better_offer b a = false)
    (h2 : is_better_offer c b = false) : is_better_offer c a = false := by
  rw [is_better_offer_false_iff] at *
  omega

theorem not_better_of_better {a b : ProductOffer} (h : is_better_offer a b = true) :
    is_better_offer b a = false := by
  rw [is_better_offer_iff] at h
  rw [is_better_offer_false_iff]
  omega

theorem not_better_of_better_of_not_better {o e x : ProductOffer}
    (h1 : is_better_offer o e = true) (h2 : is_better_offer x e = false) :
    is_better_offer x o = false := by
  rw [is_better_offer_iff] at h1
  rw [is_better_offer_false_iff] at *
  omega

theorem offer_eq_of_keys {a b : ProductOffer} (h1 : is_better_offer a b = false)
    (h2 : is_better_offer b a = false) (h3 : offer_ne a b = false) : a = b := by
  rw [is_better_offer_false_iff] at h1 h2
  have hm : a.market_id_ = b.market_id_ ∧ a.product_id_ = b.product_id_ := by
    simpa [offer_ne] using h3
  cases a; cases b
  simp only [ProductOffer.mk.injEq] at *
  omega

theorem offer_ne_self (a : ProductOffer) : offer_ne a a = false := by
  simp [offer_ne]

theorem insert_sorted_nil {α : Type} (x : α) (pred : α → α → Bool) :
    insert_sorted [] x pred = [x] := rfl

theorem insert_sorted_cons {α : Type} (e : α) (es : List α) (x : α) (pred : α → α → Bool) :
    insert_sorted (e :: es) x pred
      = if pred x e then x :: e :: es else e :: insert_sorted es x pred := by
  unfold insert_sorted vec_insert
  by_cases h : pred x e = true
  · simp [upper_bound, h]
  · simp [upper_bound, h]

theorem insert_sorted_perm {α : Type} (l : List α) (x : α) (pred : α → α → Bool) :
    (insert_sorted l x pred).Perm (x :: l) :=
  vec_insert_perm l _ x

theorem insert_sorted_sorted {l : List ProductOffer} (o : ProductOffer) (h : OffersSorted l) :
    OffersSorted (insert_sorted l o is_better_offer) := by
  unfold OffersSorted at *
  induction l with
  | nil => simp [insert_sorted_nil]
  | cons e es ih =>
    rw [insert_sorted_cons]
    rw [List.pairwise_cons] at h
    by_cases hb : is_better_offer o e = true
    · rw [if_pos hb, List.pairwise_cons]
      refine ⟨?_, List.pairwise_cons.mpr h⟩
      intro x hx
      rcases List.mem_cons.mp hx with rfl | hx
      · exact not_better_of_better hb
      · exact not_better_of_better_of_not_better hb (h.1 x hx)
    · rw [if_neg hb, List.pairwise_cons]
      refine ⟨?_, ih h.2⟩
      intro x hx
      rcases List.mem_cons.mp ((insert_sorted_perm es o _).mem_iff.mp hx) with rfl | hx
      · simpa using hb
      · exact h.1 x hx

theorem front_price_insert_sorted (l : List ProductOffer) (o : ProductOffer) :
    front_price (insert_sorted l o is_better_offer)
      = match l with
        | [] => o.price_
        | front :: _ => if front.price_ > o.price_ then o.price_ else front.price_ := by
  cases l with
  | nil => rfl
  | cons e es =>
    rw [insert_sorted_cons]
    by_cases hb : is_better_offer o e = true
    · rw [if_pos hb]
      simp only [front_price]
      rw [is_better_offer_iff] at hb
      split <;> omega
    · rw [if_neg hb]
      simp only [front_price]
      have hb' : is_better_offer o e = false := by simpa using hb
      rw [is_better_offer_false_iff] at hb'
      split <;> omega

theorem insert_sorted_ne_nil {α : Type} (l : List α) (x : α) (pred : α → α → Bool) :
    insert_sorted l x pred ≠ [] := by
  intro h
  have := (insert_sorted_perm l x pred).length_eq
  rw [h] at this
  simp at this

theorem find_offer_loop_shift (o : ProductOffer) (xs : List ProductOffer) (i k : Nat) :
    find_offer_loop o xs i = Except.ok k → find_offer_loop o xs (i + 1) = Except.ok (k + 1) := by
  induction xs generalizing i with
  | nil => intro h; simp [find_offer_loop] at h
  | cons e es ih =>
    intro h
    unfold find_offer_loop at h ⊢
    by_cases hne : offer_ne e o = true
    · rw [if_pos hne] at h ⊢
      exact ih _ h
    · rw [if_neg hne] at h ⊢
      cases h; rfl

/-- Scanning a sorted range whose elements are all not better than `o` finds
an element equal to `o`, when `o` is in the range. -/
theorem find_offer_loop_spec (o : ProductOffer) (xs : List ProductOffer)
    (hs : OffersSorted xs) (hall : ∀ x ∈ xs, is_better_offer x o = false) (hmem : o ∈ xs) :
    ∃ k, find_offer_loop o xs 0 = Except.ok k ∧ xs[k]? = some o := by
  induction xs with
  | nil => exact absurd hmem (List.not_mem_nil _)
  | cons e es ih =>
    unfold OffersSorted at hs
    rw [List.pairwise_cons] at hs
    unfold find_offer_loop
    by_cases hne : offer_ne e o = true
    · rw [if_pos hne]
      have hmem' : o ∈ es := by
        rcases List.mem_cons.mp hmem with rfl | h
        · rw [offer_ne_self] at hne; exact absurd hne (by simp)
        · exact h
      obtain ⟨k, hk, hget⟩ := ih hs.2 (fun x hx => hall x (List.mem_cons_of_mem _ hx)) hmem'
      exact ⟨k + 1, find_offer_loop_shift o es 0 k hk, by simpa using hget⟩
    · rw [if_neg hne]
      refine ⟨0, rfl, ?_⟩
      have hne' : offer_ne e o = false := by simpa using hne
      have : e = o := by
        rcases List.mem_cons.mp hmem with rfl | h
        · rfl
        · exact offer_eq_of_keys (hall e (List.mem_cons_self _ _)) (hs.1 o h) hne'
      simp [this]

/-- The position found by `remove_product_offer` in a sorted list holding `o`. -/
theorem locate_offer_spec (o : ProductOffer) (l : List ProductOffer)
    (hs : OffersSorted l) (hmem : o ∈ l) :
    ∃ k, find_offer_loop o (l.drop (lower_bound is_better_offer o l))
            (lower_bound is_better_offer o l) = Except.ok k
      ∧ l[k]? = some o := by
  induction l with
  | nil => exact absurd hmem (List.not_mem_nil _)
  | cons e es ih =>
    have hs' := hs
    unfold OffersSorted at hs'
    rw [List.pairwise_cons] at hs'
    by_cases hb : is_better_offer e o = true
    · have hlb : lower_bound is_better_offer o (e :: es)
          = lower_bound is_better_offer o es + 1 := by
        simp [lower_bound, hb]
      have hmem' : o ∈ es := by
        rcases List.mem_cons.mp hmem with rfl | h
        · rw [is_better_offer_irrefl] at hb; exact absurd hb (by simp)
        · exact h
      obtain ⟨k, hk, hget⟩ := ih hs'.2 hmem'
      rw [hlb, List.drop_succ_cons]
      refine ⟨k + 1, ?_, by simpa using hget⟩
      have key : ∀ (xs : List ProductOffer) (i j : Nat),
          find_offer_loop o xs i = Except.ok j →
          find_offer_loop o xs (i + 1) = Except.ok (j + 1) :=
        fun xs i j => find_offer_loop_shift o xs i j
      exact key _ _ _ hk
    · have hb' : is_better_offer e o = false := by simpa using hb
      have hlb : lower_bound is_better_offer o (e :: es) = 0 := by
        simp [lower_bound, hb]
      rw [hlb, List.drop_zero]
      apply find_offer_loop_spec o (e :: es) hs
      · intro x hx
        rcases List.mem_cons.mp hx with rfl | hx
        · exact hb'
        · exact not_better_trans hb' (hs'.1 x hx)
      · exact hmem

theorem perm_cons_eraseIdx {α : Type} {l : List α} {k : Nat} {x : α} (h : l[k]? = some x) :
    l.Perm (x :: l.eraseIdx k) := by
  have hk : k < l.length := by
    by_contra hc
    rw [List.getElem?_eq_none (Nat.le_of_not_lt hc)] at h
    exact absurd h (by simp)
  have hx : l[k] = x := by
    rw [List.getElem?_eq_getElem hk] at h
    exact Option.some.inj h
  have h1 := vec_insert_eraseIdx l k hk
  have h2 := vec_insert_perm (l.eraseIdx k) k l[k]
  rw [h1, hx] at h2
  exact h2

theorem OffersSorted.eraseIdx {l : List ProductOffer} (h : OffersSorted l) (k : Nat) :
    OffersSorted (l.eraseIdx k) :=
  List.Pairwise.sublist (List.eraseIdx_sublist l k) h

end TPP

namespace TPP

/-! ## The sorted list of the products still needed -/

theorem nat_lower_bound_cons (p e : Nat) (es : List Nat) :
    lower_bound (fun a b => decide (a < b)) p (e :: es)
      = if e < p then lower_bound (fun a b => decide (a < b)) p es + 1 else 0 := by
  simp [lower_bound]

theorem nat_lower_bound_le (p : Nat) (l : List Nat) :
    lower_bound (fun a b => decide (a < b)) p l ≤ l.length := by
  induction l with
  | nil => simp [lower_bound]
  | cons e es ih =>
    rw [nat_lower_bound_cons]
    split
    · simp; exact ih
    · simp

theorem nat_lower_bound_getElem (p : Nat) (l : List Nat) (hs : l.Pairwise (· < ·))
    (hmem : p ∈ l) : l[lower_bound (fun a b => decide (a < b)) p l]? = some p := by
  induction l with
  | nil => exact absurd hmem (List.not_mem_nil _)
  | cons e es ih =>
    rw [List.pairwise_cons] at hs
    rw [nat_lower_bound_cons]
    by_cases h : e < p
    · rw [if_pos h]
      have hmem' : p ∈ es := by
        rcases List.mem_cons.mp hmem with rfl | h'
        · omega
        · exact h'
      simpa using ih hs.2 hmem'
    · rw [if_neg h]
      rcases List.mem_cons.mp hmem with rfl | h'
      · simp
      · have := hs.1 p h'
        omega

theorem nat_vec_insert_cons_succ (e : Nat) (es : List Nat) (k p : Nat) :
    vec_insert (e :: es) (k + 1) p = e :: vec_insert es k p := by
  simp [vec_insert]

theorem nat_lower_bound_insert_sorted (p : Nat) (l : List Nat) (hs : l.Pairwise (· < ·))
    (hmem : p ∉ l) :
    (vec_insert l (lower_bound (fun a b => decide (a < b)) p l) p).Pairwise (· < ·) := by
  induction l with
  | nil => simp [vec_insert, lower_bound]
  | cons e es ih =>
    rw [List.pairwise_cons] at hs
    have hpe : p ≠ e := fun h => hmem (h ▸ List.mem_cons_self _ _)
    have hpes : p ∉ es := fun h => hmem (List.mem_cons_of_mem _ h)
    rw [nat_lower_bound_cons]
    by_cases h : e < p
    · rw [if_pos h, nat_vec_insert_cons_succ, List.pairwise_cons]
      refine ⟨?_, ih hs.2 hpes⟩
      intro x hx
      rcases (mem_vec_insert es _ p x).mp hx with rfl | hx
      · exact h
      · exact hs.1 x hx
    · rw [if_neg h]
      have hlt : p < e := by omega
      simp only [vec_insert, List.take_zero, List.drop_zero, List.nil_append]
      rw [List.pairwise_cons]
      refine ⟨?_, List.pairwise_cons.mpr hs⟩
      intro x hx
      rcases List.mem_cons.mp hx with rfl | hx
      · exact hlt
      · have := hs.1 x hx
        omega

/-- The update of `remaining_products_` in `add_product_offer`. -/
theorem remaining_after_add (p : Nat) (l : List Nat) (hs : l.Pairwise (· < ·)) :
    let it := lower_bound (fun a b => decide (a < b)) p l
    let r := if l[it]? = some p then l.eraseIdx it else l
    (p ∈ l → r.Pairwise (· < ·) ∧ ∀ x, x ∈ r ↔ (x ∈ l ∧ x ≠ p)) := by
  intro it r hmem
  have hget : l[it]? = some p := nat_lower_bound_getElem p l hs hmem
  have hr : r = l.eraseIdx it := by simp [r, hget]
  rw [hr]
  refine ⟨List.Pairwise.sublist (List.eraseIdx_sublist l it) hs, ?_⟩
  have hperm := perm_cons_eraseIdx hget
  have hnd : (p :: l.eraseIdx it).Nodup :=
    hperm.nodup_iff.mp (hs.imp (fun h => Nat.ne_of_lt h))
  have hp : p ∉ l.eraseIdx it := (List.nodup_cons.mp hnd).1
  intro x
  rw [hperm.mem_iff, List.mem_cons]
  constructor
  · intro hx
    exact ⟨Or.inr hx, fun h => hp (h ▸ hx)⟩
  · rintro ⟨hx | hx, hne⟩
    · exact absurd hx hne
    · exact hx

/-- The update of `remaining_products_` in `remove_product_offer`. -/
theorem remaining_after_remove (p : Nat) (l : List Nat) (hs : l.Pairwise (· < ·)) :
    let it := lower_bound (fun a b => decide (a < b)) p l
    let r := if it = l.length then l ++ [p]
      else if l[it]? ≠ some p then vec_insert l it p else l
    (r.Pairwise (· < ·) ∧ ∀ x, x ∈ r ↔ (x = p ∨ x ∈ l)) := by
  intro it r
  by_cases hmem : p ∈ l
  · have hget : l[it]? = some p := nat_lower_bound_getElem p l hs hmem
    have hlt : it ≠ l.length := by
      intro h
      rw [h, List.getElem?_eq_none (le_refl _)] at hget
      exact absurd hget (by simp)
    have hr : r = l := by simp [r, hlt, hget]
    rw [hr]
    refine ⟨hs, fun x => ?_⟩
    constructor
    · exact fun h => Or.inr h
    · rintro (rfl | h)
      · exact hmem
      · exact h
  · have hget : l[it]? ≠ some p := by
      intro h
      exact hmem (List.mem_iff_getElem?.mpr ⟨it, h⟩)
    have hr : r = vec_insert l it p := by
      by_cases hlen : it = l.length
      · simp only [r, if_pos hlen]
        rw [hlen, vec_insert_length_eq]
      · simp [r, hlen, hget]
    rw [hr]
    exact ⟨nat_lower_bound_insert_sorted p l hs hmem, fun x => mem_vec_insert l it p x⟩

end TPP

namespace TPP

open Solution

/-! ## One offer added or removed -/

theorem getD_le_sum_of_nonneg (l : List Int) (i : Nat) (h : ∀ d ∈ l, 0 ≤ d) :
    l.getD i 0 ≤ l.sum := by
  by_cases hi : i < l.length
  · have h1 := sum_set_int l i 0 hi
    have h2 : 0 ≤ (l.set i 0).sum := by
      apply List.sum_nonneg
      intro d hd
      rcases List.mem_or_eq_of_mem_set hd with h' | h'
      · exact h d h'
      · omega
    omega
  · have : l.getD i 0 = 0 := by
      simp [List.getD_eq_getElem?_getD, List.getElem?_eq_none (Nat.le_of_not_lt hi)]
    rw [this]
    exact List.sum_nonneg h

theorem bind_of_map_eq_ok {α β γ : Type} {x : Res α} {f : α → β} {y : β}
    (h : Except.map f x = Except.ok y) (g : β → Res γ) :
    (x >>= fun r => g (f r)) = g y := by
  cases x with
  | error e => simp [Except.map] at h
  | ok a =>
    simp only [Except.map, Except.ok.injEq] at h
    simp [h]

theorem add_product_offer_eq {inst : Instance} (hwf : inst.WF) {s : Solution}
    (hp : s.PInv inst) {o : ProductOffer} (ho : o.product_id_ < inst.product_count_) :
    Except.map (fun r : Solution × Int => { r.1 with cost_ := r.1.cost_ + r.2 })
      (add_product_offer inst s o) = Except.ok (s.add_state o) := by
  have h1 : s.product_offers_[o.product_id_]? = some (s.product_offers_.getD o.product_id_ []) :=
    getElem?_getD_of_lt _ (by rw [hp.len_offers]; exact ho)
  have h2 : s.purchase_costs_[o.product_id_]? = some (s.purchase_costs_.getD o.product_id_ 0) :=
    getElem?_getD_of_lt _ (by rw [hp.len_costs]; exact ho)
  have h3 : s.demand_remaining_[o.product_id_]?
      = some (s.demand_remaining_.getD o.product_id_ 0) :=
    getElem?_getD_of_lt _ (by rw [hp.len_demand]; exact ho)
  have h4 : s.markets_per_product_[o.product_id_]?
      = some (s.markets_per_product_.getD o.product_id_ 0) :=
    getElem?_getD_of_lt _ (by rw [hp.len_mpp]; exact ho)
  obtain ⟨c, cs, hc⟩ : ∃ c cs,
      insert_sorted (s.product_offers_.getD o.product_id_ []) o is_better_offer = c :: cs := by
    cases h : insert_sorted (s.product_offers_.getD o.product_id_ []) o is_better_offer with
    | nil => exact absurd h (insert_sorted_ne_nil _ _ _)
    | cons c cs => exact ⟨c, cs, rfl⟩
  have h5 : 0 ≤ s.total_unsatisfied_demand_ - s.demand_remaining_.getD o.product_id_ 0 := by
    rw [hp.total]
    have := getD_le_sum_of_nonneg s.demand_remaining_ o.product_id_ hp.demand_nonneg
    omega
  unfold add_product_offer
  rw [hwf.uncapacitated]
  simp only [beq_self_eq_true, CHECK_F_true, ok_bind, vec_at_eq_ok h1, vec_idx_eq_ok h2,
    vec_idx_eq_ok h3, vec_at_eq_ok h3, vec_idx_eq_ok h4, hc,
    vec_idx_eq_ok (List.getElem?_cons_zero (a := c) (l := cs)), ge_iff_le, decide_eq_true h5,
    Except.map, add_state, front_price]
  by_cases hz : s.demand_remaining_.getD o.product_id_ 0 = 0
  · simp [hz]
  · simp [hz]

end TPP

namespace TPP

open Solution

theorem getD_set {α : Type} (l : List α) (i j : Nat) (v d : α) :
    (l.set i v).getD j d = if i = j ∧ i < l.length then v else l.getD j d := by
  simp only [List.getD_eq_getElem?_getD, List.getElem?_set]
  by_cases hij : i = j
  · subst hij
    by_cases hl : i < l.length
    · simp [hl]
    · simp [hl, List.getElem?_eq_none (Nat.le_of_not_lt hl)]
  · simp [hij]

theorem getD_set_self {α : Type} (l : List α) (i : Nat) (v d : α) (h : i < l.length) :
    (l.set i v).getD i d = v := by
  rw [getD_set]; simp [h]

theorem getD_set_ne {α : Type} (l : List α) (i j : Nat) (v d : α) (h : i ≠ j) :
    (l.set i v).getD j d = l.getD j d := by
  rw [getD_set]; simp [h]

theorem getD_mem_or_default {α : Type} (l : List α) (i : Nat) (d : α) :
    l.getD i d ∈ l ∨ l.getD i d = d := by
  by_cases hi : i < l.length
  · left
    have := getElem?_getD_of_lt d hi
    exact List.mem_iff_getElem?.mpr ⟨i, this⟩
  · right
    simp [List.getD_eq_getElem?_getD, List.getElem?_eq_none (Nat.le_of_not_lt hi)]

theorem Solution.PInv.sorted_getD {inst : Instance} {s : Solution} (hp : s.PInv inst) (p : Nat) :
    OffersSorted (s.product_offers_.getD p []) := by
  rcases getD_mem_or_default s.product_offers_ p [] with h | h
  · exact hp.sorted _ h
  · rw [h]; exact List.Pairwise.nil

theorem Solution.PInv.costs_getD {inst : Instance} {s : Solution} (hp : s.PInv inst) (p : Nat) :
    s.purchase_costs_.getD p 0 = front_price (s.product_offers_.getD p []) := by
  rw [hp.costs]
  simp only [List.getD_eq_getElem?_getD, List.getElem?_map]
  cases s.product_offers_[p]? <;> simp [front_price]

theorem Solution.PInv.add_state {inst : Instance} {s : Solution} (hp : s.PInv inst) {o : ProductOffer}
    (ho : o.product_id_ < inst.product_count_) : (s.add_state o).PInv inst := by
  have hlo : o.product_id_ < s.product_offers_.length := by rw [hp.len_offers]; exact ho
  have hlc : o.product_id_ < s.purchase_costs_.length := by rw [hp.len_costs]; exact ho
  have hld : o.product_id_ < s.demand_remaining_.length := by rw [hp.len_demand]; exact ho
  constructor
  · simp [Solution.add_state, hp.len_offers]
  · simp [Solution.add_state, hp.len_costs]
  · simp [Solution.add_state, hp.len_demand]
  · simp [Solution.add_state, hp.len_mpp]
  · intro l hl
    simp only [Solution.add_state] at hl
    rcases List.mem_or_eq_of_mem_set hl with h | h
    · exact hp.sorted l h
    · rw [h]; exact insert_sorted_sorted o (hp.sorted_getD _)
  · simp only [Solution.add_state, List.map_set, ← hp.costs]
  · intro d hd
    simp only [Solution.add_state] at hd
    rcases List.mem_or_eq_of_mem_set hd with h | h
    · exact hp.demand_nonneg d h
    · omega
  · intro p hne
    simp only [Solution.add_state] at hne ⊢
    by_cases hpe : o.product_id_ = p
    · subst hpe; exact getD_set_self _ _ _ _ hld
    · rw [getD_set_ne _ _ _ _ _ hpe] at hne ⊢
      exact hp.demand_zero p hne
  · simp only [Solution.add_state]
    by_cases hz : s.demand_remaining_.getD o.product_id_ 0 = 0
    · rw [if_pos hz]; exact hp.remaining_sorted
    · rw [if_neg hz]
      have hpos : 0 < s.demand_remaining_.getD o.product_id_ 0 := by
        rcases getD_mem_or_default s.demand_remaining_ o.product_id_ 0 with h | h
        · have := hp.demand_nonneg _ h; omega
        · exact absurd h hz
      exact (remaining_after_add o.product_id_ s.remaining_products_ hp.remaining_sorted
        ((hp.remaining_mem _).mpr hpos)).1
  · intro p
    simp only [Solution.add_state]
    by_cases hz : s.demand_remaining_.getD o.product_id_ 0 = 0
    · rw [if_pos hz]
      by_cases hpe : o.product_id_ = p
      · subst hpe
        rw [getD_set_self _ _ _ _ hld, hp.remaining_mem, hz]
      · rw [getD_set_ne _ _ _ _ _ hpe]; exact hp.remaining_mem p
    · rw [if_neg hz]
      have hpos : 0 < s.demand_remaining_.getD o.product_id_ 0 := by
        rcases getD_mem_or_default s.demand_remaining_ o.product_id_ 0 with h | h
        · have := hp.demand_nonneg _ h; omega
        · exact absurd h hz
      rw [(remaining_after_add o.product_id_ s.remaining_products_ hp.remaining_sorted
        ((hp.remaining_mem _).mpr hpos)).2 p]
      by_cases hpe : o.product_id_ = p
      · subst hpe
        rw [getD_set_self _ _ _ _ hld]
        simp
      · rw [getD_set_ne _ _ _ _ _ hpe, hp.remaining_mem]
        constructor
        · exact fun h => h.1
        · exact fun h => ⟨h, fun h' => hpe h'.symm⟩
  · simp only [Solution.add_state]
    rw [sum_set_int _ _ _ hld, hp.total]; ring
  · simp only [Solution.add_state]
    rw [sum_set_int _ _ _ hlc, hp.cost]; ring
  · intro p hnil hdem
    simp only [Solution.add_state] at hnil ⊢
    by_cases hpe : o.product_id_ = p
    · subst hpe
      rw [getD_set_self _ _ _ _ hlo] at hnil
      exact absurd hnil (insert_sorted_ne_nil _ _ _)
    · rw [getD_set_ne _ _ _ _ _ hpe] at hnil ⊢
      exact hp.demand_open p hnil hdem

end TPP

namespace TPP

open Solution

theorem locate_offer_getElem {o : ProductOffer} {l : List ProductOffer}
    (hs : OffersSorted l) (hmem : o ∈ l) :
    find_offer_loop o (l.drop (lower_bound is_better_offer o l))
        (lower_bound is_better_offer o l) = Except.ok (locate_offer o l)
      ∧ l[locate_offer o l]? = some o := by
  obtain ⟨k, hk, hget⟩ := locate_offer_spec o l hs hmem
  have : locate_offer o l = k := by
    unfold locate_offer; rw [hk]
  rw [this]
  exact ⟨hk, hget⟩

theorem lt_length_of_getElem? {α : Type} {l : List α} {k : Nat} {x : α} (h : l[k]? = some x) :
    k < l.length := by
  by_contra hc
  rw [List.getElem?_eq_none (Nat.le_of_not_lt hc)] at h
  exact absurd h (by simp)

theorem remove_product_offer_eq {inst : Instance} (hwf : inst.WF) {s : Solution}
    (hp : s.PInv inst) {o : ProductOffer} (ho : o.product_id_ < inst.product_count_)
    (hmem : o ∈ s.product_offers_.getD o.product_id_ []) :
    Except.map (fun r : Solution × Int => { r.1 with cost_ := r.1.cost_ + r.2 })
      (remove_product_offer inst s o) = Except.ok (s.remove_state o) := by
  have h1 : s.product_offers_[o.product_id_]? = some (s.product_offers_.getD o.product_id_ []) :=
    getElem?_getD_of_lt _ (by rw [hp.len_offers]; exact ho)
  have h2 : s.purchase_costs_[o.product_id_]? = some (s.purchase_costs_.getD o.product_id_ 0) :=
    getElem?_getD_of_lt _ (by rw [hp.len_costs]; exact ho)
  have h3 : s.demand_remaining_[o.product_id_]?
      = some (s.demand_remaining_.getD o.product_id_ 0) :=
    getElem?_getD_of_lt _ (by rw [hp.len_demand]; exact ho)
  have h4 : s.markets_per_product_[o.product_id_]?
      = some (s.markets_per_product_.getD o.product_id_ 0) :=
    getElem?_getD_of_lt _ (by rw [hp.len_mpp]; exact ho)
  obtain ⟨hk, hget⟩ := locate_offer_getElem (hp.sorted_getD o.product_id_) hmem
  have hlt := lt_length_of_getElem? hget
  have hne : locate_offer o (s.product_offers_.getD o.product_id_ [])
      ≠ (s.product_offers_.getD o.product_id_ []).length := Nat.ne_of_lt hlt
  have h5 : 0 ≤ s.total_unsatisfied_demand_ + 1 := by
    rw [hp.total]
    have := List.sum_nonneg hp.demand_nonneg
    omega
  unfold remove_product_offer
  rw [hwf.uncapacitated]
  simp only [beq_self_eq_true, CHECK_F_true, ok_bind, vec_at_eq_ok h1, hk, ne_eq, hne,
    not_false_eq_true, decide_True, vec_at_eq_ok h2, Solution.remove_state]
  cases herase : (s.product_offers_.getD o.product_id_ []).eraseIdx
      (locate_offer o (s.product_offers_.getD o.product_id_ [])) with
  | nil =>
    simp only [vec_idx_eq_ok h3, vec_idx_eq_ok h4, ok_bind, ge_iff_le, decide_eq_true h5,
      CHECK_F_true, Except.map]
  | cons c cs =>
    simp only [vec_idx_eq_ok h3, vec_idx_eq_ok h4, ok_bind, Except.map]

end TPP

namespace TPP

open Solution

theorem remove_state_product_offers (s : Solution) (o : ProductOffer) :
    (s.remove_state o).product_offers_
      = s.product_offers_.set o.product_id_
          ((s.product_offers_.getD o.product_id_ []).eraseIdx
            (locate_offer o (s.product_offers_.getD o.product_id_ []))) := by
  unfold Solution.remove_state
  simp only
  generalize (s.product_offers_.getD o.product_id_ []).eraseIdx
    (locate_offer o (s.product_offers_.getD o.product_id_ [])) = e
  cases e <;> simp [front_price]

theorem remove_state_purchase_costs (s : Solution) (o : ProductOffer) :
    (s.remove_state o).purchase_costs_
      = s.purchase_costs_.set o.product_id_
          (front_price ((s.product_offers_.getD o.product_id_ []).eraseIdx
            (locate_offer o (s.product_offers_.getD o.product_id_ [])))) := by
  unfold Solution.remove_state
  simp only
  generalize (s.product_offers_.getD o.product_id_ []).eraseIdx
    (locate_offer o (s.product_offers_.getD o.product_id_ [])) = e
  cases e <;> simp [front_price]

theorem remove_state_cost (s : Solution) (o : ProductOffer) :
    (s.remove_state o).cost_
      = s.cost_ + (front_price ((s.product_offers_.getD o.product_id_ []).eraseIdx
            (locate_offer o (s.product_offers_.getD o.product_id_ [])))
          - s.purchase_costs_.getD o.product_id_ 0) := by
  unfold Solution.remove_state
  simp only
  generalize (s.product_offers_.getD o.product_id_ []).eraseIdx
    (locate_offer o (s.product_offers_.getD o.product_id_ [])) = e
  cases e <;> simp [front_price]

theorem remove_state_frame (s : Solution) (o : ProductOffer) :
    (s.remove_state o).route_ = s.route_
      ∧ (s.remove_state o).travel_cost_ = s.travel_cost_
      ∧ (s.remove_state o).market_selected_ = s.market_selected_
      ∧ (s.remove_state o).unselected_markets_ = s.unselected_markets_ := by
  unfold Solution.remove_state
  simp only
  split <;> simp

theorem add_state_frame (s : Solution) (o : ProductOffer) :
    (s.add_state o).route_ = s.route_
      ∧ (s.add_state o).travel_cost_ = s.travel_cost_
      ∧ (s.add_state o).market_selected_ = s.market_selected_
      ∧ (s.add_state o).unselected_markets_ = s.unselected_markets_ := by
  simp [Solution.add_state]

theorem Solution.PInv.remove_state {inst : Instance} {s : Solution} (hp : s.PInv inst)
    {o : ProductOffer} (ho : o.product_id_ < inst.product_count_)
    (hmem : o ∈ s.product_offers_.getD o.product_id_ []) : (s.remove_state o).PInv inst := by
  have hlo : o.product_id_ < s.product_offers_.length := by rw [hp.len_offers]; exact ho
  have hlc : o.product_id_ < s.purchase_costs_.length := by rw [hp.len_costs]; exact ho
  have hld : o.product_id_ < s.demand_remaining_.length := by rw [hp.len_demand]; exact ho
  have hz : s.demand_remaining_.getD o.product_id_ 0 = 0 :=
    hp.demand_zero _ (List.ne_nil_of_mem hmem)
  have hset0 : s.demand_remaining_.set o.product_id_ 0 = s.demand_remaining_ := by
    apply List.ext_getElem?
    intro j
    rw [List.getElem?_set]
    by_cases hj : o.product_id_ = j
    · subst hj
      simp only [if_true, if_pos hld]
      rw [getElem?_getD_of_lt 0 hld, hz]
    · simp [hj]
  have hso := remove_state_product_offers s o
  have hsc := remove_state_purchase_costs s o
  have hcost := remove_state_cost s o
  have hfr := remove_state_frame s o
  have hsorted : ∀ l ∈ (s.remove_state o).product_offers_, OffersSorted l := by
    intro l hl
    rw [hso] at hl
    rcases List.mem_or_eq_of_mem_set hl with h | h
    · exact hp.sorted l h
    · rw [h]; exact (hp.sorted_getD _).eraseIdx _
  have hcosts : (s.remove_state o).purchase_costs_
      = (s.remove_state o).product_offers_.map front_price := by
    rw [hso, hsc, List.map_set, ← hp.costs]
  have hc : (s.remove_state o).cost_
      = (s.remove_state o).travel_cost_ + (s.remove_state o).purchase_costs_.sum := by
    rw [hcost, hfr.2.1, hsc, sum_set_int _ _ _ hlc, hp.cost]; ring
  cases herase : (s.product_offers_.getD o.product_id_ []).eraseIdx
      (locate_offer o (s.product_offers_.getD o.product_id_ [])) with
  | cons c cs =>
    have hdr : (s.remove_state o).demand_remaining_ = s.demand_remaining_ := by
      unfold Solution.remove_state; simp only [herase]; exact hset0
    have hrem : (s.remove_state o).remaining_products_ = s.remaining_products_ := by
      unfold Solution.remove_state; simp only [herase]
    have htot : (s.remove_state o).total_unsatisfied_demand_ = s.total_unsatisfied_demand_ := by
      unfold Solution.remove_state; simp only [herase]
    have hmpp : (s.remove_state o).markets_per_product_.length = inst.product_count_ := by
      unfold Solution.remove_state; simp only [herase]; simp [hp.len_mpp]
    refine ⟨by rw [hso]; simp [hp.len_offers], by rw [hsc]; simp [hp.len_costs],
      by rw [hdr]; exact hp.len_demand, hmpp, hsorted, hcosts,
      by rw [hdr]; exact hp.demand_nonneg, ?_, by rw [hrem]; exact hp.remaining_sorted,
      by rw [hrem, hdr]; exact hp.remaining_mem, by rw [htot, hdr]; exact hp.total, hc, ?_⟩
    · intro p hne
      rw [hdr]
      rw [hso] at hne
      by_cases hpe : o.product_id_ = p
      · subst hpe; exact hz
      · rw [getD_set_ne _ _ _ _ _ hpe] at hne
        exact hp.demand_zero p hne
    · intro p hnil hdem
      rw [hdr]
      rw [hso] at hnil
      by_cases hpe : o.product_id_ = p
      · subst hpe
        rw [getD_set_self _ _ _ _ hlo, herase] at hnil
        exact absurd hnil (by simp)
      · rw [getD_set_ne _ _ _ _ _ hpe] at hnil
        exact hp.demand_open p hnil hdem
  | nil =>
    have hdr : (s.remove_state o).demand_remaining_ = s.demand_remaining_.set o.product_id_ 1 := by
      unfold Solution.remove_state; simp only [herase]
    have htot : (s.remove_state o).total_unsatisfied_demand_
        = s.total_unsatisfied_demand_ + 1 := by
      unfold Solution.remove_state; simp only [herase]
    have hmpp : (s.remove_state o).markets_per_product_.length = inst.product_count_ := by
      unfold Solution.remove_state; simp only [herase]; simp [hp.len_mpp]
    have hrem := remaining_after_remove o.product_id_ s.remaining_products_ hp.remaining_sorted
    have hrem_eq : (s.remove_state o).remaining_products_
        = if lower_bound (fun a b => decide (a < b)) o.product_id_ s.remaining_products_
              = s.remaining_products_.length then s.remaining_products_ ++ [o.product_id_]
          else if s.remaining_products_[lower_bound (fun a b => decide (a < b)) o.product_id_
              s.remaining_products_]? ≠ some o.product_id_ then
            vec_insert s.remaining_products_
              (lower_bound (fun a b => decide (a < b)) o.product_id_ s.remaining_products_)
              o.product_id_
          else s.remaining_products_ := by
      unfold Solution.remove_state; simp only [herase]
    simp only at hrem
    rw [← hrem_eq] at hrem
    refine ⟨by rw [hso]; simp [hp.len_offers], by rw [hsc]; simp [hp.len_costs],
      by rw [hdr]; simp [hp.len_demand], hmpp, hsorted, hcosts, ?_, ?_, hrem.1, ?_, ?_, hc, ?_⟩
    · intro d hd
      rw [hdr] at hd
      rcases List.mem_or_eq_of_mem_set hd with h | h
      · exact hp.demand_nonneg d h
      · omega
    · intro p hne
      rw [hdr]
      rw [hso, herase] at hne
      by_cases hpe : o.product_id_ = p
      · subst hpe
        rw [getD_set_self _ _ _ _ hlo] at hne
        exact absurd rfl hne
      · rw [getD_set_ne _ _ _ _ _ hpe] at hne ⊢
        exact hp.demand_zero p hne
    · intro p
      rw [hrem.2 p, hdr]
      by_cases hpe : o.product_id_ = p
      · subst hpe
        rw [getD_set_self _ _ _ _ hld]
        simp
      · rw [getD_set_ne _ _ _ _ _ hpe, hp.remaining_mem]
        constructor
        · rintro (h | h)
          · exact absurd h.symm hpe
          · exact h
        · exact fun h => Or.inr h
    · rw [htot, hdr, sum_set_int _ _ _ hld, hz, hp.total]; ring
    · intro p hnil hdem
      rw [hdr]
      rw [hso] at hnil
      by_cases hpe : o.product_id_ = p
      · subst hpe
        rw [getD_set_self _ _ _ _ hld]
        omega
      · rw [getD_set_ne _ _ _ _ _ hpe] at hnil ⊢
        exact hp.demand_open p hnil hdem

end TPP

namespace TPP

open Solution

/-! ## The offers of one market added or removed -/

theorem add_state_getD (s : Solution) (o : ProductOffer) (p : Nat)
    (h : o.product_id_ < s.product_offers_.length) :
    (s.add_state o).product_offers_.getD p []
      = if o.product_id_ = p then
          insert_sorted (s.product_offers_.getD p []) o is_better_offer
        else s.product_offers_.getD p [] := by
  simp only [Solution.add_state]
  by_cases hp : o.product_id_ = p
  · subst hp; rw [getD_set_self _ _ _ _ h, if_pos rfl]
  · rw [getD_set_ne _ _ _ _ _ hp, if_neg hp]

theorem remove_state_getD (s : Solution) (o : ProductOffer) (p : Nat)
    (h : o.product_id_ < s.product_offers_.length) :
    (s.remove_state o).product_offers_.getD p []
      = if o.product_id_ = p then
          (s.product_offers_.getD p []).eraseIdx (locate_offer o (s.product_offers_.getD p []))
        else s.product_offers_.getD p [] := by
  rw [remove_state_product_offers]
  by_cases hp : o.product_id_ = p
  · subst hp; rw [getD_set_self _ _ _ _ h, if_pos rfl]
  · rw [getD_set_ne _ _ _ _ _ hp, if_neg hp]

theorem offers_for_cons (p : Nat) (o : ProductOffer) (os : List ProductOffer) :
    offers_for p (o :: os)
      = if o.product_id_ = p then o :: offers_for p os else offers_for p os := by
  unfold offers_for
  by_cases h : o.product_id_ = p <;> simp [List.filter_cons, h]

theorem offers_for_append (p : Nat) (l1 l2 : List ProductOffer) :
    offers_for p (l1 ++ l2) = offers_for p l1 ++ offers_for p l2 := by
  unfold offers_for; exact List.filter_append _ _

theorem add_offers_loop_eq {inst : Instance} (hwf : inst.WF) (os : List ProductOffer) :
    ∀ (s : Solution), s.PInv inst → (∀ o ∈ os, o.product_id_ < inst.product_count_) →
      add_offers_loop inst os s = Except.ok (os.foldl Solution.add_state s)
        ∧ (os.foldl Solution.add_state s).PInv inst
        ∧ ∀ p, ((os.foldl Solution.add_state s).product_offers_.getD p []).Perm
            (offers_for p os ++ s.product_offers_.getD p []) := by
  induction os with
  | nil =>
    intro s hp _
    exact ⟨rfl, hp, fun p => by simp [offers_for]⟩
  | cons o rest ih =>
    intro s hp hos
    have ho : o.product_id_ < inst.product_count_ := hos o (List.mem_cons_self _ _)
    have hrest : ∀ x ∈ rest, x.product_id_ < inst.product_count_ :=
      fun x hx => hos x (List.mem_cons_of_mem _ hx)
    obtain ⟨h1, h2, h3⟩ := ih (s.add_state o) (hp.add_state ho) hrest
    refine ⟨?_, h2, ?_⟩
    · unfold add_offers_loop
      rw [bind_of_map_eq_ok (add_product_offer_eq hwf hp ho)
        (fun t => add_offers_loop inst rest t)]
      exact h1
    · intro p
      refine (h3 p).trans ?_
      rw [add_state_getD s o p (by rw [hp.len_offers]; exact ho), offers_for_cons]
      by_cases hpe : o.product_id_ = p
      · rw [if_pos hpe, if_pos hpe]
        have h4 := insert_sorted_perm (s.product_offers_.getD p []) o is_better_offer
        refine (List.Perm.append_left _ h4).trans ?_
        exact (List.perm_middle).trans (List.Perm.refl _)
      · rw [if_neg hpe, if_neg hpe]

theorem remove_offers_loop_eq {inst : Instance} (hwf : inst.WF) (os : List ProductOffer) :
    ∀ (s : Solution) (base : Nat → List ProductOffer), s.PInv inst →
      (∀ o ∈ os, o.product_id_ < inst.product_count_) →
      (∀ p, (s.product_offers_.getD p []).Perm (offers_for p os ++ base p)) →
      remove_offers_loop inst os s = Except.ok (os.foldl Solution.remove_state s)
        ∧ (os.foldl Solution.remove_state s).PInv inst
        ∧ ∀ p, ((os.foldl Solution.remove_state s).product_offers_.getD p []).Perm (base p) := by
  induction os with
  | nil =>
    intro s base hp _ hperm
    exact ⟨rfl, hp, fun p => by simpa [offers_for] using hperm p⟩
  | cons o rest ih =>
    intro s base hp hos hperm
    have ho : o.product_id_ < inst.product_count_ := hos o (List.mem_cons_self _ _)
    have hrest : ∀ x ∈ rest, x.product_id_ < inst.product_count_ :=
      fun x hx => hos x (List.mem_cons_of_mem _ hx)
    have hmem : o ∈ s.product_offers_.getD o.product_id_ [] := by
      rw [(hperm o.product_id_).mem_iff, offers_for_cons, if_pos rfl]
      exact List.mem_append_left _ (List.mem_cons_self _ _)
    have hperm' : ∀ p, ((s.remove_state o).product_offers_.getD p []).Perm
        (offers_for p rest ++ base p) := by
      intro p
      rw [remove_state_getD s o p (by rw [hp.len_offers]; exact ho)]
      have h5 := hperm p
      rw [offers_for_cons] at h5
      by_cases hpe : o.product_id_ = p
      · subst hpe
        rw [if_pos rfl] at h5 ⊢
        have hget := (locate_offer_getElem (hp.sorted_getD o.product_id_) hmem).2
        have h6 := perm_cons_eraseIdx hget
        exact List.Perm.cons_inv (h6.symm.trans h5)
      · rw [if_neg hpe] at h5 ⊢
        exact h5
    obtain ⟨h1, h2, h3⟩ := ih (s.remove_state o) base (hp.remove_state ho hmem) hrest hperm'
    refine ⟨?_, h2, h3⟩
    unfold remove_offers_loop
    rw [bind_of_map_eq_ok (remove_product_offer_eq hwf hp ho hmem)
      (fun t => remove_offers_loop inst rest t)]
    exact h1

theorem foldl_add_state_frame (os : List ProductOffer) (s : Solution) :
    (os.foldl Solution.add_state s).route_ = s.route_
      ∧ (os.foldl Solution.add_state s).travel_cost_ = s.travel_cost_
      ∧ (os.foldl Solution.add_state s).market_selected_ = s.market_selected_
      ∧ (os.foldl Solution.add_state s).unselected_markets_ = s.unselected_markets_ := by
  induction os generalizing s with
  | nil => simp
  | cons o rest ih =>
    have h1 := ih (s.add_state o)
    have h2 := add_state_frame s o
    simp only [List.foldl_cons]
    exact ⟨h1.1.trans h2.1, h1.2.1.trans h2.2.1, h1.2.2.1.trans h2.2.2.1,
      h1.2.2.2.trans h2.2.2.2⟩

theorem foldl_remove_state_frame (os : List ProductOffer) (s : Solution) :
    (os.foldl Solution.remove_state s).route_ = s.route_
      ∧ (os.foldl Solution.remove_state s).travel_cost_ = s.travel_cost_
      ∧ (os.foldl Solution.remove_state s).market_selected_ = s.market_selected_
      ∧ (os.foldl Solution.remove_state s).unselected_markets_ = s.unselected_markets_ := by
  induction os generalizing s with
  | nil => simp
  | cons o rest ih =>
    have h1 := ih (s.remove_state o)
    have h2 := remove_state_frame s o
    simp only [List.foldl_cons]
    exact ⟨h1.1.trans h2.1, h1.2.1.trans h2.2.1, h1.2.2.1.trans h2.2.2.1,
      h1.2.2.2.trans h2.2.2.2⟩

end TPP

namespace TPP

open Solution

/-! ## Inserting a market -/

theorem route_offers_perm (inst : Instance) {r1 r2 : List Nat} (h : r1.Perm r2) :
    (route_offers inst r1).Perm (route_offers inst r2) :=
  List.Perm.flatMap_right _ h

theorem route_offers_cons (inst : Instance) (m : Nat) (r : List Nat) :
    route_offers inst (m :: r) = inst.market_offers_.getD m [] ++ route_offers inst r := by
  simp [route_offers]

theorem markets_of_perm {r1 r2 : List Nat} (h : r1.Perm r2) :
    (markets_of r1).Perm (markets_of r2) :=
  List.Perm.filter _ h

theorem markets_of_cons_ne (m : Nat) (r : List Nat) (hm : m ≠ 0) :
    markets_of (m :: r) = m :: markets_of r := by
  simp [markets_of, List.filter_cons, hm]

theorem offers_for_perm {p : Nat} {l1 l2 : List ProductOffer} (h : l1.Perm l2) :
    (offers_for p l1).Perm (offers_for p l2) :=
  List.Perm.filter _ h

theorem Solution.Inv.zero_mem {inst : Instance} {s : Solution} (h : s.Inv inst) :
    0 ∈ s.route_ := by
  have := h.route_head
  cases hr : s.route_ with
  | nil => rw [hr] at this; simp at this
  | cons a t =>
    rw [hr] at this
    simp only [List.head?_cons, Option.some.injEq] at this
    rw [this]; exact List.mem_cons_self _ _

theorem Solution.Inv.route_pos {inst : Instance} {s : Solution} (h : s.Inv inst) :
    0 < s.route_.length := List.length_pos_of_mem h.zero_mem

theorem Solution.Inv.getD_mem {inst : Instance} {s : Solution} (_ : s.Inv inst) {i : Nat}
    (hi : i < s.route_.length) : s.route_.getD i 0 ∈ s.route_ :=
  List.mem_iff_getElem?.mpr ⟨i, getElem?_getD_of_lt 0 hi⟩

theorem Solution.PInv.frame {inst : Instance} {s t : Solution} (hp : s.PInv inst)
    (h1 : t.product_offers_ = s.product_offers_) (h2 : t.purchase_costs_ = s.purchase_costs_)
    (h3 : t.demand_remaining_ = s.demand_remaining_)
    (h4 : t.markets_per_product_ = s.markets_per_product_)
    (h5 : t.remaining_products_ = s.remaining_products_)
    (h6 : t.total_unsatisfied_demand_ = s.total_unsatisfied_demand_)
    (h7 : t.cost_ - t.travel_cost_ = s.cost_ - s.travel_cost_) : t.PInv inst := by
  refine ⟨by rw [h1]; exact hp.len_offers, by rw [h2]; exact hp.len_costs,
    by rw [h3]; exact hp.len_demand, by rw [h4]; exact hp.len_mpp,
    by rw [h1]; exact hp.sorted, by rw [h1, h2]; exact hp.costs,
    by rw [h3]; exact hp.demand_nonneg, by rw [h1, h3]; exact hp.demand_zero,
    by rw [h5]; exact hp.remaining_sorted, by rw [h5, h3]; exact hp.remaining_mem,
    by rw [h6, h3]; exact hp.total, ?_, by rw [h1, h3]; exact hp.demand_open⟩
  rw [h2]
  have := hp.cost
  omega

theorem insert_market_at_pos_eq {inst : Instance} (hwf : inst.WF) {s : Solution}
    (hinv : s.Inv inst) {m idx : Nat} (hm : m < inst.dimension_) (hnot : m ∉ s.route_)
    (h0 : 0 < idx) (hle : idx ≤ s.route_.length) :
    insert_market_at_pos inst s m idx = Except.ok (s.insert_state inst m idx)
      ∧ (s.insert_state inst m idx).Inv inst := by
  have hpos := hinv.route_pos
  have hsel : s.market_selected_[m]? = some false := by
    have h1 := getElem?_getD_of_lt false (by rw [hinv.selected_len]; exact hm :
      m < s.market_selected_.length)
    rw [hinv.selected m hm] at h1
    simpa [hnot] using h1
  have hi1 : idx - 1 < s.route_.length := by omega
  have hi2 : idx % s.route_.length < s.route_.length := Nat.mod_lt _ hpos
  have hprev := getElem?_getD_of_lt 0 hi1
  have hnext := getElem?_getD_of_lt 0 hi2
  have hprev_lt := hinv.route_lt _ (hinv.getD_mem hi1)
  have hnext_lt := hinv.route_lt _ (hinv.getD_mem hi2)
  have hroute : (if idx = s.route_.length then s.route_ ++ [m] else vec_insert s.route_ idx m)
      = vec_insert s.route_ idx m := by
    split
    · rename_i h; rw [h, vec_insert_length_eq]
    · rfl
  have hos : ∀ o ∈ inst.market_offers_.getD m [], o.product_id_ < inst.product_count_ :=
    fun o ho => hwf.offer_product_lt ho
  have hp1 : (s.insert_pre inst m idx).PInv inst :=
    hinv.pinv.frame rfl rfl rfl rfl rfl rfl (by simp [Solution.insert_pre])
  obtain ⟨hl1, hl2, hl3⟩ := add_offers_loop_eq hwf (inst.market_offers_.getD m []) _ hp1 hos
  have hfr := foldl_add_state_frame (inst.market_offers_.getD m []) (s.insert_pre inst m idx)
  have hm0 : m ≠ 0 := fun h => hnot (h ▸ hinv.zero_mem)
  have hmun : m ∈ s.unselected_markets_ :=
    (hinv.unselected_mem m).mpr ⟨by omega, hm, hnot⟩
  constructor
  · unfold insert_market_at_pos
    simp only [vec_at_eq_ok hsel, ok_bind, beq_self_eq_true, CHECK_F_true, gt_iff_lt,
      decide_eq_true h0, vec_idx_eq_ok hprev, vec_idx_eq_ok hnext, hroute,
      get_travel_cost_eq hwf hprev_lt hm, get_travel_cost_eq hwf hm hnext_lt,
      get_travel_cost_eq hwf hprev_lt hnext_lt, market_offers_at hwf hm]
    change (add_offers_loop inst (inst.market_offers_.getD m []) (s.insert_pre inst m idx)
      >>= _) = _
    have hchk : decide (m ∈ ((inst.market_offers_.getD m []).foldl Solution.add_state
        (s.insert_pre inst m idx)).unselected_markets_) = true := by
      rw [hfr.2.2.2]; exact decide_eq_true hmun
    rw [hl1, ok_bind]
    simp only [hchk, CHECK_F_true, ok_bind]
    rfl
  · have hperm : (vec_insert s.route_ idx m).Perm (m :: s.route_) := vec_insert_perm _ _ _
    have hR : (s.insert_state inst m idx).route_ = vec_insert s.route_ idx m := hfr.1
    have hT : (s.insert_state inst m idx).travel_cost_
        = s.travel_cost_ + insert_delta inst s.route_ m idx := hfr.2.1
    have hS : (s.insert_state inst m idx).market_selected_ = s.market_selected_.set m true :=
      hfr.2.2.1
    have hU : (s.insert_state inst m idx).unselected_markets_ = s.unselected_markets_.erase m := by
      show (((inst.market_offers_.getD m []).foldl Solution.add_state
        (s.insert_pre inst m idx)).unselected_markets_).erase m = _
      rw [hfr.2.2.2]; rfl
    refine ⟨hl2.frame rfl rfl rfl rfl rfl rfl rfl, ?_, ?_, ?_, ?_, ?_, ?_, ?_, ?_, ?_⟩
    · rw [hR, List.head?_eq_getElem?, getElem?_vec_insert_lt _ _ _ _ h0 hle,
        ← List.head?_eq_getElem?]
      exact hinv.route_head
    · rw [hR]
      exact hperm.nodup_iff.mpr (List.nodup_cons.mpr ⟨hnot, hinv.route_nodup⟩)
    · rw [hR]
      intro x hx
      rcases (mem_vec_insert _ _ _ _).mp hx with rfl | hx
      · exact hm
      · exact hinv.route_lt x hx
    · rw [hS, List.length_set]
      exact hinv.selected_len
    · rw [hS, hR]
      intro x hx
      by_cases hxm : m = x
      · subst hxm
        rw [getD_set_self _ _ _ _ (by rw [hinv.selected_len]; exact hm)]
        simp [mem_vec_insert]
      · rw [getD_set_ne _ _ _ _ _ hxm, hinv.selected x hx]
        have : x ≠ m := fun h => hxm h.symm
        simp [mem_vec_insert, this]
    · rw [hU]
      exact hinv.unselected_nodup.erase m
    · rw [hU, hR]
      intro x
      rw [hinv.unselected_nodup.mem_erase_iff, hinv.unselected_mem, mem_vec_insert]
      constructor
      · rintro ⟨h1, h2, h3, h4⟩
        exact ⟨h2, h3, fun h => h.elim h1 h4⟩
      · rintro ⟨h2, h3, h4⟩
        exact ⟨fun h => h4 (Or.inl h), h2, h3, fun h => h4 (Or.inr h)⟩
    · rw [hR]
      intro p
      refine (hl3 p).trans ?_
      have h1 := offers_for_perm (p := p)
        (route_offers_perm inst (markets_of_perm hperm))
      rw [markets_of_cons_ne m _ hm0, route_offers_cons, offers_for_append] at h1
      exact (List.Perm.append_left _ (hinv.offers p)).trans h1.symm
    · rw [hR, hT, tour_cost_insert inst s.route_ m idx h0 hle, ← hinv.travel]
      unfold insert_delta
      ring

end TPP

namespace TPP

open Solution

/-! ## Removing a market -/

theorem Solution.Inv.getD_ne_zero {inst : Instance} {s : Solution} (h : s.Inv inst) {pos : Nat}
    (h0 : 0 < pos) (hlt : pos < s.route_.length) : s.route_.getD pos 0 ≠ 0 := by
  have hhead := h.route_head
  have hnd := h.route_nodup
  cases hr : s.route_ with
  | nil => rw [hr] at hlt; simp at hlt
  | cons a t =>
    rw [hr] at hhead hnd hlt
    simp only [List.head?_cons, Option.some.injEq] at hhead
    subst hhead
    obtain ⟨k, rfl⟩ : ∃ k, pos = k + 1 := ⟨pos - 1, by omega⟩
    have hk : k < t.length := by simpa using hlt
    have hmem : (0 :: t).getD (k + 1) 0 ∈ t := by
      rw [List.getD_cons_succ]
      exact List.mem_iff_getElem?.mpr ⟨k, getElem?_getD_of_lt 0 hk⟩
    intro h0'
    rw [h0'] at hmem
    exact (List.nodup_cons.mp hnd).1 hmem

theorem remove_market_at_pos_eq {inst : Instance} (hwf : inst.WF) {s : Solution}
    (hinv : s.Inv inst) {pos : Nat} (h0 : 0 < pos) (hlt : pos < s.route_.length) :
    remove_market_at_pos inst s pos = Except.ok (s.remove_market_state inst pos)
      ∧ (s.remove_market_state inst pos).Inv inst := by
  have hpos := hinv.route_pos
  have hi1 : pos - 1 < s.route_.length := by omega
  have hi2 : (pos + 1) % s.route_.length < s.route_.length := Nat.mod_lt _ hpos
  have hprev := getElem?_getD_of_lt 0 hi1
  have hrem := getElem?_getD_of_lt 0 hlt
  have hnext := getElem?_getD_of_lt 0 hi2
  have hprev_lt := hinv.route_lt _ (hinv.getD_mem hi1)
  have hrem_mem := hinv.getD_mem hlt
  have hrem_lt := hinv.route_lt _ hrem_mem
  have hnext_lt := hinv.route_lt _ (hinv.getD_mem hi2)
  have hsel : s.market_selected_[s.route_.getD pos 0]?
      = some (s.market_selected_.getD (s.route_.getD pos 0) false) :=
    getElem?_getD_of_lt false (by rw [hinv.selected_len]; exact hrem_lt)
  have hos : ∀ o ∈ inst.market_offers_.getD (s.route_.getD pos 0) [],
      o.product_id_ < inst.product_count_ := fun o ho => hwf.offer_product_lt ho
  have hperm : s.route_.Perm (s.route_.getD pos 0 :: s.route_.eraseIdx pos) :=
    perm_cons_eraseIdx hrem
  have hnd : (s.route_.getD pos 0 :: s.route_.eraseIdx pos).Nodup :=
    hperm.nodup_iff.mp hinv.route_nodup
  have hp1 : (s.remove_pre inst pos).PInv inst :=
    hinv.pinv.frame rfl rfl rfl rfl rfl rfl (by simp [Solution.remove_pre])
  have hbase : ∀ p, ((s.remove_pre inst pos).product_offers_.getD p []).Perm
      (offers_for p (inst.market_offers_.getD (s.route_.getD pos 0) [])
        ++ offers_for p (route_offers inst (markets_of (s.route_.eraseIdx pos)))) := by
    intro p
    have h1 := offers_for_perm (p := p)
      (route_offers_perm inst (markets_of_perm hperm))
    rw [markets_of_cons_ne _ _ (hinv.getD_ne_zero h0 hlt), route_offers_cons,
      offers_for_append] at h1
    exact (hinv.offers p).trans h1
  obtain ⟨hl1, hl2, hl3⟩ := remove_offers_loop_eq hwf
    (inst.market_offers_.getD (s.route_.getD pos 0) []) (s.remove_pre inst pos)
    (fun p => offers_for p (route_offers inst (markets_of (s.route_.eraseIdx pos)))) hp1 hos hbase
  have hfr := foldl_remove_state_frame (inst.market_offers_.getD (s.route_.getD pos 0) [])
    (s.remove_pre inst pos)
  constructor
  · unfold remove_market_at_pos
    simp only [decide_eq_true hlt, gt_iff_lt, decide_eq_true h0, CHECK_F_true, ok_bind,
      vec_idx_eq_ok hprev, vec_idx_eq_ok hrem, vec_idx_eq_ok hnext, vec_at_eq_ok hsel,
      get_travel_cost_eq hwf hprev_lt hnext_lt, get_travel_cost_eq hwf hprev_lt hrem_lt,
      get_travel_cost_eq hwf hrem_lt hnext_lt, market_offers_at hwf hrem_lt]
    change (remove_offers_loop inst (inst.market_offers_.getD (s.route_.getD pos 0) [])
      (s.remove_pre inst pos) >>= _) = _
    rw [hl1, ok_bind]
    rfl
  · have hR : (s.remove_market_state inst pos).route_ = s.route_.eraseIdx pos := hfr.1
    have hT : (s.remove_market_state inst pos).travel_cost_
        = s.travel_cost_ + remove_delta inst s.route_ pos := hfr.2.1
    have hS : (s.remove_market_state inst pos).market_selected_
        = s.market_selected_.set (s.route_.getD pos 0) false := hfr.2.2.1
    have hU : (s.remove_market_state inst pos).unselected_markets_
        = s.unselected_markets_ ++ [s.route_.getD pos 0] := by
      show ((inst.market_offers_.getD (s.route_.getD pos 0) []).foldl Solution.remove_state
        (s.remove_pre inst pos)).unselected_markets_ ++ [s.route_.getD pos 0] = _
      rw [hfr.2.2.2]; rfl
    have hmem_iff : ∀ x, x ∈ s.route_ ↔ (x = s.route_.getD pos 0 ∨ x ∈ s.route_.eraseIdx pos) :=
      fun x => by rw [hperm.mem_iff, List.mem_cons]
    have hnot : s.route_.getD pos 0 ∉ s.route_.eraseIdx pos := (List.nodup_cons.mp hnd).1
    refine ⟨hl2.frame rfl rfl rfl rfl rfl rfl rfl, ?_, ?_, ?_, ?_, ?_, ?_, ?_, ?_, ?_⟩
    · rw [hR, List.head?_eq_getElem?, List.getElem?_eraseIdx, if_pos h0,
        ← List.head?_eq_getElem?]
      exact hinv.route_head
    · rw [hR]
      exact (List.nodup_cons.mp hnd).2
    · rw [hR]
      intro x hx
      exact hinv.route_lt x ((hmem_iff x).mpr (Or.inr hx))
    · rw [hS, List.length_set]
      exact hinv.selected_len
    · rw [hS, hR]
      intro x hx
      by_cases hxm : s.route_.getD pos 0 = x
      · rw [getD_set, if_pos ⟨hxm, by rw [hinv.selected_len]; exact hrem_lt⟩]
        rw [← hxm]
        exact (decide_eq_false hnot).symm
      · rw [getD_set_ne _ _ _ _ _ hxm, hinv.selected x hx]
        have hne : x ≠ s.route_.getD pos 0 := fun h => hxm h.symm
        have := hmem_iff x
        simp only [hne, false_or] at this
        simp [this]
    · rw [hU]
      rw [List.nodup_append]
      refine ⟨hinv.unselected_nodup, List.nodup_singleton _, ?_⟩
      intro x hx1 hx2
      rw [List.mem_singleton] at hx2
      subst hx2
      exact ((hinv.unselected_mem _).mp hx1).2.2 hrem_mem
    · rw [hU, hR]
      intro x
      rw [List.mem_append, List.mem_singleton, hinv.unselected_mem]
      constructor
      · rintro (⟨h1, h2, h3⟩ | rfl)
        · exact ⟨h1, h2, fun h => h3 ((hmem_iff x).mpr (Or.inr h))⟩
        · exact ⟨Nat.pos_of_ne_zero (hinv.getD_ne_zero h0 hlt), hrem_lt, hnot⟩
      · rintro ⟨h1, h2, h3⟩
        by_cases hx : x = s.route_.getD pos 0
        · exact Or.inr hx
        · left
          refine ⟨h1, h2, fun h => ?_⟩
          rcases (hmem_iff x).mp h with h' | h'
          · exact hx h'
          · exact h3 h'
    · rw [hR]
      exact hl3
    · rw [hR, hT, tour_cost_erase inst s.route_ pos h0 hlt, ← hinv.travel]
      unfold remove_delta
      ring

end TPP

namespace TPP

open Solution

/-! ## The constructor and the reachable states -/

theorem ctor_loop_eq (inst : Instance) (ps : List Nat) :
    ∀ (s : Solution), s.demand_remaining_ = inst.demands_ →
      (∀ p ∈ ps, p < inst.demands_.length) →
      ctor_loop inst ps s = Except.ok
        { s with
          remaining_products_ := s.remaining_products_
            ++ ps.filter (fun p => decide (0 < inst.demands_.getD p 0))
          total_unsatisfied_demand_ := s.total_unsatisfied_demand_
            + (ps.map (fun p => inst.demands_.getD p 0)).sum } := by
  induction ps with
  | nil => intro s _ _; simp [ctor_loop]
  | cons p rest ih =>
    intro s hd hps
    have hp : p < inst.demands_.length := hps p (List.mem_cons_self _ _)
    have hget := getElem?_getD_of_lt (0 : Int) hp
    have hget' : s.demand_remaining_[p]? = some (inst.demands_.getD p 0) := by
      rw [hd]; exact hget
    unfold ctor_loop
    rw [vec_at_eq_ok hget', vec_at_eq_ok hget]
    simp only [ok_bind]
    by_cases hpos : inst.demands_.getD p 0 > 0
    · rw [if_pos hpos, ih _ (by simp only; exact hd)
        (fun x hx => hps x (List.mem_cons_of_mem _ hx))]
      have hpos' : 0 < inst.demands_[p]?.getD 0 := by
        simpa [List.getD_eq_getElem?_getD] using hpos
      simp [List.filter_cons, hpos', add_assoc]
    · rw [if_neg hpos, ih _ (by simp only; exact hd)
        (fun x hx => hps x (List.mem_cons_of_mem _ hx))]
      have hpos' : ¬ 0 < inst.demands_[p]?.getD 0 := by
        simpa [List.getD_eq_getElem?_getD] using hpos
      simp [List.filter_cons, hpos', add_assoc]

theorem init_eq {inst : Instance} (hwf : inst.WF) :
    Solution.init inst = Except.ok (Solution.init_state inst) := by
  unfold Solution.init
  rw [if_neg (Nat.pos_iff_ne_zero.mp hwf.dim_pos)]
  rw [ctor_loop_eq inst _ _ rfl (fun p hp => by
    rw [hwf.demands_len]; exact List.mem_range.mp hp)]
  simp [Solution.init_state]

theorem map_getD_range (l : List Int) :
    (List.range l.length).map (fun p => l.getD p 0) = l := by
  apply List.ext_getElem?
  intro i
  by_cases hi : i < l.length
  · rw [List.getElem?_map, List.getElem?_range hi]
    simp [List.getD_eq_getElem?_getD, List.getElem?_eq_getElem hi]
  · rw [List.getElem?_eq_none (by simpa using hi), List.getElem?_eq_none (by simpa using hi)]

theorem getD_replicate_nil (n p : Nat) :
    (List.replicate n ([] : List ProductOffer)).getD p [] = [] := by
  rcases getD_mem_or_default (List.replicate n ([] : List ProductOffer)) p [] with h | h
  · exact List.eq_of_mem_replicate h
  · exact h

theorem init_state_inv {inst : Instance} (hwf : inst.WF) : (Solution.init_state inst).Inv inst := by
  have hpinv : (Solution.init_state inst).PInv inst := by
    refine ⟨by simp [Solution.init_state], by simp [Solution.init_state], hwf.demands_len,
      by simp [Solution.init_state], ?_, ?_, hwf.demands_nonneg, ?_, ?_, ?_, ?_, ?_,
      fun p _ h => h⟩
    · intro l hl
      simp only [Solution.init_state] at hl
      rw [List.eq_of_mem_replicate hl]
      exact List.Pairwise.nil
    · simp [Solution.init_state, front_price]
    · intro p hne
      simp only [Solution.init_state] at hne
      exact absurd (getD_replicate_nil _ p) hne
    · simp only [Solution.init_state]
      exact List.Pairwise.sublist (List.filter_sublist _) (List.pairwise_lt_range _)
    · intro p
      simp only [Solution.init_state, List.mem_filter, List.mem_range, decide_eq_true_eq]
      constructor
      · exact fun h => h.2
      · intro h
        refine ⟨?_, h⟩
        by_contra hc
        have : inst.demands_.getD p 0 = 0 := by
          simp [List.getD_eq_getElem?_getD,
            List.getElem?_eq_none (by rw [hwf.demands_len]; omega : inst.demands_.length ≤ p)]
        omega
    · simp only [Solution.init_state]
      rw [← hwf.demands_len, map_getD_range]
    · simp [Solution.init_state]
  refine ⟨hpinv, rfl, by simp [Solution.init_state], ?_, ?_, ?_, ?_, ?_, ?_, ?_⟩
  · intro m hm
    simp only [Solution.init_state, List.mem_singleton] at hm
    rw [hm]; exact hwf.dim_pos
  · simp [Solution.init_state]
  · intro m hm
    simp only [Solution.init_state, List.mem_singleton]
    by_cases h0 : 0 = m
    · subst h0
      rw [getD_set_self _ _ _ _ (by simpa using hwf.dim_pos)]
      simp
    · rw [getD_set_ne _ _ _ _ _ h0]
      have : m ≠ 0 := fun h => h0 h.symm
      simp [List.getD_eq_getElem?_getD, List.getElem?_replicate, hm, this]
  · simp only [Solution.init_state]
    exact List.nodup_range' 1 _
  · intro m
    simp only [Solution.init_state, List.mem_range'_1, List.mem_singleton]
    have := hwf.dim_pos
    omega
  · intro p
    simp only [Solution.init_state, markets_of]
    rw [getD_replicate_nil]
    simp [route_offers, offers_for]
  · simp [Solution.init_state, tour_cost, path_cost]

theorem insert_market_lt {inst : Instance} {s t : Solution} {m idx : Nat}
    (h : insert_market_at_pos inst s m idx = Except.ok t) : m < s.market_selected_.length := by
  by_contra hc
  have hnone : s.market_selected_[m]? = none := List.getElem?_eq_none (Nat.le_of_not_lt hc)
  unfold insert_market_at_pos vec_at at h
  rw [hnone] at h
  simp at h

theorem Reachable.inv {inst : Instance} (hwf : inst.WF) {s : Solution}
    (h : Reachable inst s) : s.Inv inst := by
  induction h with
  | init h0 =>
    rw [init_eq hwf] at h0
    cases h0
    exact init_state_inv hwf
  | insert m idx _ hnot h0 hle heq ih =>
    have hm : m < inst.dimension_ := by
      rw [← ih.selected_len]; exact insert_market_lt heq
    obtain ⟨h1, h2⟩ := insert_market_at_pos_eq hwf ih hm hnot h0 hle
    rw [h1] at heq
    cases heq
    exact h2
  | remove pos _ h0 hlt heq ih =>
    obtain ⟨h1, h2⟩ := remove_market_at_pos_eq hwf ih h0 hlt
    rw [h1] at heq
    cases heq
    exact h2

end TPP

namespace TPP

open Solution

/-! ## The concrete inputs are well formed and reachable -/

theorem example_instance_wf : example_instance.WF :=
  ⟨by decide, by decide, by decide, by decide, by decide, by decide, by decide, by decide,
    by decide⟩

theorem example_instance_one_offer : example_instance.OneOfferPerProduct := by
  unfold Instance.OneOfferPerProduct; decide

theorem example_state_reachable : Reachable example_instance example_state :=
  Reachable.insert 3 1
    (Reachable.insert 1 1
      (Reachable.init (s := Solution.init_state example_instance) (by decide))
      (by decide) (by decide) (by decide)
      (t := Solution.insert_state example_instance (Solution.init_state example_instance) 1 1)
      (by decide))
    (by decide) (by decide) (by decide) (by decide)

theorem example_state_valid_reachable : Reachable example_instance example_state_valid :=
  Reachable.insert 2 2 example_state_reachable (by decide) (by decide) (by decide) (by decide)

theorem route_offers_markets_of {inst : Instance} (hdepot : inst.market_offers_.getD 0 [] = [])
    (route : List Nat) : route_offers inst (markets_of route) = route_offers inst route := by
  induction route with
  | nil => rfl
  | cons a t ih =>
    by_cases ha : a = 0
    · subst ha
      have h1 : markets_of (0 :: t) = markets_of t := by simp [markets_of]
      rw [h1, ih, route_offers_cons, hdepot, List.nil_append]
    · rw [markets_of_cons_ne a t ha, route_offers_cons, route_offers_cons, ih]

/-! ## Claims C2, C3, C6 -/

/-- C3: in every reachable state `route_[0]` is the depot `0`, `route_` has no
duplicates, `market_selected_[m]` is true exactly for the nodes `m` of the
route, and `unselected_markets_` lists, each once, exactly the markets of
`1 .. dimension - 1` that are not in the route. -/
theorem C3_route_and_selection (inst : Instance) (s : Solution) (hwf : inst.WF)
    (hr : Reachable inst s) :
    s.route_[0]? = some 0
      ∧ s.route_.Nodup
      ∧ s.market_selected_.length = inst.dimension_
      ∧ (∀ m, s.market_selected_[m]? = some true ↔ m ∈ s.route_)
      ∧ s.unselected_markets_.Nodup
      ∧ (∀ m, m ∈ s.unselected_markets_ ↔ (1 ≤ m ∧ m < inst.dimension_ ∧ m ∉ s.route_)) := by
  have hinv := hr.inv hwf
  refine ⟨by rw [← List.head?_eq_getElem?]; exact hinv.route_head, hinv.route_nodup,
    hinv.selected_len, ?_, hinv.unselected_nodup, fun m => hinv.unselected_mem m⟩
  intro m
  by_cases hm : m < inst.dimension_
  · have h1 := getElem?_getD_of_lt false (by rw [hinv.selected_len]; exact hm :
      m < s.market_selected_.length)
    rw [h1, hinv.selected m hm]
    simp
  · have h1 : s.market_selected_[m]? = none :=
      List.getElem?_eq_none (by rw [hinv.selected_len]; omega)
    rw [h1]
    constructor
    · intro h; exact absurd h (by simp)
    · intro h; exact absurd (hinv.route_lt m h) hm

theorem C3_witness :
    example_instance.WF ∧ Reachable example_instance example_state
      ∧ (example_state.route_[0]? = some 0
        ∧ example_state.route_.Nodup
        ∧ example_state.market_selected_.length = example_instance.dimension_
        ∧ (∀ m, example_state.market_selected_[m]? = some true ↔ m ∈ example_state.route_)
        ∧ example_state.unselected_markets_.Nodup
        ∧ (∀ m, m ∈ example_state.unselected_markets_
            ↔ (1 ≤ m ∧ m < example_instance.dimension_ ∧ m ∉ example_state.route_))) :=
  ⟨example_instance_wf, example_state_reachable,
    C3_route_and_selection example_instance example_state example_instance_wf
      example_state_reachable⟩

/-- C6: in every reachable state and for every product `p`, `product_offers_[p]`
is a permutation of the offers for `p` of the markets in `route_` (its nodes
other than the depot; of all its nodes when the depot holds no offers), is
sorted by `is_better_offer` (price ascending, quantity descending on ties), and
`purchase_costs_[p]` is the price of its first offer when the list is
non-empty and `0` otherwise. -/
theorem C6_product_offers_sorted_perm (inst : Instance) (s : Solution) (hwf : inst.WF)
    (hr : Reachable inst s) (p : Nat) (hp : p < inst.product_count_) :
    ∃ offers, s.product_offers_[p]? = some offers
      ∧ offers.Perm (offers_for p (route_offers inst (markets_of s.route_)))
      ∧ (inst.market_offers_.getD 0 [] = [] →
          offers.Perm (offers_for p (route_offers inst s.route_)))
      ∧ offers.Pairwise (fun a b => is_better_offer b a = false)
      ∧ offers.Pairwise (fun a b =>
          a.price_ < b.price_ ∨ (a.price_ = b.price_ ∧ b.quantity_ ≤ a.quantity_))
      ∧ s.purchase_costs_[p]? = some (match offers with
          | [] => 0
          | front :: _ => front.price_) := by
  have hinv := hr.inv hwf
  have hlo : p < s.product_offers_.length := by rw [hinv.pinv.len_offers]; exact hp
  have hlc : p < s.purchase_costs_.length := by rw [hinv.pinv.len_costs]; exact hp
  refine ⟨s.product_offers_.getD p [], getElem?_getD_of_lt [] hlo, hinv.offers p, ?_,
    hinv.pinv.sorted_getD p, ?_, ?_⟩
  · intro hdepot
    rw [← route_offers_markets_of hdepot]
    exact hinv.offers p
  · refine (hinv.pinv.sorted_getD p).imp ?_
    intro a b hab
    rw [is_better_offer_false_iff] at hab
    omega
  · rw [getElem?_getD_of_lt 0 hlc, hinv.pinv.costs_getD p]
    cases s.product_offers_.getD p [] <;> rfl

theorem C6_witness :
    example_instance.WF ∧ Reachable example_instance example_state
      ∧ 1 < example_instance.product_count_
      ∧ ∃ offers, example_state.product_offers_[1]? = some offers
        ∧ offers.Perm
            (offers_for 1 (route_offers example_instance (markets_of example_state.route_)))
        ∧ (example_instance.market_offers_.getD 0 [] = [] →
            offers.Perm (offers_for 1 (route_offers example_instance example_state.route_)))
        ∧ offers.Pairwise (fun a b => is_better_offer b a = false)
        ∧ offers.Pairwise (fun a b =>
            a.price_ < b.price_ ∨ (a.price_ = b.price_ ∧ b.quantity_ ≤ a.quantity_))
        ∧ example_state.purchase_costs_[1]? = some (match offers with
            | [] => 0
            | front :: _ => front.price_) :=
  ⟨example_instance_wf, example_state_reachable, by decide,
    C6_product_offers_sorted_perm example_instance example_state example_instance_wf
      example_state_reachable 1 (by decide)⟩

end TPP

namespace TPP

open Solution

/-! ## Insertion followed by removal -/

theorem offers_not_of_vec_insert (m : Nat) (l : List ProductOffer) (k : Nat) (o : ProductOffer)
    (ho : o.market_id_ = m) : offers_not_of m (vec_insert l k o) = offers_not_of m l := by
  unfold offers_not_of vec_insert
  rw [List.filter_append, List.filter_cons]
  simp only [ho, ne_eq, not_true_eq_false, decide_False, Bool.false_eq_true, if_false]
  rw [← List.filter_append, List.take_append_drop]

theorem offers_not_of_eraseIdx (m : Nat) (l : List ProductOffer) (k : Nat) (o : ProductOffer)
    (hget : l[k]? = some o) (ho : o.market_id_ = m) :
    offers_not_of m (l.eraseIdx k) = offers_not_of m l := by
  have hk := lt_length_of_getElem? hget
  have hx : l[k] = o := by
    rw [List.getElem?_eq_getElem hk] at hget
    exact Option.some.inj hget
  have h1 := offers_not_of_vec_insert m (l.eraseIdx k) k o ho
  rw [← hx, vec_insert_eraseIdx l k hk] at h1
  exact h1.symm

theorem offers_not_of_eq_self (m : Nat) (l : List ProductOffer)
    (h : ∀ o ∈ l, o.market_id_ ≠ m) : offers_not_of m l = l := by
  unfold offers_not_of
  rw [List.filter_eq_self]
  intro o ho
  exact decide_eq_true (h o ho)

theorem add_state_length (s : Solution) (o : ProductOffer) :
    (s.add_state o).product_offers_.length = s.product_offers_.length := by
  simp [Solution.add_state]

theorem foldl_add_state_not_of (m : Nat) (os : List ProductOffer) :
    ∀ (s : Solution), (∀ o ∈ os, o.market_id_ = m) →
      (∀ o ∈ os, o.product_id_ < s.product_offers_.length) →
      ∀ p, offers_not_of m ((os.foldl Solution.add_state s).product_offers_.getD p [])
        = offers_not_of m (s.product_offers_.getD p []) := by
  induction os with
  | nil => intro s _ _ p; rfl
  | cons o rest ih =>
    intro s hm hlt p
    have ho := hm o (List.mem_cons_self _ _)
    have hl := hlt o (List.mem_cons_self _ _)
    simp only [List.foldl_cons]
    rw [ih (s.add_state o) (fun x hx => hm x (List.mem_cons_of_mem _ hx))
      (fun x hx => by rw [add_state_length]; exact hlt x (List.mem_cons_of_mem _ hx)) p,
      add_state_getD s o p hl]
    by_cases hpe : o.product_id_ = p
    · rw [if_pos hpe]
      exact offers_not_of_vec_insert m _ _ o ho
    · rw [if_neg hpe]

theorem foldl_remove_state_not_of {inst : Instance} (m : Nat) (os : List ProductOffer) :
    ∀ (s : Solution) (base : Nat → List ProductOffer), s.PInv inst →
      (∀ o ∈ os, o.market_id_ = m) →
      (∀ o ∈ os, o.product_id_ < inst.product_count_) →
      (∀ p, (s.product_offers_.getD p []).Perm (offers_for p os ++ base p)) →
      ∀ p, offers_not_of m ((os.foldl Solution.remove_state s).product_offers_.getD p [])
        = offers_not_of m (s.product_offers_.getD p []) := by
  induction os with
  | nil => intro s base _ _ _ _ p; rfl
  | cons o rest ih =>
    intro s base hp hm hos hperm p
    have ho : o.product_id_ < inst.product_count_ := hos o (List.mem_cons_self _ _)
    have hom := hm o (List.mem_cons_self _ _)
    have hmem : o ∈ s.product_offers_.getD o.product_id_ [] := by
      rw [(hperm o.product_id_).mem_iff, offers_for_cons, if_pos rfl]
      exact List.mem_append_left _ (List.mem_cons_self _ _)
    have hget := (locate_offer_getElem (hp.sorted_getD o.product_id_) hmem).2
    have hperm' : ∀ q, ((s.remove_state o).product_offers_.getD q []).Perm
        (offers_for q rest ++ base q) := by
      intro q
      rw [remove_state_getD s o q (by rw [hp.len_offers]; exact ho)]
      have h5 := hperm q
      rw [offers_for_cons] at h5
      by_cases hpe : o.product_id_ = q
      · subst hpe
        rw [if_pos rfl] at h5 ⊢
        exact List.Perm.cons_inv ((perm_cons_eraseIdx hget).symm.trans h5)
      · rw [if_neg hpe] at h5 ⊢
        exact h5
    simp only [List.foldl_cons]
    rw [ih (s.remove_state o) base (hp.remove_state ho hmem)
      (fun x hx => hm x (List.mem_cons_of_mem _ hx))
      (fun x hx => hos x (List.mem_cons_of_mem _ hx)) hperm' p,
      remove_state_getD s o p (by rw [hp.len_offers]; exact ho)]
    by_cases hpe : o.product_id_ = p
    · subst hpe
      rw [if_pos rfl]
      exact offers_not_of_eraseIdx m _ _ o hget hom
    · rw [if_neg hpe]

theorem ext_getD {α : Type} {l1 l2 : List α} (d : α) (hlen : l1.length = l2.length)
    (h : ∀ p, l1.getD p d = l2.getD p d) : l1 = l2 := by
  apply List.ext_getElem?
  intro i
  by_cases hi : i < l1.length
  · rw [getElem?_getD_of_lt d hi, getElem?_getD_of_lt d (hlen ▸ hi), h i]
  · rw [List.getElem?_eq_none (Nat.le_of_not_lt hi),
      List.getElem?_eq_none (hlen ▸ Nat.le_of_not_lt hi)]

theorem mem_route_offers {inst : Instance} (hwf : inst.WF) {route : List Nat} {o : ProductOffer}
    (h : o ∈ route_offers inst route) : o.market_id_ ∈ route := by
  unfold route_offers at h
  rw [List.mem_flatMap] at h
  obtain ⟨m, hm, ho⟩ := h
  rw [hwf.offer_market_eq ho]
  exact hm

theorem Solution.Inv.offer_market_mem {inst : Instance} (hwf : inst.WF) {s : Solution}
    (hinv : s.Inv inst) {p : Nat} {o : ProductOffer} (ho : o ∈ s.product_offers_.getD p []) :
    o.market_id_ ∈ s.route_ := by
  have h1 := (hinv.offers p).mem_iff.mp ho
  unfold offers_for at h1
  have h2 := mem_route_offers hwf (List.mem_of_mem_filter h1)
  unfold markets_of at h2
  exact List.mem_of_mem_filter h2

/-- C5: in every reachable state, for every market `m` that is not in the
route and every index `idx` with `0 < idx <= len(route)`, the call
`insert_market_at_pos(m, idx)` followed by `remove_market_at_pos(idx)` returns
and leaves `route_`, `cost_`, `travel_cost_` and every `product_offers_[p]` as
they were before the insertion. -/
theorem C5_insert_then_remove (inst : Instance) (s : Solution) (hwf : inst.WF)
    (hr : Reachable inst s) (m idx : Nat) (hm : m < inst.dimension_) (hnot : m ∉ s.route_)
    (h0 : 0 < idx) (hle : idx ≤ s.route_.length) :
    ∃ t u, insert_market_at_pos inst s m idx = Except.ok t
      ∧ remove_market_at_pos inst t idx = Except.ok u
      ∧ u.route_ = s.route_ ∧ u.cost_ = s.cost_ ∧ u.travel_cost_ = s.travel_cost_
      ∧ u.product_offers_ = s.product_offers_ := by
  have hinv := hr.inv hwf
  obtain ⟨hi1, hi2⟩ := insert_market_at_pos_eq hwf hinv hm hnot h0 hle
  have hfa := foldl_add_state_frame (inst.market_offers_.getD m []) (s.insert_pre inst m idx)
  have hRt : (s.insert_state inst m idx).route_ = vec_insert s.route_ idx m := hfa.1
  have hlt : idx < (s.insert_state inst m idx).route_.length := by
    rw [hRt, length_vec_insert]; omega
  obtain ⟨hr1, hr2⟩ := remove_market_at_pos_eq hwf hi2 h0 hlt
  have hremoved : (s.insert_state inst m idx).route_.getD idx 0 = m := by
    rw [hRt]; exact getD_eq_of_getElem? (getElem?_vec_insert_self _ _ _ hle)
  have hfr := foldl_remove_state_frame
    (inst.market_offers_.getD ((s.insert_state inst m idx).route_.getD idx 0) [])
    ((s.insert_state inst m idx).remove_pre inst idx)
  have hRu : ((s.insert_state inst m idx).remove_market_state inst idx).route_ = s.route_ := by
    have h1 : ((s.insert_state inst m idx).remove_market_state inst idx).route_
        = (s.insert_state inst m idx).route_.eraseIdx idx := hfr.1
    rw [h1, hRt, eraseIdx_vec_insert _ _ _ hle]
  have hos : ∀ o ∈ inst.market_offers_.getD m [], o.product_id_ < inst.product_count_ :=
    fun o ho => hwf.offer_product_lt ho
  have hom : ∀ o ∈ inst.market_offers_.getD m [], o.market_id_ = m :=
    fun o ho => hwf.offer_market_eq ho
  -- the lists of offers after the insertion
  have hp1 : (s.insert_pre inst m idx).PInv inst :=
    hinv.pinv.frame rfl rfl rfl rfl rfl rfl (by simp [Solution.insert_pre])
  obtain ⟨_, hl2, hl3⟩ := add_offers_loop_eq hwf (inst.market_offers_.getD m []) _ hp1 hos
  have hadd_not := foldl_add_state_not_of m (inst.market_offers_.getD m [])
    (s.insert_pre inst m idx) hom
    (fun o ho => by
      show o.product_id_ < s.product_offers_.length
      rw [hinv.pinv.len_offers]; exact hos o ho)
  -- the lists of offers after the removal
  have hp2 : ((s.insert_state inst m idx).remove_pre inst idx).PInv inst :=
    hi2.pinv.frame rfl rfl rfl rfl rfl rfl (by simp [Solution.remove_pre])
  have hbase : ∀ p, (((s.insert_state inst m idx).remove_pre inst idx).product_offers_.getD p
      []).Perm (offers_for p (inst.market_offers_.getD m []) ++ s.product_offers_.getD p []) :=
    hl3
  obtain ⟨_, _, hl6⟩ := remove_offers_loop_eq hwf (inst.market_offers_.getD m [])
    ((s.insert_state inst m idx).remove_pre inst idx)
    (fun p => s.product_offers_.getD p []) hp2 hos hbase
  have hrem_not := foldl_remove_state_not_of m (inst.market_offers_.getD m [])
    ((s.insert_state inst m idx).remove_pre inst idx)
    (fun p => s.product_offers_.getD p []) hp2 hom hos hbase
  have hPO : ((s.insert_state inst m idx).remove_market_state inst idx).product_offers_
      = s.product_offers_ := by
    apply ext_getD []
    · rw [hr2.pinv.len_offers, hinv.pinv.len_offers]
    · intro p
      have hu : ((s.insert_state inst m idx).remove_market_state inst idx).product_offers_
          = ((inst.market_offers_.getD m []).foldl Solution.remove_state
              ((s.insert_state inst m idx).remove_pre inst idx)).product_offers_ := by
        show ((inst.market_offers_.getD ((s.insert_state inst m idx).route_.getD idx 0)
          []).foldl Solution.remove_state _).product_offers_ = _
        rw [hremoved]
      rw [hu]
      have hs_no : ∀ o ∈ s.product_offers_.getD p [], o.market_id_ ≠ m :=
        fun o ho h => hnot (h ▸ hinv.offer_market_mem hwf ho)
      have hu_no : ∀ o ∈ ((inst.market_offers_.getD m []).foldl Solution.remove_state
          ((s.insert_state inst m idx).remove_pre inst idx)).product_offers_.getD p [],
          o.market_id_ ≠ m :=
        fun o ho => hs_no o ((hl6 p).mem_iff.mp ho)
      rw [← offers_not_of_eq_self m _ hu_no, hrem_not p]
      have h3 : offers_not_of m
          (((s.insert_state inst m idx).remove_pre inst idx).product_offers_.getD p [])
          = offers_not_of m (s.product_offers_.getD p []) := hadd_not p
      rw [h3, offers_not_of_eq_self m _ hs_no]
  have hT : ((s.insert_state inst m idx).remove_market_state inst idx).travel_cost_
      = s.travel_cost_ := by
    have h1 := hr2.travel
    have h2 := hinv.travel
    rw [hRu] at h1
    omega
  refine ⟨_, _, hi1, hr1, hRu, ?_, hT, hPO⟩
  have h1 := hr2.pinv.cost
  have h2 := hinv.pinv.cost
  rw [hr2.pinv.costs, hPO, ← hinv.pinv.costs, hT] at h1
  omega

theorem C5_witness :
    example_instance.WF ∧ Reachable example_instance example_state
      ∧ 2 < example_instance.dimension_ ∧ 2 ∉ example_state.route_ ∧ 0 < 2
      ∧ 2 ≤ example_state.route_.length
      ∧ ∃ t u, insert_market_at_pos example_instance example_state 2 2 = Except.ok t
        ∧ remove_market_at_pos example_instance t 2 = Except.ok u
        ∧ u.route_ = example_state.route_ ∧ u.cost_ = example_state.cost_
        ∧ u.travel_cost_ = example_state.travel_cost_
        ∧ u.product_offers_ = example_state.product_offers_ :=
  ⟨example_instance_wf, example_state_reachable, by decide, by decide, by decide, by decide,
    C5_insert_then_remove example_instance example_state example_instance_wf
      example_state_reachable 2 2 (by decide) (by decide) (by decide) (by decide)⟩

end TPP

namespace TPP

open Solution

/-! ## The cost of adding a market -/

theorem calc_product_offer_add_cost_eq {inst : Instance} (hwf : inst.WF) {s : Solution}
    (hp : s.PInv inst) {o : ProductOffer} (ho : o.product_id_ < inst.product_count_) :
    calc_product_offer_add_cost inst s o
      = Except.ok (s.add_gain o, s.demand_remaining_.getD o.product_id_ 0) := by
  have h1 : s.product_offers_[o.product_id_]? = some (s.product_offers_.getD o.product_id_ []) :=
    getElem?_getD_of_lt _ (by rw [hp.len_offers]; exact ho)
  have h2 : s.purchase_costs_[o.product_id_]? = some (s.purchase_costs_.getD o.product_id_ 0) :=
    getElem?_getD_of_lt _ (by rw [hp.len_costs]; exact ho)
  have h3 : s.demand_remaining_[o.product_id_]?
      = some (s.demand_remaining_.getD o.product_id_ 0) :=
    getElem?_getD_of_lt _ (by rw [hp.len_demand]; exact ho)
  unfold calc_product_offer_add_cost
  rw [hwf.uncapacitated]
  simp only [beq_self_eq_true, CHECK_F_true, ok_bind, vec_at_eq_ok h1, vec_idx_eq_ok h2,
    vec_idx_eq_ok h3, Solution.add_gain, front_price_insert_sorted]
  have hc := hp.costs_getD o.product_id_
  cases hl : s.product_offers_.getD o.product_id_ [] with
  | nil => rfl
  | cons f fs =>
    rw [hl] at hc
    simp only [front_price] at hc
    simp only [hc]

theorem add_cost_offers_loop_eq {inst : Instance} (hwf : inst.WF) {s : Solution}
    (hp : s.PInv inst) (os : List ProductOffer) :
    ∀ (cost cnt : Int), (∀ o ∈ os, o.product_id_ < inst.product_count_) →
      add_cost_offers_loop inst s os cost cnt
        = Except.ok (cost + (os.map s.add_gain).sum,
            cnt - (os.map (fun o => s.demand_remaining_.getD o.product_id_ 0)).sum) := by
  induction os with
  | nil => intro cost cnt _; simp [add_cost_offers_loop]
  | cons o rest ih =>
    intro cost cnt hos
    unfold add_cost_offers_loop
    rw [calc_product_offer_add_cost_eq hwf hp (hos o (List.mem_cons_self _ _)), ok_bind,
      ih _ _ (fun x hx => hos x (List.mem_cons_of_mem _ hx))]
    simp only [List.map_cons, List.sum_cons]
    congr 2 <;> ring

theorem add_cost_position_loop_spec {inst : Instance} (hwf : inst.WF) {s : Solution}
    (hinv : s.Inv inst) {m : Nat} (hm : m < inst.dimension_) :
    ∀ (n i : Nat) (mn : Int) (mi : Nat), i + n = s.route_.length →
      PositionInv inst s.route_ m i mn mi →
      ∃ mn' mi', add_cost_position_loop inst s m n i mn mi = Except.ok (mn', mi')
        ∧ PositionInv inst s.route_ m s.route_.length mn' mi' := by
  intro n
  induction n with
  | zero =>
    intro i mn mi hi hI
    have : i = s.route_.length := by omega
    subst this
    exact ⟨mn, mi, rfl, hI⟩
  | succ n ih =>
    intro i mn mi hi hI
    have hpos := hinv.route_pos
    have hi1 : i < s.route_.length := by omega
    have hi2 : (i + 1) % s.route_.length < s.route_.length := Nat.mod_lt _ hpos
    have hcurr := getElem?_getD_of_lt 0 hi1
    have hnext := getElem?_getD_of_lt 0 hi2
    have hcurr_lt := hinv.route_lt _ (hinv.getD_mem hi1)
    have hnext_lt := hinv.route_lt _ (hinv.getD_mem hi2)
    have hdelta : inst.dist (s.route_.getD i 0) m
        + inst.dist m (s.route_.getD ((i + 1) % s.route_.length) 0)
        - inst.dist (s.route_.getD i 0) (s.route_.getD ((i + 1) % s.route_.length) 0)
        = insert_delta inst s.route_ m (i + 1) := by
      unfold insert_delta; simp
    unfold add_cost_position_loop
    simp only [vec_idx_eq_ok hcurr, vec_idx_eq_ok hnext, ok_bind,
      get_travel_cost_eq hwf hcurr_lt hm, get_travel_cost_eq hwf hm hnext_lt,
      get_travel_cost_eq hwf hcurr_lt hnext_lt, hdelta]
    by_cases hlt : insert_delta inst s.route_ m (i + 1) < mn
    · rw [if_pos hlt]
      apply ih (i + 1) _ _ (by omega)
      refine ⟨?_, Or.inr ⟨by omega, le_refl _, rfl, ?_⟩⟩
      · intro j hj0 hj
        by_cases hje : j = i + 1
        · rw [hje]
        · have := hI.1 j hj0 (by omega)
          omega
      · rcases hI.2 with h | h
        · omega
        · omega
    · rw [if_neg hlt]
      apply ih (i + 1) _ _ (by omega)
      refine ⟨?_, ?_⟩
      · intro j hj0 hj
        by_cases hje : j = i + 1
        · rw [hje]; omega
        · exact hI.1 j hj0 (by omega)
      · rcases hI.2 with h | h
        · exact Or.inl h
        · exact Or.inr ⟨h.1, by omega, h.2.2.1, h.2.2.2⟩

theorem calc_market_add_cost_spec {inst : Instance} (hwf : inst.WF) {s : Solution}
    (hinv : s.Inv inst) {m : Nat} (hm : m < inst.dimension_) (hnot : m ∉ s.route_) :
    ∃ mn mi, PositionInv inst s.route_ m s.route_.length mn mi
      ∧ calc_market_add_cost inst s m = Except.ok
        { cost_change_ := ((inst.market_offers_.getD m []).map s.add_gain).sum + mn
          index_ := mi
          demand_satisfied_ := decide (s.total_unsatisfied_demand_
            - ((inst.market_offers_.getD m []).map
                (fun o => s.demand_remaining_.getD o.product_id_ 0)).sum = 0) } := by
  have hsel : s.market_selected_[m]? = some false := by
    have h1 := getElem?_getD_of_lt false (by rw [hinv.selected_len]; exact hm :
      m < s.market_selected_.length)
    rw [hinv.selected m hm] at h1
    simpa [hnot] using h1
  have hos : ∀ o ∈ inst.market_offers_.getD m [], o.product_id_ < inst.product_count_ :=
    fun o ho => hwf.offer_product_lt ho
  have hI0 : PositionInv inst s.route_ m 0 INT_MAX (s.route_.length + 1) :=
    ⟨fun j hj0 hj => by omega, Or.inl ⟨rfl, rfl⟩⟩
  obtain ⟨mn, mi, hloop, hI⟩ := add_cost_position_loop_spec hwf hinv hm s.route_.length 0
    INT_MAX (s.route_.length + 1) (by omega) hI0
  refine ⟨mn, mi, hI, ?_⟩
  unfold calc_market_add_cost is_market_used
  simp only [vec_at_eq_ok hsel, ok_bind, Bool.not_false, CHECK_F_true, market_offers_at hwf hm,
    add_cost_offers_loop_eq hwf hinv.pinv _ _ _ hos, hloop, zero_add]

end TPP

namespace TPP

open Solution

theorem duplicate_offer_instance_wf : duplicate_offer_instance.WF :=
  ⟨by decide, by decide, by decide, by decide, by decide, by decide, by decide, by decide,
    by decide⟩

theorem zero_demand_instance_wf : zero_demand_instance.WF :=
  ⟨by decide, by decide, by decide, by decide, by decide, by decide, by decide, by decide,
    by decide⟩

theorem duplicate_offer_state_reachable :
    Reachable duplicate_offer_instance duplicate_offer_state :=
  Reachable.insert 1 1
    (Reachable.init (s := Solution.init_state duplicate_offer_instance) (by decide))
    (by decide) (by decide) (by decide) (by decide)

theorem Instance.OneOfferPerProduct.getD {inst : Instance} (h : inst.OneOfferPerProduct)
    (m : Nat) : ((inst.market_offers_.getD m []).map (fun o => o.product_id_)).Nodup := by
  rcases getD_mem_or_default inst.market_offers_ m [] with h1 | h1
  · exact h _ h1
  · rw [h1]; exact List.nodup_nil

theorem add_gain_add_state (s : Solution) (o x : ProductOffer)
    (h : o.product_id_ ≠ x.product_id_) : (s.add_state o).add_gain x = s.add_gain x := by
  simp only [Solution.add_gain, Solution.add_state]
  rw [getD_set_ne _ _ _ _ _ h, getD_set_ne _ _ _ _ _ h]

theorem foldl_add_state_cost (os : List ProductOffer) :
    ∀ (s : Solution), (os.map (fun o => o.product_id_)).Nodup →
      (os.foldl Solution.add_state s).cost_ = s.cost_ + (os.map s.add_gain).sum := by
  induction os with
  | nil => intro s _; simp
  | cons o rest ih =>
    intro s hnd
    rw [List.map_cons, List.nodup_cons] at hnd
    simp only [List.foldl_cons, List.map_cons, List.sum_cons]
    rw [ih (s.add_state o) hnd.2]
    have h1 : (s.add_state o).cost_ = s.cost_ + s.add_gain o := rfl
    have h2 : rest.map (s.add_state o).add_gain = rest.map s.add_gain := by
      apply List.map_congr_left
      intro x hx
      apply add_gain_add_state
      intro heq
      exact hnd.1 (List.mem_map.mpr ⟨x, hx, heq.symm⟩)
    rw [h1, h2]; ring

theorem foldl_add_state_total (os : List ProductOffer) :
    ∀ (s : Solution), (os.map (fun o => o.product_id_)).Nodup →
      (os.foldl Solution.add_state s).total_unsatisfied_demand_
        = s.total_unsatisfied_demand_
          - (os.map (fun o => s.demand_remaining_.getD o.product_id_ 0)).sum := by
  induction os with
  | nil => intro s _; simp
  | cons o rest ih =>
    intro s hnd
    rw [List.map_cons, List.nodup_cons] at hnd
    simp only [List.foldl_cons, List.map_cons, List.sum_cons]
    rw [ih (s.add_state o) hnd.2]
    have h1 : (s.add_state o).total_unsatisfied_demand_
        = s.total_unsatisfied_demand_ - s.demand_remaining_.getD o.product_id_ 0 := rfl
    have h2 : rest.map (fun x => (s.add_state o).demand_remaining_.getD x.product_id_ 0)
        = rest.map (fun x => s.demand_remaining_.getD x.product_id_ 0) := by
      apply List.map_congr_left
      intro x hx
      have hne : o.product_id_ ≠ x.product_id_ := by
        intro heq
        exact hnd.1 (List.mem_map.mpr ⟨x, hx, heq.symm⟩)
      show ((s.demand_remaining_.set o.product_id_ 0).getD x.product_id_ 0) = _
      rw [getD_set_ne _ _ _ _ _ hne]
    rw [h1, h2]; ring

theorem Solution.PInv.is_valid_iff {inst : Instance} {s : Solution} (hp : s.PInv inst) :
    s.is_valid = true ↔ s.total_unsatisfied_demand_ = 0 := by
  unfold Solution.is_valid
  rw [List.isEmpty_iff, hp.total]
  constructor
  · intro h
    apply List.sum_eq_zero
    intro d hd
    obtain ⟨i, hi⟩ := List.mem_iff_getElem?.mp hd
    have h1 : s.demand_remaining_.getD i 0 = d := getD_eq_of_getElem? hi
    have h2 := (hp.remaining_mem i).not.mp (by rw [h]; exact List.not_mem_nil _)
    have h3 := hp.demand_nonneg d hd
    omega
  · intro h
    apply List.eq_nil_iff_forall_not_mem.mpr
    intro p hmem
    have h1 := (hp.remaining_mem p).mp hmem
    have h2 := getD_le_sum_of_nonneg s.demand_remaining_ p hp.demand_nonneg
    omega

/-- C10 (as amended): in every reachable state, for every unselected market `m`
(each market having at most one offer per product) for which some insertion
position has a travel delta below `INT_MAX`, `calc_market_add_cost(m)` returns
a verdict whose `demand_satisfied_` is true exactly when `is_valid()` is true
after `insert_market_at_pos(m, index_)`. -/
theorem C10_add_cost_demand_satisfied (inst : Instance) (s : Solution) (hwf : inst.WF)
    (hone : inst.OneOfferPerProduct) (hr : Reachable inst s) (m : Nat)
    (hm : m < inst.dimension_) (hnot : m ∉ s.route_)
    (hsome : ∃ i, 0 < i ∧ i ≤ s.route_.length ∧ insert_delta inst s.route_ m i < INT_MAX) :
    ∃ v t, calc_market_add_cost inst s m = Except.ok v
      ∧ insert_market_at_pos inst s m v.index_ = Except.ok t
      ∧ (v.demand_satisfied_ = true ↔ t.is_valid = true) := by
  have hinv := hr.inv hwf
  obtain ⟨mn, mi, hI, hv⟩ := calc_market_add_cost_spec hwf hinv hm hnot
  obtain ⟨i, hi0, hile, hilt⟩ := hsome
  have hmn := hI.1 i hi0 hile
  rcases hI.2 with h | ⟨h0, hle, heq, _⟩
  · omega
  · obtain ⟨hi1, hi2⟩ := insert_market_at_pos_eq hwf hinv hm hnot h0 hle
    refine ⟨_, _, hv, hi1, ?_⟩
    rw [hi2.pinv.is_valid_iff]
    have htot : (s.insert_state inst m mi).total_unsatisfied_demand_
        = s.total_unsatisfied_demand_
          - ((inst.market_offers_.getD m []).map
              (fun o => s.demand_remaining_.getD o.product_id_ 0)).sum := by
      show ((inst.market_offers_.getD m []).foldl Solution.add_state
          (s.insert_pre inst m mi)).total_unsatisfied_demand_ = _
      rw [foldl_add_state_total _ _ (hone.getD m)]
      rfl
    rw [htot]
    simp

theorem C10_witness :
    example_instance.WF ∧ example_instance.OneOfferPerProduct
      ∧ Reachable example_instance example_state ∧ 2 < example_instance.dimension_
      ∧ 2 ∉ example_state.route_
      ∧ (∃ i, 0 < i ∧ i ≤ example_state.route_.length
          ∧ insert_delta example_instance example_state.route_ 2 i < INT_MAX)
      ∧ ∃ v t, calc_market_add_cost example_instance example_state 2 = Except.ok v
        ∧ insert_market_at_pos example_instance example_state 2 v.index_ = Except.ok t
        ∧ (v.demand_satisfied_ = true ↔ t.is_valid = true) :=
  ⟨example_instance_wf, example_instance_one_offer, example_state_reachable, by decide,
    by decide, ⟨1, by decide, by decide, by decide⟩,
    C10_add_cost_demand_satisfied example_instance example_state example_instance_wf
      example_instance_one_offer example_state_reachable 2 (by decide) (by decide)
      ⟨1, by decide, by decide, by decide⟩⟩

/-- C10 fails as stated: when the only market lists the only product twice,
`calc_market_add_cost(1)` on the initial solution subtracts the demand of the
product once per offer and reports `demand_satisfied_ = false`, although the
solution is valid after `insert_market_at_pos(1, index_)`. -/
theorem C10_counterexample :
    duplicate_offer_instance.WF
      ∧ Reachable duplicate_offer_instance (Solution.init_state duplicate_offer_instance)
      ∧ 1 ∈ (Solution.init_state duplicate_offer_instance).unselected_markets_
      ∧ calc_market_add_cost duplicate_offer_instance
          (Solution.init_state duplicate_offer_instance) 1
          = Except.ok { cost_change_ := 5, index_ := 1, demand_satisfied_ := false }
      ∧ insert_market_at_pos duplicate_offer_instance
          (Solution.init_state duplicate_offer_instance) 1 1
          = Except.ok duplicate_offer_state
      ∧ duplicate_offer_state.is_valid = true :=
  ⟨duplicate_offer_instance_wf, Reachable.init (by decide), by decide, by decide, by decide,
    by decide⟩

end TPP

namespace TPP

open Solution

/-! ## The cost of removing a market: claims C8 and C9 -/

theorem calc_product_offer_removal_cost_snd {inst : Instance} (hwf : inst.WF) {s : Solution}
    (hp : s.PInv inst) {o : ProductOffer} (ho : o.product_id_ < inst.product_count_) :
    ∃ c, calc_product_offer_removal_cost inst s o
      = Except.ok (c, decide (2 ≤ (s.product_offers_.getD o.product_id_ []).length)) := by
  have h1 : s.product_offers_[o.product_id_]? = some (s.product_offers_.getD o.product_id_ []) :=
    getElem?_getD_of_lt _ (by rw [hp.len_offers]; exact ho)
  have h2 : s.purchase_costs_[o.product_id_]? = some (s.purchase_costs_.getD o.product_id_ 0) :=
    getElem?_getD_of_lt _ (by rw [hp.len_costs]; exact ho)
  unfold calc_product_offer_removal_cost
  rw [hwf.uncapacitated]
  simp only [beq_self_eq_true, CHECK_F_true, ok_bind, vec_at_eq_ok h1, vec_idx_eq_ok h2]
  generalize s.product_offers_.getD o.product_id_ [] = l
  cases l with
  | nil => exact ⟨0 - s.purchase_costs_.getD o.product_id_ 0, rfl⟩
  | cons a t =>
    cases t with
    | nil => exact ⟨0 - s.purchase_costs_.getD o.product_id_ 0, rfl⟩
    | cons b t2 => exact ⟨b.price_ - s.purchase_costs_.getD o.product_id_ 0, by simp⟩

theorem removal_cost_loop_required {inst : Instance} (hwf : inst.WF) {s : Solution}
    (hp : s.PInv inst) (os : List ProductOffer) :
    ∀ (cost : Int) (all : Bool), (∀ o ∈ os, o.product_id_ < inst.product_count_) →
      ((∀ o ∈ os, 2 ≤ (s.product_offers_.getD o.product_id_ []).length) →
        ∃ c, removal_cost_loop inst s true os cost all = Except.ok (some (c, all)))
      ∧ ((∃ o ∈ os, (s.product_offers_.getD o.product_id_ []).length < 2) →
        removal_cost_loop inst s true os cost all = Except.ok none) := by
  induction os with
  | nil =>
    intro cost all _
    exact ⟨fun _ => ⟨cost, rfl⟩, fun ⟨o, ho, _⟩ => absurd ho (List.not_mem_nil _)⟩
  | cons o rest ih =>
    intro cost all hos
    obtain ⟨c, hc⟩ := calc_product_offer_removal_cost_snd hwf hp (hos o (List.mem_cons_self _ _))
    have ih' := fun cost all => ih cost all (fun x hx => hos x (List.mem_cons_of_mem _ hx))
    by_cases h2 : 2 ≤ (s.product_offers_.getD o.product_id_ []).length
    · have hstep : removal_cost_loop inst s true (o :: rest) cost all
          = removal_cost_loop inst s true rest (cost + c) all := by
        rw [removal_cost_loop, hc]
        simp only [ok_bind, decide_eq_true h2, Bool.not_true, Bool.and_false,
          Bool.false_eq_true, if_false, Bool.and_true]
      rw [hstep]
      constructor
      · intro hall
        exact (ih' (cost + c) all).1 (fun x hx => hall x (List.mem_cons_of_mem _ hx))
      · rintro ⟨x, hx, hlt⟩
        rcases List.mem_cons.mp hx with rfl | hx
        · omega
        · exact (ih' (cost + c) all).2 ⟨x, hx, hlt⟩
    · have hstep : removal_cost_loop inst s true (o :: rest) cost all = Except.ok none := by
        rw [removal_cost_loop, hc]
        simp only [ok_bind, decide_eq_false h2, Bool.not_false, Bool.and_true, if_true]
      rw [hstep]
      constructor
      · intro hall
        exact absurd (hall o (List.mem_cons_self _ _)) h2
      · intro _; rfl

theorem remove_state_total (s : Solution) (o : ProductOffer) :
    (s.remove_state o).total_unsatisfied_demand_
      = s.total_unsatisfied_demand_
        + (if (s.product_offers_.getD o.product_id_ []).eraseIdx
              (locate_offer o (s.product_offers_.getD o.product_id_ [])) = [] then 1 else 0) := by
  unfold Solution.remove_state
  simp only
  generalize (s.product_offers_.getD o.product_id_ []).eraseIdx
    (locate_offer o (s.product_offers_.getD o.product_id_ [])) = e
  cases e <;> simp

theorem foldl_remove_state_total {inst : Instance} (os : List ProductOffer) :
    ∀ (s : Solution), s.PInv inst → (os.map (fun o => o.product_id_)).Nodup →
      (∀ o ∈ os, o.product_id_ < inst.product_count_) →
      (∀ o ∈ os, o ∈ s.product_offers_.getD o.product_id_ []) →
      (os.foldl Solution.remove_state s).total_unsatisfied_demand_
        = s.total_unsatisfied_demand_
          + ((os.filter (fun o =>
              decide ((s.product_offers_.getD o.product_id_ []).length < 2))).length : Int) := by
  induction os with
  | nil => intro s _ _ _ _; simp
  | cons o rest ih =>
    intro s hp hnd hos hmem
    rw [List.map_cons, List.nodup_cons] at hnd
    have ho := hos o (List.mem_cons_self _ _)
    have hom := hmem o (List.mem_cons_self _ _)
    have hget := (locate_offer_getElem (hp.sorted_getD o.product_id_) hom).2
    have hk := lt_length_of_getElem? hget
    have hne : ∀ x ∈ rest, o.product_id_ ≠ x.product_id_ := by
      intro x hx heq
      exact hnd.1 (List.mem_map.mpr ⟨x, hx, heq.symm⟩)
    have hsame : ∀ x ∈ rest, (s.remove_state o).product_offers_.getD x.product_id_ []
        = s.product_offers_.getD x.product_id_ [] := by
      intro x hx
      rw [remove_state_getD s o _ (by rw [hp.len_offers]; exact ho), if_neg (hne x hx)]
    simp only [List.foldl_cons]
    rw [ih (s.remove_state o) (hp.remove_state ho hom) hnd.2
      (fun x hx => hos x (List.mem_cons_of_mem _ hx))
      (fun x hx => by rw [hsame x hx]; exact hmem x (List.mem_cons_of_mem _ hx)),
      remove_state_total]
    have hfilter : rest.filter (fun x =>
          decide (((s.remove_state o).product_offers_.getD x.product_id_ []).length < 2))
        = rest.filter (fun x =>
          decide ((s.product_offers_.getD x.product_id_ []).length < 2)) := by
      apply List.filter_congr
      intro x hx
      rw [hsame x hx]
    rw [hfilter, List.filter_cons]
    have hlen : ((s.product_offers_.getD o.product_id_ []).eraseIdx
        (locate_offer o (s.product_offers_.getD o.product_id_ []))).length
        = (s.product_offers_.getD o.product_id_ []).length - 1 :=
      List.length_eraseIdx_of_lt hk
    by_cases h2 : (s.product_offers_.getD o.product_id_ []).length < 2
    · have hnil : (s.product_offers_.getD o.product_id_ []).eraseIdx
          (locate_offer o (s.product_offers_.getD o.product_id_ [])) = [] := by
        apply List.eq_nil_of_length_eq_zero
        omega
      rw [if_pos hnil, if_pos (decide_eq_true h2)]
      simp only [List.length_cons]
      push_cast
      ring
    · have hnn : (s.product_offers_.getD o.product_id_ []).eraseIdx
          (locate_offer o (s.product_offers_.getD o.product_id_ [])) ≠ [] := by
        intro h
        rw [h, List.length_nil] at hlen
        omega
      rw [if_neg hnn, if_neg (by simpa using h2)]
      ring

theorem Solution.Inv.offer_mem {inst : Instance} {s : Solution} (hinv : s.Inv inst) {m : Nat}
    (hm : m ∈ s.route_) (hm0 : m ≠ 0) {o : ProductOffer}
    (ho : o ∈ inst.market_offers_.getD m []) : o ∈ s.product_offers_.getD o.product_id_ [] := by
  rw [(hinv.offers o.product_id_).mem_iff]
  unfold offers_for
  rw [List.mem_filter]
  refine ⟨?_, by simp⟩
  unfold route_offers
  rw [List.mem_flatMap]
  refine ⟨m, ?_, ho⟩
  unfold markets_of
  rw [List.mem_filter]
  exact ⟨hm, by simpa using hm0⟩

/-- C9 (as amended): in every reachable state and for every market `m` at a
position `pos > 0` of the route (each market having at most one offer per
product), `calc_market_removal_cost(m, true).demand_satisfied_` is true exactly
when `is_valid()` holds after `remove_market_at_pos(pos)`; and when an offer of
`m` is the only offer for its product, the verdict has `demand_satisfied_`
false and `cost_change_ = 0`. -/
theorem C9_removal_cost_validity (inst : Instance) (s : Solution) (hwf : inst.WF)
    (hone : inst.OneOfferPerProduct) (hr : Reachable inst s) (pos m : Nat) (h0 : 0 < pos)
    (hm : s.route_[pos]? = some m) :
    ∃ v t, calc_market_removal_cost inst s m true = Except.ok v
      ∧ remove_market_at_pos inst s pos = Except.ok t
      ∧ (v.demand_satisfied_ = true ↔ t.is_valid = true)
      ∧ ((∃ o ∈ inst.market_offers_.getD m [],
            (s.product_offers_.getD o.product_id_ []).length < 2) →
          v.demand_satisfied_ = false ∧ v.cost_change_ = 0) := by
  have hinv := hr.inv hwf
  have hlt : pos < s.route_.length := lt_length_of_getElem? hm
  have hgetD : s.route_.getD pos 0 = m := getD_eq_of_getElem? hm
  have hmmem : m ∈ s.route_ := List.mem_iff_getElem?.mpr ⟨pos, hm⟩
  have hm0 : m ≠ 0 := by rw [← hgetD]; exact hinv.getD_ne_zero h0 hlt
  have hmlt : m < inst.dimension_ := hinv.route_lt m hmmem
  obtain ⟨hr1, hr2⟩ := remove_market_at_pos_eq hwf hinv h0 hlt
  have hidx : s.route_.indexOf m = pos := by
    have h1 : s.route_[pos] = m := by
      rw [List.getElem?_eq_getElem hlt] at hm
      exact Option.some.inj hm
    rw [← h1]
    exact List.indexOf_getElem hinv.route_nodup pos hlt
  have hos : ∀ o ∈ inst.market_offers_.getD m [], o.product_id_ < inst.product_count_ :=
    fun o ho => hwf.offer_product_lt ho
  have hmem : ∀ o ∈ inst.market_offers_.getD m [], o ∈ s.product_offers_.getD o.product_id_ [] :=
    fun o ho => hinv.offer_mem hmmem hm0 ho
  -- the total demand after the removal
  have hp1 : (s.remove_pre inst pos).PInv inst :=
    hinv.pinv.frame rfl rfl rfl rfl rfl rfl (by simp [Solution.remove_pre])
  have htot : (s.remove_market_state inst pos).total_unsatisfied_demand_
      = s.total_unsatisfied_demand_
        + (((inst.market_offers_.getD m []).filter (fun o =>
            decide ((s.product_offers_.getD o.product_id_ []).length < 2))).length : Int) := by
    show ((inst.market_offers_.getD (s.route_.getD pos 0) []).foldl Solution.remove_state
      (s.remove_pre inst pos)).total_unsatisfied_demand_ = _
    rw [hgetD]
    exact foldl_remove_state_total _ _ hp1 (hone.getD m) hos hmem
  have htot0 : 0 ≤ s.total_unsatisfied_demand_ := by
    rw [hinv.pinv.total]; exact List.sum_nonneg hinv.pinv.demand_nonneg
  have hloop := removal_cost_loop_required hwf hinv.pinv (inst.market_offers_.getD m []) 0
    (decide (s.total_unsatisfied_demand_ = 0)) hos
  have hi1 : pos - 1 < s.route_.length := by omega
  have hi2 : (pos + 1) % s.route_.length < s.route_.length := Nat.mod_lt _ hinv.route_pos
  have hprev := getElem?_getD_of_lt 0 hi1
  have hnext := getElem?_getD_of_lt 0 hi2
  have hprev_lt := hinv.route_lt _ (hinv.getD_mem hi1)
  have hnext_lt := hinv.route_lt _ (hinv.getD_mem hi2)
  have hne1 : pos ≠ s.route_.length := by omega
  have hne2 : pos ≠ 0 := by omega
  by_cases hall : ∀ o ∈ inst.market_offers_.getD m [],
      2 ≤ (s.product_offers_.getD o.product_id_ []).length
  · obtain ⟨c, hc⟩ := hloop.1 hall
    have hfil : (inst.market_offers_.getD m []).filter (fun o =>
        decide ((s.product_offers_.getD o.product_id_ []).length < 2)) = [] := by
      rw [List.filter_eq_nil_iff]
      intro o ho
      have := hall o ho
      simp only [decide_eq_true_eq]
      omega
    have hv : calc_market_removal_cost inst s m true = Except.ok
        { cost_change_ := c - (inst.dist (s.route_.getD (pos - 1) 0) m
            + inst.dist m (s.route_.getD ((pos + 1) % s.route_.length) 0)
            - inst.dist (s.route_.getD (pos - 1) 0)
                (s.route_.getD ((pos + 1) % s.route_.length) 0))
          index_ := 0
          demand_satisfied_ := decide (s.total_unsatisfied_demand_ = 0) } := by
      unfold calc_market_removal_cost
      simp only [hidx, ne_eq, hne1, hne2, not_false_eq_true, decide_True, CHECK_F_true, ok_bind,
        market_offers_at hwf hmlt, hc, vec_at_eq_ok hprev, vec_at_eq_ok hnext,
        get_travel_cost_eq hwf hprev_lt hmlt, get_travel_cost_eq hwf hmlt hnext_lt,
        get_travel_cost_eq hwf hprev_lt hnext_lt]
    refine ⟨_, _, hv, hr1, ?_, ?_⟩
    · rw [hr2.pinv.is_valid_iff, htot, hfil]
      simp
    · rintro ⟨o, ho, hlt2⟩
      have := hall o ho
      omega
  · have hex : ∃ o ∈ inst.market_offers_.getD m [],
        (s.product_offers_.getD o.product_id_ []).length < 2 := by
      by_contra hc
      apply hall
      intro o ho
      by_contra h2
      exact hc ⟨o, ho, by omega⟩
    have hnone := hloop.2 hex
    have hv : calc_market_removal_cost inst s m true = Except.ok
        { cost_change_ := 0, index_ := 0, demand_satisfied_ := false } := by
      unfold calc_market_removal_cost
      simp only [hidx, ne_eq, hne1, hne2, not_false_eq_true, decide_True, CHECK_F_true, ok_bind,
        market_offers_at hwf hmlt, hnone]
    refine ⟨_, _, hv, hr1, ?_, fun _ => ⟨rfl, rfl⟩⟩
    rw [hr2.pinv.is_valid_iff, htot]
    obtain ⟨o, ho, hlt2⟩ := hex
    have hpos : 0 < ((inst.market_offers_.getD m []).filter (fun o =>
        decide ((s.product_offers_.getD o.product_id_ []).length < 2))).length := by
      apply List.length_pos_of_mem (a := o)
      rw [List.mem_filter]
      exact ⟨ho, decide_eq_true hlt2⟩
    constructor
    · intro h; exact absurd h (by simp)
    · intro h
      have : (0 : Int) < ((inst.market_offers_.getD m []).filter (fun o =>
          decide ((s.product_offers_.getD o.product_id_ []).length < 2))).length := by
        exact_mod_cast hpos
      omega

theorem C9_witness :
    example_instance.WF ∧ example_instance.OneOfferPerProduct
      ∧ Reachable example_instance example_state_valid ∧ 0 < 1
      ∧ example_state_valid.route_[1]? = some 3
      ∧ ∃ v t, calc_market_removal_cost example_instance example_state_valid 3 true
            = Except.ok v
        ∧ remove_market_at_pos example_instance example_state_valid 1 = Except.ok t
        ∧ (v.demand_satisfied_ = true ↔ t.is_valid = true)
        ∧ ((∃ o ∈ example_instance.market_offers_.getD 3 [],
              (example_state_valid.product_offers_.getD o.product_id_ []).length < 2) →
            v.demand_satisfied_ = false ∧ v.cost_change_ = 0) :=
  ⟨example_instance_wf, example_instance_one_offer, example_state_valid_reachable, by decide,
    by decide,
    C9_removal_cost_validity example_instance example_state_valid example_instance_wf
      example_instance_one_offer example_state_valid_reachable 1 3 (by decide) (by decide)⟩

/-- C9 fails as stated: when the only market lists the only product twice and
is in the route, `calc_market_removal_cost(1, true)` sees two offers for the
product and reports `demand_satisfied_ = true`, although the solution is not
valid after `remove_market_at_pos(1)`. -/
theorem C9_counterexample :
    duplicate_offer_instance.WF
      ∧ Reachable duplicate_offer_instance duplicate_offer_state
      ∧ duplicate_offer_state.route_[1]? = some 1
      ∧ calc_market_removal_cost duplicate_offer_instance duplicate_offer_state 1 true
          = Except.ok { cost_change_ := 0, index_ := 0, demand_satisfied_ := true }
      ∧ (remove_market_at_pos duplicate_offer_instance duplicate_offer_state 1).map
          (fun t => t.is_valid) = Except.ok false :=
  ⟨duplicate_offer_instance_wf, duplicate_offer_state_reachable, by decide, by decide,
    by decide⟩

/-- C8, the code at the failing input: on the test instance with the route
`0, 3, 2, 1`, market `3` holds the cheapest offer for product `1` but not for
product `0`; `calc_market_removal_cost(3, false)` returns `cost_change_ = 1`,
while `remove_market_at_pos(1)`, which removes market `3`, leaves `cost_` at
`7`, a change of `0`. -/
theorem C8_removal_cost_overestimates :
    example_instance.WF ∧ Reachable example_instance example_state_valid
      ∧ example_state_valid.route_[1]? = some 3
      ∧ example_state_valid.cost_ = 7
      ∧ calc_market_removal_cost example_instance example_state_valid 3 false
          = Except.ok { cost_change_ := 1, index_ := 0, demand_satisfied_ := true }
      ∧ (remove_market_at_pos example_instance example_state_valid 1).map
          (fun t => t.cost_) = Except.ok 7 :=
  ⟨example_instance_wf, example_state_valid_reachable, by decide, by decide, by decide,
    by decide⟩

end TPP

namespace TPP

open Solution

/-! ## The recomputed cost: claim C1 -/

theorem length_le_of_nodup_lt (l : List Nat) (n : Nat) (hnd : l.Nodup) (hlt : ∀ x ∈ l, x < n) :
    l.length ≤ n := by
  have hsub : l ⊆ List.range n := fun x hx => List.mem_range.mpr (hlt x hx)
  have := (List.subperm_of_subset hnd hsub).length_le
  simpa using this

end TPP

namespace TPP

open Solution

theorem zero_demand_state_reachable : Reachable zero_demand_instance zero_demand_state :=
  Reachable.remove 2
    (Reachable.insert 2 2
      (Reachable.insert 1 1
        (Reachable.init (s := Solution.init_state zero_demand_instance) (by decide))
        (by decide) (by decide) (by decide)
        (t := Solution.insert_state zero_demand_instance
          (Solution.init_state zero_demand_instance) 1 1)
        (by decide))
      (by decide) (by decide) (by decide)
      (t := Solution.insert_state zero_demand_instance
        (Solution.insert_state zero_demand_instance
          (Solution.init_state zero_demand_instance) 1 1) 2 2)
      (by decide))
    (by decide) (by decide) (by decide)

/-- C4, the code at the failing input: in an uncapacitated instance where
product `1` has demand zero, after `insert_market_at_pos(1, 1)`,
`insert_market_at_pos(2, 2)` and `remove_market_at_pos(2)` the product of
demand zero is listed in `remaining_products_` and `is_valid()` is false,
although every needed product is offered by a market of the route. -/
theorem C4_zero_demand_breaks_validity :
    zero_demand_instance.WF
      ∧ (∀ d ∈ zero_demand_instance.demands_, d = 0 ∨ d = 1)
      ∧ Reachable zero_demand_instance zero_demand_state
      ∧ zero_demand_state.remaining_products_ = [1]
      ∧ zero_demand_state.is_valid = false
      ∧ (∀ p < zero_demand_instance.product_count_,
          0 < zero_demand_instance.demands_.getD p 0 →
          ∃ m ∈ zero_demand_state.route_,
            0 < ((zero_demand_instance.market_product_offers_.getD m []).getD p
              ⟨0, 0, 0, 0⟩).quantity_) :=
  ⟨zero_demand_instance_wf, by decide, zero_demand_state_reachable, by decide, by decide,
    by decide⟩

end TPP

namespace TPP

/-! ## Removal of the last offer and the list of remaining products: claims C11, C12 -/

open Solution

theorem zero_demand_full_state_reachable :
    Reachable zero_demand_instance zero_demand_full_state :=
  Reachable.insert 2 2
    (Reachable.insert 1 1
      (Reachable.init (s := Solution.init_state zero_demand_instance) (by decide))
      (by decide) (by decide) (by decide)
      (t := Solution.insert_state zero_demand_instance
        (Solution.init_state zero_demand_instance) 1 1)
      (by decide))
    (by decide) (by decide) (by decide) (by decide)

/-- C11, the code at the failing input: in an uncapacitated instance where
product `1` has demand zero, `remove_product_offer` applied to the only offer
for product `1` sets `purchase_costs_[1]` to `0` and lists the product in
`remaining_products_`, but sets `demand_remaining_[1]` to `1` although
`demands_[1]` is `0`; in the state reached by `remove_market_at_pos(2)` the
remaining demand of product `1` is neither `0` nor `demands_[1]`. -/
theorem C11_last_offer_removed_demand_one :
    zero_demand_instance.WF
      ∧ Reachable zero_demand_instance zero_demand_full_state
      ∧ zero_demand_full_state.product_offers_[1]? = some [⟨1, 1, 1, 2⟩]
      ∧ remove_product_offer zero_demand_instance zero_demand_full_state ⟨1, 1, 1, 2⟩
          = Except.ok
            ({ zero_demand_full_state with
                product_offers_ := [[⟨1, 1, 0, 1⟩], []]
                purchase_costs_ := [1, 0]
                demand_remaining_ := [0, 1]
                remaining_products_ := [1]
                markets_per_product_ := [1, 0]
                total_unsatisfied_demand_ := 1 }, -1)
      ∧ zero_demand_instance.demands_ = [1, 0]
      ∧ Reachable zero_demand_instance zero_demand_state
      ∧ zero_demand_state.demand_remaining_[1]? = some 1
      ∧ zero_demand_instance.demands_[1]? = some 0 :=
  ⟨zero_demand_instance_wf, zero_demand_full_state_reachable, by decide, by decide, by decide,
    zero_demand_state_reachable, by decide, by decide⟩

/-- C12: in every reachable state of a solution, `remaining_products_` is
strictly ascending (sorted, without duplicates), it holds exactly the products
`p` with `demand_remaining_[p] > 0`, `total_unsatisfied_demand_` is the sum of
`demand_remaining_` over all products, and `is_valid()` holds exactly when
`total_unsatisfied_demand_` is `0`. -/
theorem C12_remaining_products_and_total (inst : Instance) (s : Solution) (hwf : inst.WF)
    (hr : Reachable inst s) :
    s.remaining_products_.Pairwise (fun a b => a < b)
      ∧ s.demand_remaining_.length = inst.product_count_
      ∧ (∀ p, p ∈ s.remaining_products_ ↔ ∃ d, s.demand_remaining_[p]? = some d ∧ 0 < d)
      ∧ s.total_unsatisfied_demand_ = s.demand_remaining_.sum
      ∧ (s.is_valid = true ↔ s.total_unsatisfied_demand_ = 0) := by
  have hp := (hr.inv hwf).pinv
  refine ⟨hp.remaining_sorted, hp.len_demand, ?_, hp.total, hp.is_valid_iff⟩
  intro p
  rw [hp.remaining_mem p]
  constructor
  · intro h
    cases hd : s.demand_remaining_[p]? with
    | none =>
      rw [List.getD_eq_getElem?_getD, hd] at h
      simp at h
    | some d =>
      rw [List.getD_eq_getElem?_getD, hd] at h
      exact ⟨d, rfl, by simpa using h⟩
  · rintro ⟨d, hd, hpos⟩
    rw [getD_eq_of_getElem? hd]
    exact hpos

theorem C12_witness :
    example_instance.WF ∧ Reachable example_instance example_state
      ∧ (example_state.remaining_products_.Pairwise (fun a b => a < b)
      ∧ example_state.demand_remaining_.length = example_instance.product_count_
      ∧ (∀ p, p ∈ example_state.remaining_products_
          ↔ ∃ d, example_state.demand_remaining_[p]? = some d ∧ 0 < d)
      ∧ example_state.total_unsatisfied_demand_ = example_state.demand_remaining_.sum
      ∧ (example_state.is_valid = true ↔ example_state.total_unsatisfied_demand_ = 0)) :=
  ⟨example_instance_wf, example_state_reachable,
    C12_remaining_products_and_total example_instance example_state example_instance_wf
      example_state_reachable⟩

end TPP

namespace TPP

/-! ## The pheromone memory: claim C20 -/

open BasicPheromone

theorem mem_set_elim {α : Type} {l : List α} {i : Nat} {v x : α} (h : x ∈ l.set i v) :
    x = v ∨ x ∈ l := by
  rcases List.mem_or_eq_of_mem_set h with h1 | h1
  · exact Or.inr h1
  · exact Or.inl h1

theorem BasicPheromone.increase_spec {ph ph1 : BasicPheromone} {a b : Nat} {delta : ℚ}
    {size : Nat} (hsq : ph.Square size) (hle : ph.min_value_ ≤ ph.max_value_)
    (hin : ph.Within ph.min_value_ ph.max_value_) (hd : 0 ≤ delta)
    (h : ph.increase a b delta = Except.ok ph1) :
    ph1.Square size ∧ ph1.min_value_ = ph.min_value_ ∧ ph1.max_value_ = ph.max_value_
      ∧ ph1.Within ph.min_value_ ph.max_value_ := by
  unfold BasicPheromone.increase at h
  cases hrow : ph.trails_[a]? with
  | none => simp [vec_at, hrow] at h
  | some row =>
    cases hold : row[b]? with
    | none => simp [vec_at, hrow, hold] at h
    | some old =>
      have hrow_mem : row ∈ ph.trails_ := List.mem_iff_getElem?.mpr ⟨a, hrow⟩
      have hold_mem : old ∈ row := List.mem_iff_getElem?.mpr ⟨b, hold⟩
      have hb := hin row hrow_mem old hold_mem
      have hval : ph.min_value_ ≤ min ph.max_value_ (old + delta)
          ∧ min ph.max_value_ (old + delta) ≤ ph.max_value_ :=
        ⟨le_min hle (by linarith [hb.1]), min_le_left _ _⟩
      -- the matrix after the first write
      have hsq1 : (ph.trails_.set a (row.set b (min ph.max_value_ (old + delta)))).length = size
          ∧ ∀ vec ∈ ph.trails_.set a (row.set b (min ph.max_value_ (old + delta))),
              vec.length = size := by
        refine ⟨by rw [List.length_set]; exact hsq.1, ?_⟩
        intro vec hvec
        rcases mem_set_elim hvec with h1 | h1
        · rw [h1, List.length_set]; exact hsq.2 row hrow_mem
        · exact hsq.2 vec h1
      have hin1 : ∀ vec ∈ ph.trails_.set a (row.set b (min ph.max_value_ (old + delta))),
          ∀ trail ∈ vec, ph.min_value_ ≤ trail ∧ trail ≤ ph.max_value_ := by
        intro vec hvec trail htrail
        rcases mem_set_elim hvec with h1 | h1
        · rw [h1] at htrail
          rcases mem_set_elim htrail with h2 | h2
          · rw [h2]; exact hval
          · exact hin row hrow_mem trail h2
        · exact hin vec h1 trail htrail
      simp only [vec_at, hrow, hold, ok_bind] at h
      cases hsym : ph.is_symmetric_ with
      | false =>
        rw [hsym] at h
        simp only [Bool.false_eq_true, if_false] at h
        cases h
        exact ⟨hsq1, rfl, rfl, hin1⟩
      | true =>
        rw [hsym] at h
        simp only [if_true] at h
        cases hrow2 : (ph.trails_.set a (row.set b (min ph.max_value_ (old + delta))))[b]? with
        | none => simp [vec_idx, hrow2] at h
        | some row2 =>
          cases hc : row2[a]? with
          | none => simp [vec_idx, hrow2, hc] at h
          | some c =>
            simp only [vec_idx, hrow2, hc, ok_bind] at h
            cases h
            have hrow2_mem := List.mem_iff_getElem?.mpr ⟨b, hrow2⟩
            refine ⟨⟨by simp only [List.length_set]; exact hsq.1, ?_⟩, rfl, rfl, ?_⟩
            · intro vec hvec
              rcases mem_set_elim hvec with h1 | h1
              · rw [h1, List.length_set]; exact hsq1.2 row2 hrow2_mem
              · exact hsq1.2 vec h1
            · intro vec hvec trail htrail
              rcases mem_set_elim hvec with h1 | h1
              · rw [h1] at htrail
                rcases mem_set_elim htrail with h2 | h2
                · rw [h2]; exact hval
                · exact hin1 row2 hrow2_mem trail h2
              · exact hin1 vec h1 trail htrail

theorem BasicPheromone.increase_returns {ph : BasicPheromone} {a b : Nat} (delta : ℚ)
    {size : Nat} (hsq : ph.Square size) (ha : a < size) (hb : b < size) :
    ∃ ph1, ph.increase a b delta = Except.ok ph1 := by
  have hrow := getElem?_getD_of_lt ([] : List ℚ) (by rw [hsq.1]; exact ha : a < ph.trails_.length)
  have hrow_len := hsq.2 _ (List.mem_iff_getElem?.mpr ⟨a, hrow⟩)
  have hold := getElem?_getD_of_lt (0 : ℚ) (by rw [hrow_len]; exact hb :
    b < (ph.trails_.getD a []).length)
  unfold BasicPheromone.increase
  simp only [vec_at_eq_ok hrow, vec_at_eq_ok hold, ok_bind]
  cases ph.is_symmetric_ with
  | false => exact ⟨_, rfl⟩
  | true =>
    simp only [if_true]
    have hlen1 : (ph.trails_.set a ((ph.trails_.getD a []).set b
        (min ph.max_value_ ((ph.trails_.getD a []).getD b 0 + delta)))).length = size := by
      rw [List.length_set]; exact hsq.1
    have hrow2 := getElem?_getD_of_lt ([] : List ℚ) (by rw [hlen1]; exact hb :
      b < (ph.trails_.set a ((ph.trails_.getD a []).set b
        (min ph.max_value_ ((ph.trails_.getD a []).getD b 0 + delta)))).length)
    have hrow2_len : ((ph.trails_.set a ((ph.trails_.getD a []).set b
        (min ph.max_value_ ((ph.trails_.getD a []).getD b 0 + delta)))).getD b []).length
        = size := by
      rcases mem_set_elim (List.mem_iff_getElem?.mpr ⟨b, hrow2⟩) with h1 | h1
      · rw [h1, List.length_set]; exact hrow_len
      · exact hsq.2 _ h1
    have hc := getElem?_getD_of_lt (0 : ℚ) (by rw [hrow2_len]; exact ha :
      a < ((ph.trails_.set a ((ph.trails_.getD a []).set b
        (min ph.max_value_ ((ph.trails_.getD a []).getD b 0 + delta)))).getD b []).length)
    simp only [vec_idx_eq_ok hrow2, vec_idx_eq_ok hc, ok_bind]
    exact ⟨_, rfl⟩

theorem PheromoneReachable.within_limits {size : Nat} {ph : BasicPheromone}
    (h : PheromoneReachable size ph) :
    ph.Square size ∧ 0 ≤ ph.min_value_ ∧ ph.min_value_ ≤ ph.max_value_
      ∧ ph.Within ph.min_value_ ph.max_value_ := by
  induction h with
  | ctor sym lo hi h0 hle =>
    refine ⟨⟨by simp [BasicPheromone.ctor], ?_⟩, h0, hle, ?_⟩
    · intro vec hvec
      simp only [BasicPheromone.ctor] at hvec
      rw [(List.mem_replicate.mp hvec).2, List.length_replicate]
    · intro vec hvec trail htrail
      simp only [BasicPheromone.ctor] at hvec
      rw [(List.mem_replicate.mp hvec).2] at htrail
      rw [(List.mem_replicate.mp htrail).2]
      exact ⟨hle, le_refl _⟩
  | evaporate rho _ h0 h1 ih =>
    obtain ⟨hsq, hmin, hle, hin⟩ := ih
    refine ⟨⟨by simp [BasicPheromone.evaporate, hsq.1], ?_⟩, hmin, hle, ?_⟩
    · intro vec hvec
      simp only [BasicPheromone.evaporate, List.mem_map] at hvec
      obtain ⟨v0, hv0, rfl⟩ := hvec
      rw [List.length_map]; exact hsq.2 v0 hv0
    · intro vec hvec trail htrail
      simp only [BasicPheromone.evaporate, List.mem_map] at hvec
      obtain ⟨v0, hv0, rfl⟩ := hvec
      obtain ⟨t0, ht0, rfl⟩ := List.mem_map.mp htrail
      have hb := hin v0 hv0 t0 ht0
      have ht0_nonneg : 0 ≤ t0 := le_trans hmin hb.1
      refine ⟨le_max_left _ _, max_le hle ?_⟩
      calc t0 * rho ≤ t0 * 1 := mul_le_mul_of_nonneg_left h1 ht0_nonneg
        _ = t0 := mul_one _
        _ ≤ _ := hb.2
  | increase a b delta _ hd heq ih =>
    obtain ⟨hsq, hmin, hle, hin⟩ := ih
    obtain ⟨h1, h2, h3, h4⟩ := BasicPheromone.increase_spec hsq hle hin hd heq
    rw [h2, h3]
    exact ⟨h1, hmin, hle, h4⟩
  | set_all_trails value _ h0 h1 ih =>
    obtain ⟨hsq, hmin, hle, hin⟩ := ih
    refine ⟨⟨by simp [BasicPheromone.set_all_trails, hsq.1], ?_⟩, hmin, hle, ?_⟩
    · intro vec hvec
      simp only [BasicPheromone.set_all_trails, List.mem_map] at hvec
      obtain ⟨v0, hv0, rfl⟩ := hvec
      rw [List.length_map]; exact hsq.2 v0 hv0
    · intro vec hvec trail htrail
      simp only [BasicPheromone.set_all_trails, List.mem_map] at hvec
      obtain ⟨v0, hv0, rfl⟩ := hvec
      obtain ⟨t0, ht0, rfl⟩ := List.mem_map.mp htrail
      exact ⟨h0, h1⟩
  | set_trail_limits lo hi _ h0 hle hw ih =>
    exact ⟨ih.1, h0, hle, hw⟩

/-- C20 (as amended): for a pheromone memory constructed with
`0 ≤ min_value ≤ max_value`, after any finite sequence of `evaporate(rho)` with
`0 ≤ rho ≤ 1` and `increase(a, b, delta)` with `delta ≥ 0`, interleaved in any
order with calls `set_all_trails(v)` whose value lies between the current
limits and `set_trail_limits(lo, hi)` whose limits `0 ≤ lo ≤ hi` enclose every
current trail, every trail cell lies in `[min_value_, max_value_]`; the matrix
stays square, so that `increase(a, b, delta)` returns for all `a, b < size`. -/
theorem C20_trails_within_limits (size : Nat) (ph : BasicPheromone)
    (h : PheromoneReachable size ph) :
    (∀ vec ∈ ph.trails_, ∀ trail ∈ vec, ph.min_value_ ≤ trail ∧ trail ≤ ph.max_value_)
      ∧ (∀ a b, a < size → b < size → ∀ delta : ℚ, ∃ ph1,
          ph.increase a b delta = Except.ok ph1) :=
  ⟨h.within_limits.2.2.2, fun _ _ ha hb delta => BasicPheromone.increase_returns delta h.within_limits.1 ha hb⟩

theorem C20_witness :
    PheromoneReachable 2 (((BasicPheromone.ctor 2 true 0 1).evaporate (1 / 2)).set_trail_limits
        (1 / 4) 1)
      ∧ ((∀ vec ∈ (((BasicPheromone.ctor 2 true 0 1).evaporate (1 / 2)).set_trail_limits
            (1 / 4) 1).trails_, ∀ trail ∈ vec,
          (((BasicPheromone.ctor 2 true 0 1).evaporate (1 / 2)).set_trail_limits
            (1 / 4) 1).min_value_ ≤ trail
          ∧ trail ≤ (((BasicPheromone.ctor 2 true 0 1).evaporate (1 / 2)).set_trail_limits
            (1 / 4) 1).max_value_)
        ∧ (∀ a b, a < 2 → b < 2 → ∀ delta : ℚ, ∃ ph1,
            (((BasicPheromone.ctor 2 true 0 1).evaporate (1 / 2)).set_trail_limits
              (1 / 4) 1).increase a b delta = Except.ok ph1)) :=
  have h : PheromoneReachable 2
      (((BasicPheromone.ctor 2 true 0 1).evaporate (1 / 2)).set_trail_limits (1 / 4) 1) :=
    PheromoneReachable.set_trail_limits (1 / 4) 1
      (PheromoneReachable.evaporate (1 / 2)
        (PheromoneReachable.ctor true 0 1 (by norm_num) (by norm_num))
        (by norm_num) (by norm_num))
      (by norm_num) (by norm_num)
      (by
        intro vec hvec trail htrail
        simp only [BasicPheromone.evaporate, BasicPheromone.ctor, List.replicate, List.map,
          List.mem_cons, List.mem_singleton, List.not_mem_nil, or_false, or_self] at hvec
        subst hvec
        simp only [List.mem_cons, List.mem_singleton, List.not_mem_nil, or_false, or_self]
          at htrail
        subst htrail
        norm_num)
  ⟨h, C20_trails_within_limits 2 _ h⟩

/-- C20, as stated, fails: after the constructor with limits `0` and `1`, the
call `set_trail_limits(0, 1/2)` followed by `evaporate(1)` leaves the trail `1`
above `max_value_ = 1/2`; and the call `set_all_trails(2)` alone leaves the
trail `2` above `max_value_ = 1`. -/
theorem C20_counterexample :
    (¬ ∀ vec ∈ (((BasicPheromone.ctor 1 false 0 1).set_trail_limits 0 (1 / 2)).evaporate 1).trails_,
        ∀ trail ∈ vec,
          (((BasicPheromone.ctor 1 false 0 1).set_trail_limits 0 (1 / 2)).evaporate 1).min_value_
              ≤ trail
            ∧ trail
              ≤ (((BasicPheromone.ctor 1 false 0 1).set_trail_limits 0 (1 / 2)).evaporate
                  1).max_value_)
      ∧ (¬ ∀ vec ∈ ((BasicPheromone.ctor 1 false 0 1).set_all_trails 2).trails_,
        ∀ trail ∈ vec,
          ((BasicPheromone.ctor 1 false 0 1).set_all_trails 2).min_value_ ≤ trail
            ∧ trail ≤ ((BasicPheromone.ctor 1 false 0 1).set_all_trails 2).max_value_) := by
  constructor
  · intro h
    have h1 := (h [max 0 (1 * 1)] (by
      simp [BasicPheromone.evaporate, BasicPheromone.set_trail_limits, BasicPheromone.ctor])
      (max 0 (1 * 1)) (List.mem_singleton_self _)).2
    simp only [BasicPheromone.evaporate, BasicPheromone.set_trail_limits,
      BasicPheromone.ctor] at h1
    norm_num at h1
  · intro h
    have h1 := (h [2] (by simp [BasicPheromone.set_all_trails, BasicPheromone.ctor])
      2 (List.mem_singleton_self _)).2
    simp only [BasicPheromone.set_all_trails, BasicPheromone.ctor] at h1
    norm_num at h1

end TPP

namespace TPP

/-! ## The 2-opt heuristic: claim C19 -/

theorem vec_reverse_eq {α : Type} (xs : List α) (first last : Nat) :
    vec_reverse xs first last
      = xs.take first ++ ((xs.drop first).take (last - first)).reverse ++ xs.drop last := rfl

theorem split_three {α : Type} (xs : List α) {first last : Nat} (h : first ≤ last) :
    xs = xs.take first ++ (xs.drop first).take (last - first) ++ xs.drop last := by
  have h1 : xs.drop last = (xs.drop first).drop (last - first) := by
    rw [List.drop_drop]; congr 1; omega
  rw [h1, List.append_assoc, List.take_append_drop, List.take_append_drop]

theorem vec_reverse_perm {α : Type} (xs : List α) {first last : Nat} (h : first ≤ last) :
    (vec_reverse xs first last).Perm xs := by
  have h1 := split_three xs h
  rw [vec_reverse_eq]
  conv_rhs => rw [h1]
  exact List.Perm.append_right _ (List.Perm.append_left _ (List.reverse_perm _))

theorem vec_reverse_length {α : Type} (xs : List α) {first last : Nat} (h : first ≤ last) :
    (vec_reverse xs first last).length = xs.length :=
  (vec_reverse_perm xs h).length_eq

end TPP

namespace TPP

/-! ## The drop, insertion and exchange heuristics: claims C13, C14, C15 -/

open Solution

/-! ### The check `is_solution_valid` on a valid solution -/

theorem add_quantities_length (offers : List ProductOffer) :
    ∀ pq : List Int, (add_quantities offers pq).length = pq.length := by
  induction offers with
  | nil => intro pq; rfl
  | cons o rest ih =>
    intro pq
    simp only [add_quantities, List.foldl_cons] at ih ⊢
    rw [ih]; simp

theorem add_quantities_append (l1 l2 : List ProductOffer) (pq : List Int) :
    add_quantities (l1 ++ l2) pq = add_quantities l2 (add_quantities l1 pq) := by
  simp [add_quantities, List.foldl_append]

theorem add_quantities_getD (offers : List ProductOffer) :
    ∀ (pq : List Int) (p : Nat), (∀ o ∈ offers, o.product_id_ < pq.length) →
      (add_quantities offers pq).getD p 0
        = pq.getD p 0 + ((offers_for p offers).map (fun o => o.quantity_)).sum := by
  induction offers with
  | nil => intro pq p _; simp [add_quantities, offers_for]
  | cons o rest ih =>
    intro pq p hlt
    have ho := hlt o (List.mem_cons_self _ _)
    have h1 : add_quantities (o :: rest) pq
        = add_quantities rest (pq.set o.product_id_ (pq.getD o.product_id_ 0 + o.quantity_)) :=
      rfl
    rw [h1, ih _ p (fun x hx => by
      rw [List.length_set]; exact hlt x (List.mem_cons_of_mem _ hx)), offers_for_cons]
    by_cases hpe : o.product_id_ = p
    · subst hpe
      rw [if_pos rfl, getD_set_self _ _ _ _ ho]
      simp only [List.map_cons, List.sum_cons]
      ring
    · rw [if_neg hpe, getD_set_ne _ _ _ _ _ hpe]

theorem valid_offers_loop_eq (offers : List ProductOffer) :
    ∀ pq : List Int, (∀ o ∈ offers, o.product_id_ < pq.length) →
      valid_offers_loop offers pq = Except.ok (add_quantities offers pq) := by
  induction offers with
  | nil => intro pq _; rfl
  | cons o rest ih =>
    intro pq hos
    have ho := hos o (List.mem_cons_self _ _)
    have hc := getElem?_getD_of_lt (0 : Int) ho
    unfold valid_offers_loop
    simp only [vec_at_eq_ok hc, ok_bind]
    rw [ih _ (fun x hx => by rw [List.length_set]; exact hos x (List.mem_cons_of_mem _ hx))]
    rfl

theorem valid_route_loop_eq {inst : Instance} (hwf : inst.WF) :
    ∀ (route : List Nat) (pq : List Int), (∀ m ∈ route, m < inst.dimension_) →
      pq.length = inst.product_count_ →
      valid_route_loop inst route pq = Except.ok (add_quantities (route_offers inst route) pq) := by
  intro route
  induction route with
  | nil => intro pq _ _; rfl
  | cons b t ih =>
    intro pq hall hpq
    have hb : b < inst.dimension_ := hall b (List.mem_cons_self _ _)
    have ht : ∀ m ∈ t, m < inst.dimension_ := fun m hm => hall m (List.mem_cons_of_mem _ hm)
    unfold valid_route_loop
    rw [market_offers_at hwf hb, ok_bind,
      valid_offers_loop_eq _ pq (fun o ho => by rw [hpq]; exact hwf.offer_product_lt ho),
      ok_bind, ih _ ht (by rw [add_quantities_length]; exact hpq),
      route_offers_cons inst b t, add_quantities_append]

theorem valid_demands_loop_true (pq : List Int) :
    ∀ (demands : List Int) (i : Nat),
      (∀ k, k < demands.length → i + k < pq.length ∧ demands.getD k 0 ≤ pq.getD (i + k) 0) →
      valid_demands_loop pq i demands = Except.ok true := by
  intro demands
  induction demands with
  | nil => intro i _; rfl
  | cons d rest ih =>
    intro i h
    have h0 := h 0 (by simp)
    simp only [Nat.add_zero, List.getD_cons_zero] at h0
    have hq := getElem?_getD_of_lt (0 : Int) h0.1
    unfold valid_demands_loop
    simp only [vec_at_eq_ok hq, ok_bind]
    rw [if_neg (by omega)]
    apply ih
    intro k hk
    have := h (k + 1) (by simp; omega)
    simp only [List.getD_cons_succ] at this
    rw [show i + 1 + k = i + (k + 1) by ring]
    exact this

theorem sum_quantities_pos {l : List ProductOffer} (hq : ∀ o ∈ l, 0 < o.quantity_)
    (hne : l ≠ []) : 1 ≤ (l.map (fun o => o.quantity_)).sum := by
  induction l with
  | nil => exact absurd rfl hne
  | cons o rest ih =>
    simp only [List.map_cons, List.sum_cons]
    have h1 := hq o (List.mem_cons_self _ _)
    have h2 : 0 ≤ (rest.map (fun o => o.quantity_)).sum :=
      List.sum_nonneg (fun x hx => by
        obtain ⟨y, hy, rfl⟩ := List.mem_map.mp hx
        exact le_of_lt (hq y (List.mem_cons_of_mem _ hy)))
    omega

theorem mem_route_offers_all {inst : Instance} {route : List Nat} {o : ProductOffer}
    (h : o ∈ route_offers inst route) : ∃ offers ∈ inst.market_offers_, o ∈ offers := by
  unfold route_offers at h
  rw [List.mem_flatMap] at h
  obtain ⟨m, _, hm⟩ := h
  rcases getD_mem_or_default inst.market_offers_ m [] with h1 | h1
  · exact ⟨_, h1, hm⟩
  · rw [h1] at hm; exact absurd hm (List.not_mem_nil _)

theorem route_offers_sublist (inst : Instance) (route : List Nat) :
    (route_offers inst (markets_of route)).Sublist (route_offers inst route) := by
  unfold route_offers markets_of
  induction route with
  | nil => exact List.Sublist.refl _
  | cons a t ih =>
    rw [List.filter_cons]
    by_cases ha : decide (a ≠ 0) = true
    · rw [if_pos ha]
      simp only [List.flatMap_cons]
      exact List.Sublist.append (List.Sublist.refl _) ih
    · rw [if_neg ha]
      simp only [List.flatMap_cons]
      exact ih.trans (List.sublist_append_right _ _)

theorem is_solution_valid_of_valid {inst : Instance} (hwf : inst.WF) (hck : inst.Checked)
    {s : Solution} (hinv : s.Inv inst) (hvalid : s.is_valid = true) :
    is_solution_valid inst s.route_ = Except.ok true := by
  have hlen := length_le_of_nodup_lt s.route_ inst.dimension_ hinv.route_nodup hinv.route_lt
  have hfirst : s.route_[0]? = some 0 := by
    have := hinv.route_head
    rwa [List.head?_eq_getElem?] at this
  unfold is_solution_valid
  rw [if_neg (by omega)]
  simp only [vec_at_eq_ok hfirst, ok_bind, ne_eq, not_true_eq_false, if_false]
  rw [valid_route_loop_eq hwf s.route_ _ hinv.route_lt (by simp), ok_bind]
  apply valid_demands_loop_true
  intro k hk
  rw [hwf.demands_len] at hk
  have hos : ∀ o ∈ route_offers inst s.route_,
      o.product_id_ < (List.replicate inst.product_count_ (0 : Int)).length := by
    intro o ho
    obtain ⟨offers, h1, h2⟩ := mem_route_offers_all ho
    rw [List.length_replicate]
    exact hwf.product_lt offers h1 o h2
  rw [add_quantities_length, List.length_replicate, Nat.zero_add]
  refine ⟨hk, ?_⟩
  rw [add_quantities_getD _ _ _ hos]
  have hz : (List.replicate inst.product_count_ (0 : Int)).getD k 0 = 0 := by
    rw [List.getD_eq_getElem?_getD]
    cases h : (List.replicate inst.product_count_ (0 : Int))[k]? with
    | none => rfl
    | some x =>
      have := List.mem_iff_getElem?.mpr ⟨k, h⟩
      rw [(List.mem_replicate.mp this).2]
      rfl
  rw [hz, zero_add]
  have hqall : ∀ o ∈ offers_for k (route_offers inst s.route_), 0 < o.quantity_ := by
    intro o ho
    unfold offers_for at ho
    obtain ⟨offers, h1, h2⟩ := mem_route_offers_all (List.mem_filter.mp ho).1
    exact hck.quantity_pos offers h1 o h2
  have hnonneg : 0 ≤ ((offers_for k (route_offers inst s.route_)).map
      (fun o => o.quantity_)).sum :=
    List.sum_nonneg (fun x hx => by
      obtain ⟨y, hy, rfl⟩ := List.mem_map.mp hx
      exact le_of_lt (hqall y hy))
  have hd1 : inst.demands_.getD k 0 ≤ 1 := by
    rcases getD_mem_or_default inst.demands_ k 0 with h1 | h1
    · exact hck.demand_le_one _ h1
    · rw [h1]; omega
  by_cases hdpos : 0 < inst.demands_.getD k 0
  · -- a needed product: it has an offer in the route
    have hne : s.product_offers_.getD k [] ≠ [] := by
      intro hnil
      have h1 := hinv.pinv.demand_open k hnil hdpos
      have h2 := (hinv.pinv.is_valid_iff.mp hvalid)
      have h3 := getD_le_sum_of_nonneg s.demand_remaining_ k hinv.pinv.demand_nonneg
      rw [← hinv.pinv.total, h2] at h3
      omega
    have hne2 : offers_for k (route_offers inst s.route_) ≠ [] := by
      intro hnil
      apply hne
      have hp := hinv.offers k
      have hsub : (offers_for k (route_offers inst (markets_of s.route_))).Sublist
          (offers_for k (route_offers inst s.route_)) :=
        (route_offers_sublist inst s.route_).filter _
      rw [hnil] at hsub
      rw [List.sublist_nil.mp hsub] at hp
      exact hp.eq_nil
    have := sum_quantities_pos hqall hne2
    omega
  · omega

/-! ### The estimate of `calc_market_removal_cost` bounds the cost after the removal -/

/-- The verdict of `calc_market_add_cost` for a market outside the route and
the state after the insertion at the position of the verdict. -/
theorem add_cost_step {inst : Instance} (hwf : inst.WF) (hone : inst.OneOfferPerProduct)
    (hdelta : inst.DeltaBelowMax) {s : Solution} (hr : Reachable inst s) {m : Nat}
    (hm : m < inst.dimension_) (hnot : m ∉ s.route_) :
    ∃ v t, calc_market_add_cost inst s m = Except.ok v
      ∧ insert_market_at_pos inst s m v.index_ = Except.ok t
      ∧ Reachable inst t
      ∧ t.route_ = vec_insert s.route_ v.index_ m
      ∧ 0 < v.index_ ∧ v.index_ ≤ s.route_.length
      ∧ t.cost_ = s.cost_ + v.cost_change_
      ∧ (v.demand_satisfied_ = true ↔ t.is_valid = true)
      ∧ (s.is_valid = true → t.is_valid = true) := by
  have hinv := hr.inv hwf
  have hpos := hinv.route_pos
  obtain ⟨mn, mi, hI, hv⟩ := calc_market_add_cost_spec hwf hinv hm hnot
  have h0lt : s.route_.getD 0 0 < inst.dimension_ := hinv.route_lt _ (hinv.getD_mem hpos)
  have h1lt : s.route_.getD (1 % s.route_.length) 0 < inst.dimension_ :=
    hinv.route_lt _ (hinv.getD_mem (Nat.mod_lt _ hpos))
  have hsmall : insert_delta inst s.route_ m 1 < INT_MAX := by
    unfold insert_delta
    exact hdelta _ _ _ h0lt hm h1lt
  have hmn := hI.1 1 (by omega) (by omega)
  rcases hI.2 with h | ⟨h0, hle, heq, _⟩
  · omega
  · obtain ⟨hi1, hi2⟩ := insert_market_at_pos_eq hwf hinv hm hnot h0 hle
    have hreach : Reachable inst (s.insert_state inst m mi) :=
      Reachable.insert m mi hr hnot h0 hle hi1
    have hroute : (s.insert_state inst m mi).route_ = vec_insert s.route_ mi m := by
      show ((inst.market_offers_.getD m []).foldl Solution.add_state
        (s.insert_pre inst m mi)).route_ = _
      rw [(foldl_add_state_frame _ _).1]
      rfl
    have hcost : (s.insert_state inst m mi).cost_
        = s.cost_ + (((inst.market_offers_.getD m []).map s.add_gain).sum + mn) := by
      show ((inst.market_offers_.getD m []).foldl Solution.add_state
          (s.insert_pre inst m mi)).cost_ = _
      rw [foldl_add_state_cost _ _ (hone.getD m)]
      show s.cost_ + insert_delta inst s.route_ m mi
        + ((inst.market_offers_.getD m []).map (s.insert_pre inst m mi).add_gain).sum
        = s.cost_ + (((inst.market_offers_.getD m []).map s.add_gain).sum + mn)
      have : (s.insert_pre inst m mi).add_gain = s.add_gain := rfl
      rw [this, heq]; ring
    have htot : (s.insert_state inst m mi).total_unsatisfied_demand_
        = s.total_unsatisfied_demand_
          - ((inst.market_offers_.getD m []).map
              (fun o => s.demand_remaining_.getD o.product_id_ 0)).sum := by
      show ((inst.market_offers_.getD m []).foldl Solution.add_state
          (s.insert_pre inst m mi)).total_unsatisfied_demand_ = _
      rw [foldl_add_state_total _ _ (hone.getD m)]
      rfl
    have hiff : (decide (s.total_unsatisfied_demand_
          - ((inst.market_offers_.getD m []).map
              (fun o => s.demand_remaining_.getD o.product_id_ 0)).sum = 0) = true
        ↔ (s.insert_state inst m mi).is_valid = true) := by
      rw [hi2.pinv.is_valid_iff, htot, decide_eq_true_eq]
    refine ⟨_, _, hv, hi1, hreach, hroute, h0, hle, hcost, hiff, ?_⟩
    intro hvalid
    rw [hi2.pinv.is_valid_iff, htot]
    have htz := hinv.pinv.is_valid_iff.mp hvalid
    have hsum0 : ((inst.market_offers_.getD m []).map
        (fun o => s.demand_remaining_.getD o.product_id_ 0)).sum = 0 := by
      apply List.sum_eq_zero
      intro x hx
      obtain ⟨o, _, rfl⟩ := List.mem_map.mp hx
      have h1 := getD_le_sum_of_nonneg s.demand_remaining_ o.product_id_
        hinv.pinv.demand_nonneg
      have h2 : 0 ≤ s.demand_remaining_.getD o.product_id_ 0 := by
        rcases getD_mem_or_default s.demand_remaining_ o.product_id_ 0 with h | h
        · exact hinv.pinv.demand_nonneg _ h
        · rw [h]
      rw [← hinv.pinv.total, htz] at h1
      omega
    rw [htz, hsum0]
    rfl

theorem front_price_perm {l1 l2 : List ProductOffer} (hp : l1.Perm l2)
    (h1 : OffersSorted l1) (h2 : OffersSorted l2) : front_price l1 = front_price l2 := by
  have key : ∀ (a b : ProductOffer) (t1 t2 : List ProductOffer),
      OffersSorted (b :: t2) → a ∈ b :: t2 → b.price_ ≤ a.price_ := by
    intro a b t1 t2 hs ha
    rcases List.mem_cons.mp ha with rfl | ha
    · exact le_refl _
    · have h := (List.pairwise_cons.mp hs).1 a ha
      have := (is_better_offer_false_iff a b).mp h
      omega
  cases l1 with
  | nil => rw [hp.symm.eq_nil]
  | cons a t1 =>
    cases l2 with
    | nil => exact absurd hp.eq_nil (by simp)
    | cons b t2 =>
      have ha : a ∈ b :: t2 := hp.mem_iff.mp (List.mem_cons_self _ _)
      have hb : b ∈ a :: t1 := hp.mem_iff.mpr (List.mem_cons_self _ _)
      have e1 := key a b t1 t2 h2 ha
      have e2 := key b a t2 t1 h1 hb
      simp only [front_price]
      omega

/-- The cached cost of a consistent solution is determined by its route. -/
theorem cost_eq_of_route_eq {inst : Instance} {s t : Solution} (hs : s.Inv inst)
    (ht : t.Inv inst) (h : s.route_ = t.route_) : s.cost_ = t.cost_ := by
  have htr : s.travel_cost_ = t.travel_cost_ := by
    have h1 := hs.travel
    have h2 := ht.travel
    rw [h] at h1
    omega
  have hpc : s.purchase_costs_ = t.purchase_costs_ := by
    rw [hs.pinv.costs, ht.pinv.costs]
    apply ext_getD 0 (by simp [hs.pinv.len_offers, ht.pinv.len_offers])
    intro p
    have e1 : (s.product_offers_.map front_price).getD p 0
        = front_price (s.product_offers_.getD p []) := by
      have := hs.pinv.costs_getD p
      rw [hs.pinv.costs] at this
      exact this
    have e2 : (t.product_offers_.map front_price).getD p 0
        = front_price (t.product_offers_.getD p []) := by
      have := ht.pinv.costs_getD p
      rw [ht.pinv.costs] at this
      exact this
    rw [e1, e2]
    apply front_price_perm _ (hs.pinv.sorted_getD p) (ht.pinv.sorted_getD p)
    have p1 := hs.offers p
    have p2 := ht.offers p
    rw [h] at p1
    exact p1.trans p2.symm
  rw [hs.pinv.cost, ht.pinv.cost, htr, hpc]

theorem add_state_demand (s : Solution) (o : ProductOffer) (p : Nat)
    (h : o.product_id_ ≠ p) :
    (s.add_state o).demand_remaining_.getD p 0 = s.demand_remaining_.getD p 0 := by
  simp only [Solution.add_state]
  exact getD_set_ne _ _ _ _ _ h

theorem remove_state_demand (s : Solution) (o : ProductOffer) (p : Nat)
    (h : o.product_id_ ≠ p) :
    (s.remove_state o).demand_remaining_.getD p 0 = s.demand_remaining_.getD p 0 := by
  unfold Solution.remove_state
  simp only
  generalize (s.product_offers_.getD o.product_id_ []).eraseIdx
    (locate_offer o (s.product_offers_.getD o.product_id_ [])) = e
  cases e with
  | nil => exact getD_set_ne _ _ _ _ _ h
  | cons a t => exact getD_set_ne _ _ _ _ _ h

theorem foldl_add_state_demand (os : List ProductOffer) (p : Nat) :
    ∀ s : Solution, (∀ o ∈ os, o.product_id_ ≠ p) →
      (os.foldl Solution.add_state s).demand_remaining_.getD p 0
        = s.demand_remaining_.getD p 0 := by
  induction os with
  | nil => intro s _; rfl
  | cons o rest ih =>
    intro s h
    simp only [List.foldl_cons]
    rw [ih _ (fun x hx => h x (List.mem_cons_of_mem _ hx)),
      add_state_demand s o p (h o (List.mem_cons_self _ _))]

theorem foldl_remove_state_demand (os : List ProductOffer) (p : Nat) :
    ∀ s : Solution, (∀ o ∈ os, o.product_id_ ≠ p) →
      (os.foldl Solution.remove_state s).demand_remaining_.getD p 0
        = s.demand_remaining_.getD p 0 := by
  induction os with
  | nil => intro s _; rfl
  | cons o rest ih =>
    intro s h
    simp only [List.foldl_cons]
    rw [ih _ (fun x hx => h x (List.mem_cons_of_mem _ hx)),
      remove_state_demand s o p (h o (List.mem_cons_self _ _))]

theorem insert_state_demand (inst : Instance) (s : Solution) (m idx p : Nat)
    (h : ∀ o ∈ inst.market_offers_.getD m [], o.product_id_ ≠ p) :
    (s.insert_state inst m idx).demand_remaining_.getD p 0 = s.demand_remaining_.getD p 0 := by
  show ((inst.market_offers_.getD m []).foldl Solution.add_state
    (s.insert_pre inst m idx)).demand_remaining_.getD p 0 = _
  rw [foldl_add_state_demand _ p _ h]
  rfl

theorem remove_market_state_demand (inst : Instance) (s : Solution) (pos p : Nat)
    (h : ∀ o ∈ inst.market_offers_.getD (s.route_.getD pos 0) [], o.product_id_ ≠ p) :
    (s.remove_market_state inst pos).demand_remaining_.getD p 0
      = s.demand_remaining_.getD p 0 := by
  show ((inst.market_offers_.getD (s.route_.getD pos 0) []).foldl Solution.remove_state
    (s.remove_pre inst pos)).demand_remaining_.getD p 0 = _
  rw [foldl_remove_state_demand _ p _ h]
  rfl

theorem insert_state_route (inst : Instance) (s : Solution) (m idx : Nat) :
    (s.insert_state inst m idx).route_ = vec_insert s.route_ idx m := by
  show ((inst.market_offers_.getD m []).foldl Solution.add_state
    (s.insert_pre inst m idx)).route_ = _
  rw [(foldl_add_state_frame _ _).1]
  rfl

theorem remove_market_state_route (inst : Instance) (s : Solution) (pos : Nat) :
    (s.remove_market_state inst pos).route_ = s.route_.eraseIdx pos := by
  show ((inst.market_offers_.getD (s.route_.getD pos 0) []).foldl Solution.remove_state
    (s.remove_pre inst pos)).route_ = _
  rw [(foldl_remove_state_frame _ _).1]
  rfl

/-- A consistent solution is valid when the remaining demand of every product
is zero. -/
theorem is_valid_of_demand_zero {inst : Instance} {s : Solution} (hp : s.PInv inst)
    (h : ∀ p, s.demand_remaining_.getD p 0 = 0) : s.is_valid = true := by
  rw [hp.is_valid_iff, hp.total]
  apply List.sum_eq_zero
  intro d hd
  obtain ⟨i, hi⟩ := List.mem_iff_getElem?.mp hd
  rw [← getD_eq_of_getElem? (d := 0) hi]
  exact h i

theorem demand_zero_of_is_valid {inst : Instance} {s : Solution} (hp : s.PInv inst)
    (h : s.is_valid = true) (p : Nat) : s.demand_remaining_.getD p 0 = 0 := by
  have h1 := getD_le_sum_of_nonneg s.demand_remaining_ p hp.demand_nonneg
  have h2 : 0 ≤ s.demand_remaining_.getD p 0 := by
    rcases getD_mem_or_default s.demand_remaining_ p 0 with h | h
    · exact hp.demand_nonneg _ h
    · rw [h]
  rw [← hp.total, hp.is_valid_iff.mp h] at h1
  omega

/-! ### The search for a market to insert -/

theorem satisfies_demand_loop_returns (s : Solution) (offers : List ProductOffer) :
    ∀ prods : List Nat, (∀ p ∈ prods, p < offers.length ∧ p < s.demand_remaining_.length) →
      ∃ b, satisfies_demand_loop s offers prods = Except.ok b := by
  intro prods
  induction prods with
  | nil => intro _; exact ⟨true, rfl⟩
  | cons p rest ih =>
    intro h
    obtain ⟨h1, h2⟩ := h p (List.mem_cons_self _ _)
    have e1 := getElem?_getD_of_lt (⟨0, 0, 0, 0⟩ : ProductOffer) h1
    have e2 := getElem?_getD_of_lt (0 : Int) h2
    unfold satisfies_demand_loop
    simp only [vec_idx_eq_ok e1, vec_idx_eq_ok e2, ok_bind]
    by_cases hc : (offers.getD p ⟨0, 0, 0, 0⟩).quantity_ < s.demand_remaining_.getD p 0
    · rw [if_pos hc]; exact ⟨false, rfl⟩
    · rw [if_neg hc]; exact ih (fun x hx => h x (List.mem_cons_of_mem _ hx))

theorem check_market_satisfies_demand_spec {inst : Instance} (hck : inst.Checked)
    {s : Solution} (hinv : s.Inv inst) {cand : Nat} (hc : cand < inst.dimension_) :
    ∃ b, check_market_satisfies_demand inst s cand = Except.ok b
      ∧ (b = true → cand ∉ s.route_) := by
  have hsel : s.market_selected_[cand]? = some (decide (cand ∈ s.route_)) := by
    have h1 := getElem?_getD_of_lt false (by rw [hinv.selected_len]; exact hc :
      cand < s.market_selected_.length)
    rw [hinv.selected cand hc] at h1
    exact h1
  unfold check_market_satisfies_demand is_market_used
  simp only [vec_at_eq_ok hsel, ok_bind]
  by_cases hmem : cand ∈ s.route_
  · simp only [hmem, decide_True, if_true]
    exact ⟨false, rfl, fun h => absurd h (by simp)⟩
  · simp only [hmem, decide_False, Bool.false_eq_true, if_false]
    have hrow := getElem?_getD_of_lt ([] : List ProductOffer)
      (by rw [hck.table_len]; exact hc : cand < inst.market_product_offers_.length)
    have hrow_len := hck.table_rows _ (List.mem_iff_getElem?.mpr ⟨cand, hrow⟩)
    simp only [vec_at_eq_ok hrow, ok_bind]
    obtain ⟨b, hb⟩ := satisfies_demand_loop_returns s
      (inst.market_product_offers_.getD cand []) s.remaining_products_
      (fun p hp => by
        have h1 := (hinv.pinv.remaining_mem p).mp hp
        have h2 : p < s.demand_remaining_.length := by
          by_contra hge
          rw [List.getD_eq_getElem?_getD, List.getElem?_eq_none (Nat.le_of_not_lt hge)] at h1
          simp at h1
        rw [hrow_len]
        rw [hinv.pinv.len_demand] at h2
        exact ⟨h2, by rw [hinv.pinv.len_demand]; exact h2⟩)
    exact ⟨b, hb, fun _ => id⟩

theorem exchange_cand_loop_spec {inst : Instance} (hwf : inst.WF)
    (hone : inst.OneOfferPerProduct) (hck : inst.Checked) (hdelta : inst.DeltaBelowMax)
    (strict : Bool) (cost0 : Int) :
    ∀ (cands : List Nat) (s : Solution), Reachable inst s →
      (∀ c ∈ cands, c < inst.dimension_) →
      ∃ r, exchange_cand_loop inst strict cost0 cands s = Except.ok r
        ∧ ∀ t cand change, r = some (t, cand, change) →
          Reachable inst t ∧ t.is_valid = true ∧ t.cost_ ≤ cost0
            ∧ (strict = true → t.cost_ < cost0)
            ∧ cand ∈ cands ∧ cand ∉ s.route_
            ∧ (∃ idx, t.route_ = vec_insert s.route_ idx cand)
            ∧ t.cost_ = s.cost_ + change := by
  intro cands
  induction cands with
  | nil =>
    intro s _ _
    exact ⟨none, rfl, fun t cand change h => by simp at h⟩
  | cons c rest ih =>
    intro s hr hc
    have hclt := hc c (List.mem_cons_self _ _)
    obtain ⟨r, hr1, hr2⟩ := ih s hr (fun x hx => hc x (List.mem_cons_of_mem _ hx))
    have hrest : ∃ r, exchange_cand_loop inst strict cost0 rest s = Except.ok r
        ∧ ∀ t cand change, r = some (t, cand, change) →
          Reachable inst t ∧ t.is_valid = true ∧ t.cost_ ≤ cost0
            ∧ (strict = true → t.cost_ < cost0)
            ∧ cand ∈ c :: rest ∧ cand ∉ s.route_
            ∧ (∃ idx, t.route_ = vec_insert s.route_ idx cand)
            ∧ t.cost_ = s.cost_ + change :=
      ⟨r, hr1, fun t cand change h => by
        obtain ⟨a1, a2, a3, a4, a5, a6, a7, a8⟩ := hr2 t cand change h
        exact ⟨a1, a2, a3, a4, List.mem_cons_of_mem _ a5, a6, a7, a8⟩⟩
    obtain ⟨b, hb1, hb2⟩ := check_market_satisfies_demand_spec hck (hr.inv hwf) hclt
    unfold exchange_cand_loop
    simp only [hb1, ok_bind]
    cases b with
    | false =>
      simp only [Bool.not_false, if_true]
      exact hrest
    | true =>
      simp only [Bool.not_true, Bool.false_eq_true, if_false]
      have hnot := hb2 rfl
      obtain ⟨v, t, h1, h2, h3, h4, h5, h6, h7, h8, h9⟩ :=
        add_cost_step hwf hone hdelta hr hclt hnot
      simp only [h1, ok_bind]
      by_cases hcond : ((if strict = true then decide (s.cost_ + v.cost_change_ < cost0)
          else decide (s.cost_ + v.cost_change_ ≤ cost0)) && v.demand_satisfied_) = true
      · rw [if_pos hcond]
        simp only [h2, ok_bind, h7, decide_True, CHECK_F_true]
        refine ⟨_, rfl, ?_⟩
        intro t' cand change heq
        simp only [Option.some.injEq, Prod.mk.injEq] at heq
        obtain ⟨e1, e2, e3⟩ := heq
        subst e1 e2 e3
        rw [Bool.and_eq_true] at hcond
        have hvalid := h8.mp hcond.2
        have hcheap := hcond.1
        refine ⟨h3, hvalid, ?_, ?_, List.mem_cons_self _ _, hnot, ⟨_, h4⟩, h7⟩
        · cases strict with
          | true =>
            simp only [if_true, decide_eq_true_eq] at hcheap
            omega
          | false =>
            simp only [Bool.false_eq_true, if_false, decide_eq_true_eq] at hcheap
            omega
        · intro hs
          rw [hs] at hcheap
          simp only [if_true, decide_eq_true_eq] at hcheap
          omega
      · rw [if_neg hcond]
        exact hrest

/-! ### Markets removed from the last position to the first and put back -/

theorem k_exchange_restore_append (inst : Instance) (l1 l2 : List (Nat × Nat)) :
    ∀ s : Solution, k_exchange_restore inst (l1 ++ l2) s
      = k_exchange_restore inst l1 s >>= k_exchange_restore inst l2 := by
  induction l1 with
  | nil => intro s; rfl
  | cons el rest ih =>
    intro s
    simp only [List.cons_append, k_exchange_restore]
    cases h : insert_market_at_pos inst s el.1 el.2 with
    | error e => rfl
    | ok t => simp only [ok_bind]; exact ih t

theorem mem_eraseIdx_of_nodup {l : List Nat} (hnd : l.Nodup) {k x : Nat}
    (h : l[k]? = some x) (m : Nat) : m ∈ l.eraseIdx k ↔ (m ∈ l ∧ m ≠ x) := by
  have hp := perm_cons_eraseIdx h
  have hnd2 : (x :: l.eraseIdx k).Nodup := hp.nodup_iff.mp hnd
  rw [List.nodup_cons] at hnd2
  constructor
  · intro hm
    refine ⟨hp.mem_iff.mpr (List.mem_cons_of_mem _ hm), ?_⟩
    rintro rfl
    exact hnd2.1 hm
  · rintro ⟨hm, hne⟩
    rcases List.mem_cons.mp (hp.mem_iff.mp hm) with h1 | h1
    · exact absurd h1 hne
    · exact h1

theorem remove_restore {inst : Instance} (hwf : inst.WF) :
    ∀ (rem : List (Nat × Nat)) (s : Solution), Reachable inst s →
      (rem.map Prod.snd).Pairwise (fun a b => a < b) →
      (∀ el ∈ rem, 0 < el.2 ∧ s.route_[el.2]? = some el.1) →
      ∃ s1, k_exchange_remove inst rem.reverse s = Except.ok s1 ∧ Reachable inst s1
        ∧ (∀ m, m ∈ s1.route_ ↔ (m ∈ s.route_ ∧ m ∉ rem.map Prod.fst))
        ∧ ∃ s2, k_exchange_restore inst rem s1 = Except.ok s2 ∧ Reachable inst s2
          ∧ s2.route_ = s.route_
          ∧ ∀ p, (∀ el ∈ rem, ∀ o ∈ inst.market_offers_.getD el.1 [], o.product_id_ ≠ p) →
              s2.demand_remaining_.getD p 0 = s.demand_remaining_.getD p 0 := by
  intro rem
  induction rem using List.reverseRecOn with
  | nil =>
    intro s hr _ _
    exact ⟨s, rfl, hr, fun m => by simp, s, rfl, hr, rfl, fun p _ => rfl⟩
  | append_singleton rem x ih =>
    intro s hr hpw hel
    have hinv := hr.inv hwf
    obtain ⟨hx0, hxget⟩ := hel x (by simp)
    have hxlt : x.2 < s.route_.length := lt_length_of_getElem? hxget
    have hxD : s.route_.getD x.2 0 = x.1 := getD_eq_of_getElem? hxget
    have hxmem : x.1 ∈ s.route_ := List.mem_iff_getElem?.mpr ⟨_, hxget⟩
    have hxdim : x.1 < inst.dimension_ := hinv.route_lt _ hxmem
    rw [List.map_append, List.pairwise_append] at hpw
    obtain ⟨hpw1, _, hpw3⟩ := hpw
    have hlt : ∀ el ∈ rem, el.2 < x.2 := by
      intro el hmem
      exact hpw3 el.2 (List.mem_map.mpr ⟨el, hmem, rfl⟩) x.2 (by simp)
    -- the first removal
    obtain ⟨hr1, _⟩ := remove_market_at_pos_eq hwf hinv hx0 hxlt
    have hreach1 : Reachable inst (s.remove_market_state inst x.2) :=
      Reachable.remove x.2 hr hx0 hxlt hr1
    have hroute1 := remove_market_state_route inst s x.2
    have hel1 : ∀ el ∈ rem, 0 < el.2
        ∧ (s.remove_market_state inst x.2).route_[el.2]? = some el.1 := by
      intro el hmem
      obtain ⟨h0, hg⟩ := hel el (by simp [hmem])
      refine ⟨h0, ?_⟩
      rw [hroute1, List.getElem?_eraseIdx_of_lt _ _ _ (hlt el hmem)]
      exact hg
    obtain ⟨s1, h1, h2, h3, s2, h4, h5, h6, h7⟩ := ih _ hreach1 hpw1 hel1
    refine ⟨s1, ?_, h2, ?_, ?_⟩
    · rw [List.reverse_append]
      simp only [List.reverse_cons, List.reverse_nil, List.nil_append, List.singleton_append,
        k_exchange_remove, hr1, ok_bind]
      exact h1
    · intro m
      rw [h3 m, hroute1, mem_eraseIdx_of_nodup hinv.route_nodup hxget]
      simp only [List.map_append, List.map_cons, List.map_nil, List.mem_append,
        List.mem_singleton, not_or]
      tauto
    · -- putting the markets back
      have hinv2 := h5.inv hwf
      have hnot : x.1 ∉ s2.route_ := by
        rw [h6, hroute1, mem_eraseIdx_of_nodup hinv.route_nodup hxget]
        simp
      have hle : x.2 ≤ s2.route_.length := by
        rw [h6, hroute1, List.length_eraseIdx_of_lt hxlt]
        omega
      obtain ⟨hi1, _⟩ := insert_market_at_pos_eq hwf hinv2 hxdim hnot hx0 hle
      have hreach2 : Reachable inst (s2.insert_state inst x.1 x.2) :=
        Reachable.insert x.1 x.2 h5 hnot hx0 hle hi1
      refine ⟨s2.insert_state inst x.1 x.2, ?_, hreach2, ?_, ?_⟩
      · rw [k_exchange_restore_append, h4, ok_bind]
        simp only [k_exchange_restore, hi1, ok_bind]
      · rw [insert_state_route, h6, hroute1]
        have hxeq : s.route_[x.2] = x.1 := by
          rw [List.getElem?_eq_getElem hxlt] at hxget
          exact Option.some.inj hxget
        rw [← hxeq]
        exact vec_insert_eraseIdx s.route_ x.2 hxlt
      · intro p hp
        rw [insert_state_demand inst s2 x.1 x.2 p (hp x (by simp)),
          h7 p (fun el hmem => hp el (by simp [hmem])),
          remove_market_state_demand inst s x.2 p (by rw [hxD]; exact hp x (by simp))]

/-- After the markets have been put back the solution is valid again and has
its former cost. -/
theorem restored_valid {inst : Instance} (hwf : inst.WF) {s s2 : Solution}
    (hr : Reachable inst s) (hvalid : s.is_valid = true) (hr2 : Reachable inst s2)
    (hroute : s2.route_ = s.route_) (rem : List (Nat × Nat))
    (hel : ∀ el ∈ rem, 0 < el.2 ∧ s.route_[el.2]? = some el.1)
    (hframe : ∀ p, (∀ el ∈ rem, ∀ o ∈ inst.market_offers_.getD el.1 [], o.product_id_ ≠ p) →
      s2.demand_remaining_.getD p 0 = s.demand_remaining_.getD p 0) :
    s2.is_valid = true ∧ s2.cost_ = s.cost_ := by
  have hinv := hr.inv hwf
  have hinv2 := hr2.inv hwf
  refine ⟨?_, cost_eq_of_route_eq hinv2 hinv hroute⟩
  apply is_valid_of_demand_zero hinv2.pinv
  intro p
  by_cases hex : ∃ el ∈ rem, ∃ o ∈ inst.market_offers_.getD el.1 [], o.product_id_ = p
  · obtain ⟨el, hmem, o, ho, hop⟩ := hex
    obtain ⟨h0, hg⟩ := hel el hmem
    have hlt : el.2 < s.route_.length := lt_length_of_getElem? hg
    have hm : el.1 ∈ s2.route_ := by
      rw [hroute]; exact List.mem_iff_getElem?.mpr ⟨_, hg⟩
    have hne0 : el.1 ≠ 0 := by
      rw [← getD_eq_of_getElem? (d := 0) hg]
      exact hinv.getD_ne_zero h0 hlt
    have homem := hinv2.offer_mem hm hne0 ho
    rw [hop] at homem
    exact hinv2.pinv.demand_zero p (List.ne_nil_of_mem homem)
  · rw [hframe p (fun el hmem o ho hop => hex ⟨el, hmem, o, ho, hop⟩)]
    exact demand_zero_of_is_valid hinv.pinv hvalid p

/-! ### One pass of an exchange heuristic -/

theorem market_pos_spec {inst : Instance} {s : Solution} (hinv : s.Inv inst) {m : Nat}
    (hm : m ∈ s.route_) (hne : m ≠ 0) :
    0 < s.get_market_pos_in_route m ∧ s.route_[s.get_market_pos_in_route m]? = some m := by
  have hget : s.route_[s.get_market_pos_in_route m]? = some m := List.getElem?_indexOf hm
  refine ⟨?_, hget⟩
  rcases Nat.eq_zero_or_pos (s.get_market_pos_in_route m) with h0 | h0
  · rw [h0] at hget
    have hhead := hinv.route_head
    rw [List.head?_eq_getElem?, hget] at hhead
    exact absurd (Option.some.inj hhead) hne
  · exact h0

theorem exchange_step {inst : Instance} (hwf : inst.WF) (hone : inst.OneOfferPerProduct)
    (hck : inst.Checked) (hdelta : inst.DeltaBelowMax) (strict : Bool) {s : Solution}
    (hr : Reachable inst s) (hvalid : s.is_valid = true) (rem : List (Nat × Nat))
    (hpw : (rem.map Prod.snd).Pairwise (fun a b => a < b))
    (hel : ∀ el ∈ rem, 0 < el.2 ∧ s.route_[el.2]? = some el.1)
    (cands : List Nat) (hc : ∀ c ∈ cands, c < inst.dimension_) :
    ∃ s1 r, k_exchange_remove inst rem.reverse s = Except.ok s1
      ∧ exchange_cand_loop inst strict s.cost_ cands s1 = Except.ok r
      ∧ (∀ t cand change, r = some (t, cand, change) →
          Reachable inst t ∧ t.is_valid = true ∧ t.cost_ ≤ s.cost_ ∧ cand ∈ cands
            ∧ (strict = true → t.cost_ < s.cost_)
            ∧ (∀ m, m ∈ s.route_ → m ∉ rem.map Prod.fst → m ∈ t.route_)
            ∧ cand ∈ t.route_)
      ∧ (r = none → ∃ s2, k_exchange_restore inst rem s1 = Except.ok s2 ∧ Reachable inst s2
          ∧ s2.is_valid = true ∧ s2.cost_ = s.cost_ ∧ s2.route_ = s.route_) := by
  obtain ⟨s1, h1, h2, h3, s2, h4, h5, h6, h7⟩ := remove_restore hwf rem s hr hpw hel
  obtain ⟨r, hr1, hr2⟩ := exchange_cand_loop_spec hwf hone hck hdelta strict s.cost_ cands s1 h2 hc
  refine ⟨s1, r, h1, hr1, ?_, ?_⟩
  · intro t cand change heq
    obtain ⟨g1, g2, g3, g4, g5, g6, ⟨idx, g7⟩, g8⟩ := hr2 t cand change heq
    refine ⟨g1, g2, g3, g5, g4, ?_, ?_⟩
    · intro m hm hnot
      rw [g7, mem_vec_insert]
      exact Or.inr ((h3 m).mpr ⟨hm, hnot⟩)
    · rw [g7, mem_vec_insert]
      exact Or.inl rfl
  · intro _
    obtain ⟨g1, g2⟩ := restored_valid hwf hr hvalid h5 h6 rem hel h7
    exact ⟨s2, h4, h5, g1, g2, h6⟩

/-! ### `exchange_heuristic` -/

theorem exchange_loop_spec {inst : Instance} (hwf : inst.WF) (hone : inst.OneOfferPerProduct)
    (hck : inst.Checked) (hdelta : inst.DeltaBelowMax) (route0 : List Nat) (cost0 : Int) :
    ∀ (markets : List Nat) (st : ExchangeState), Reachable inst st.sol →
      st.sol.is_valid = true → st.sol.cost_ ≤ cost0 →
      (∀ c ∈ st.unselected, c < inst.dimension_ ∧ c ∉ route0) → markets.Nodup →
      (∀ m ∈ markets, m ≠ 0 ∧ m ∈ st.sol.route_) → ExchangeKept route0 cost0 st →
      ∃ st1, exchange_loop inst markets st = Except.ok st1 ∧ Reachable inst st1.sol
        ∧ st1.sol.is_valid = true ∧ st1.sol.cost_ ≤ cost0 ∧ ExchangeKept route0 cost0 st1 := by
  intro markets
  induction markets with
  | nil =>
    intro st hr hvalid hcost _ _ _ hkept
    exact ⟨st, rfl, hr, hvalid, hcost, hkept⟩
  | cons market_id rest ih =>
    intro st hr hvalid hcost hc hnd hmem hkept
    have hinv := hr.inv hwf
    obtain ⟨hne, hin⟩ := hmem market_id (by simp)
    obtain ⟨hpos0, hposget⟩ := market_pos_spec hinv hin hne
    rw [List.nodup_cons] at hnd
    obtain ⟨s1, r, h1, h2, h3, h4⟩ := exchange_step hwf hone hck hdelta false hr hvalid
      [(market_id, st.sol.get_market_pos_in_route market_id)] (by simp)
      (by intro el hel; simp only [List.mem_singleton] at hel; subst hel; exact ⟨hpos0, hposget⟩)
      st.unselected (fun c hcm => (hc c hcm).1)
    have hrem : st.sol.remove_market_at_pos inst (st.sol.get_market_pos_in_route market_id)
        = Except.ok s1 := by
      simp only [List.reverse_cons, List.reverse_nil, List.nil_append, k_exchange_remove] at h1
      cases hx : st.sol.remove_market_at_pos inst (st.sol.get_market_pos_in_route market_id) with
      | error e => rw [hx] at h1; exact absurd h1 (by simp [bind, Except.bind])
      | ok v => rw [hx, ok_bind] at h1; exact h1
    cases r with
    | some found =>
      obtain ⟨sol2, cand, cost_change⟩ := found
      obtain ⟨g1, g2, g3, g4, _, g6, g7⟩ := h3 sol2 cand cost_change rfl
      obtain ⟨st1, e1, e2⟩ := ih
        (ExchangeState.mk sol2 (st.unselected.erase cand)
          (st.total_cost_change + cost_change) true)
        g1 g2 (le_trans g3 hcost) (fun c hcm => hc c (List.mem_of_mem_erase hcm)) hnd.2
        (fun m hm => by
          obtain ⟨a, b⟩ := hmem m (List.mem_cons_of_mem _ hm)
          refine ⟨a, g6 m b ?_⟩
          simp only [List.map_cons, List.map_nil, List.mem_singleton]
          rintro rfl
          exact hnd.1 hm)
        ⟨fun h => absurd h (by simp), fun _ => ⟨cand, g7, (hc cand g4).2⟩⟩
      refine ⟨st1, ?_, e2⟩
      simp only [exchange_loop, hrem, ok_bind, h2]
      exact e1
    | none =>
      obtain ⟨s2, g1, g2, g3, g4, g5⟩ := h4 rfl
      have hins : s1.insert_market_at_pos inst market_id
          (st.sol.get_market_pos_in_route market_id) = Except.ok s2 := by
        simp only [k_exchange_restore] at g1
        cases hx : s1.insert_market_at_pos inst market_id
            (st.sol.get_market_pos_in_route market_id) with
        | error e => rw [hx] at g1; exact absurd g1 (by simp [bind, Except.bind])
        | ok v => rw [hx, ok_bind] at g1; exact g1
      obtain ⟨st1, e1, e2⟩ := ih { st with sol := s2 } g2 g3 (by rw [g4]; exact hcost)
        hc hnd.2
        (fun m hm => by
          obtain ⟨a, b⟩ := hmem m (List.mem_cons_of_mem _ hm)
          exact ⟨a, by rw [g5]; exact b⟩)
        ⟨fun h => by
            obtain ⟨k1, k2, k3⟩ := hkept.1 h
            exact ⟨k1, g5.trans k2, g4.trans k3⟩,
          fun h => by
            obtain ⟨m, k1, k2⟩ := hkept.2 h
            exact ⟨m, by rw [g5]; exact k1, k2⟩⟩
      refine ⟨st1, ?_, e2⟩
      simp only [exchange_loop, hrem, ok_bind, h2, hins]
      exact e1

theorem finish_valid {inst : Instance} (hwf : inst.WF) (hck : inst.Checked) (st : ExchangeState)
    (hr : Reachable inst st.sol) (hvalid : st.sol.is_valid = true) :
    (do
      if st.solution_changed then do
        let valid ← is_solution_valid inst st.sol.route_
        CHECK_F valid
      Except.ok (st.sol, st.total_cost_change) : Res (Solution × Int))
      = Except.ok (st.sol, st.total_cost_change) := by
  cases hch : st.solution_changed with
  | false => rfl
  | true =>
    simp only [if_true, is_solution_valid_of_valid hwf hck (hr.inv hwf) hvalid, ok_bind, CHECK_F]

theorem tail_spec {inst : Instance} {s : Solution} (hinv : s.Inv inst) :
    s.route_.tail.Nodup ∧ ∀ m ∈ s.route_.tail, m ≠ 0 ∧ m ∈ s.route_ := by
  have hhead := hinv.route_head
  have hnd := hinv.route_nodup
  cases hroute : s.route_ with
  | nil => simp
  | cons a t =>
    rw [hroute] at hhead hnd
    simp only [List.head?_cons, Option.some.injEq] at hhead
    subst hhead
    rw [List.nodup_cons] at hnd
    refine ⟨hnd.2, fun m hm => ⟨?_, List.mem_cons_of_mem _ hm⟩⟩
    rintro rfl
    exact hnd.1 hm

theorem exchange_heuristic_spec {inst : Instance} (hwf : inst.WF)
    (hone : inst.OneOfferPerProduct) (hck : inst.Checked) (hdelta : inst.DeltaBelowMax)
    {s : Solution} (hr : Reachable inst s) (hvalid : s.is_valid = true) :
    ∃ t v, exchange_heuristic inst s = Except.ok (t, v)
      ∧ Reachable inst t ∧ t.is_valid = true ∧ t.cost_ ≤ s.cost_
      ∧ ((∀ m ∈ t.route_, m ∈ s.route_) → v = 0 ∧ t.route_ = s.route_ ∧ t.cost_ = s.cost_) := by
  have hinv := hr.inv hwf
  obtain ⟨hnd, hmem⟩ := tail_spec hinv
  obtain ⟨st1, e1, e2, e3, e4, e5⟩ := exchange_loop_spec hwf hone hck hdelta s.route_ s.cost_
    s.route_.tail (ExchangeState.mk s s.get_unselected_markets 0 false) hr hvalid le_rfl
    (fun c hcm => ⟨((hinv.unselected_mem c).mp hcm).2.1, ((hinv.unselected_mem c).mp hcm).2.2⟩)
    hnd hmem ⟨fun _ => ⟨rfl, rfl, rfl⟩, fun h => absurd h (by simp)⟩
  refine ⟨st1.sol, st1.total_cost_change, ?_, e2, e3, e4, ?_⟩
  · have hne : s.route_ ≠ [] := by
      intro h
      have := hinv.route_head
      rw [h] at this
      simp at this
    unfold exchange_heuristic
    simp only [if_neg hne, e1, ok_bind]
    exact finish_valid hwf hck st1 e2 e3
  · intro hsub
    cases hch : st1.solution_changed with
    | false => exact e5.1 hch
    | true =>
      obtain ⟨m, k1, k2⟩ := e5.2 hch
      exact absurd (hsub m k1) k2

/-! ### `double_exchange_heuristic` -/

theorem example_instance_checked : example_instance.Checked :=
  ⟨by decide, by decide, by decide, by decide⟩

theorem cheaper_market_instance_wf : cheaper_market_instance.WF :=
  ⟨by decide, by decide, by decide, by decide, by decide, by decide, by decide, by decide,
    by decide⟩

theorem cheaper_market_state_reachable :
    Reachable cheaper_market_instance cheaper_market_state :=
  Reachable.insert 1 1
    (Reachable.init (s := Solution.init_state cheaper_market_instance) (by decide))
    (by decide) (by decide) (by decide) (by decide)

/-- When `exchange_heuristic` brings no market into the route (every market of
the route on return was in the route on entry), the route is unchanged and the
returned value is `0`. -/
theorem exchange_heuristic_without_exchange (inst : Instance) (s : Solution)
    (hwf : inst.WF) (hone : inst.OneOfferPerProduct) (hck : inst.Checked)
    (hdelta : inst.DeltaBelowMax) (hr : Reachable inst s) (hvalid : s.is_valid = true) :
    ∃ t v, exchange_heuristic inst s = Except.ok (t, v)
      ∧ ((∀ m ∈ t.route_, m ∈ s.route_) →
          t.route_ = s.route_ ∧ v = 0 ∧ v = s.cost_ - t.cost_) := by
  obtain ⟨t, v, h1, _, _, _, h5⟩ := exchange_heuristic_spec hwf hone hck hdelta hr hvalid
  refine ⟨t, v, h1, fun hsub => ?_⟩
  obtain ⟨a, b, c⟩ := h5 hsub
  exact ⟨b, a, by omega⟩

/-- C14, the code at the failing input: market `1` of the route offers the
product at the price `5`, market `2` outside the route offers it at the price
`1`.  On the valid route `0, 1` of cost `7`, `exchange_heuristic` removes
market `1`, which changes `cost_` by `-7`, and inserts market `2`, which
changes it by `3`; the cost on return is `3`, so `start_cost - end_cost` is
`4`, and the call returns `3`: the change made by the insertion alone. -/
theorem C14_exchange_heuristic_omits_removal :
    cheaper_market_instance.WF
      ∧ Reachable cheaper_market_instance cheaper_market_state
      ∧ cheaper_market_state.is_valid = true
      ∧ cheaper_market_state.cost_ = 7
      ∧ (Solution.remove_market_at_pos cheaper_market_instance cheaper_market_state 1).map
          (fun t => (t.route_, t.cost_)) = Except.ok ([0], 0)
      ∧ ((Solution.remove_market_at_pos cheaper_market_instance cheaper_market_state 1).bind
          (fun t => t.calc_market_add_cost cheaper_market_instance 2))
          = Except.ok { cost_change_ := 3, index_ := 1, demand_satisfied_ := true }
      ∧ (exchange_heuristic cheaper_market_instance cheaper_market_state).map
          (fun r => (r.1.route_, r.1.cost_, r.2)) = Except.ok ([0, 2], 3, 3)
      ∧ (exchange_heuristic cheaper_market_instance cheaper_market_state).map
          (fun r => (cheaper_market_state.cost_ - r.1.cost_, r.1.cost_ - cheaper_market_state.cost_))
          = Except.ok (4, -4) :=
  ⟨cheaper_market_instance_wf, cheaper_market_state_reachable, by decide, by decide, by decide,
    by decide, by decide, by decide⟩

end TPP

namespace TPP

/-! ## The 3-opt heuristics: claims C16, C17, C18 -/

open Solution

theorem three_opt_test_state_reachable :
    Reachable three_opt_test_instance three_opt_test_state :=
  Reachable.insert 3 3
    (Reachable.insert 2 2
      (Reachable.insert 1 1
        (Reachable.init (s := Solution.init_state three_opt_test_instance) (by decide))
        (by decide) (by decide) (by decide)
        (t := Solution.insert_state three_opt_test_instance
          (Solution.init_state three_opt_test_instance) 1 1)
        (by decide))
      (by decide) (by decide) (by decide)
      (t := Solution.insert_state three_opt_test_instance
        (Solution.insert_state three_opt_test_instance
          (Solution.init_state three_opt_test_instance) 1 1) 2 2)
      (by decide))
    (by decide) (by decide) (by decide) (by decide)

set_option maxRecDepth 100000 in
/-- C16, the code at the failing input: on a solution as the constructor
builds it, whose route is the depot alone, `three_opt` computes the bound
`len - 2` of its outer loop in `uint32_t`, where it wraps around to
`4294967295`; the pass for `i = 1` reads `route[1]`, outside the route, which
is undefined, whatever `use_dont_look_bits` is. -/
theorem C16_three_opt_single_node_route :
    three_opt_test_instance.is_symmetric_ = true
      ∧ Reachable three_opt_test_instance (Solution.init_state three_opt_test_instance)
      ∧ (Solution.init_state three_opt_test_instance).route_ = [0]
      ∧ u32_sub (Solution.init_state three_opt_test_instance).route_.length 2 = 4294967295
      ∧ (∀ fuel, three_opt three_opt_test_instance
            (Solution.init_state three_opt_test_instance) true (fuel + 1)
          = Except.error Fault.undefined)
      ∧ (∀ fuel, three_opt three_opt_test_instance
            (Solution.init_state three_opt_test_instance) false (fuel + 1)
          = Except.error Fault.undefined) :=
  ⟨rfl, Reachable.init (by decide), rfl, by decide, fun _ => rfl, fun _ => rfl⟩

set_option maxRecDepth 100000 in
/-- C17, the code at the failing input: the solution with the route
`0, 1, 2, 3` satisfies both equalities, with `cost_ = travel_cost_ = 5`.
`three_opt_nn` changes the route to `0, 2, 1, 3` of length `4` and `cost_` to
`4` and leaves `travel_cost_` at `5`, and so does `two_opt(instance, sol)`:
afterwards `travel_cost_` is neither the length of the route nor `cost_` less
the purchase costs. -/
theorem C17_travel_cost_left_behind :
    three_opt_test_instance.is_symmetric_ = true
      ∧ Reachable three_opt_test_instance three_opt_test_state
      ∧ three_opt_test_state.cost_
          = three_opt_test_state.travel_cost_ + three_opt_test_state.purchase_costs_.sum
      ∧ three_opt_test_instance.calc_travel_cost three_opt_test_state.route_
          = Except.ok three_opt_test_state.travel_cost_
      ∧ (∀ fuel, (three_opt_nn three_opt_test_instance three_opt_test_state true 25
            (fuel + 2)).map
            (fun r => r.map
              (fun x => (x.1.route_, x.1.cost_, x.1.travel_cost_, x.1.purchase_costs_.sum)))
          = Except.ok (some ([0, 2, 1, 3], 4, 5, 0)))
      ∧ (∀ fuel, (two_opt_solution three_opt_test_instance three_opt_test_state
            (fuel + 2)).map
            (fun r => r.map
              (fun x => (x.1.route_, x.1.cost_, x.1.travel_cost_, x.1.purchase_costs_.sum)))
          = Except.ok (some ([0, 2, 1, 3], 4, 5, 0)))
      ∧ three_opt_test_instance.calc_travel_cost [0, 2, 1, 3] = Except.ok 4 :=
  ⟨rfl, three_opt_test_state_reachable, by decide, by decide, fun _ => rfl, fun _ => rfl,
    by decide⟩

set_option maxRecDepth 100000 in
/-- C18, the code at the failing input: `three_opt_nn` shortens the route
`0, 1, 2, 3` of length `5` to the route `0, 2, 1, 3` of length `4`, an
improvement of `1`, and returns `delta = -1`, the new length minus the old
one. -/
theorem C18_three_opt_nn_returns_delta :
    three_opt_test_instance.is_symmetric_ = true
      ∧ Reachable three_opt_test_instance three_opt_test_state
      ∧ three_opt_test_instance.calc_travel_cost three_opt_test_state.route_ = Except.ok 5
      ∧ (∀ fuel, three_opt_nn three_opt_test_instance three_opt_test_state true 25 (fuel + 2)
          = Except.ok
              (some ({ three_opt_test_state with route_ := [0, 2, 1, 3], cost_ := 4 }, -1)))
      ∧ three_opt_test_instance.calc_travel_cost [0, 2, 1, 3] = Except.ok 4 :=
  ⟨rfl, three_opt_test_state_reachable, by decide, fun _ => rfl, by decide⟩

end TPP

namespace TPP

/-! ## Pheromone clamping and the branching factor: claims C21, C22 -/

open BasicPheromone

theorem replicate_getElem? {α : Type} (n : Nat) (x : α) {i : Nat} (h : i < n) :
    (List.replicate n x)[i]? = some x := by
  rw [List.getElem?_eq_getElem (by simpa using h)]
  simp

theorem uniform_get_trail (size : Nat) (v : ℚ) (ph : BasicPheromone)
    (h : ph.trails_ = List.replicate size (List.replicate size v)) {a b : Nat}
    (ha : a < size) (hb : b < size) : ph.get_trail a b = Except.ok v := by
  unfold BasicPheromone.get_trail
  rw [h, vec_at_eq_ok (replicate_getElem? size _ ha), ok_bind,
    vec_at_eq_ok (replicate_getElem? size _ hb)]

theorem clamp_scenario_trails (size : Nat) (sym : Bool) (v : ℚ) :
    (clamp_scenario size sym v).trails_ = List.replicate size (List.replicate size v) := by
  simp [clamp_scenario, BasicPheromone.ctor, BasicPheromone.set_all_trails]

theorem clamp_scenario_evaporate_trails (size : Nat) (sym : Bool) (v rho : ℚ) :
    ((clamp_scenario size sym v).evaporate rho).trails_
      = List.replicate size (List.replicate size (max (1 / 10) (v * rho))) := by
  simp [clamp_scenario, BasicPheromone.ctor, BasicPheromone.set_all_trails,
    BasicPheromone.evaporate]

theorem square_of_uniform (size : Nat) (v : ℚ) (ph : BasicPheromone)
    (h : ph.trails_ = List.replicate size (List.replicate size v)) : ph.Square size := by
  unfold BasicPheromone.Square
  rw [h]
  refine ⟨by simp, ?_⟩
  intro vec hvec
  rw [List.eq_of_mem_replicate hvec]
  simp

/-- After `increase(a, b, delta)` the trail read at `(a, b)` is the old trail
plus `delta`, cut at `max_value_`. -/
theorem increase_get_trail {ph : BasicPheromone} {size a b : Nat} (delta : ℚ)
    (hsq : ph.Square size) (ha : a < size) (hb : b < size) :
    ∃ ph1, ph.increase a b delta = Except.ok ph1
      ∧ ph1.get_trail a b
        = Except.ok (min ph.max_value_ ((ph.trails_.getD a []).getD b 0 + delta)) := by
  have hrow := getElem?_getD_of_lt ([] : List ℚ) (by rw [hsq.1]; exact ha : a < ph.trails_.length)
  have hrow_len := hsq.2 _ (List.mem_iff_getElem?.mpr ⟨a, hrow⟩)
  have hold := getElem?_getD_of_lt (0 : ℚ) (by rw [hrow_len]; exact hb :
    b < (ph.trails_.getD a []).length)
  generalize hrowdef : ph.trails_.getD a [] = row at hrow hrow_len hold ⊢
  generalize hvaldef : min ph.max_value_ (row.getD b 0 + delta) = val
  have ha1 : a < ph.trails_.length := by rw [hsq.1]; exact ha
  have hb1 : b < ph.trails_.length := by rw [hsq.1]; exact hb
  have hget_row : (row.set b val)[b]? = some val := by
    rw [List.getElem?_set_self]
    simp [hrow_len, hb]
  unfold BasicPheromone.increase
  simp only [vec_at_eq_ok hrow, vec_at_eq_ok hold, ok_bind, hvaldef]
  cases hsym : ph.is_symmetric_ with
  | false =>
    refine ⟨_, rfl, ?_⟩
    unfold BasicPheromone.get_trail
    have h1 : (ph.trails_.set a (row.set b val))[a]? = some (row.set b val) := by
      rw [List.getElem?_set_self]; simp [ha1]
    simp only [Bool.false_eq_true, if_false]
    rw [vec_at_eq_ok h1, ok_bind, vec_at_eq_ok hget_row]
  | true =>
    simp only [if_true]
    by_cases hab : a = b
    · subst hab
      have h1 : (ph.trails_.set a (row.set a val))[a]? = some (row.set a val) := by
        rw [List.getElem?_set_self]; simp [ha1]
      have h2 : (row.set a val)[a]? = some val := hget_row
      simp only [vec_idx_eq_ok h1, vec_idx_eq_ok h2, ok_bind]
      refine ⟨_, rfl, ?_⟩
      unfold BasicPheromone.get_trail
      have h3 : ((ph.trails_.set a (row.set a val)).set a ((row.set a val).set a val))[a]?
          = some ((row.set a val).set a val) := by
        rw [List.getElem?_set_self]; simp [ha1]
      have h4 : ((row.set a val).set a val)[a]? = some val := by
        rw [List.getElem?_set_self]; simp [hrow_len, ha]
      rw [vec_at_eq_ok h3, ok_bind, vec_at_eq_ok h4]
    · have hrow2 := getElem?_getD_of_lt ([] : List ℚ) hb1
      have hrow2_len := hsq.2 _ (List.mem_iff_getElem?.mpr ⟨b, hrow2⟩)
      generalize ph.trails_.getD b [] = row2 at hrow2 hrow2_len
      have h1 : (ph.trails_.set a (row.set b val))[b]? = some row2 := by
        rw [List.getElem?_set_ne hab]; exact hrow2
      have h2 := getElem?_getD_of_lt (0 : ℚ) (by rw [hrow2_len]; exact ha : a < row2.length)
      simp only [vec_idx_eq_ok h1, vec_idx_eq_ok h2, ok_bind]
      refine ⟨_, rfl, ?_⟩
      unfold BasicPheromone.get_trail
      have h3 : ((ph.trails_.set a (row.set b val)).set b (row2.set a val))[a]?
          = some (row.set b val) := by
        rw [List.getElem?_set_ne (Ne.symm hab), List.getElem?_set_self]; simp [ha1]
      rw [vec_at_eq_ok h3, ok_bind, vec_at_eq_ok hget_row]

theorem getD_getD_uniform (size : Nat) (v : ℚ) {a b : Nat} (ha : a < size) (hb : b < size) :
    ((List.replicate size (List.replicate size v)).getD a []).getD b 0 = v := by
  rw [getD_eq_of_getElem? (replicate_getElem? size _ ha),
    getD_eq_of_getElem? (replicate_getElem? size _ hb)]

theorem clamp_scenario_evaporate_fixed (size : Nat) (sym : Bool) :
    (clamp_scenario size sym (1 / 10)).evaporate (1 / 2) = clamp_scenario size sym (1 / 10) := by
  have h1 := clamp_scenario_evaporate_trails size sym (1 / 10) (1 / 2)
  have h2 := clamp_scenario_trails size sym (1 / 10)
  have h3 : max (1 / 10 : ℚ) (1 / 10 * (1 / 2)) = 1 / 10 := by norm_num
  rw [h3, ← h2] at h1
  have h4 : ∀ p q : BasicPheromone, p.trails_ = q.trails_ → p.is_symmetric_ = q.is_symmetric_ →
      p.min_value_ = q.min_value_ → p.max_value_ = q.max_value_ → p = q := by
    intro p q e1 e2 e3 e4
    cases p; cases q; simp_all
  exact h4 _ _ h1 rfl rfl rfl

/-- C21 (as amended): with the bounds `0.1` and `0.5` and every trail set to
`1.0`, after `evaporate(0.99)` every trail reads `0.99`, since `evaporate`
cuts from below only; after `increase(a, b, 1000)`, with or without the
evaporation before it, `get_trail(a, b)` reads `0.5`; and a trail of `0.1`
evaporated with the ratio `0.5` any number of times stays `0.1`. -/
theorem C21_clamp_scenario (size a b : Nat) (is_symmetric : Bool) (ha : a < size)
    (hb : b < size) :
    ((clamp_scenario size is_symmetric 1).evaporate (99 / 100)).get_trail a b
        = Except.ok (99 / 100)
      ∧ (∃ ph1, ((clamp_scenario size is_symmetric 1).evaporate (99 / 100)).increase a b 1000
            = Except.ok ph1 ∧ ph1.get_trail a b = Except.ok (1 / 2))
      ∧ (∃ ph1, (clamp_scenario size is_symmetric 1).increase a b 1000 = Except.ok ph1
          ∧ ph1.get_trail a b = Except.ok (1 / 2))
      ∧ ∀ n : Nat, ((fun ph : BasicPheromone => ph.evaporate (1 / 2))^[n]
          (clamp_scenario size is_symmetric (1 / 10))).get_trail a b = Except.ok (1 / 10) := by
  have he := clamp_scenario_evaporate_trails size is_symmetric 1 (99 / 100)
  have hv : max (1 / 10 : ℚ) (1 * (99 / 100)) = 99 / 100 := by norm_num
  rw [hv] at he
  refine ⟨uniform_get_trail size _ _ he ha hb, ?_, ?_, ?_⟩
  · obtain ⟨ph1, h1, h2⟩ := increase_get_trail 1000 (square_of_uniform size _ _ he) ha hb
    refine ⟨ph1, h1, ?_⟩
    rw [h2, he, getD_getD_uniform size _ ha hb]
    have : min (1 / 2 : ℚ) (99 / 100 + 1000) = 1 / 2 := by norm_num
    exact congrArg _ this
  · have ht := clamp_scenario_trails size is_symmetric 1
    obtain ⟨ph1, h1, h2⟩ := increase_get_trail 1000 (square_of_uniform size _ _ ht) ha hb
    refine ⟨ph1, h1, ?_⟩
    rw [h2, ht, getD_getD_uniform size _ ha hb]
    have : min (1 / 2 : ℚ) (1 + 1000) = 1 / 2 := by norm_num
    exact congrArg _ this
  · intro n
    rw [Function.iterate_fixed (clamp_scenario_evaporate_fixed size is_symmetric)]
    exact uniform_get_trail size _ _ (clamp_scenario_trails size is_symmetric _) ha hb

theorem C21_witness :
    ((clamp_scenario 3 true 1).evaporate (99 / 100)).get_trail 0 1 = Except.ok (99 / 100)
      ∧ (∃ ph1, ((clamp_scenario 3 true 1).evaporate (99 / 100)).increase 0 1 1000
            = Except.ok ph1 ∧ ph1.get_trail 0 1 = Except.ok (1 / 2))
      ∧ (∃ ph1, (clamp_scenario 3 true 1).increase 0 1 1000 = Except.ok ph1
          ∧ ph1.get_trail 0 1 = Except.ok (1 / 2))
      ∧ ∀ n : Nat, ((fun ph : BasicPheromone => ph.evaporate (1 / 2))^[n]
          (clamp_scenario 3 true (1 / 10))).get_trail 0 1 = Except.ok (1 / 10) :=
  C21_clamp_scenario 3 0 1 true (by decide) (by decide)

/-- C21 fails as stated: with the bounds `0.1` and `0.5` and every trail set
to `1.0`, `get_trail(0, 1)` after `evaporate(0.99)` reads `0.99`, not `0.5`. -/
theorem C21_counterexample :
    (clamp_scenario 2 true 1).min_value_ = 1 / 10
      ∧ (clamp_scenario 2 true 1).max_value_ = 1 / 2
      ∧ (clamp_scenario 2 true 1).get_trail 0 1 = Except.ok 1
      ∧ ((clamp_scenario 2 true 1).evaporate (99 / 100)).get_trail 0 1 = Except.ok (99 / 100)
      ∧ (99 / 100 : ℚ) ≠ 1 / 2 := by
  refine ⟨rfl, rfl, ?_, ?_, by norm_num⟩
  · exact uniform_get_trail 2 _ _ (clamp_scenario_trails 2 true 1) (by decide) (by decide)
  · have he := clamp_scenario_evaporate_trails 2 true 1 (99 / 100)
    have hv : max (1 / 10 : ℚ) (1 * (99 / 100)) = 99 / 100 := by norm_num
    rw [hv] at he
    exact uniform_get_trail 2 _ _ he (by decide) (by decide)


theorem node_branching_minmax_uniform (size : Nat) (v : ℚ) (ph : BasicPheromone)
    (h : ph.trails_ = List.replicate size (List.replicate size v)) (m : Nat) (hm : m < size)
    (nn_list : List Nat) (hnn : ∀ x ∈ nn_list, x < size) :
    ∀ n i, i + n ≤ nn_list.length →
      node_branching_minmax ph m nn_list n i (v, v) = Except.ok (v, v) := by
  intro n
  induction n with
  | zero => intro i _; rfl
  | succ n ih =>
    intro i hi
    have hlt : i < nn_list.length := by omega
    have hget := getElem?_getD_of_lt 0 hlt
    have hx : nn_list.getD i 0 < size := hnn _ (List.mem_iff_getElem?.mpr ⟨i, hget⟩)
    rw [node_branching_minmax]
    simp only [vec_at_eq_ok hget, ok_bind, uniform_get_trail size v ph h hm hx,
      gt_iff_lt, lt_self_iff_false, if_false]
    exact ih (i + 1) (by omega)

theorem node_branching_count_uniform (size : Nat) (v : ℚ) (ph : BasicPheromone)
    (h : ph.trails_ = List.replicate size (List.replicate size v)) (m : Nat) (hm : m < size)
    (nn_list : List Nat) (hnn : ∀ x ∈ nn_list, x < size) (count : Int) :
    ∀ n i, i + n ≤ nn_list.length →
      node_branching_count ph m nn_list v n i count = Except.ok count := by
  intro n
  induction n with
  | zero => intro i _; rfl
  | succ n ih =>
    intro i hi
    have hlt : i < nn_list.length := by omega
    have hget := getElem?_getD_of_lt 0 hlt
    have hx : nn_list.getD i 0 < size := hnn _ (List.mem_iff_getElem?.mpr ⟨i, hget⟩)
    rw [node_branching_count]
    simp only [vec_at_eq_ok hget, ok_bind, uniform_get_trail size v ph h hm hx,
      gt_iff_lt, lt_self_iff_false, if_false]
    exact ih (i + 1) (by omega)

/-- When all trails are equal no trail lies above the cutoff: `node_branching`
counts no branch at any node and returns `0`. -/
theorem node_branching_uniform (lambda : ℚ) (cand_list_size : Nat) (v : ℚ)
    (ph : BasicPheromone) (problem : Instance)
    (h : ph.trails_ = List.replicate problem.dimension_ (List.replicate problem.dimension_ v))
    (hpos : 0 < cand_list_size) (hlen : problem.nn_lists_.length = problem.dimension_)
    (hnn : ∀ l ∈ problem.nn_lists_, cand_list_size ≤ l.length ∧ ∀ x ∈ l, x < problem.dimension_) :
    node_branching lambda cand_list_size ph problem = Except.ok 0 := by
  have hnodes : ∀ k m, m + k = problem.dimension_ →
      node_branching_nodes lambda cand_list_size ph problem k m
        (List.replicate problem.dimension_ 0)
        = Except.ok (List.replicate problem.dimension_ 0) := by
    intro k
    induction k with
    | zero => intro m _; rfl
    | succ k ih =>
      intro m hmk
      have hm : m < problem.dimension_ := by omega
      have hget := getElem?_getD_of_lt ([] : List Nat) (by rw [hlen]; exact hm :
        m < problem.nn_lists_.length)
      obtain ⟨hl1, hl2⟩ := hnn _ (List.mem_iff_getElem?.mpr ⟨m, hget⟩)
      generalize problem.nn_lists_.getD m [] = nn_list at hget hl1 hl2
      have hfirst := getElem?_getD_of_lt 0 (by omega : 0 < nn_list.length)
      have hx : nn_list.getD 0 0 < problem.dimension_ :=
        hl2 _ (List.mem_iff_getElem?.mpr ⟨0, hfirst⟩)
      rw [node_branching_nodes]
      simp only [vec_at_eq_ok hget, vec_at_eq_ok hfirst, ok_bind,
        uniform_get_trail _ v ph h hm hx,
        node_branching_minmax_uniform _ v ph h m hm nn_list hl2 (cand_list_size - 1) 1
          (by omega),
        sub_self, mul_zero, add_zero, vec_at_eq_ok (replicate_getElem? _ (0 : Int) hm),
        node_branching_count_uniform _ v ph h m hm nn_list hl2 0 cand_list_size 0 (by omega)]
      have hset : (List.replicate problem.dimension_ (0 : Int)).set m 0
          = List.replicate problem.dimension_ 0 := by
        apply List.ext_getElem? ; intro j
        by_cases hj : j = m
        · subst hj
          rw [List.getElem?_set_self (by simpa using hm), replicate_getElem? _ _ hm]
        · rw [List.getElem?_set_ne (Ne.symm hj)]
      rw [hset]
      exact ih (m + 1) (by omega)
  unfold node_branching
  simp only [decide_eq_true hpos, CHECK_F_true, ok_bind, hnodes problem.dimension_ 0 (by omega)]
  have hsum : ∀ n : Nat, (List.replicate n (0 : Int)).foldl (fun acc b => acc + (b : ℚ)) 0
      = 0 := by
    intro n
    induction n with
    | zero => rfl
    | succ n ih => simpa [List.replicate_succ] using ih
  rw [hsum]
  simp


/-- C22, the code at the failing input: on the four nodes of the test instance
with candidate lists of three neighbours, `node_branching` returns `0` for a
pheromone memory as its constructor builds it (all trails equal, no trail
above the cutoff), and `0.25` after `evaporate(0.5)` and `increase(0, 1, 1)`,
when the nodes `0` and `1` have one branch each and the nodes `2` and `3`
none: the sum of the branches is divided by twice the number of nodes. -/
theorem C22_node_branching_below_one :
    (∀ l ∈ example_instance.nn_lists_, 3 ≤ l.length)
      ∧ (∀ (lambda lo hi : ℚ) (is_symmetric : Bool),
          node_branching lambda 3 (BasicPheromone.ctor 4 is_symmetric lo hi) example_instance
            = Except.ok 0)
      ∧ ((BasicPheromone.ctor 4 true (1 / 10) (1 / 2)).evaporate (1 / 2)).increase 0 1 1
          = Except.ok one_edge_pheromone
      ∧ node_branching (1 / 20) 3 one_edge_pheromone example_instance = Except.ok (1 / 4) := by
  refine ⟨by decide, ?_, ?_, ?_⟩
  · intro lambda lo hi is_symmetric
    exact node_branching_uniform lambda 3 hi _ example_instance rfl (by decide) (by decide)
      (by decide)
  · simp [BasicPheromone.ctor, BasicPheromone.evaporate, BasicPheromone.increase, vec_at,
      vec_idx, one_edge_pheromone, List.replicate]
    norm_num
  · simp [node_branching, node_branching_nodes, node_branching_minmax, node_branching_count,
      BasicPheromone.get_trail, vec_at, one_edge_pheromone, example_instance, CHECK_F,
      List.replicate]
    norm_num

end TPP

namespace TPP

/-! ## The deposit schedule of the colony: claims C23, C24 -/

open ACO

/-- C23: `update_u_gb` sets `u_gb_` to the value of the schedule for
`delta = current_iteration_ - restart_best_found_iteration_` (`25`, `5`, `3`,
`2` or `1` with local search, `25` without) and changes no other field. -/
theorem C23_update_u_gb (aco : ACO) :
    aco.update_u_gb = { aco with
      u_gb_ := spec_u_gb aco.use_local_search_
        (aco.current_iteration_ - aco.restart_best_found_iteration_) }
      ∧ (aco.update_u_gb.u_gb_ = 25 ∨ aco.update_u_gb.u_gb_ = 5 ∨ aco.update_u_gb.u_gb_ = 3
        ∨ aco.update_u_gb.u_gb_ = 2 ∨ aco.update_u_gb.u_gb_ = 1) := by
  unfold ACO.update_u_gb spec_u_gb
  cases hls : aco.use_local_search_ with
  | false => simp
  | true =>
    simp only [if_true, Bool.true_eq_false, if_false]
    by_cases h1 : aco.current_iteration_ - aco.restart_best_found_iteration_ < 25
    · simp [h1]
    · by_cases h2 : aco.current_iteration_ - aco.restart_best_found_iteration_ < 75
      · simp [h1, h2, not_lt.mp h1]
      · by_cases h3 : aco.current_iteration_ - aco.restart_best_found_iteration_ < 125
        · simp [h1, h2, h3, not_lt.mp h2]
        · by_cases h4 : aco.current_iteration_ - aco.restart_best_found_iteration_ < 250
          · simp [h1, h2, h3, h4, not_lt.mp h3]
          · simp [h1, h2, h3, h4]

/-- C24: in an iteration of `ACO::run` (`current_iteration_ ≥ 0`, `u_gb_ > 0`)
the ant chosen for the deposit is the iteration-best when
`current_iteration_ mod u_gb_` is not `0`; otherwise the global-best when
`u_gb_` is `1` and `current_iteration_ - restart_best_found_iteration_ > 50`;
otherwise the restart-best. -/
theorem C24_deposit_source (aco : ACO) (hiter : 0 ≤ aco.current_iteration_)
    (hu : 0 < aco.u_gb_) :
    (aco.current_iteration_ % aco.u_gb_ ≠ 0 →
        aco.select_update_ant = Except.ok aco.iteration_best_)
      ∧ (aco.current_iteration_ % aco.u_gb_ = 0 → aco.u_gb_ = 1 →
          aco.current_iteration_ - aco.restart_best_found_iteration_ > 50 →
        aco.select_update_ant = Except.ok aco.global_best_)
      ∧ (aco.current_iteration_ % aco.u_gb_ = 0 →
          ¬ (aco.u_gb_ = 1
            ∧ aco.current_iteration_ - aco.restart_best_found_iteration_ > 50) →
        aco.select_update_ant = Except.ok aco.restart_best_) := by
  have hmod : Int.tmod aco.current_iteration_ aco.u_gb_ = aco.current_iteration_ % aco.u_gb_ :=
    Int.tmod_eq_emod hiter (le_of_lt hu)
  have hne : aco.u_gb_ ≠ 0 := ne_of_gt hu
  unfold ACO.select_update_ant
  rw [if_neg hne, hmod]
  refine ⟨fun h => ?_, fun h h1 h2 => ?_, fun h h1 => ?_⟩
  · rw [if_pos h]
  · rw [if_neg (not_not.mpr h), if_pos ⟨h1, h2⟩]
  · rw [if_neg (not_not.mpr h), if_neg h1]

theorem C24_witness :
    (schedule_test_aco.current_iteration_ % schedule_test_aco.u_gb_ ≠ 0 →
        schedule_test_aco.select_update_ant = Except.ok schedule_test_aco.iteration_best_)
      ∧ (schedule_test_aco.current_iteration_ % schedule_test_aco.u_gb_ = 0 →
          schedule_test_aco.u_gb_ = 1 →
          schedule_test_aco.current_iteration_ - schedule_test_aco.restart_best_found_iteration_
            > 50 →
        schedule_test_aco.select_update_ant = Except.ok schedule_test_aco.global_best_)
      ∧ (schedule_test_aco.current_iteration_ % schedule_test_aco.u_gb_ = 0 →
          ¬ (schedule_test_aco.u_gb_ = 1
            ∧ schedule_test_aco.current_iteration_
              - schedule_test_aco.restart_best_found_iteration_ > 50) →
        schedule_test_aco.select_update_ant = Except.ok schedule_test_aco.restart_best_) :=
  C24_deposit_source schedule_test_aco (by decide) (by decide)

end TPP

namespace TPP

/-! ## Validity of a route: claim C25 -/

/-! ### The check `is_solution_valid` -/

end TPP

namespace TPP

/-! ## The two cost functions: claim C26 -/

/-! ### The two cost functions on instances with all demands one -/

end TPP

namespace TPP

/-! ## Vector difference, random samples and the stop condition: claims C27, C28, C29 -/

/-! ### `Vec::calc_diff_max_0_sum` -/

theorem int32_wrap_of_range {x : Int} (h1 : -2147483648 ≤ x) (h2 : x ≤ 2147483647) :
    int32_wrap x = x := by
  unfold int32_wrap
  omega

theorem diff_max_0_sum_nonneg (a b : List Int) (i n : Nat) :
    0 ≤ ((List.range n).map (fun k => max 0 (a.getD (i + k) 0 - b.getD (i + k) 0))).sum := by
  apply List.sum_nonneg
  intro x hx
  obtain ⟨k, _, rfl⟩ := List.mem_map.mp hx
  exact le_max_left _ _

theorem calc_diff_max_0_sum_naive_loop_eq (a b : List Int) (hlen : a.length ≤ b.length)
    (hdiff : ∀ i, i < a.length → -2147483648 ≤ a.getD i 0 - b.getD i 0) :
    ∀ (n i : Nat) (result : Int), i + n ≤ a.length → 0 ≤ result →
      result + ((List.range n).map
        (fun k => max 0 (a.getD (i + k) 0 - b.getD (i + k) 0))).sum ≤ 2147483647 →
      calc_diff_max_0_sum_naive_loop a b n i result
        = Except.ok (result + ((List.range n).map
            (fun k => max 0 (a.getD (i + k) 0 - b.getD (i + k) 0))).sum) := by
  intro n
  induction n with
  | zero => intro i result _ _ _; simp [calc_diff_max_0_sum_naive_loop]
  | succ n ih =>
    intro i result h hres hsum
    have hx := getElem?_getD_of_lt (0 : Int) (by omega : i < a.length)
    have hy := getElem?_getD_of_lt (0 : Int) (by omega : i < b.length)
    have hshift : (List.range n).map
        ((fun k => max 0 (a.getD (i + k) 0 - b.getD (i + k) 0)) ∘ Nat.succ)
        = (List.range n).map (fun k => max 0 (a.getD (i + 1 + k) 0 - b.getD (i + 1 + k) 0)) := by
      apply List.map_congr_left
      intro k _
      simp only [Function.comp, Nat.succ_eq_add_one]
      rw [show i + 1 + k = i + (k + 1) by ring]
    rw [List.range_succ_eq_map, List.map_cons, List.sum_cons, List.map_map, hshift,
      Nat.add_zero] at hsum ⊢
    have hrest := diff_max_0_sum_nonneg a b (i + 1) n
    have hd := hdiff i (by omega)
    have hw1 : int32_wrap (a.getD i 0 - b.getD i 0) = a.getD i 0 - b.getD i 0 :=
      int32_wrap_of_range hd (by
        have := le_max_right 0 (a.getD i 0 - b.getD i 0)
        omega)
    have hm := le_max_left 0 (a.getD i 0 - b.getD i 0)
    have hw2 : int32_wrap (result + max 0 (a.getD i 0 - b.getD i 0))
        = result + max 0 (a.getD i 0 - b.getD i 0) :=
      int32_wrap_of_range (by omega) (by omega)
    unfold calc_diff_max_0_sum_naive_loop
    simp only [vec_idx_eq_ok hx, vec_idx_eq_ok hy, ok_bind]
    rw [hw1, hw2, ih (i + 1) _ (by omega) (by omega) (by omega)]
    congr 1
    exact add_assoc _ _ _

/-- C27 (as amended): for vectors `a` and `b` of `int` values with
`len(b) ≥ len(a)` in which no difference `a[i] - b[i]` is below `INT_MIN` and
the sum over the positions `i` of `a` of `max(0, a[i] - b[i])` is at most
`INT_MAX`, `Vec::calc_diff_max_0_sum(a, b)` returns that sum; for the vectors
of the test it returns `4`. -/
theorem C27_calc_diff_max_0_sum :
    (∀ a b : List Int, a.length ≤ b.length →
        (∀ i, i < a.length → -2147483648 ≤ a.getD i 0 - b.getD i 0) →
        spec_diff_max_0_sum a b ≤ INT_MAX →
        Vec.calc_diff_max_0_sum a b = Except.ok (spec_diff_max_0_sum a b))
      ∧ Vec.calc_diff_max_0_sum [1, 2, 3, 4, 1, 2, 3, 4, 7, 8] [0, 1, 2, 3, 2, 3, 4, 5, 7, 8]
        = Except.ok 4 := by
  refine ⟨?_, by decide⟩
  intro a b hlen hdiff hsum
  unfold Vec.calc_diff_max_0_sum calc_diff_max_0_sum_naive
  have hspec : spec_diff_max_0_sum a b
      = 0 + ((List.range a.length).map
          (fun k => max 0 (a.getD (0 + k) 0 - b.getD (0 + k) 0))).sum := by
    unfold spec_diff_max_0_sum
    simp
  rw [hspec] at hsum ⊢
  exact calc_diff_max_0_sum_naive_loop_eq a b hlen hdiff a.length 0 0 (by omega) (le_refl _)
    hsum

theorem C27_witness :
    Vec.calc_diff_max_0_sum [INT_MAX, 1, 5] [0, 3, 5, 9]
      = Except.ok (spec_diff_max_0_sum [INT_MAX, 1, 5] [0, 3, 5, 9]) :=
  C27_calc_diff_max_0_sum.1 [INT_MAX, 1, 5] [0, 3, 5, 9] (by decide) (by decide) (by decide)

/-- C27 fails as stated: the difference and the sum are computed in `int`.
For `a = {INT_MAX}` and `b = {-1}` the difference wraps around to `INT_MIN`
and the call returns `0`, and for `a = {INT_MAX, 1}` and `b = {0, 0}` the sum
wraps around and the call returns `INT_MIN`, while the sum of
`max(0, a[i] - b[i])` is `2147483648` for both. -/
theorem C27_counterexample :
    Vec.calc_diff_max_0_sum [INT_MAX] [-1] = Except.ok 0
      ∧ spec_diff_max_0_sum [INT_MAX] [-1] = 2147483648
      ∧ Vec.calc_diff_max_0_sum [INT_MAX, 1] [0, 0] = Except.ok (-2147483648)
      ∧ spec_diff_max_0_sum [INT_MAX, 1] [0, 0] = 2147483648 :=
  ⟨by decide, by decide, by decide, by decide⟩

/-! ### `random_sample` -/

theorem random_sample_init_eq (size : Nat) :
    ∀ (n i : Nat) (sample : List Nat), sample.length = size → i + n ≤ size →
      (∀ j, j < i → sample[j]? = some j) →
      ∃ s, random_sample_init n i sample = Except.ok s ∧ s.length = size
        ∧ (∀ j, j < i + n → s[j]? = some j) := by
  intro n
  induction n with
  | zero => intro i sample hlen _ h; exact ⟨sample, rfl, hlen, by simpa using h⟩
  | succ n ih =>
    intro i sample hlen hi h
    unfold random_sample_init vec_store
    rw [if_pos (by omega), ok_bind]
    obtain ⟨s, h1, h2, h3⟩ := ih (i + 1) (sample.set i i) (by rw [List.length_set]; exact hlen)
      (by omega) (fun j hj => by
        by_cases hji : j = i
        · subst hji
          rw [List.getElem?_set_self (by omega)]
        · rw [List.getElem?_set_ne (Ne.symm hji)]
          exact h j (by omega))
    exact ⟨s, h1, h2, fun j hj => h3 j (by omega)⟩

theorem random_sample_draw_spec (sample_size : Nat) (draw : Nat → Nat) :
    ∀ (k i : Nat) (sample : List Nat), sample.length = sample_size → sample.Nodup →
      (∀ x ∈ sample, x < i) →
      ∃ s, random_sample_draw sample_size draw k i sample = Except.ok s
        ∧ s.length = sample_size ∧ s.Nodup ∧ ∀ x ∈ s, x < i + k := by
  intro k
  induction k with
  | zero => intro i sample hlen hnd hlt; exact ⟨sample, rfl, hlen, hnd, by simpa using hlt⟩
  | succ k ih =>
    intro i sample hlen hnd hlt
    unfold random_sample_draw
    simp only
    by_cases hr : draw i < sample_size
    · rw [if_pos hr]
      unfold vec_store
      rw [if_pos (by omega), ok_bind]
      have hnot : i ∉ sample := fun hmem => absurd (hlt i hmem) (lt_irrefl _)
      obtain ⟨s, h1, h2, h3, h4⟩ := ih (i + 1) (sample.set (draw i) i)
        (by rw [List.length_set]; exact hlen) (hnd.set hnot)
        (fun x hx => by
          rcases List.mem_or_eq_of_mem_set hx with h | h
          · have := hlt x h; omega
          · omega)
      exact ⟨s, h1, h2, h3, fun x hx => by have := h4 x hx; omega⟩
    · rw [if_neg hr]
      obtain ⟨s, h1, h2, h3, h4⟩ := ih (i + 1) sample hlen hnd
        (fun x hx => by have := hlt x hx; omega)
      exact ⟨s, h1, h2, h3, fun x hx => by have := h4 x hx; omega⟩

/-- C28: for all `n` and `k` and every outcome of the random draws,
`random_sample(n, k)` returns a vector of length `min(n, k)` whose elements are
pairwise distinct and lie in `[0, n)`. -/
theorem C28_random_sample (n k : Nat) (draw : Nat → Nat) :
    ∃ sample, random_sample n k draw = Except.ok sample
      ∧ sample.length = min n k ∧ sample.Nodup ∧ ∀ x ∈ sample, x < n := by
  unfold random_sample
  simp only
  generalize hsz : (if k > n then n else k) = size
  have hsize : size = min n k := by
    rw [← hsz]
    by_cases h : k > n
    · rw [if_pos h, min_eq_left (le_of_lt h)]
    · rw [if_neg h, min_eq_right (not_lt.mp h)]
  have hle : size ≤ n := by rw [hsize]; exact min_le_left _ _
  obtain ⟨s0, h1, h2, h3⟩ := random_sample_init_eq size size 0 (List.replicate size 0)
    (List.length_replicate _ _) (by omega) (fun j hj => absurd hj (Nat.not_lt_zero _))
  rw [h1, ok_bind]
  have hs0 : s0 = List.range size := by
    apply List.ext_getElem?
    intro j
    by_cases hj : j < size
    · rw [h3 j (by omega), List.getElem?_range hj]
    · rw [List.getElem?_eq_none (by omega), List.getElem?_eq_none (by simpa using hj)]
  obtain ⟨s, g1, g2, g3, g4⟩ := random_sample_draw_spec size draw (n - size) size s0 h2
    (by rw [hs0]; exact List.nodup_range size)
    (fun x hx => by rw [hs0] at hx; exact List.mem_range.mp hx)
  exact ⟨s, g1, by rw [g2, hsize], g3, fun x hx => by have := g4 x hx; omega⟩

/-! ### `FixedIterationsStopCondition` -/

open FixedIterationsStopCondition

theorem next_iteration_iterate (c : FixedIterationsStopCondition)
    (hmax : c.max_iterations_ < 4294967296) :
    ∀ n : Nat, (next_iteration^[n] c.start)
      = { iteration_ := min n c.max_iterations_, max_iterations_ := c.max_iterations_ } := by
  intro n
  induction n with
  | zero => simp [start]
  | succ n ih =>
    rw [Function.iterate_succ_apply', ih]
    unfold next_iteration
    simp only
    by_cases h : n < c.max_iterations_
    · rw [if_pos (by rw [min_eq_left (le_of_lt h)]; exact h), min_eq_left (le_of_lt h),
        min_eq_left (by omega : n + 1 ≤ c.max_iterations_), Nat.mod_eq_of_lt (by omega)]
    · rw [if_neg (by rw [min_eq_right (not_lt.mp h)]; exact lt_irrefl _),
        min_eq_right (not_lt.mp h), min_eq_right (by omega : c.max_iterations_ ≤ n + 1)]

/-- C29: for a `FixedIterationsStopCondition` built with any `max_iterations`
(a `uint32_t`) and in any state, fresh or used: `start()` sets `iteration_` to
`0` and keeps `max_iterations_`; after `start()` and `n` calls of
`next_iteration()`, `is_reached()` is true exactly when `n ≥ max_iterations`,
`iteration_` never exceeds `max_iterations_`, and once `is_reached()` is true
every further `next_iteration()` leaves it true. -/
theorem C29_fixed_iterations (c : FixedIterationsStopCondition)
    (hmax : c.max_iterations_ < 4294967296) (n : Nat) :
    c.start.iteration_ = 0
      ∧ c.start.max_iterations_ = c.max_iterations_
      ∧ ((next_iteration^[n] c.start).is_reached = true ↔ c.max_iterations_ ≤ n)
      ∧ (next_iteration^[n] c.start).iteration_ ≤ c.max_iterations_
      ∧ ((next_iteration^[n] c.start).is_reached = true →
          ∀ m, (next_iteration^[n + m] c.start).is_reached = true) := by
  have hiff : ∀ k, (next_iteration^[k] c.start).is_reached = true
      ↔ c.max_iterations_ ≤ k := by
    intro k
    rw [next_iteration_iterate c hmax k]
    unfold is_reached
    simp only [beq_iff_eq]
    constructor
    · intro h; rw [← h]; exact min_le_left _ _
    · intro h; exact min_eq_right h
  refine ⟨rfl, rfl, hiff n, ?_,
    fun h m => (hiff (n + m)).mpr (by have := (hiff n).mp h; omega)⟩
  rw [next_iteration_iterate c hmax n]
  exact min_le_right _ _

theorem C29_witness :
    (next_iteration^[3] (ctor 3)).is_reached = true
      ∧ (next_iteration^[3] (ctor 3)).start.iteration_ = 0
      ∧ (next_iteration^[3] (ctor 3)).start.max_iterations_
          = (next_iteration^[3] (ctor 3)).max_iterations_
      ∧ ((next_iteration^[2] (next_iteration^[3] (ctor 3)).start).is_reached = true
          ↔ (next_iteration^[3] (ctor 3)).max_iterations_ ≤ 2)
      ∧ (next_iteration^[2] (next_iteration^[3] (ctor 3)).start).iteration_
          ≤ (next_iteration^[3] (ctor 3)).max_iterations_
      ∧ ((next_iteration^[2] (next_iteration^[3] (ctor 3)).start).is_reached = true →
          ∀ m, (next_iteration^[2 + m] (next_iteration^[3] (ctor 3)).start).is_reached = true) :=
  ⟨by decide, C29_fixed_iterations (next_iteration^[3] (ctor 3)) (by decide) 2⟩

end TPP

namespace TPP

/-! ## Markets that satisfy the remaining demand: claim C30 -/

open Solution

/-! ### The remaining demand of a product is at most one -/

theorem add_state_demand_le_one (s : Solution) (o : ProductOffer)
    (h : ∀ d ∈ s.demand_remaining_, d ≤ 1) : ∀ d ∈ (s.add_state o).demand_remaining_, d ≤ 1 := by
  intro d hd
  simp only [Solution.add_state] at hd
  rcases mem_set_elim hd with h1 | h1
  · rw [h1]; exact zero_le_one
  · exact h d h1

theorem remove_state_demand_le_one (s : Solution) (o : ProductOffer)
    (h : ∀ d ∈ s.demand_remaining_, d ≤ 1) :
    ∀ d ∈ (s.remove_state o).demand_remaining_, d ≤ 1 := by
  intro d hd
  unfold Solution.remove_state at hd
  simp only at hd
  generalize (s.product_offers_.getD o.product_id_ []).eraseIdx
    (locate_offer o (s.product_offers_.getD o.product_id_ [])) = e at hd
  cases e with
  | nil =>
    rcases mem_set_elim hd with h1 | h1
    · rw [h1]
    · exact h d h1
  | cons a t =>
    rcases mem_set_elim hd with h1 | h1
    · rw [h1]; exact zero_le_one
    · exact h d h1

theorem foldl_add_state_demand_le_one (os : List ProductOffer) :
    ∀ s : Solution, (∀ d ∈ s.demand_remaining_, d ≤ 1) →
      ∀ d ∈ (os.foldl Solution.add_state s).demand_remaining_, d ≤ 1 := by
  induction os with
  | nil => intro s h; exact h
  | cons o rest ih =>
    intro s h
    simp only [List.foldl_cons]
    exact ih _ (add_state_demand_le_one s o h)

theorem foldl_remove_state_demand_le_one (os : List ProductOffer) :
    ∀ s : Solution, (∀ d ∈ s.demand_remaining_, d ≤ 1) →
      ∀ d ∈ (os.foldl Solution.remove_state s).demand_remaining_, d ≤ 1 := by
  induction os with
  | nil => intro s h; exact h
  | cons o rest ih =>
    intro s h
    simp only [List.foldl_cons]
    exact ih _ (remove_state_demand_le_one s o h)

theorem reachable_demand_le_one {inst : Instance} (hwf : inst.WF)
    (hdem : ∀ d ∈ inst.demands_, d ≤ 1) {s : Solution} (h : Reachable inst s) :
    ∀ d ∈ s.demand_remaining_, d ≤ 1 := by
  induction h with
  | init h0 =>
    rw [init_eq hwf] at h0
    cases h0
    exact hdem
  | insert m idx hr hnot h0 hle heq ih =>
    have hinv := hr.inv hwf
    have hm : m < inst.dimension_ := by
      rw [← hinv.selected_len]; exact insert_market_lt heq
    obtain ⟨h1, _⟩ := insert_market_at_pos_eq hwf hinv hm hnot h0 hle
    rw [h1] at heq
    cases heq
    exact foldl_add_state_demand_le_one _ (s := _) ih
  | remove pos hr h0 hlt heq ih =>
    have hinv := hr.inv hwf
    obtain ⟨h1, _⟩ := remove_market_at_pos_eq hwf hinv h0 hlt
    rw [h1] at heq
    cases heq
    exact foldl_remove_state_demand_le_one _ (s := _) ih

/-! ### The table of offers by market and product -/

theorem built_row_fold (offers : List ProductOffer) :
    ∀ (row : List ProductOffer) (p : Nat), (∀ o ∈ offers, o.product_id_ < row.length) →
      ((∃ o ∈ offers, o.product_id_ = p
          ∧ (offers.foldl (fun row o => row.set o.product_id_ o) row).getD p ⟨0, 0, 0, 0⟩ = o)
        ∨ ((∀ o ∈ offers, o.product_id_ ≠ p)
          ∧ (offers.foldl (fun row o => row.set o.product_id_ o) row).getD p ⟨0, 0, 0, 0⟩
            = row.getD p ⟨0, 0, 0, 0⟩)) := by
  induction offers with
  | nil => intro row p _; exact Or.inr ⟨fun o ho => absurd ho (List.not_mem_nil _), rfl⟩
  | cons x rest ih =>
    intro row p hlt
    have hx := hlt x (List.mem_cons_self _ _)
    simp only [List.foldl_cons]
    rcases ih (row.set x.product_id_ x) p (fun o ho => by
      rw [List.length_set]; exact hlt o (List.mem_cons_of_mem _ ho)) with ⟨o, ho, h1, h2⟩ | ⟨h1, h2⟩
    · exact Or.inl ⟨o, List.mem_cons_of_mem _ ho, h1, h2⟩
    · by_cases hxp : x.product_id_ = p
      · refine Or.inl ⟨x, List.mem_cons_self _ _, hxp, ?_⟩
        rw [h2, ← hxp, getD_set_self _ _ _ _ hx]
      · refine Or.inr ⟨fun o ho => ?_, ?_⟩
        · rcases List.mem_cons.mp ho with rfl | ho
          · exact hxp
          · exact h1 o ho
        · rw [h2, getD_set_ne _ _ _ _ _ hxp]

theorem satisfies_demand_loop_spec (s : Solution) (offers : List ProductOffer) :
    ∀ prods : List Nat, (∀ p ∈ prods, p < offers.length ∧ p < s.demand_remaining_.length) →
      ∃ b, satisfies_demand_loop s offers prods = Except.ok b
        ∧ (b = true ↔ ∀ p ∈ prods,
            s.demand_remaining_.getD p 0 ≤ (offers.getD p ⟨0, 0, 0, 0⟩).quantity_) := by
  intro prods
  induction prods with
  | nil => intro _; exact ⟨true, rfl, by simp⟩
  | cons p rest ih =>
    intro h
    obtain ⟨h1, h2⟩ := h p (List.mem_cons_self _ _)
    have e1 := getElem?_getD_of_lt (⟨0, 0, 0, 0⟩ : ProductOffer) h1
    have e2 := getElem?_getD_of_lt (0 : Int) h2
    unfold satisfies_demand_loop
    simp only [vec_idx_eq_ok e1, vec_idx_eq_ok e2, ok_bind]
    by_cases hc : (offers.getD p ⟨0, 0, 0, 0⟩).quantity_ < s.demand_remaining_.getD p 0
    · rw [if_pos hc]
      refine ⟨false, rfl, ?_⟩
      constructor
      · intro hf; exact absurd hf (by simp)
      · intro hall
        have := hall p (List.mem_cons_self _ _)
        omega
    · rw [if_neg hc]
      obtain ⟨b, hb1, hb2⟩ := ih (fun x hx => h x (List.mem_cons_of_mem _ hx))
      refine ⟨b, hb1, ?_⟩
      rw [hb2]
      constructor
      · intro hall x hx
        rcases List.mem_cons.mp hx with rfl | hx
        · omega
        · exact hall x hx
      · intro hall x hx
        exact hall x (List.mem_cons_of_mem _ hx)

/-- C30 (as amended): in every state reached from the constructor, for every
node `m` of an instance as `load_from_file` builds it,
`check_market_satisfies_demand(m)` returns, and returns true exactly when `m`
is not in the route and `market_product_offers_[m][p].quantity_` is at least
`demand_remaining_[p]` for every product `p` in `remaining_products_`; with
the table built from the offers this means that `m` is not in the route and
offers every product that is still needed. -/
theorem C30_check_market_satisfies_demand (inst : Instance) (s : Solution) (m : Nat)
    (hwf : inst.WF) (hck : inst.Checked) (hr : Reachable inst s) (hm : m < inst.dimension_) :
    ∃ b, check_market_satisfies_demand inst s m = Except.ok b
      ∧ (b = true ↔ (m ∉ s.route_ ∧ ∀ p ∈ s.remaining_products_,
          s.demand_remaining_.getD p 0
            ≤ ((inst.market_product_offers_.getD m []).getD p ⟨0, 0, 0, 0⟩).quantity_))
      ∧ (inst.TableBuilt →
          (b = true ↔ (m ∉ s.route_ ∧ ∀ p ∈ s.remaining_products_,
            ∃ o ∈ inst.market_offers_.getD m [], o.product_id_ = p))) := by
  have hinv := hr.inv hwf
  have hsel : s.market_selected_[m]? = some (decide (m ∈ s.route_)) := by
    have h1 := getElem?_getD_of_lt false (by rw [hinv.selected_len]; exact hm :
      m < s.market_selected_.length)
    rw [hinv.selected m hm] at h1
    exact h1
  have hrow := getElem?_getD_of_lt ([] : List ProductOffer)
    (by rw [hck.table_len]; exact hm : m < inst.market_product_offers_.length)
  have hrow_len := hck.table_rows _ (List.mem_iff_getElem?.mpr ⟨m, hrow⟩)
  have hprods : ∀ p ∈ s.remaining_products_,
      p < (inst.market_product_offers_.getD m []).length ∧ p < s.demand_remaining_.length := by
    intro p hp
    have h1 := (hinv.pinv.remaining_mem p).mp hp
    have h2 : p < s.demand_remaining_.length := by
      by_contra hge
      rw [List.getD_eq_getElem?_getD, List.getElem?_eq_none (Nat.le_of_not_lt hge)] at h1
      simp at h1
    rw [hrow_len]
    rw [hinv.pinv.len_demand] at h2
    exact ⟨h2, by rw [hinv.pinv.len_demand]; exact h2⟩
  have hkey : ∃ b, check_market_satisfies_demand inst s m = Except.ok b
      ∧ (b = true ↔ (m ∉ s.route_ ∧ ∀ p ∈ s.remaining_products_,
          s.demand_remaining_.getD p 0
            ≤ ((inst.market_product_offers_.getD m []).getD p ⟨0, 0, 0, 0⟩).quantity_)) := by
    unfold check_market_satisfies_demand is_market_used
    simp only [vec_at_eq_ok hsel, ok_bind]
    by_cases hmem : m ∈ s.route_
    · simp only [hmem, decide_True, if_true]
      refine ⟨false, rfl, ?_⟩
      constructor
      · intro hf; exact absurd hf (by simp)
      · intro h; exact absurd trivial h.1
    · simp only [hmem, decide_False, Bool.false_eq_true, if_false, vec_at_eq_ok hrow, ok_bind]
      obtain ⟨b, hb1, hb2⟩ := satisfies_demand_loop_spec s
        (inst.market_product_offers_.getD m []) s.remaining_products_ hprods
      exact ⟨b, hb1, by rw [hb2]; simp⟩
  obtain ⟨b, hb1, hb2⟩ := hkey
  refine ⟨b, hb1, hb2, fun htable => ?_⟩
  rw [hb2]
  have hoff := getElem?_getD_of_lt ([] : List ProductOffer)
    (by rw [hwf.offers_len]; exact hm : m < inst.market_offers_.length)
  have hrow_eq : inst.market_product_offers_.getD m []
      = built_row inst.product_count_ (inst.market_offers_.getD m []) := by
    unfold Instance.TableBuilt at htable
    apply getD_eq_of_getElem?
    rw [htable, List.getElem?_map, hoff]
    rfl
  have hfold := fun p => built_row_fold (inst.market_offers_.getD m [])
    (List.replicate inst.product_count_ ⟨0, 0, 0, 0⟩) p
    (fun o ho => by rw [List.length_replicate]; exact hwf.offer_product_lt ho)
  have hle1 := reachable_demand_le_one hwf hck.demand_le_one hr
  constructor
  · rintro ⟨h1, h2⟩
    refine ⟨h1, fun p hp => ?_⟩
    have hq := h2 p hp
    have hpos := (hinv.pinv.remaining_mem p).mp hp
    rw [hrow_eq] at hq
    rcases hfold p with ⟨o, ho, hop, _⟩ | ⟨_, hdef⟩
    · exact ⟨o, ho, hop⟩
    · exfalso
      unfold built_row at hq
      rw [hdef] at hq
      have hzero : ((List.replicate inst.product_count_
          (⟨0, 0, 0, 0⟩ : ProductOffer)).getD p ⟨0, 0, 0, 0⟩).quantity_ = 0 := by
        rcases getD_mem_or_default (List.replicate inst.product_count_
          (⟨0, 0, 0, 0⟩ : ProductOffer)) p ⟨0, 0, 0, 0⟩ with h | h
        · rw [List.eq_of_mem_replicate h]
        · rw [h]
      rw [hzero] at hq
      omega
  · rintro ⟨h1, h2⟩
    refine ⟨h1, fun p hp => ?_⟩
    obtain ⟨o, ho, hop⟩ := h2 p hp
    rw [hrow_eq]
    rcases hfold p with ⟨o2, ho2, _, hget⟩ | ⟨hnone, _⟩
    · unfold built_row
      rw [hget]
      have hq := hck.quantity_pos _ (List.mem_iff_getElem?.mpr ⟨m, hoff⟩) o2 ho2
      have hd : s.demand_remaining_.getD p 0 ≤ 1 := by
        rcases getD_mem_or_default s.demand_remaining_ p 0 with h | h
        · exact hle1 _ h
        · rw [h]; exact zero_le_one
      omega
    · exact absurd hop (hnone o ho)

theorem example_instance_table_built : example_instance.TableBuilt := by
  unfold Instance.TableBuilt
  decide

theorem C30_witness :
    ∃ b, check_market_satisfies_demand example_instance example_state 2 = Except.ok b
      ∧ (b = true ↔ (2 ∉ example_state.route_ ∧ ∀ p ∈ example_state.remaining_products_,
          example_state.demand_remaining_.getD p 0
            ≤ ((example_instance.market_product_offers_.getD 2 []).getD p
                ⟨0, 0, 0, 0⟩).quantity_))
      ∧ (example_instance.TableBuilt →
          (b = true ↔ (2 ∉ example_state.route_ ∧ ∀ p ∈ example_state.remaining_products_,
            ∃ o ∈ example_instance.market_offers_.getD 2 [], o.product_id_ = p))) :=
  C30_check_market_satisfies_demand example_instance example_state 2 example_instance_wf
    example_instance_checked example_state_reachable (by decide)

/-- C30 fails as stated: in the valid solution with the route `0, 3, 2, 1` no
product is left in `remaining_products_`, so that every market offers all the
products still needed, and `check_market_satisfies_demand(1)` returns false,
because market `1` is in the route. -/
theorem C30_counterexample :
    Reachable example_instance example_state_valid
      ∧ example_state_valid.remaining_products_ = []
      ∧ 1 ∈ example_state_valid.route_
      ∧ check_market_satisfies_demand example_instance example_state_valid 1
          = Except.ok false :=
  ⟨example_state_valid_reachable, rfl, by decide, by decide⟩

end TPP

namespace TPP

/-! ## Insertion and removal positions: claim C31 -/

open Solution

/-! ### The checks of `insert_market_at_pos` and `remove_market_at_pos` -/

theorem insert_market_at_pos_in_route {inst : Instance} {s : Solution}
    (hinv : s.Inv inst) {m : Nat} (hm : m < inst.dimension_) (hin : m ∈ s.route_) (idx : Nat) :
    insert_market_at_pos inst s m idx = Except.error Fault.check_failed := by
  have hsel : s.market_selected_[m]? = some true := by
    have h1 := getElem?_getD_of_lt false (by rw [hinv.selected_len]; exact hm :
      m < s.market_selected_.length)
    rw [hinv.selected m hm] at h1
    simpa [hin] using h1
  unfold insert_market_at_pos
  simp only [vec_at_eq_ok hsel, ok_bind]
  rfl

theorem insert_market_at_pos_not_in_route {inst : Instance} {s : Solution}
    (hinv : s.Inv inst) {m : Nat} (hm : m < inst.dimension_) (hnot : m ∉ s.route_) (idx : Nat) :
    (idx = 0 → insert_market_at_pos inst s m idx = Except.error Fault.check_failed)
      ∧ (s.route_.length < idx →
          insert_market_at_pos inst s m idx = Except.error Fault.undefined) := by
  have hsel : s.market_selected_[m]? = some false := by
    have h1 := getElem?_getD_of_lt false (by rw [hinv.selected_len]; exact hm :
      m < s.market_selected_.length)
    rw [hinv.selected m hm] at h1
    simpa [hnot] using h1
  constructor
  · rintro rfl
    unfold insert_market_at_pos
    simp only [vec_at_eq_ok hsel, ok_bind]
    rfl
  · intro hgt
    have h0 : decide (idx > 0) = true := decide_eq_true (by omega)
    have hnone : s.route_[idx - 1]? = none := List.getElem?_eq_none (by omega)
    unfold insert_market_at_pos
    simp only [vec_at_eq_ok hsel, ok_bind, h0]
    simp [CHECK_F, vec_idx, hnone]

theorem remove_market_at_pos_checks (inst : Instance) (s : Solution) (pos : Nat)
    (h : pos = 0 ∨ s.route_.length ≤ pos) :
    remove_market_at_pos inst s pos = Except.error Fault.check_failed := by
  unfold remove_market_at_pos
  by_cases hlt : pos < s.route_.length
  · have h0 : pos = 0 := by omega
    subst h0
    simp [CHECK_F, hlt]
  · simp [CHECK_F, hlt]

/-- C31, the code at the failing input: in every state reached from the
constructor and for every market `m` of the instance,
`insert_market_at_pos(m, idx)` stops at a `CHECK_F` exactly when `m` is in the
route or `idx` is `0`, and returns when `m` is not in the route and
`0 < idx ≤ len(route)`; `remove_market_at_pos(pos)` stops at a `CHECK_F`
exactly when `pos` is `0` or `pos ≥ len(route)` and returns otherwise.  No
`CHECK_F` guards `idx > len(route)`: the call then reads `route_[idx - 1]`
outside the vector, as `insert_market_at_pos(2, 4)` does on the route
`0, 3, 1`. -/
theorem C31_insert_beyond_end_unchecked :
    (∀ (inst : Instance) (s : Solution) (m idx : Nat), inst.WF → Reachable inst s →
        m < inst.dimension_ →
        (insert_market_at_pos inst s m idx = Except.error Fault.check_failed
            ↔ (m ∈ s.route_ ∨ idx = 0))
          ∧ (m ∉ s.route_ → 0 < idx → idx ≤ s.route_.length →
              ∃ t, insert_market_at_pos inst s m idx = Except.ok t)
          ∧ (m ∉ s.route_ → s.route_.length < idx →
              insert_market_at_pos inst s m idx = Except.error Fault.undefined))
      ∧ (∀ (inst : Instance) (s : Solution) (pos : Nat), inst.WF → Reachable inst s →
          (remove_market_at_pos inst s pos = Except.error Fault.check_failed
              ↔ (pos = 0 ∨ s.route_.length ≤ pos))
            ∧ (0 < pos → pos < s.route_.length →
                ∃ t, remove_market_at_pos inst s pos = Except.ok t))
      ∧ example_state.route_ = [0, 3, 1]
      ∧ insert_market_at_pos example_instance example_state 2 4
          = Except.error Fault.undefined := by
  refine ⟨?_, ?_, rfl, by decide⟩
  · intro inst s m idx hwf hr hm
    have hinv := hr.inv hwf
    refine ⟨⟨fun h => ?_, fun h => ?_⟩, fun hnot h0 hle => ?_, fun hnot hgt => ?_⟩
    · by_contra hcon
      push_neg at hcon
      obtain ⟨hnot, h0⟩ := hcon
      by_cases hle : idx ≤ s.route_.length
      · rw [(insert_market_at_pos_eq hwf hinv hm hnot (by omega) hle).1] at h
        exact absurd h (by simp)
      · rw [(insert_market_at_pos_not_in_route hinv hm hnot idx).2 (by omega)] at h
        exact absurd h (by simp)
    · by_cases hin : m ∈ s.route_
      · exact insert_market_at_pos_in_route hinv hm hin idx
      · exact (insert_market_at_pos_not_in_route hinv hm hin idx).1
          (h.resolve_left hin)
    · exact ⟨_, (insert_market_at_pos_eq hwf hinv hm hnot h0 hle).1⟩
    · exact (insert_market_at_pos_not_in_route hinv hm hnot idx).2 hgt
  · intro inst s pos hwf hr
    have hinv := hr.inv hwf
    refine ⟨⟨fun h => ?_, remove_market_at_pos_checks inst s pos⟩, fun h0 hlt => ?_⟩
    · by_contra hcon
      push_neg at hcon
      rw [(remove_market_at_pos_eq hwf hinv (by omega) hcon.2).1] at h
      exact absurd h (by simp)
    · exact ⟨_, (remove_market_at_pos_eq hwf hinv h0 hlt).1⟩

end TPP

namespace TPP

/-! ## Wrapped iterators: reversal and rotation -/

/-! ### Exchanges of two positions -/

theorem mod_add_eq {s len u : Nat} (hs : s < len) (hu : u < len) :
    (s + u) % len = if s + u < len then s + u else s + u - len := by
  split
  · rename_i h
    exact Nat.mod_eq_of_lt h
  · rename_i h
    rw [Nat.mod_eq_sub_mod (by omega), Nat.mod_eq_of_lt (by omega)]

theorem WrappedIterator.Good.inc {len : Nat} {w : WrappedIterator} {off : Nat}
    (h : w.Good len off) (hoff : off + 1 < len) :
    (w.inc len).Good len (off + 1) ∧ (w.inc len).anchor_ = w.anchor_ := by
  obtain ⟨h1, h2, h3, h4, h5⟩ := h
  have hit := mod_add_eq h1 h2
  have hit1 := mod_add_eq h1 (by omega : off + 1 < len)
  unfold WrappedIterator.inc
  cases hw : w.wrapped_ with
  | false =>
    simp only [Bool.not_false, if_true]
    by_cases he : w.it_ + 1 = len
    · rw [if_pos he]
      refine ⟨⟨h1, hoff, ?_, h4, fun _ => ?_⟩, rfl⟩
      · show 0 = (w.anchor_ + (off + 1)) % len
        rw [hit1]
        rw [h3, hit] at he
        split_ifs at he ⊢ <;> omega
      · show len ≤ w.anchor_ + (off + 1)
        rw [h3, hit] at he
        split_ifs at he <;> omega
    · rw [if_neg he]
      refine ⟨⟨h1, hoff, ?_, h4, fun hw2 => ?_⟩, rfl⟩
      · show w.it_ + 1 = (w.anchor_ + (off + 1)) % len
        rw [hit1, h3, hit]
        rw [h3, hit] at he
        split_ifs at he ⊢ <;> omega
      · exact absurd hw2 (by simp [hw])
  | true =>
    have h6 := h5 hw
    simp only [Bool.not_true, Bool.false_eq_true, if_false]
    have hne : w.it_ ≠ w.anchor_ := by
      rw [h3, hit]
      split_ifs <;> omega
    rw [if_pos hne]
    refine ⟨⟨h1, hoff, ?_, h4, fun _ => by show len ≤ w.anchor_ + (off + 1); omega⟩, rfl⟩
    show w.it_ + 1 = (w.anchor_ + (off + 1)) % len
    rw [hit1, h3, hit]
    split_ifs <;> omega

end TPP

namespace TPP

/-! ## Rotated tours and the move of perform_2_opt_move -/

/-! ### Tours that differ by a rotation or a reflection -/

end TPP

namespace TPP

/-! ## The blocks of perform_3_opt_move -/

theorem rev_if_reverse (f : Bool) (l : List Nat) : (rev_if f l).reverse = rev_if (!f) l := by
  cases f <;> simp [rev_if]

theorem rev_if_rev_if (f g : Bool) (l : List Nat) :
    rev_if f (rev_if g l) = rev_if (xor f g) l := by
  cases f <;> cases g <;> simp [rev_if]

end TPP

namespace TPP

/-! ## The tour after perform_3_opt_move -/

/-! ### The tour after `perform_3_opt_move` -/

end TPP

namespace TPP

/-! ## The four reconnections of three_opt -/

/-! ### The four reconnections of `three_opt` -/

end TPP

namespace TPP

/-! ## Candidate markets of an ant: claim C37 -/

open Solution

/-! ### The candidate markets of an ant -/

theorem candidate_loop_eq {inst : Instance} {ant : Ant} (hinv : ant.solution_.Inv inst)
    (all_nn : List Nat) (hlt : ∀ m ∈ all_nn, m < inst.dimension_) :
    ∀ (n i : Nat) (cand : List Nat), i + n ≤ all_nn.length →
      Ant.candidate_loop ant all_nn n i cand
        = Except.ok (cand ++ ((all_nn.drop i).take n).filter
            (fun m => decide (m ≠ 0) && decide (m ∉ ant.solution_.route_))) := by
  intro n
  induction n with
  | zero => intro i cand _; simp [Ant.candidate_loop]
  | succ n ih =>
    intro i cand h
    have hi : i < all_nn.length := by omega
    have hget := getElem?_getD_of_lt 0 hi
    have hm : all_nn.getD i 0 < inst.dimension_ :=
      hlt _ (List.mem_iff_getElem?.mpr ⟨i, hget⟩)
    have hsel : ant.solution_.market_selected_[all_nn.getD i 0]?
        = some (decide (all_nn.getD i 0 ∈ ant.solution_.route_)) := by
      have h1 := getElem?_getD_of_lt false (by rw [hinv.selected_len]; exact hm :
        all_nn.getD i 0 < ant.solution_.market_selected_.length)
      rw [hinv.selected _ hm] at h1
      exact h1
    have hdrop : all_nn.drop i = all_nn.getD i 0 :: all_nn.drop (i + 1) := by
      rw [List.drop_eq_getElem_cons hi, List.getD_eq_getElem _ _ hi]
    rw [Ant.candidate_loop, hdrop, List.take_succ_cons, List.filter_cons]
    simp only [vec_at_eq_ok hget, ok_bind, Solution.is_market_used, vec_at_eq_ok hsel]
    have ih1 := ih (i + 1) cand (by omega)
    have ih2 := ih (i + 1) (cand ++ [all_nn.getD i 0]) (by omega)
    generalize all_nn.getD i 0 = m at ih2 ⊢
    by_cases h0 : m = 0
    · subst h0
      simp only [ne_eq, not_true_eq_false, if_false, decide_False, Bool.false_and,
        Bool.false_eq_true]
      exact ih1
    · by_cases hin : m ∈ ant.solution_.route_
      · simp only [ne_eq, h0, not_false_eq_true, if_true, hin, decide_True, Bool.not_true,
          Bool.false_eq_true, if_false, not_true_eq_false, decide_False, Bool.and_false]
        exact ih1
      · simp only [ne_eq, h0, not_false_eq_true, if_true, hin, decide_False, Bool.not_false,
          decide_True, Bool.and_self]
        rw [ih2, List.append_assoc]
        rfl

/-- C37: for every instance as `load_from_file` builds it, every ant whose
solution was reached from the constructor and has an unselected market, and
every `nn_count ≤ dimension - 1`, `get_candidate_markets(nn_count)` returns a
list that is not empty and holds no depot and no market of the route: the
unselected markets other than the depot among the first `nn_count` nearest
neighbours of the current market when there are at least two of them, and
`unselected_markets_` otherwise. -/
theorem C37_candidate_markets (inst : Instance) (ant : Ant) (nn_count : Nat) (hwf : inst.WF)
    (hnn : inst.NNBuilt) (hr : Reachable inst ant.solution_)
    (hun : ant.solution_.unselected_markets_ ≠ []) (hcount : nn_count ≤ inst.dimension_ - 1) :
    ∃ cand, ant.get_candidate_markets inst nn_count = Except.ok cand
      ∧ cand ≠ []
      ∧ (∀ m ∈ cand, m ≠ 0 ∧ m ∉ ant.solution_.route_)
      ∧ (2 ≤ (spec_nn_candidates inst ant nn_count).length →
          cand = spec_nn_candidates inst ant nn_count)
      ∧ ((spec_nn_candidates inst ant nn_count).length < 2 →
          cand = ant.solution_.unselected_markets_) := by
  have hinv := hr.inv hwf
  obtain ⟨cur, hcur⟩ : ∃ cur, ant.solution_.route_.getLast? = some cur := by
    cases hlast : ant.solution_.route_.getLast? with
    | none =>
      rw [List.getLast?_eq_none_iff] at hlast
      have := hinv.route_head
      rw [hlast] at this
      simp at this
    | some c => exact ⟨c, rfl⟩
  have hcurD : ant.solution_.route_.getLastD 0 = cur := by
    rw [List.getLastD_eq_getLast?, hcur]
    rfl
  have hcurmem : cur ∈ ant.solution_.route_ := List.mem_of_getLast?_eq_some hcur
  have hcurlt : cur < inst.dimension_ := hinv.route_lt cur hcurmem
  have hnnget := getElem?_getD_of_lt ([] : List Nat)
    (by rw [hnn.1]; exact hcurlt : cur < inst.nn_lists_.length)
  have hperm := hnn.2 cur hcurlt
  have hnnlt : ∀ m ∈ inst.nn_lists_.getD cur [], m < inst.dimension_ := by
    intro m hm
    have := List.mem_of_mem_erase (hperm.mem_iff.mp hm)
    exact List.mem_range.mp this
  have hnnlen : (inst.nn_lists_.getD cur []).length = inst.dimension_ - 1 := by
    rw [hperm.length_eq, List.length_erase_of_mem (List.mem_range.mpr hcurlt), List.length_range]
  have hloop := candidate_loop_eq hinv (inst.nn_lists_.getD cur []) hnnlt nn_count 0 []
    (by rw [hnnlen]; omega)
  rw [List.drop_zero, List.nil_append] at hloop
  have hspec : spec_nn_candidates inst ant nn_count
      = ((inst.nn_lists_.getD cur []).take nn_count).filter
          (fun m => decide (m ≠ 0) && decide (m ∉ ant.solution_.route_)) := by
    unfold spec_nn_candidates
    rw [hcurD]
  have hunsel : ∀ m ∈ ant.solution_.unselected_markets_, m ≠ 0 ∧ m ∉ ant.solution_.route_ := by
    intro m hm
    obtain ⟨h1, _, h3⟩ := (hinv.unselected_mem m).mp hm
    exact ⟨by omega, h3⟩
  unfold Ant.get_candidate_markets
  simp only [hcur, vec_at_eq_ok hnnget, ok_bind, hloop, ← hspec]
  by_cases hlen : (spec_nn_candidates inst ant nn_count).length > 1
  · rw [if_pos hlen]
    refine ⟨_, rfl, List.ne_nil_of_length_pos (by omega), ?_, fun _ => rfl, fun h => by omega⟩
    intro m hm
    rw [hspec, List.mem_filter] at hm
    simpa using hm.2
  · rw [if_neg hlen]
    exact ⟨_, rfl, hun, hunsel, fun h => by omega, fun _ => rfl⟩

theorem example_instance_nn_built : example_instance.NNBuilt := by
  refine ⟨by decide, ?_⟩
  intro m hm
  have hm' : m < 4 := hm
  interval_cases m <;> decide

theorem C37_witness :
    ∃ cand, example_ant.get_candidate_markets example_instance 3 = Except.ok cand
      ∧ cand ≠ []
      ∧ (∀ m ∈ cand, m ≠ 0 ∧ m ∉ example_ant.solution_.route_)
      ∧ (2 ≤ (spec_nn_candidates example_instance example_ant 3).length →
          cand = spec_nn_candidates example_instance example_ant 3)
      ∧ ((spec_nn_candidates example_instance example_ant 3).length < 2 →
          cand = example_ant.solution_.unselected_markets_) :=
  C37_candidate_markets example_instance example_ant 3 example_instance_wf
    example_instance_nn_built example_state_reachable (by decide) (by decide)

end TPP

namespace TPP

/-! ## The search for a reconnection -/

/-! ### The search for a reconnection -/

end TPP

namespace TPP

/-! ## The search loops of three_opt_nn -/

/-! ### The search loops of `three_opt_nn` -/

end TPP

namespace TPP

/-! ## The moves of three_opt_nn: claims C32, C33 -/

/-! ### Claims C32 and C33 -/

end TPP

namespace TPP

/-! ## The k-exchange heuristic keeps the solution: claim C34 -/

open Solution

/-! ### The loop of `k_exchange_heuristic` while no market is exchanged -/

end TPP

namespace TPP

/-! ## Local optimum of two_opt: claim C35 -/

/-! ### The best exchange of a sweep of `two_opt` -/

end TPP

namespace TPP

/-! ## The threshold of the local search: claim C36 -/

open ACO

/-! ### The threshold of `apply_local_search` and the trace -/

theorem track_index_spec (values : List Int) :
    values[values.length - min values.length 5]? = spec_track_threshold values := by
  unfold spec_track_threshold
  by_cases h : 5 ≤ values.length
  · rw [if_pos h, min_eq_right h]
  · rw [if_neg h, min_eq_left (by omega), Nat.sub_self]

theorem local_search_ants_total (ls : Solution → Int → Solution) (gb : Ant) (thr : Int) :
    ∀ ants : List Ant,
      local_search_ants (fun s c => Except.ok (ls s c)) (some gb) thr ants
        = Except.ok (ants.map (fun ant =>
            if ant.cost ≤ thr then { ant with solution_ := ls ant.solution_ gb.cost }
            else ant)) := by
  intro ants
  induction ants with
  | nil => rfl
  | cons ant rest ih =>
    simp only [local_search_ants, ih]
    by_cases h : ant.cost ≤ thr
    · simp [h]
    · simp [h]

theorem NoLsReachable.trace_empty {aco : ACO} (h : NoLsReachable aco) :
    aco.global_best_values_no_ls_ = [] →
      aco.global_best_cost_no_ls_ = 0 ∨ aco.global_best_cost_no_ls_ = INT_MAX := by
  induction h with
  | init aco => intro _; exact Or.inl rfl
  | record cost _ _ ih =>
    intro he
    unfold ACO.record_no_ls at he ⊢
    split
    · rename_i hc
      rw [if_pos hc] at he
      simp at he
    · rename_i hc
      rw [if_neg hc] at he
      exact ih he
  | reset _ _ => intro _; exact Or.inr rfl
  | other aco1 _ h1 h2 ih =>
    intro he
    rw [h1]
    exact ih (by rw [← h2]; exact he)

/-- C36 (as amended): `apply_local_search` leaves every ant alone at an
iteration below `200`; at an iteration from `200` on with local search enabled
it reads as its threshold the entry of the trace at the index `size - 5` when
the trace has at least five entries and at the index `0` otherwise, and
applies `local_search` to exactly the ants with `cost() <= threshold`.  The
trace is not empty after the update of `ACO::run` for an iteration-best cost
below `INT_MAX`. -/
theorem C36_local_search_threshold :
    (∀ (ls : Solution → Int → Res Solution) (aco : ACO), aco.current_iteration_ < 200 →
        aco.apply_local_search ls = Except.ok aco)
      ∧ (∀ (ls : Solution → Int → Solution) (aco : ACO) (ph : BasicPheromone) (gb : Ant)
          (thr : Int),
          200 ≤ aco.current_iteration_ → aco.use_local_search_ = true →
          aco.pheromone_ = some ph → aco.global_best_ = some gb →
          spec_track_threshold aco.global_best_values_no_ls_ = some thr →
          aco.apply_local_search (fun s c => Except.ok (ls s c))
            = Except.ok
                { aco with
                    pheromone_ :=
                      if aco.current_iteration_ = 200 then
                        some (ph.set_all_trails aco.max_pheromone_)
                      else aco.pheromone_
                    ants_ := aco.ants_.map (fun ant =>
                      if ant.cost ≤ thr then { ant with solution_ := ls ant.solution_ gb.cost }
                      else ant) })
      ∧ (∀ (aco : ACO) (cost : Int), NoLsReachable aco → cost < INT_MAX →
          (aco.record_no_ls cost).global_best_values_no_ls_ ≠ []
            ∧ ∃ thr, spec_track_threshold (aco.record_no_ls cost).global_best_values_no_ls_
                = some thr) := by
  refine ⟨?_, ?_, ?_⟩
  · intro ls aco hlt
    unfold ACO.apply_local_search
    have h1 : aco.current_iteration_ ≠ 200 := by omega
    have h2 : ¬ (aco.current_iteration_ ≥ 200) := by omega
    simp [h1, h2]
  · intro ls aco ph gb thr hge hls hph hgb hthr
    have hidx : aco.global_best_values_no_ls_[aco.global_best_values_no_ls_.length
        - min aco.global_best_values_no_ls_.length 5]? = some thr := by
      rw [track_index_spec, hthr]
    unfold ACO.apply_local_search
    by_cases h200 : aco.current_iteration_ = 200
    · simp only [h200, if_true, hph, ok_bind, hls, ge_iff_le, le_refl, decide_True,
        Bool.and_self, vec_idx_eq_ok hidx, hgb, local_search_ants_total]
    · simp only [h200, if_false, ok_bind, hls, ge_iff_le, hge, decide_True, Bool.and_self,
        if_true, vec_idx_eq_ok hidx, hgb, local_search_ants_total]
  · intro aco cost hr hcost
    have hne : (aco.record_no_ls cost).global_best_values_no_ls_ ≠ [] := by
      unfold ACO.record_no_ls
      split
      · simp
      · rename_i hc
        intro he
        rcases hr.trace_empty he with h | h
        · exact hc (Or.inl h)
        · exact hc (Or.inr (by rw [h]; exact hcost))
    refine ⟨hne, ?_⟩
    have hpos : 0 < (aco.record_no_ls cost).global_best_values_no_ls_.length :=
      List.length_pos.mpr hne
    generalize (aco.record_no_ls cost).global_best_values_no_ls_ = values at hpos
    unfold spec_track_threshold
    split
    · have hlt : values.length - 5 < values.length := by omega
      exact ⟨_, List.getElem?_eq_getElem hlt⟩
    · exact ⟨_, List.getElem?_eq_getElem hpos⟩

/-- C36 fails as stated: after a pheromone reset the update of the trace for an
iteration-best cost of `INT_MAX` records nothing, the trace is empty, and
`apply_local_search` at iteration `250` with local search enabled reads
`global_best_values_no_ls_[0]` outside the vector. -/
theorem C36_counterexample :
    NoLsReachable ((local_search_test_aco.run_init_no_ls.record_no_ls 9).reset_no_ls.record_no_ls
        INT_MAX)
      ∧ ((local_search_test_aco.run_init_no_ls.record_no_ls 9).reset_no_ls.record_no_ls
          INT_MAX).global_best_values_no_ls_ = []
      ∧ ((local_search_test_aco.run_init_no_ls.record_no_ls 9).reset_no_ls.record_no_ls
          INT_MAX).current_iteration_ = 250
      ∧ ((local_search_test_aco.run_init_no_ls.record_no_ls 9).reset_no_ls.record_no_ls
          INT_MAX).use_local_search_ = true
      ∧ ∀ ls : Solution → Int → Res Solution,
          ((local_search_test_aco.run_init_no_ls.record_no_ls 9).reset_no_ls.record_no_ls
            INT_MAX).apply_local_search ls = Except.error Fault.undefined := by
  refine ⟨?_, ?_, ?_, ?_, ?_⟩
  · exact NoLsReachable.record _
      (NoLsReachable.reset (NoLsReachable.record 9 (NoLsReachable.init _) (by decide)))
      (le_refl _)
  · simp [ACO.record_no_ls, ACO.reset_no_ls, ACO.run_init_no_ls, INT_MAX]
  · simp [ACO.record_no_ls, ACO.reset_no_ls, ACO.run_init_no_ls, INT_MAX,
      local_search_test_aco]
  · simp [ACO.record_no_ls, ACO.reset_no_ls, ACO.run_init_no_ls, INT_MAX,
      local_search_test_aco]
  · intro ls
    simp [ACO.apply_local_search, ACO.record_no_ls, ACO.reset_no_ls, ACO.run_init_no_ls,
      INT_MAX, local_search_test_aco, vec_idx]

end TPP

namespace TPP

/-! ## Removal cost and the drop heuristic: claims C38, C39 -/

open Solution

/-! ### The verdict of `calc_market_removal_cost` and the removal -/

end TPP

namespace TPP

/-! ## The purchase state of a set of markets: claim C40 -/

open Solution

/-! ### States reached by insertions only -/

theorem insert_market_at_pos_ok {inst : Instance} (hwf : inst.WF) {s t : Solution}
    (hinv : s.Inv inst) {m idx : Nat} (h : insert_market_at_pos inst s m idx = Except.ok t) :
    m < inst.dimension_ ∧ m ∉ s.route_ ∧ 0 < idx ∧ idx ≤ s.route_.length
      ∧ t = s.insert_state inst m idx := by
  have hm : m < inst.dimension_ := by
    by_contra hge
    have hnone : s.market_selected_[m]? = none :=
      List.getElem?_eq_none (by rw [hinv.selected_len]; omega)
    unfold insert_market_at_pos at h
    simp [vec_at, hnone] at h
  have hnot : m ∉ s.route_ := by
    intro hin
    rw [insert_market_at_pos_in_route hinv hm hin idx] at h
    exact absurd h (by simp)
  have h0 : 0 < idx := by
    by_contra h0
    rw [(insert_market_at_pos_not_in_route hinv hm hnot idx).1 (by omega)] at h
    exact absurd h (by simp)
  have hle : idx ≤ s.route_.length := by
    by_contra hgt
    rw [(insert_market_at_pos_not_in_route hinv hm hnot idx).2 (by omega)] at h
    exact absurd h (by simp)
  refine ⟨hm, hnot, h0, hle, ?_⟩
  rw [(insert_market_at_pos_eq hwf hinv hm hnot h0 hle).1] at h
  exact (Except.ok.inj h).symm

theorem add_state_demand_by_offers {inst : Instance} {s : Solution}
    (h : s.DemandByOffers inst) {o : ProductOffer} (ho : o.product_id_ < inst.product_count_) :
    (s.add_state o).DemandByOffers inst := by
  obtain ⟨h1, h2, h3⟩ := h
  refine ⟨by rw [add_state_length, h1], by simp [Solution.add_state, h2], fun p => ?_⟩
  rw [add_state_getD s o p (by rw [h1]; exact ho)]
  by_cases hp : o.product_id_ = p
  · rw [if_pos hp, if_neg (insert_sorted_ne_nil _ _ _)]
    subst hp
    simp only [Solution.add_state]
    exact getD_set_self _ _ _ _ (by rw [h2]; exact ho)
  · rw [if_neg hp, add_state_demand s o p hp]
    exact h3 p

theorem foldl_add_state_demand_by_offers {inst : Instance} (os : List ProductOffer) :
    ∀ s : Solution, s.DemandByOffers inst → (∀ o ∈ os, o.product_id_ < inst.product_count_) →
      (os.foldl Solution.add_state s).DemandByOffers inst := by
  induction os with
  | nil => intro s h _; exact h
  | cons o rest ih =>
    intro s h ho
    simp only [List.foldl_cons]
    exact ih _ (add_state_demand_by_offers h (ho o (List.mem_cons_self _ _)))
      (fun x hx => ho x (List.mem_cons_of_mem _ hx))

theorem insert_state_demand_by_offers {inst : Instance} (hwf : inst.WF) {s : Solution}
    (h : s.DemandByOffers inst) (m idx : Nat) :
    (s.insert_state inst m idx).DemandByOffers inst := by
  have h1 : (s.insert_pre inst m idx).DemandByOffers inst := h
  exact foldl_add_state_demand_by_offers (inst.market_offers_.getD m []) _ h1
    (fun o ho => hwf.offer_product_lt ho)

theorem Inserted.spec {inst : Instance} (hwf : inst.WF) {s : Solution} (h : Inserted inst s) :
    Reachable inst s ∧ s.DemandByOffers inst := by
  induction h with
  | init h0 =>
    refine ⟨Reachable.init h0, ?_⟩
    rw [init_eq hwf] at h0
    cases h0
    refine ⟨by simp [Solution.init_state], hwf.demands_len, fun p => ?_⟩
    simp only [Solution.init_state]
    rw [if_pos (getD_replicate_nil _ _)]
  | push_back m hs heq ih =>
    obtain ⟨hr, hd⟩ := ih
    obtain ⟨hm, hnot, h0, hle, rfl⟩ := insert_market_at_pos_ok hwf (hr.inv hwf) heq
    exact ⟨Reachable.insert m _ hr hnot h0 hle heq, insert_state_demand_by_offers hwf hd m _⟩
  | insert m idx hs heq ih =>
    obtain ⟨hr, hd⟩ := ih
    obtain ⟨hm, hnot, h0, hle, rfl⟩ := insert_market_at_pos_ok hwf (hr.inv hwf) heq
    exact ⟨Reachable.insert m idx hr hnot h0 hle heq, insert_state_demand_by_offers hwf hd m idx⟩

theorem eq_of_sorted_of_mem_iff :
    ∀ (l1 l2 : List Nat), l1.Pairwise (fun a b => a < b) → l2.Pairwise (fun a b => a < b) →
      (∀ p, p ∈ l1 ↔ p ∈ l2) → l1 = l2 := by
  intro l1 l2 h1 h2 hmem
  have hnd1 : l1.Nodup := h1.imp (fun h => Nat.ne_of_lt h)
  have hnd2 : l2.Nodup := h2.imp (fun h => Nat.ne_of_lt h)
  have hperm : l1.Perm l2 := (List.perm_ext_iff_of_nodup hnd1 hnd2).mpr hmem
  exact List.eq_of_perm_of_sorted hperm h1 h2

/-- C40: when two sequences of `push_back_market` and `insert_market_at_pos`
calls from the initial solution leave the same set of markets in the route,
the two solutions have equal `purchase_costs_`, `demand_remaining_`,
`remaining_products_`, `total_unsatisfied_demand_` and `is_valid()`, and every
`product_offers_[p]` of the one is a permutation of that of the other. -/
theorem C40_purchase_state_of_market_set (inst : Instance) (s t : Solution) (hwf : inst.WF)
    (hs : Inserted inst s) (ht : Inserted inst t) (hset : ∀ m, m ∈ s.route_ ↔ m ∈ t.route_) :
    s.purchase_costs_ = t.purchase_costs_
      ∧ s.demand_remaining_ = t.demand_remaining_
      ∧ s.remaining_products_ = t.remaining_products_
      ∧ s.total_unsatisfied_demand_ = t.total_unsatisfied_demand_
      ∧ s.is_valid = t.is_valid
      ∧ ∀ p, (s.product_offers_.getD p []).Perm (t.product_offers_.getD p []) := by
  obtain ⟨hrs, hds⟩ := hs.spec hwf
  obtain ⟨hrt, hdt⟩ := ht.spec hwf
  have his := hrs.inv hwf
  have hit := hrt.inv hwf
  have hroute : s.route_.Perm t.route_ :=
    (List.perm_ext_iff_of_nodup his.route_nodup hit.route_nodup).mpr hset
  have hoffers : ∀ p, (s.product_offers_.getD p []).Perm (t.product_offers_.getD p []) :=
    fun p => (his.offers p).trans
      ((offers_for_perm (route_offers_perm inst (markets_of_perm hroute))).trans
        (hit.offers p).symm)
  have hcosts : s.purchase_costs_ = t.purchase_costs_ := by
    rw [his.pinv.costs, hit.pinv.costs]
    apply ext_getD 0 (by simp [his.pinv.len_offers, hit.pinv.len_offers])
    intro p
    by_cases hp : p < inst.product_count_
    · have e1 := getElem?_getD_of_lt ([] : List ProductOffer)
        (by rw [his.pinv.len_offers]; exact hp : p < s.product_offers_.length)
      have e2 := getElem?_getD_of_lt ([] : List ProductOffer)
        (by rw [hit.pinv.len_offers]; exact hp : p < t.product_offers_.length)
      rw [List.getD_eq_getElem?_getD, List.getD_eq_getElem?_getD, List.getElem?_map,
        List.getElem?_map, e1, e2]
      exact front_price_perm (hoffers p)
        (his.pinv.sorted _ (List.mem_iff_getElem?.mpr ⟨p, e1⟩))
        (hit.pinv.sorted _ (List.mem_iff_getElem?.mpr ⟨p, e2⟩))
    · rw [List.getD_eq_getElem?_getD, List.getD_eq_getElem?_getD,
        List.getElem?_eq_none (by simp [his.pinv.len_offers]; omega),
        List.getElem?_eq_none (by simp [hit.pinv.len_offers]; omega)]
  have hdemand : s.demand_remaining_ = t.demand_remaining_ := by
    apply ext_getD 0 (by rw [hds.2.1, hdt.2.1])
    intro p
    rw [hds.2.2 p, hdt.2.2 p]
    have hiff : s.product_offers_.getD p [] = [] ↔ t.product_offers_.getD p [] = [] := by
      constructor
      · intro h
        have h1 := hoffers p
        rw [h] at h1
        exact List.Perm.eq_nil h1.symm
      · intro h
        have h1 := hoffers p
        rw [h] at h1
        exact List.Perm.eq_nil h1
    by_cases h : s.product_offers_.getD p [] = []
    · rw [if_pos h, if_pos (hiff.mp h)]
    · rw [if_neg h, if_neg (fun h2 => h (hiff.mpr h2))]
  have hrem : s.remaining_products_ = t.remaining_products_ :=
    eq_of_sorted_of_mem_iff _ _ his.pinv.remaining_sorted hit.pinv.remaining_sorted
      (fun p => by rw [his.pinv.remaining_mem, hit.pinv.remaining_mem, hdemand])
  refine ⟨hcosts, hdemand, hrem, ?_, ?_, hoffers⟩
  · rw [his.pinv.total, hit.pinv.total, hdemand]
  · unfold Solution.is_valid
    rw [hrem]

theorem inserted_example_state : Inserted example_instance example_state :=
  Inserted.insert 3 1
    (Inserted.insert 1 1
      (Inserted.init (s := Solution.init_state example_instance) (by decide))
      (t := Solution.insert_state example_instance (Solution.init_state example_instance) 1 1)
      (by decide))
    (by decide)

theorem inserted_example_pushed :
    Inserted example_instance
      (Solution.insert_state example_instance
        (Solution.insert_state example_instance (Solution.init_state example_instance) 1 1)
        3 2) :=
  Inserted.push_back 3
    (Inserted.push_back 1
      (Inserted.init (s := Solution.init_state example_instance) (by decide))
      (t := Solution.insert_state example_instance (Solution.init_state example_instance) 1 1)
      (by decide))
    (by decide)

theorem C40_witness :
    example_state.route_ = [0, 3, 1]
      ∧ (Solution.insert_state example_instance
          (Solution.insert_state example_instance (Solution.init_state example_instance) 1 1)
          3 2).route_ = [0, 1, 3]
      ∧ example_state.purchase_costs_
          = (Solution.insert_state example_instance
              (Solution.insert_state example_instance (Solution.init_state example_instance) 1 1)
              3 2).purchase_costs_ :=
  ⟨rfl, by decide,
    (C40_purchase_state_of_market_set example_instance _ _ example_instance_wf
      inserted_example_state inserted_example_pushed
      (fun m => List.Perm.mem_iff (by decide))).1⟩

end TPP
